import Mathlib

/-! Jagged cut search and reassignment (Zoltan2 `AlgPQJagged`).

A shallow embedding of the cut solver, the counting-sort reassignment, the loop over the
parts of one level, the partition plan and the loop over the levels of
`packages/zoltan2/src/algorithms/partition/Zoltan2_AlgPQJagged.hpp`.

Conventions of the embedding.

* `scalar_t` and `double` values are rationals: their arithmetic is exact, and the machine
  epsilon `numeric_limits<scalar_t>::epsilon()` is a parameter `eps`.
* A value stored in a variable or an array of type `float` is converted by `toFloat`, the
  rounding to the nearest single-precision number; an expression of type `float` (such as
  `1 - expected`) is rounded the same way.
* A C array is a function from the index to the value; a store `a[i] = v` is
  `Function.update a i v`.  Pointer arithmetic `a + shift` is a shifted view.
* Indices, counts and bucket ids (`lno_t`, `partId_t`) that the code only uses as
  non-negative array indices are natural numbers; counters that are decremented are
  integers.
* Code under `HAVE_ZOLTAN2_OMP` is read for one thread (`me = 0`, `noThreads = 1`);
  code under `omitted`, `mpi_communication` and `enable_migration` is not compiled.
* The other processes of a reduction appear as the buffers they contribute; the lists of
  these buffers are empty on a single process.
* The loop `while (allDone != 0)` of the cut solver runs for at most `fuel` iterations and
  returns `none` when the fuel runs out.
* A call that exits the program (`exit(1)`), divides an integer by zero or reads outside a
  vector returns `none`.
* The library function `pow` is a parameter of the partition plan.
-/

namespace PQJagged

/-! ## Macros -/

/-- The macro `ABS(x) ((x) >= 0 ? (x) : -(x))`. -/
def ABS (x : ℚ) : ℚ := if x ≥ 0 then x else -x

/-- The macro `EPS_SCALE`. -/
def EPS_SCALE : ℚ := 1

/-- The macro `LEAST_SIGNIFICANCE`. -/
def LEAST_SIGNIFICANCE : ℚ := 1 / 10000

/-- The macro `SIGNIFICANCE_MUL`. -/
def SIGNIFICANCE_MUL : ℚ := 1000

/-- The macro `imbalanceOf(Wachieved, totalW, expectedRatio)`:
`(Wachieved) / ((totalW) * (expectedRatio)) - 1`. -/
def imbalanceOf (Wachieved totalW expectedRatio : ℚ) : ℚ :=
  Wachieved / (totalW * expectedRatio) - 1

/-- The C++ conversion `int (x)` of a scalar: truncation toward zero. -/
def truncInt (x : ℚ) : Int := if 0 ≤ x then ⌊x⌋ else ⌈x⌉

/-! ## The type `float` -/

/-- The power `2 ^ q` for an integer exponent `q`. -/
def pow2 (q : Int) : ℚ :=
  if 0 ≤ q then ((2 ^ q.toNat : Nat) : ℚ) else 1 / ((2 ^ (-q).toNat : Nat) : ℚ)

/-- The integer nearest to `m`, the even one of the two when `m` is halfway between two
integers. -/
def roundHalfEven (m : ℚ) : Int :=
  let f : Int := ⌊m⌋
  if m - f < 1 / 2 then f
  else if 1 / 2 < m - f then f + 1
  else if f % 2 = 0 then f else f + 1

/-- The number `⌊log2 n⌋` for `n >= 1`, computed in at most `fuel` halvings. -/
def log2Fuel : Nat → Nat → Nat
  | 0, _ => 0
  | fuel + 1, n => if 2 ≤ n then log2Fuel fuel (n / 2) + 1 else 0

/-- The conversion of a scalar to `float` (IEEE 754 single precision: 24 significant
binary digits, least exponent `-149`, round to nearest, ties to even), as the assignment of
a `scalar_t` or `double` value to a `float` performs it.  The magnitude is assumed below the
largest `float`: the conversion to infinity is not modelled. -/
def toFloat (x : ℚ) : ℚ :=
  if x = 0 then 0
  else
    let a : ℚ := if x < 0 then -x else x
    let e0 : Int := (log2Fuel a.num.natAbs a.num.natAbs : Int) - (log2Fuel a.den a.den : Int)
    let e : Int := if pow2 e0 ≤ a then e0 else e0 - 1
    let q : Int := if e - 23 < -149 then -149 else e - 23
    let r : ℚ := (roundHalfEven (a / pow2 q) : ℚ) * pow2 q
    if x < 0 then -r else r

/-! ## Reassignment: `getChunksFromCoordinates` -/

/-- The arrays `getChunksFromCoordinates` writes, for one thread:
`myRatios = nonRectelinearRatios[0]` (an array of `float`),
`myPartPointCounts = partPointCounts[0]`, `totalCounts`, `partIds` and the next permutation
buffer. -/
structure ChunkState where
  myRatios : Nat → ℚ
  myPartPointCounts : Nat → Nat
  totalCounts : Nat → Nat
  partIds : Nat → Nat
  newpartitionedPointPermutations : Nat → Nat

/-- Body of the loop over the cuts (lines 2573-2592) for the only thread `ii = 0`:
the weight budget of on-cut points of cut `i` that go to the left, as it is stored in the
`float` array `nonRectelinearRatios[0]`. -/
def initialTieBudget (eps : ℚ) (actual_ratios localPartWeights partWeights : Nat → ℚ)
    (i : Nat) : ℚ :=
  let r := actual_ratios i
  let leftWeight := r * (localPartWeights (i * 2 + 1) - localPartWeights (i * 2))
  if leftWeight > eps then
    let ithWeight := partWeights (i * 2 + 1) - partWeights (i * 2)
    if ithWeight < leftWeight then toFloat ithWeight else toFloat leftWeight
  else 0

/-- Body of the loop `for (i = noCuts - 1; i > 0; --i)` (lines 2596-2600). -/
def roundTieBudget (eps : ℚ) (cutCoordinates : Nat → ℚ) (myRatios : Nat → ℚ) (i : Nat) :
    Nat → ℚ :=
  let r1 :=
    if ABS (cutCoordinates i - cutCoordinates (i - 1)) < eps then
      Function.update myRatios i (toFloat (myRatios i - myRatios (i - 1)))
    else myRatios
  Function.update r1 i
    (toFloat
      ((truncInt ((r1 i + LEAST_SIGNIFICANCE) * SIGNIFICANCE_MUL) : ℚ) / SIGNIFICANCE_MUL))

/-- Lines 2566-2602: the tie budgets `myRatios`, only when tie splitting is allowed. -/
def prepareTieBudgets (eps : ℚ) (noCuts : Nat)
    (actual_ratios localPartWeights partWeights cutCoordinates : Nat → ℚ)
    (myRatios : Nat → ℚ) : Nat → ℚ :=
  let r0 := (List.range noCuts).foldl
    (fun r i => Function.update r i (initialTieBudget eps actual_ratios localPartWeights partWeights i))
    myRatios
  (List.range' 1 (noCuts - 1)).reverse.foldl (roundTieBudget eps cutCoordinates) r0

/-- Body of the first loop over the points (lines 2613-2642) for the point id `i`. -/
def assignPoint (allowNonRectelinearPart : Bool) (eps : ℚ) (noCuts : Nat)
    (pqJagged_uniformWeights : Bool) (coordWeights cutCoordinates : Nat → ℚ)
    (s : ChunkState) (i : Nat) : ChunkState :=
  let pp := s.partIds i
  let p := pp / 2
  if pp % 2 = 1 then
    if allowNonRectelinearPart && decide (s.myRatios p > eps * EPS_SCALE) then
      let w : ℚ := if pqJagged_uniformWeights then 1 else coordWeights i
      let r1 := Function.update s.myRatios p (toFloat (s.myRatios p - w))
      let r2 :=
        if r1 p < 0 ∧ p + 1 < noCuts ∧ ABS (cutCoordinates (p + 1) - cutCoordinates p) < eps then
          Function.update r1 (p + 1) (toFloat (r1 (p + 1) + r1 p))
        else r1
      { s with
        myRatios := r2
        myPartPointCounts := Function.update s.myPartPointCounts p (s.myPartPointCounts p + 1)
        partIds := Function.update s.partIds i p }
    else
      { s with
        myPartPointCounts :=
          Function.update s.myPartPointCounts (p + 1) (s.myPartPointCounts (p + 1) + 1)
        partIds := Function.update s.partIds i (p + 1) }
  else
    { s with
      myPartPointCounts := Function.update s.myPartPointCounts p (s.myPartPointCounts p + 1)
      partIds := Function.update s.partIds i p }

/-- Body of the scatter loop (lines 2677-2681) for the point id `i`. -/
def scatterPoint (coordinateBegin : Nat) (s : ChunkState) (i : Nat) : ChunkState :=
  let p := s.partIds i
  { s with
    newpartitionedPointPermutations :=
      Function.update s.newpartitionedPointPermutations
        (coordinateBegin + s.myPartPointCounts p) i
    myPartPointCounts := Function.update s.myPartPointCounts p (s.myPartPointCounts p + 1) }

/-- The point ids of the slots `[coordinateBegin, coordinateEnd)` of a permutation buffer,
in slot order. -/
def rangeIds (buffer : Nat → Nat) (coordinateBegin coordinateEnd : Nat) : List Nat :=
  (List.range' coordinateBegin (coordinateEnd - coordinateBegin)).map buffer

/-- Lines 2604-2606: `myPartPointCounts[ii] = 0` for `ii < partNo`. -/
def zeroPartPointCounts (partNo : Nat) (s : ChunkState) : ChunkState :=
  { s with myPartPointCounts := fun j => if j < partNo then 0 else s.myPartPointCounts j }

/-- Body of the loop of lines 2649-2658 for one thread: the thread's count of bin `j`
becomes its write offset inside the bin (`pwj = 0`) and `totalCounts[j]` the count. -/
def threadPrefixStep (t : ChunkState) (j : Nat) : ChunkState :=
  { t with
    totalCounts := Function.update t.totalCounts j (0 + t.myPartPointCounts j)
    myPartPointCounts := Function.update t.myPartPointCounts j 0 }

/-- Lines 2649-2658 for one thread. -/
def threadPrefix (partNo : Nat) (s : ChunkState) : ChunkState :=
  (List.range partNo).foldl threadPrefixStep s

/-- Body of the loop of lines 2664-2666: `totalCounts[j] += totalCounts[j - 1]`. -/
def prefixTotalCountsStep (t : ChunkState) (j : Nat) : ChunkState :=
  { t with totalCounts := Function.update t.totalCounts j
              (t.totalCounts j + t.totalCounts (j - 1)) }

/-- Lines 2664-2666: `totalCounts[j] += totalCounts[j - 1]` for `1 <= j < partNo`. -/
def prefixTotalCounts (partNo : Nat) (s : ChunkState) : ChunkState :=
  (List.range' 1 (partNo - 1)).foldl prefixTotalCountsStep s

/-- Body of the loop of lines 2669-2671: `myPartPointCounts[j] += totalCounts[j - 1]`. -/
def offsetPartPointCountsStep (t : ChunkState) (j : Nat) : ChunkState :=
  { t with myPartPointCounts := Function.update t.myPartPointCounts j
              (t.myPartPointCounts j + t.totalCounts (j - 1)) }

/-- Lines 2669-2671: `myPartPointCounts[j] += totalCounts[j - 1]` for `1 <= j < partNo`. -/
def offsetPartPointCounts (partNo : Nat) (s : ChunkState) : ChunkState :=
  (List.range' 1 (partNo - 1)).foldl offsetPartPointCountsStep s

/-- The function `getChunksFromCoordinates` (lines 2522-2683) for one thread.
`partWeights` is `partWeights[0]`; `s` holds the output arrays on entry. -/
def getChunksFromCoordinates (eps : ℚ) (partNo : Nat)
    (partitionedPointPermutations : Nat → Nat)
    (pqJagged_uniformWeights : Bool) (coordWeights cutCoordinates : Nat → ℚ)
    (coordinateBegin coordinateEnd : Nat)
    (allowNonRectelinearPart : Bool)
    (actual_ratios localPartWeights partWeights : Nat → ℚ)
    (migration_check : Bool) (s : ChunkState) : ChunkState :=
  let noCuts := partNo - 1
  let allow := if migration_check then false else allowNonRectelinearPart
  let s1 : ChunkState :=
    if allow then
      { s with myRatios := prepareTieBudgets eps noCuts actual_ratios localPartWeights
                  partWeights cutCoordinates s.myRatios }
    else s
  let ids := rangeIds partitionedPointPermutations coordinateBegin coordinateEnd
  let s3 := ids.foldl
    (assignPoint allow eps noCuts pqJagged_uniformWeights coordWeights cutCoordinates)
    (zeroPartPointCounts partNo s1)
  ids.foldl (scatterPoint coordinateBegin)
    (offsetPartPointCounts partNo (prefixTotalCounts partNo (threadPrefix partNo s3)))

/-- Number of points of `l` whose bin under `f` is `j`. -/
def binCount (f : Nat → Nat) (l : List Nat) (j : Nat) : Nat :=
  l.countP (fun i => f i = j)

/-- Number of points in the bins below `j`: `cumul n j = n 0 + ... + n (j - 1)`. -/
def cumul (n : Nat → Nat) : Nat → Nat
  | 0 => 0
  | j + 1 => cumul n j + n j


/-- The bin of a bucket id without tie splitting, in the words of the specification:
bucket `2p` (left of cut `p`) is bin `p`, bucket `2p + 1` (on cut `p`) is bin `p + 1`. -/
def binOfBucket (pp : Nat) : Nat := if pp % 2 = 1 then pp / 2 + 1 else pp / 2

/-- Tie splitting in the words of the specification, for the on-cut points of one cut in
permutation order: a point goes left (`true`) while the remaining budget exceeds `eps`, and
the budget is decreased by the weight of each point sent left. -/
def tieSplitLeft (eps : ℚ) (w : Nat → ℚ) : ℚ → List Nat → List Bool
  | _, [] => []
  | budget, i :: rest =>
    if budget > eps then true :: tieSplitLeft eps w (budget - w i) rest
    else false :: tieSplitLeft eps w budget rest

/-- Tie splitting with the budget held in single precision, as `getChunksFromCoordinates`
holds it in the `float` array `myRatios`: a point goes left (`true`) while the remaining
budget exceeds `eps`, and the budget decreased by the weight of a point sent left is rounded
to `float`. -/
def tieSplitLeftFloat (eps : ℚ) (w : Nat → ℚ) : ℚ → List Nat → List Bool
  | _, [] => []
  | budget, i :: rest =>
    if budget > eps then true :: tieSplitLeftFloat eps w (toFloat (budget - w i)) rest
    else false :: tieSplitLeftFloat eps w budget rest

/-! ## Concrete inputs -/

/-- The value of `numeric_limits<double>::epsilon()`, `2^-52`. -/
def epsDouble : ℚ := 1 / 4503599627370496

/-- An array given by its first entries (zero elsewhere). -/
def arrQ (l : List ℚ) : Nat → ℚ := fun i => l.getD i 0

/-- An array of indices given by its first entries (zero elsewhere). -/
def arrN (l : List Nat) : Nat → Nat := fun i => l.getD i 0

/-- The tie scenario: five unit-weight points, point 0 left of the only cut, points 1 and 2
on it, points 3 and 4 right of it; output arrays zeroed. -/
def tieScenarioState : ChunkState where
  myRatios := fun _ => 0
  myPartPointCounts := fun _ => 0
  totalCounts := fun _ => 0
  partIds := arrN [0, 1, 1, 2, 2]
  newpartitionedPointPermutations := fun _ => 0

/-- The histogram of the tie scenario: weight 1 left of the cut, 3 up to the cut, 5 in all. -/
def tieScenarioWeights : Nat → ℚ := arrQ [1, 3, 5]

/-- Seven unit-weight points, all of them on the only cut; output arrays zeroed. -/
def sevenTieState : ChunkState where
  myRatios := fun _ => 0
  myPartPointCounts := fun _ => 0
  totalCounts := fun _ => 0
  partIds := arrN [1, 1, 1, 1, 1, 1, 1]
  newpartitionedPointPermutations := fun _ => 0

/-- The histogram of the seven points on the cut: no weight left of the cut, 7 up to the
cut, 7 in all. -/
def sevenTieWeights : Nat → ℚ := arrQ [0, 7, 7]

/-! ## Cut solver: `pivotPos` and `getNewCoordinates` -/

/-- The bracket of one cut: the entries `cutUpperBounds[i]`, `cutLowerBounds[i]`,
`cutUpperWeight[i]` and `cutLowerWeight[i]`. -/
structure Bracket where
  upperBound : ℚ
  lowerBound : ℚ
  upperWeight : ℚ
  lowerWeight : ℚ
deriving DecidableEq

/-- The function `pivotPos` (lines 364-372), on the bracket of the current cut. -/
def pivotPos (br : Bracket) (ew : ℚ) : ℚ :=
  if br.upperWeight = br.lowerWeight then br.lowerBound
  else
    ((br.upperBound - br.lowerBound) / (br.upperWeight - br.lowerWeight)) *
      (ew - br.lowerWeight) + br.lowerBound

/-- The arrays `getNewCoordinates` writes (views of one part) and its counters. -/
structure CutState where
  isDone : Nat → Bool
  cutUpperBounds : Nat → ℚ
  cutLowerBounds : Nat → ℚ
  cutUpperWeight : Nat → ℚ
  cutLowerWeight : Nat → ℚ
  newCutCoordinates : Nat → ℚ
  leftClosestDistance : Nat → ℚ
  rightClosestDistance : Nat → ℚ
  nonRectelinearPartRatios : Nat → ℚ
  rectilinearCutCount : Int
  localCutWeights : Nat → ℚ
  globalCutWeights : Nat → ℚ
  myNoneDoneCount : Int

/-- The bracket of cut `i` in the arrays. -/
def CutState.bracket (s : CutState) (i : Nat) : Bracket :=
  ⟨s.cutUpperBounds i, s.cutLowerBounds i, s.cutUpperWeight i, s.cutLowerWeight i⟩

/-- Store a bracket in the entries of cut `i`. -/
def CutState.setBracket (s : CutState) (i : Nat) (br : Bracket) : CutState :=
  { s with
    cutUpperBounds := Function.update s.cutUpperBounds i br.upperBound
    cutLowerBounds := Function.update s.cutLowerBounds i br.lowerBound
    cutUpperWeight := Function.update s.cutUpperWeight i br.upperWeight
    cutLowerWeight := Function.update s.cutLowerWeight i br.lowerWeight }

/-- The loop `for (ii = i + 1; ii < noCuts; ++ii)` of the branch that moves the cut right
(lines 1187-1218), over the remaining indices `ii`. -/
def scanRight (ew : ℚ) (globalPartWeights cutCoordinates lcd rcd : Nat → ℚ) :
    List Nat → Bracket → Bracket
  | [], br => br
  | ii :: rest, br =>
    let pw := globalPartWeights (ii * 2)
    let lw := globalPartWeights (ii * 2 + 1)
    if pw ≥ ew then
      if pw = ew then
        ⟨cutCoordinates ii, cutCoordinates ii, pw, pw⟩
      else if pw < br.upperWeight then
        { br with upperBound := cutCoordinates ii - lcd ii, upperWeight := pw }
      else br
    else if lw ≥ ew then
      ⟨cutCoordinates ii, cutCoordinates ii, lw, pw⟩
    else
      scanRight ew globalPartWeights cutCoordinates lcd rcd rest
        (if pw ≤ ew ∧ pw ≥ br.lowerWeight then
          { br with lowerBound := cutCoordinates ii + rcd ii, lowerWeight := pw }
        else br)

/-- The loop `for (ii = i - 1; ii >= 0; --ii)` of the branch that moves the cut left
(lines 1239-1265), over the remaining indices `ii`. -/
def scanLeft (ew : ℚ) (globalPartWeights cutCoordinates lcd rcd : Nat → ℚ) :
    List Nat → Bracket → Bracket
  | [], br => br
  | ii :: rest, br =>
    let pw := globalPartWeights (ii * 2)
    let lw := globalPartWeights (ii * 2 + 1)
    if pw ≤ ew then
      if pw = ew then
        ⟨cutCoordinates ii, cutCoordinates ii, pw, pw⟩
      else if pw > br.lowerWeight then
        let br1 : Bracket :=
          { br with lowerBound := cutCoordinates ii + rcd ii, lowerWeight := pw }
        if lw > ew then
          { br1 with upperBound := cutCoordinates ii + rcd ii, upperWeight := lw }
        else br1
      else br
    else
      scanLeft ew globalPartWeights cutCoordinates lcd rcd rest
        (if pw ≥ ew ∧ (pw < br.upperWeight ∨
            (pw = br.upperWeight ∧ br.upperBound > cutCoordinates ii - lcd ii)) then
          { br with upperBound := cutCoordinates ii - lcd ii, upperWeight := pw }
        else br)

/-- The test `isLeftValid && isRightValid` of lines 1133-1140 for cut `i`; `expected` is a
`float` (line 1098), and so is `1 - expected`. -/
def withinTolerance (eps globalTotalWeight imbalanceTolerance : ℚ)
    (globalPartWeights targetPartWeightRatios : Nat → ℚ) (i : Nat) : Bool :=
  let seenW := globalPartWeights (i * 2)
  let expected := toFloat (targetPartWeightRatios i)
  let leftImbalance := imbalanceOf seenW globalTotalWeight expected
  let rightImbalance :=
    imbalanceOf (globalTotalWeight - seenW) globalTotalWeight (toFloat (1 - expected))
  let isLeftValid := decide (ABS leftImbalance - imbalanceTolerance < eps)
  let isRightValid := decide (ABS rightImbalance - imbalanceTolerance < eps)
  isLeftValid && isRightValid

/-- Mark cut `i` done at its current coordinate: `isDone[i] = true`,
`myNoneDoneCount -= 1`, `newCutCoordinates[i] = cutCoordinates[i]`. -/
def CutState.markDone (s : CutState) (cutCoordinates : Nat → ℚ) (i : Nat) : CutState :=
  { s with
    isDone := Function.update s.isDone i true
    myNoneDoneCount := s.myNoneDoneCount - 1
    newCutCoordinates := Function.update s.newCutCoordinates i (cutCoordinates i) }

/-- Lines 1219-1230 and 1267-1279: store the bracket, compute the pivot, and either freeze
the cut (it does not move, or the bounds crossed) or move it to the pivot. -/
def CutState.moveTo (s : CutState) (eps : ℚ) (cutCoordinates : Nat → ℚ) (i : Nat)
    (br : Bracket) (ew : ℚ) : CutState :=
  let s1 := s.setBracket i br
  let newPivot := pivotPos br ew
  if ABS (cutCoordinates i - newPivot) < eps * EPS_SCALE ∨ br.upperBound < br.lowerBound then
    s1.markDone cutCoordinates i
  else
    { s1 with newCutCoordinates := Function.update s1.newCutCoordinates i newPivot }

/-- Body of the main loop of `getNewCoordinates` (lines 1119-1281) for cut `i`; `expected`
is the target ratio of the cut converted to `float` (lines 1098, 1132). -/
def processCut (eps : ℚ) (noCuts : Nat) (globalTotalWeight imbalanceTolerance : ℚ)
    (globalPartWeights localPartWeights targetPartWeightRatios cutCoordinates : Nat → ℚ)
    (allowNonRectelinearPart : Bool) (s : CutState) (i : Nat) : CutState :=
  let s0 : CutState :=
    { s with
      globalCutWeights := Function.update s.globalCutWeights i 0
      localCutWeights := Function.update s.localCutWeights i 0 }
  if s0.isDone i then
    { s0 with newCutCoordinates := Function.update s0.newCutCoordinates i (cutCoordinates i) }
  else
    let seenW := globalPartWeights (i * 2)
    let expected := toFloat (targetPartWeightRatios i)
    let leftImbalance := imbalanceOf seenW globalTotalWeight expected
    if withinTolerance eps globalTotalWeight imbalanceTolerance globalPartWeights
        targetPartWeightRatios i then
      s0.markDone cutCoordinates i
    else if leftImbalance < 0 then
      let ew := globalTotalWeight * expected
      if allowNonRectelinearPart ∧ globalPartWeights (i * 2 + 1) = ew then
        { s0.markDone cutCoordinates i with
          nonRectelinearPartRatios := Function.update s0.nonRectelinearPartRatios i 1 }
      else if allowNonRectelinearPart ∧ globalPartWeights (i * 2 + 1) > ew then
        { s0.markDone cutCoordinates i with
          rectilinearCutCount := s0.rectilinearCutCount + 1
          localCutWeights := Function.update s0.localCutWeights i
            (localPartWeights (i * 2 + 1) - localPartWeights (i * 2)) }
      else
        -- when moving right, set lower bound to current line
        let br0 : Bracket :=
          { s0.bracket i with
            lowerBound := cutCoordinates i + s0.rightClosestDistance i
            lowerWeight := seenW }
        let br := scanRight ew globalPartWeights cutCoordinates s0.leftClosestDistance
          s0.rightClosestDistance (List.range' (i + 1) (noCuts - (i + 1))) br0
        s0.moveTo eps cutCoordinates i br ew
    else
      -- moving left, set upper to current line
      let ew := globalTotalWeight * expected
      let br0 : Bracket :=
        { s0.bracket i with
          upperBound := cutCoordinates i - s0.leftClosestDistance i
          upperWeight := seenW }
      let br := scanLeft ew globalPartWeights cutCoordinates s0.leftClosestDistance
        s0.rightClosestDistance (List.range i).reverse br0
      s0.moveTo eps cutCoordinates i br ew

/-- Lines 1106-1114: a closest distance still at `maxScalar` (no point found) becomes 0. -/
def resetClosest (noCuts : Nat) (maxScalar : ℚ) (d : Nat → ℚ) : Nat → ℚ :=
  fun i => if i < noCuts ∧ d i = maxScalar then 0 else d i

/-- The first loop over the cuts of `getNewCoordinates` (lines 1106-1114). -/
def CutState.resetClosest (s : CutState) (noCuts : Nat) (maxScalar : ℚ) : CutState :=
  { s with
    leftClosestDistance := PQJagged.resetClosest noCuts maxScalar s.leftClosestDistance
    rightClosestDistance := PQJagged.resetClosest noCuts maxScalar s.rightClosestDistance }

/-- The two loops over the cuts of `getNewCoordinates` (lines 1106-1281). -/
def getNewCoordinatesLoop (eps : ℚ) (noCuts : Nat)
    (globalTotalWeight imbalanceTolerance maxScalar : ℚ)
    (globalPartWeights localPartWeights targetPartWeightRatios cutCoordinates : Nat → ℚ)
    (allowNonRectelinearPart : Bool) (s : CutState) : CutState :=
  (List.range noCuts).foldl
    (processCut eps noCuts globalTotalWeight imbalanceTolerance globalPartWeights
      localPartWeights targetPartWeightRatios cutCoordinates allowNonRectelinearPart)
    (s.resetClosest noCuts maxScalar)

/-- Body of the loop of lines 1301-1320: the tie ratio of cut `i` from the scanned weight
on the cut, stored in the `float` array `nonRectelinearPartRatios`; the expected weight is
computed from the target ratio itself (line 1304). -/
def tieRatioStep (globalTotalWeight : ℚ) (globalPartWeights targetPartWeightRatios : Nat → ℚ)
    (s : CutState) (i : Nat) : CutState :=
  if s.globalCutWeights i > 0 then
    let ew := globalTotalWeight * targetPartWeightRatios i
    let expectedWeightOnLine := ew - globalPartWeights (i * 2)
    let myWeightOnLine := s.localCutWeights i
    let weightOnLineBefore := s.globalCutWeights i
    let incMe := expectedWeightOnLine - weightOnLineBefore
    let mine := incMe + myWeightOnLine
    if mine < 0 then
      { s with nonRectelinearPartRatios := Function.update s.nonRectelinearPartRatios i 0 }
    else if mine ≥ myWeightOnLine then
      { s with nonRectelinearPartRatios := Function.update s.nonRectelinearPartRatios i 1 }
    else
      { s with nonRectelinearPartRatios :=
          Function.update s.nonRectelinearPartRatios i (toFloat (mine / myWeightOnLine)) }
  else s

/-- The call `Teuchos::scan` with `REDUCE_SUM` of lines 1293-1296: entry `i < noCuts` of
`globalCutWeights` becomes the sum of `localCutWeights[i]` over the processes of lower rank
and this one.  `lowerRanks` holds the `localPartWeights` arrays of the processes of lower
rank (empty on a single process), which run the same loops on the same global data. -/
def scannedCutWeights (eps : ℚ) (noCuts : Nat)
    (globalTotalWeight imbalanceTolerance maxScalar : ℚ)
    (globalPartWeights localPartWeights targetPartWeightRatios cutCoordinates : Nat → ℚ)
    (allowNonRectelinearPart : Bool) (lowerRanks : List (Nat → ℚ)) (s : CutState) :
    Nat → ℚ :=
  fun i =>
    if i < noCuts then
      (lowerRanks.map (fun lpw =>
        (getNewCoordinatesLoop eps noCuts globalTotalWeight imbalanceTolerance maxScalar
          globalPartWeights lpw targetPartWeightRatios cutCoordinates
          allowNonRectelinearPart s).localCutWeights i)).sum +
      (getNewCoordinatesLoop eps noCuts globalTotalWeight imbalanceTolerance maxScalar
        globalPartWeights localPartWeights targetPartWeightRatios cutCoordinates
        allowNonRectelinearPart s).localCutWeights i
    else
      (getNewCoordinatesLoop eps noCuts globalTotalWeight imbalanceTolerance maxScalar
        globalPartWeights localPartWeights targetPartWeightRatios cutCoordinates
        allowNonRectelinearPart s).globalCutWeights i

/-- The function `getNewCoordinates` (lines 1060-1324). -/
def getNewCoordinates (eps : ℚ) (noCuts : Nat)
    (globalTotalWeight imbalanceTolerance maxScalar : ℚ)
    (globalPartWeights localPartWeights targetPartWeightRatios cutCoordinates : Nat → ℚ)
    (allowNonRectelinearPart : Bool) (lowerRanks : List (Nat → ℚ)) (s : CutState) :
    CutState :=
  let s1 := getNewCoordinatesLoop eps noCuts globalTotalWeight imbalanceTolerance maxScalar
    globalPartWeights localPartWeights targetPartWeightRatios cutCoordinates
    allowNonRectelinearPart s
  if s1.rectilinearCutCount > 0 then
    let s2 : CutState :=
      { s1 with globalCutWeights := (scannedCutWeights eps noCuts globalTotalWeight
          imbalanceTolerance maxScalar globalPartWeights localPartWeights
          targetPartWeightRatios cutCoordinates allowNonRectelinearPart lowerRanks s) }
    let s3 := (List.range noCuts).foldl
      (tieRatioStep globalTotalWeight globalPartWeights targetPartWeightRatios) s2
    { s3 with rectilinearCutCount := 0 }
  else s1

/-- Two states agree on the entries of cut `i` and on the closest distances. -/
def AgreeAt (i : Nat) (s t : CutState) : Prop :=
  s.isDone i = t.isDone i ∧ s.bracket i = t.bracket i ∧
  s.newCutCoordinates i = t.newCutCoordinates i ∧
  s.nonRectelinearPartRatios i = t.nonRectelinearPartRatios i ∧
  s.localCutWeights i = t.localCutWeights i ∧
  s.globalCutWeights i = t.globalCutWeights i ∧
  s.leftClosestDistance = t.leftClosestDistance ∧
  s.rightClosestDistance = t.rightClosestDistance


/-- The value of `numeric_limits<double>::max()`, `(2 - 2^-52) * 2^1023`. -/
def maxDouble : ℚ := ((2 ^ 1024 - 2 ^ 971 : Nat) : ℚ)

/-- State of a part with one cut on entry to the third call of `getNewCoordinates` for the
unit-weight points 0, 1, 2 split in two halves: the cut sits on the point 1 and its bracket
has closed on it (`lowerBound = upperBound = 1`, bound weights 1 and 2). -/
def stuckCutState : CutState where
  isDone := fun _ => false
  cutUpperBounds := arrQ [1]
  cutLowerBounds := arrQ [1]
  cutUpperWeight := arrQ [2]
  cutLowerWeight := arrQ [1]
  newCutCoordinates := arrQ [5 / 4]
  leftClosestDistance := arrQ [0]
  rightClosestDistance := arrQ [0]
  nonRectelinearPartRatios := fun _ => 0
  rectilinearCutCount := 0
  localCutWeights := fun _ => 0
  globalCutWeights := fun _ => 0
  myNoneDoneCount := 1

/-- State of a part with one cut on entry to the first call of `getNewCoordinates`:
bounds `[0, 2]`, bound weights 0 and the total weight. -/
def initialCutState (minCoordinate maxCoordinate globalTotalWeight : ℚ) : CutState where
  isDone := fun _ => false
  cutUpperBounds := fun _ => maxCoordinate
  cutLowerBounds := fun _ => minCoordinate
  cutUpperWeight := fun _ => globalTotalWeight
  cutLowerWeight := fun _ => 0
  newCutCoordinates := fun _ => 0
  leftClosestDistance := fun _ => 0
  rightClosestDistance := fun _ => 0
  nonRectelinearPartRatios := fun _ => 0
  rectilinearCutCount := 0
  localCutWeights := fun _ => 0
  globalCutWeights := fun _ => 0
  myNoneDoneCount := 1

/-! ## Local weight classifier: `pqJagged_1DPart_getPartWeights` (binary search) -/

/-- The arrays the classifier writes for one thread: the histogram `myPartWeights`, the
closest distances and the cached bucket ids. -/
structure ClassifyState where
  myPartWeights : Nat → ℚ
  myLeftClosest : Nat → ℚ
  myRightClosest : Nat → ℚ
  partIds : Nat → Nat

/-- How the `while (uc >= lc)` loop of the binary search leaves: the point is on cut `j`
(`isInserted`), or right of cut `lastPart` (`onRight`), or left of cut `lastPart`
(`onLeft`), or the loop body never ran. -/
inductive Located where
  | onCut (j : Nat)
  | onRight (lastPart : Nat)
  | onLeft (lastPart : Nat)
  | nowhere
deriving DecidableEq, Repr

/-- The loop `while (uc >= lc)` of lines 1417-1548 for a point of coordinate `coord`, run for
at most `fuel` iterations; `last` is what the flags `onLeft`, `onRight`, `lastPart` say
when the loop condition fails.  The interval `[lc, uc]` loses the index `j` at every
iteration, so `noCuts` iterations are enough. -/
def locate (eps : ℚ) (noCuts : Nat) (cutCoordinates_tmp : Nat → ℚ) (coord : ℚ) :
    Nat → Int → Int → Int → Located → Located
  | 0, _, _, _, last => last
  | fuel + 1, j, lc, uc, last =>
    if uc ≥ lc then
      let cut := cutCoordinates_tmp j.toNat
      let distance := coord - cut
      let absdistance := ABS distance
      if absdistance < eps then
        Located.onCut j.toNat
      else if distance < 0 then
        let _break := decide (j > 0) && decide (coord - cutCoordinates_tmp (j - 1).toNat > eps)
        if _break then Located.onLeft j.toNat
        else
          locate eps noCuts cutCoordinates_tmp coord fuel (((j - 1) + lc) / 2) lc (j - 1)
            (Located.onLeft j.toNat)
      else
        let _break := decide (j < (noCuts : Int) - 1) &&
          decide (coord - cutCoordinates_tmp (j + 1).toNat < -eps)
        if _break then Located.onRight j.toNat
        else
          locate eps noCuts cutCoordinates_tmp coord fuel ((uc + (j + 1)) / 2) (j + 1) uc
            (Located.onRight j.toNat)
    else last

/-- The loop `kk = j + 1; while (kk < noCuts)` of lines 1433-1452 over the remaining
indices: cuts sharing the position of `cut` get the weight of the point too, the first
other cut gets its left closest distance lowered. -/
def spreadRight (eps w cut : ℚ) (cutCoordinates_tmp : Nat → ℚ) :
    List Nat → ClassifyState → ClassifyState
  | [], s => s
  | kk :: rest, s =>
    let distance := ABS (cutCoordinates_tmp kk - cut)
    if distance < eps then
      spreadRight eps w cut cutCoordinates_tmp rest
        { s with
          myPartWeights := Function.update s.myPartWeights (2 * kk + 1)
            (s.myPartWeights (2 * kk + 1) + w)
          myLeftClosest := Function.update s.myLeftClosest kk 0
          myRightClosest := Function.update s.myRightClosest kk 0 }
    else if s.myLeftClosest kk > distance then
      { s with myLeftClosest := Function.update s.myLeftClosest kk distance }
    else s

/-- The loop `kk = j - 1; while (kk >= 0)` of lines 1454-1470 over the remaining indices. -/
def spreadLeft (eps w cut : ℚ) (cutCoordinates_tmp : Nat → ℚ) :
    List Nat → ClassifyState → ClassifyState
  | [], s => s
  | kk :: rest, s =>
    let distance := ABS (cutCoordinates_tmp kk - cut)
    if distance < eps then
      spreadLeft eps w cut cutCoordinates_tmp rest
        { s with
          myPartWeights := Function.update s.myPartWeights (2 * kk + 1)
            (s.myPartWeights (2 * kk + 1) + w)
          myLeftClosest := Function.update s.myLeftClosest kk 0
          myRightClosest := Function.update s.myRightClosest kk 0 }
    else if s.myRightClosest kk > distance then
      { s with myRightClosest := Function.update s.myRightClosest kk distance }
    else s

/-- Body of the loop over the points of lines 1398-1583 for the point id `i`. -/
def classifyPoint (eps : ℚ) (noCuts : Nat) (pqJagged_coordinates : Nat → ℚ)
    (pqJagged_uniformWeights : Bool) (pqJagged_weights cutCoordinates_tmp : Nat → ℚ)
    (s : ClassifyState) (i : Nat) : ClassifyState :=
  let j0 : Int := (s.partIds i / 2 : Nat)
  let j : Int := if j0 ≥ (noCuts : Int) then (noCuts : Int) - 1 else j0
  let w : ℚ := if pqJagged_uniformWeights then 1 else pqJagged_weights i
  let coord := pqJagged_coordinates i
  match locate eps noCuts cutCoordinates_tmp coord noCuts j 0 ((noCuts : Int) - 1)
      Located.nowhere with
  | Located.onCut j =>
    let cut := cutCoordinates_tmp j
    let s1 : ClassifyState :=
      { s with
        myPartWeights := Function.update s.myPartWeights (j * 2 + 1)
          (s.myPartWeights (j * 2 + 1) + w)
        partIds := Function.update s.partIds i (j * 2 + 1)
        myLeftClosest := Function.update s.myLeftClosest j 0
        myRightClosest := Function.update s.myRightClosest j 0 }
    let s2 := spreadRight eps w cut cutCoordinates_tmp
      (List.range' (j + 1) (noCuts - (j + 1))) s1
    spreadLeft eps w cut cutCoordinates_tmp (List.range j).reverse s2
  | Located.onRight lastPart =>
    let distance := coord - cutCoordinates_tmp lastPart
    let r1 :=
      if s.myRightClosest lastPart > distance then
        Function.update s.myRightClosest lastPart distance
      else s.myRightClosest
    let distance_ := cutCoordinates_tmp (lastPart + 1) - coord
    let l1 :=
      if lastPart + 1 < noCuts ∧ s.myLeftClosest (lastPart + 1) > distance_ then
        Function.update s.myLeftClosest (lastPart + 1) distance_
      else s.myLeftClosest
    { myPartWeights := Function.update s.myPartWeights (2 * lastPart + 2)
        (s.myPartWeights (2 * lastPart + 2) + w)
      partIds := Function.update s.partIds i (2 * lastPart + 2)
      myLeftClosest := l1
      myRightClosest := r1 }
  | Located.onLeft lastPart =>
    let distance := cutCoordinates_tmp lastPart - coord
    let l1 :=
      if s.myLeftClosest lastPart > distance then
        Function.update s.myLeftClosest lastPart distance
      else s.myLeftClosest
    let distance_ := coord - cutCoordinates_tmp (lastPart - 1)
    let r1 :=
      if 1 ≤ lastPart ∧ s.myRightClosest (lastPart - 1) > distance_ then
        Function.update s.myRightClosest (lastPart - 1) distance_
      else s.myRightClosest
    { myPartWeights := Function.update s.myPartWeights (2 * lastPart)
        (s.myPartWeights (2 * lastPart) + w)
      partIds := Function.update s.partIds i (2 * lastPart)
      myLeftClosest := l1
      myRightClosest := r1 }
  | Located.nowhere => s

/-- Body of the prefix sum of lines 1847-1858 for the index `i`. -/
def prefixWeightStep (eps : ℚ) (total_part_count : Nat) (cutCoordinates_tmp : Nat → ℚ)
    (pw : Nat → ℚ) (i : Nat) : Nat → ℚ :=
  if i % 2 = 0 ∧ i > 1 ∧ i + 1 < total_part_count ∧
      ABS (cutCoordinates_tmp (i / 2) - cutCoordinates_tmp (i / 2 - 1)) < eps then
    Function.update pw i (pw (i - 2))
  else
    Function.update pw i (pw i + pw (i - 1))

/-- The function `pqJagged_1DPart_getPartWeights` (lines 1357-1859) for one thread and
`useBinarySearch = true`, the value `AlgPQJagged` passes (line 5164). -/
def pqJagged_1DPart_getPartWeights (total_part_count noCuts : Nat) (maxScalar eps : ℚ)
    (coordinateBegin coordinateEnd : Nat) (partitionedPointPermutations : Nat → Nat)
    (pqJagged_coordinates : Nat → ℚ) (pqJagged_uniformWeights : Bool)
    (pqJagged_weights cutCoordinates_tmp : Nat → ℚ) (s : ClassifyState) : ClassifyState :=
  let s0 : ClassifyState :=
    { s with
      myPartWeights := fun i => if i < total_part_count then 0 else s.myPartWeights i
      myLeftClosest := fun i => if i < noCuts then maxScalar else s.myLeftClosest i
      myRightClosest := fun i => if i < noCuts then maxScalar else s.myRightClosest i }
  let s1 := (rangeIds partitionedPointPermutations coordinateBegin coordinateEnd).foldl
    (classifyPoint eps noCuts pqJagged_coordinates pqJagged_uniformWeights pqJagged_weights
      cutCoordinates_tmp) s0
  { s1 with
    myPartWeights := (List.range' 1 (total_part_count - 1)).foldl
      (prefixWeightStep eps total_part_count cutCoordinates_tmp) s1.myPartWeights }

/-! ## Cut solver: `accumulateThreadResults`, the combined reduction, `pqJagged_1D_Partition` -/

/-- The array `a + shift` of pointer arithmetic. -/
def view {α : Type} (a : Nat → α) (shift : Nat) : Nat → α := fun k => a (shift + k)

/-- The array `a` after a callee has turned its part `a + shift` into `v`. -/
def unview {α : Type} (a : Nat → α) (shift : Nat) (v : Nat → α) : Nat → α :=
  fun k => if shift ≤ k then v (k - shift) else a k

/-- Body of the loops `inoutBuffer[next] += inBuffer[next]` of
`PQJaggedCombinedReductionOp::reduce`. -/
def reduceSum (inBuffer inoutBuffer : Nat → ℚ) (next : Nat) : Nat → ℚ :=
  Function.update inoutBuffer next (inoutBuffer next + inBuffer next)

/-- Body of the loops `if (inoutBuffer[next] > inBuffer[next]) inoutBuffer[next] =
inBuffer[next]` of `PQJaggedCombinedReductionOp::reduce`. -/
def reduceMin (inBuffer inoutBuffer : Nat → ℚ) (next : Nat) : Nat → ℚ :=
  if inoutBuffer next > inBuffer next then Function.update inoutBuffer next (inBuffer next)
  else inoutBuffer

/-- The loop over the window of `PQJaggedCombinedReductionOp::reduce` with
`reductionType = 1` (lines 153-169), over the remaining sub-part counts, from the buffer
position `next`. -/
def reduceParts (inBuffer : Nat → ℚ) : List Nat → Nat → (Nat → ℚ) → (Nat → ℚ)
  | [], _, inoutBuffer => inoutBuffer
  | partPartition :: rest, next, inoutBuffer =>
    let tnumSum_ := 2 * partPartition - 1
    let tnumMin_1 := partPartition - 1
    let tnumMin_2 := tnumMin_1
    let b1 := (List.range' next tnumSum_).foldl (reduceSum inBuffer) inoutBuffer
    let b2 := (List.range' (next + tnumSum_) tnumMin_1).foldl (reduceMin inBuffer) b1
    let b3 := (List.range' (next + tnumSum_ + tnumMin_1) tnumMin_2).foldl
      (reduceMin inBuffer) b2
    reduceParts inBuffer rest (next + tnumSum_ + tnumMin_1 + tnumMin_2) b3

/-- The sub-part counts `partVector[vectorBegin .. vectorBegin + k)` of a window. -/
def windowParts (partVector : Nat → Nat) (vectorBegin k : Nat) : List Nat :=
  (List.range' vectorBegin k).map partVector

/-- The method `PQJaggedCombinedReductionOp::reduce` (lines 135-171) of the operator built
by the constructor of lines 123-130 (`reductionType = 1`): fold `inBuffer` into
`inoutBuffer`. -/
def reduce (partVector : Nat → Nat) (vectorBegin k : Nat) (inBuffer inoutBuffer : Nat → ℚ) :
    Nat → ℚ :=
  reduceParts inBuffer (windowParts partVector vectorBegin k) 0 inoutBuffer

/-- The state of `pqJagged_1D_Partition` for one thread.  `cutCoordinates` and
`cutCoordinatesWork` are the two buffers the caller passes; `swapped` tells that the
pointers `cutCoordinates_tmp` and `cutCoordinatesWork` have been exchanged an odd number of
times, so that `cutCoordinates_tmp` is the caller's work buffer. -/
structure SolverState where
  cutCoordinates : Nat → ℚ
  cutCoordinatesWork : Nat → ℚ
  swapped : Bool
  leftClosestDistance : Nat → ℚ
  rightClosestDistance : Nat → ℚ
  cutUpperBounds : Nat → ℚ
  cutLowerBounds : Nat → ℚ
  cutUpperWeight : Nat → ℚ
  cutLowerWeight : Nat → ℚ
  isDone : Nat → Bool
  partWeights : Nat → ℚ
  local_totalPartWeights_leftClosest_rightCloset : Nat → ℚ
  global_totalPartWeights_leftClosest_rightCloset : Nat → ℚ
  nonRectelinearPartRatios : Nat → ℚ
  localCutWeights : Nat → ℚ
  globalCutWeights : Nat → ℚ
  allDone : Int
  myNonDoneCounts : Nat → Int
  partIds : Nat → Nat
  recteLinearCutCount : Int

/-- The buffer the pointer `cutCoordinates_tmp` points to. -/
def SolverState.cutCoordinates_tmp (s : SolverState) : Nat → ℚ :=
  if s.swapped then s.cutCoordinatesWork else s.cutCoordinates

/-- The inputs of `pqJagged_1D_Partition` that it only reads.  `lowerRanks it` and
`upperRanks it` are the arrays `local_totalPartWeights_leftClosest_rightCloset` that the
processes of lower and of higher rank bring to the reduction of iteration `it`; both are
empty on a single process. -/
structure SolverInput where
  eps : ℚ
  partitionedPointPermutations : Nat → Nat
  pqJagged_coordinates : Nat → ℚ
  pqJagged_uniformWeights : Bool
  pqJagged_weights : Nat → ℚ
  targetPartWeightRatios : Nat → ℚ
  globalMinMaxTotal : Nat → ℚ
  maxScalar : ℚ
  imbalanceTolerance : ℚ
  currentPartBeginIndex : Nat
  concurrentPartCount : Nat
  inTotalCounts : Nat → Nat
  allowNonRectelinearPart : Bool
  pVector : Nat → Nat
  lowerRanks : Nat → List (Nat → ℚ)
  upperRanks : Nat → List (Nat → ℚ)

/-- The shifts of part `kk` of the window: `cutShift` (cuts of the parts before it),
`tlrShift` (entries of the reduction buffer before it) and `totalPartShift` (histogram
entries before it), as the loops over `kk` accumulate them. -/
def windowShifts (inp : SolverInput) (kk : Nat) : Nat × Nat × Nat :=
  (List.range kk).foldl
    (fun (acc : Nat × Nat × Nat) k =>
      let partNo := inp.pVector (inp.currentPartBeginIndex + k)
      let noCuts := partNo - 1
      let total_part_count := partNo + noCuts
      (acc.1 + noCuts, acc.2.1 + (total_part_count + 2 * noCuts), acc.2.2 + total_part_count))
    (0, 0, 0)

/-- Lines 2176-2199: the bounds of every cut of the window start at the minimum and
maximum coordinate of its part, the bound weights at 0 and the total weight. -/
def initBoundsPart (inp : SolverInput) (s : SolverState) (i : Nat) : SolverState :=
  let partNo := inp.pVector (inp.currentPartBeginIndex + i)
  let noCuts := partNo - 1
  let next := (windowShifts inp i).1
  (List.range' next noCuts).foldl
    (fun t n =>
      { t with
        isDone := Function.update t.isDone n false
        cutLowerBounds := Function.update t.cutLowerBounds n (inp.globalMinMaxTotal i)
        cutUpperBounds := Function.update t.cutUpperBounds n
          (inp.globalMinMaxTotal (i + inp.concurrentPartCount))
        cutUpperWeight := Function.update t.cutUpperWeight n
          (inp.globalMinMaxTotal (i + 2 * inp.concurrentPartCount))
        cutLowerWeight := Function.update t.cutLowerWeight n 0
        nonRectelinearPartRatios :=
          if inp.allowNonRectelinearPart then Function.update t.nonRectelinearPartRatios n 0
          else t.nonRectelinearPartRatios })
    s

/-- The value `totalReductionSize` of line 2183: `4 * noCuts + 1` entries per part. -/
def totalReductionSize (inp : SolverInput) : Nat :=
  ((List.range inp.concurrentPartCount).map
    (fun i => 4 * (inp.pVector (inp.currentPartBeginIndex + i) - 1) + 1)).sum

/-- Body of the first loop over `kk` of an iteration (lines 2214-2266): classify the points
of part `kk` against its current cuts, when the part still has cuts to find. -/
def classifyPart (inp : SolverInput) (s : SolverState) (kk : Nat) : SolverState :=
  let partNo := inp.pVector (inp.currentPartBeginIndex + kk)
  let noCuts := partNo - 1
  let total_part_count := partNo + noCuts
  let cutShifts := (windowShifts inp kk).1
  let totalPartShift := (windowShifts inp kk).2.2
  if s.myNonDoneCounts kk > 0 then
    let current := inp.currentPartBeginIndex + kk
    let coordinateBegin := if current = 0 then 0 else inp.inTotalCounts (current - 1)
    let coordinateEnd := inp.inTotalCounts current
    let c := pqJagged_1DPart_getPartWeights total_part_count noCuts inp.maxScalar inp.eps
      coordinateBegin coordinateEnd inp.partitionedPointPermutations
      inp.pqJagged_coordinates inp.pqJagged_uniformWeights inp.pqJagged_weights
      (view s.cutCoordinates_tmp cutShifts)
      { myPartWeights := view s.partWeights totalPartShift
        myLeftClosest := view s.leftClosestDistance cutShifts
        myRightClosest := view s.rightClosestDistance cutShifts
        partIds := s.partIds }
    { s with
      partWeights := unview s.partWeights totalPartShift c.myPartWeights
      leftClosestDistance := unview s.leftClosestDistance cutShifts c.myLeftClosest
      rightClosestDistance := unview s.rightClosestDistance cutShifts c.myRightClosest
      partIds := c.partIds }
  else s

/-- Body of the first loop of `accumulateThreadResults` for one thread (lines 1947-1972):
the closest distances of the cuts of part `i` that are not done go to the buffer. -/
def accumulateClosest (inp : SolverInput) (s : SolverState) (i : Nat) : SolverState :=
  let partNo := inp.pVector (inp.currentPartBeginIndex + i)
  let noCuts := partNo - 1
  let total_part_count := partNo + noCuts
  let cut_shift := (windowShifts inp i).1
  let tlr_shift := (windowShifts inp i).2.1
  (List.range noCuts).foldl
    (fun t ii =>
      let next := tlr_shift + ii
      let nCut := cut_shift + ii
      if t.isDone nCut then t
      else
        let minl := t.leftClosestDistance nCut
        let minr := t.rightClosestDistance nCut
        { t with
          local_totalPartWeights_leftClosest_rightCloset :=
            Function.update
              (Function.update t.local_totalPartWeights_leftClosest_rightCloset
                (total_part_count + next) minl)
              (total_part_count + noCuts + next) minr })
    s

/-- Body of the second loop of `accumulateThreadResults` for one thread (lines 1978-1999):
the histogram entries of part `i` whose cut is not done, and its last entry, go to the
buffer. -/
def accumulateWeights (inp : SolverInput) (s : SolverState) (i : Nat) : SolverState :=
  let partNo := inp.pVector (inp.currentPartBeginIndex + i)
  let noCuts := partNo - 1
  let total_part_count := partNo + noCuts
  let cut_shift := (windowShifts inp i).1
  let tlr_shift := (windowShifts inp i).2.1
  let totalPartShift := (windowShifts inp i).2.2
  (List.range total_part_count).foldl
    (fun t j =>
      let cutInd := j / 2 + cut_shift
      if j ≠ total_part_count - 1 ∧ t.isDone cutInd then t
      else
        let pwj := 0 + t.partWeights (totalPartShift + j)
        { t with
          local_totalPartWeights_leftClosest_rightCloset :=
            Function.update t.local_totalPartWeights_leftClosest_rightCloset
              (tlr_shift + j) pwj })
    s

/-- The function `accumulateThreadResults` (lines 1876-2007) for one thread. -/
def accumulateThreadResults (inp : SolverInput) (s : SolverState) : SolverState :=
  (List.range inp.concurrentPartCount).foldl (accumulateWeights inp)
    ((List.range inp.concurrentPartCount).foldl (accumulateClosest inp) s)

/-- Lines 2286-2349 of iteration `it`: `reduceAll` with the combined operator when there
are other processes, a copy of the first `totalReductionSize` entries otherwise. -/
def reduceAllRanks (inp : SolverInput) (it : Nat) (s : SolverState) : SolverState :=
  let own := s.local_totalPartWeights_leftClosest_rightCloset
  let reduced := (inp.lowerRanks it ++ inp.upperRanks it).foldl
    (fun acc other => reduce inp.pVector inp.currentPartBeginIndex inp.concurrentPartCount
      other acc) own
  { s with
    global_totalPartWeights_leftClosest_rightCloset := fun x =>
      if x < totalReductionSize inp then reduced x
      else s.global_totalPartWeights_leftClosest_rightCloset x }

/-- Body of the second loop over `kk` of an iteration (lines 2352-2437): new coordinates for
the cuts of part `kk`, when the part still has cuts to find. -/
def solvePart (inp : SolverInput) (it : Nat) (s : SolverState) (kk : Nat) : SolverState :=
  let partNo := inp.pVector (inp.currentPartBeginIndex + kk)
  let noCuts := partNo - 1
  let total_part_count := partNo + noCuts
  let cutShift := (windowShifts inp kk).1
  let tlrShift := (windowShifts inp kk).2.1
  if s.myNonDoneCounts kk = 0 then s
  else
    let gtlr := view s.global_totalPartWeights_leftClosest_rightCloset tlrShift
    let globalTotalWeight := inp.globalMinMaxTotal (kk + inp.concurrentPartCount * 2)
    let prevDoneCount := s.myNonDoneCounts kk
    let work := if s.swapped then s.cutCoordinates else s.cutCoordinatesWork
    let c := getNewCoordinates inp.eps noCuts globalTotalWeight inp.imbalanceTolerance
      inp.maxScalar gtlr
      (view s.local_totalPartWeights_leftClosest_rightCloset tlrShift)
      (view inp.targetPartWeightRatios (cutShift + kk))
      (view s.cutCoordinates_tmp cutShift)
      inp.allowNonRectelinearPart
      ((inp.lowerRanks it).map (fun other => view other tlrShift))
      { isDone := view s.isDone cutShift
        cutUpperBounds := view s.cutUpperBounds cutShift
        cutLowerBounds := view s.cutLowerBounds cutShift
        cutUpperWeight := view s.cutUpperWeight cutShift
        cutLowerWeight := view s.cutLowerWeight cutShift
        newCutCoordinates := view work cutShift
        leftClosestDistance := view gtlr total_part_count
        rightClosestDistance := view gtlr (total_part_count + noCuts)
        nonRectelinearPartRatios := view s.nonRectelinearPartRatios cutShift
        rectilinearCutCount := s.recteLinearCutCount
        localCutWeights := s.localCutWeights
        globalCutWeights := s.globalCutWeights
        myNoneDoneCount := s.myNonDoneCounts kk }
    let work' := unview work cutShift c.newCutCoordinates
    let reduction := prevDoneCount - c.myNoneDoneCount
    { s with
      cutCoordinates := if s.swapped then work' else s.cutCoordinates
      cutCoordinatesWork := if s.swapped then s.cutCoordinatesWork else work'
      isDone := unview s.isDone cutShift c.isDone
      cutUpperBounds := unview s.cutUpperBounds cutShift c.cutUpperBounds
      cutLowerBounds := unview s.cutLowerBounds cutShift c.cutLowerBounds
      cutUpperWeight := unview s.cutUpperWeight cutShift c.cutUpperWeight
      cutLowerWeight := unview s.cutLowerWeight cutShift c.cutLowerWeight
      global_totalPartWeights_leftClosest_rightCloset :=
        unview
          (unview s.global_totalPartWeights_leftClosest_rightCloset
            (tlrShift + total_part_count) c.leftClosestDistance)
          (tlrShift + (total_part_count + noCuts)) c.rightClosestDistance
      nonRectelinearPartRatios := unview s.nonRectelinearPartRatios cutShift
        c.nonRectelinearPartRatios
      recteLinearCutCount := c.rectilinearCutCount
      localCutWeights := c.localCutWeights
      globalCutWeights := c.globalCutWeights
      myNonDoneCounts := Function.update s.myNonDoneCounts kk c.myNoneDoneCount
      allDone := s.allDone - reduction }

/-- One iteration of the loop `while (allDone != 0)` (lines 2208-2446), the iteration
number `it`. -/
def solverIteration (inp : SolverInput) (it : Nat) (s : SolverState) : SolverState :=
  let s1 := (List.range inp.concurrentPartCount).foldl (classifyPart inp) s
  let s2 := accumulateThreadResults inp s1
  let s3 := reduceAllRanks inp it s2
  let s4 := (List.range inp.concurrentPartCount).foldl (solvePart inp it) s3
  { s4 with swapped := !s4.swapped }

/-- The loop `while (allDone != 0)` run for at most `fuel` iterations, from the iteration
number `it + 1`; `none` when the fuel runs out before `allDone` is 0. -/
def solverLoop (inp : SolverInput) : Nat → Nat → SolverState → Option SolverState
  | 0, _, s => if s.allDone ≠ 0 then none else some s
  | fuel + 1, it, s =>
    if s.allDone ≠ 0 then solverLoop inp fuel (it + 1) (solverIteration inp (it + 1) s)
    else some s

/-- The number of cuts of the window. -/
def windowCuts (inp : SolverInput) : Nat :=
  (windowShifts inp inp.concurrentPartCount).1

/-- Lines 2455-2488: when `cutCoordinates_tmp` is not the caller's `cutCoordinates`, the
cuts of the window are copied to it. -/
def copyBack (inp : SolverInput) (s : SolverState) : SolverState :=
  if s.swapped then
    { s with
      cutCoordinates := fun n =>
        if n < windowCuts inp then s.cutCoordinatesWork n else s.cutCoordinates n }
  else s

/-- Lines 2107-2206: the state on entry to the loop `while (allDone != 0)`. -/
def solverInit (inp : SolverInput) (s : SolverState) : SolverState :=
  (List.range inp.concurrentPartCount).foldl (initBoundsPart inp)
    { s with swapped := false, recteLinearCutCount := 0 }

/-- The function `pqJagged_1D_Partition` (lines 2057-2491) for one thread, with at most
`fuel` iterations of its loop; `allDone` and `myNonDoneCounts` are the caller's. -/
def pqJagged_1D_Partition (inp : SolverInput) (fuel : Nat) (s : SolverState) :
    Option SolverState :=
  (solverLoop inp fuel 0 (solverInit inp s)).map (copyBack inp)

/-! ## Level driver: one level of `AlgPQJagged` -/

/-- The function `pqJagged_getLocalMinMaxTotalCoord` (lines 761-870) for one thread:
minimum coordinate, maximum coordinate and total weight of a range. -/
def pqJagged_getLocalMinMaxTotalCoord (partitionedPointPermutations : Nat → Nat)
    (pqJagged_coordinates : Nat → ℚ) (pqJagged_uniformWeights : Bool)
    (pqJagged_weights : Nat → ℚ) (coordinateBegin coordinateEnd : Nat)
    (maxScalar minScalar : ℚ) : ℚ × ℚ × ℚ :=
  if coordinateBegin ≥ coordinateEnd then (maxScalar, minScalar, 0)
  else
    let mytotalWeight : ℚ :=
      if pqJagged_uniformWeights then ((coordinateEnd - coordinateBegin : Nat) : ℚ)
      else (rangeIds partitionedPointPermutations coordinateBegin coordinateEnd).foldl
        (fun t i => t + pqJagged_weights i) 0
    let first := pqJagged_coordinates (partitionedPointPermutations coordinateBegin)
    let mm := (rangeIds partitionedPointPermutations (coordinateBegin + 1) coordinateEnd).foldl
      (fun (acc : ℚ × ℚ) i =>
        let myMax := if pqJagged_coordinates i > acc.2 then pqJagged_coordinates i else acc.2
        let myMin := if pqJagged_coordinates i < acc.1 then pqJagged_coordinates i else acc.1
        (myMin, myMax))
      (first, first)
    (mm.1, mm.2, mytotalWeight)

/-- The method `PQJaggedCombinedMinMaxTotalReductionOp::reduce` (lines 203-218) with
`numMin = numMax = numTotal = n`. -/
def reduceMinMaxTotal (n : Nat) (inBuffer inoutBuffer : Nat → ℚ) : Nat → ℚ :=
  fun x =>
    if x < n then (if inoutBuffer x > inBuffer x then inBuffer x else inoutBuffer x)
    else if x < 2 * n then (if inoutBuffer x < inBuffer x then inBuffer x else inoutBuffer x)
    else if x < 3 * n then inoutBuffer x + inBuffer x
    else inoutBuffer x

/-- The function `pqJagged_getGlobalMinMaxTotalCoord` (lines 894-941); `others` holds the
`localMinMaxTotal` arrays of the other processes, empty on a single process. -/
def pqJagged_getGlobalMinMaxTotalCoord (concurrentPartCount : Nat) (others : List (Nat → ℚ))
    (localMinMaxTotal globalMinMaxTotal : Nat → ℚ) : Nat → ℚ :=
  let reduced := others.foldl
    (fun acc other => reduceMinMaxTotal concurrentPartCount other acc) localMinMaxTotal
  fun x => if x < 3 * concurrentPartCount then reduced x else globalMinMaxTotal x

/-- Body of the loop of lines 1002-1007 (uniform parts) for cut `i`: the state is the
cumulative count, `cutCoordinates` and `cutPartRatios`. -/
def uniformCutStep (minCoordinate coordinateRange totalInnerPartCount : ℚ)
    (futurePartitions : Nat → Nat) (futureArrayIndex : Nat)
    (acc : Nat × (Nat → ℚ) × (Nat → ℚ)) (i : Nat) : Nat × (Nat → ℚ) × (Nat → ℚ) :=
  let cumulative := acc.1 + futurePartitions (i + futureArrayIndex)
  let ratio : ℚ := (cumulative : ℚ) / totalInnerPartCount
  (cumulative,
    Function.update acc.2.1 i (minCoordinate + coordinateRange * ratio),
    Function.update acc.2.2 i ratio)

/-- Body of the loop of lines 1017-1020 (user part sizes) for cut `i`: the state is
`cutCoordinates` and `cutPartRatios`. -/
def sizesCutStep (coordinateRange : ℚ) (pqJagged_partSizes : Nat → ℚ)
    (acc : (Nat → ℚ) × (Nat → ℚ)) (i : Nat) : (Nat → ℚ) × (Nat → ℚ) :=
  let ratios := Function.update acc.2 i (pqJagged_partSizes i + acc.2 (i - 1))
  (Function.update acc.1 i (coordinateRange * ratios i), ratios)

/-- The function `pqJagged_getCutCoord_Weights` (lines 954-1022): the initial cut
coordinates and the cumulative target ratios of one part, as the pair
`(cutCoordinates, cutPartRatios)`. -/
def pqJagged_getCutCoord_Weights (minCoordinate maxCoordinate : ℚ)
    (pqJagged_uniformParts : Bool) (pqJagged_partSizes : Nat → ℚ) (noCuts : Nat)
    (cutCoordinates cutPartRatios : Nat → ℚ)
    (currentPartitions futurePartitions : Nat → Nat) (partIndex futureArrayIndex : Nat) :
    (Nat → ℚ) × (Nat → ℚ) :=
  let coordinateRange := maxCoordinate - minCoordinate
  if pqJagged_uniformParts then
    let totalInnerPartCount : ℚ := (currentPartitions partIndex : ℚ)
    let r := (List.range noCuts).foldl
      (uniformCutStep minCoordinate coordinateRange totalInnerPartCount futurePartitions
        futureArrayIndex)
      (0, cutCoordinates, cutPartRatios)
    (r.2.1, Function.update r.2.2 noCuts 1)
  else
    let ratios0 := Function.update cutPartRatios 0 (pqJagged_partSizes 0)
    let cuts0 := Function.update cutCoordinates 0 (coordinateRange * ratios0 0)
    (List.range' 1 (noCuts - 1)).foldl (sizesCutStep coordinateRange pqJagged_partSizes)
      (cuts0, ratios0)

/-- The function `getInitialPartAssignments` (lines 4559-4599): the cached bucket id of
every point of the part, from a uniform guess. -/
def getInitialPartAssignments (eps maxCoordinate minCoordinate : ℚ)
    (coordinateBegin coordinateEnd : Nat) (partitionedPointCoordinates : Nat → Nat)
    (pqCoord : Nat → ℚ) (partIds : Nat → Nat) (partition : Nat) : Nat → Nat :=
  let coordinate_range := maxCoordinate - minCoordinate
  if ABS coordinate_range < eps then
    (rangeIds partitionedPointCoordinates coordinateBegin coordinateEnd).foldl
      (fun p iii => Function.update p iii 0) partIds
  else
    let slice := coordinate_range / (partition : ℚ)
    (rangeIds partitionedPointCoordinates coordinateBegin coordinateEnd).foldl
      (fun p iii =>
        let pp := truncInt ((pqCoord iii - minCoordinate) / slice)
        Function.update p iii (2 * pp).toNat)
      partIds

/-- The inputs of one level of `AlgPQJagged` (lines 5153-5534, migration not compiled) that
the level only reads.  `otherMinMaxTotal w` holds the `localMinMaxTotal` arrays of the other
processes for the window that starts at part `w`; `lowerRanks w it` and `upperRanks w it`
hold their reduction buffers at iteration `it` of that window; all are empty on a single
process.  `fuel` bounds the iterations of each call of `pqJagged_1D_Partition`. -/
structure LevelInput where
  eps : ℚ
  maxScalar_t : ℚ
  minScalar_t : ℚ
  pqCoord : Nat → ℚ
  pqJagged_uniformWeights : Bool
  pqJagged_weights : Nat → ℚ
  pqJagged_uniformParts : Bool
  pqJagged_partSizes : Nat → ℚ
  currentPartitionCount : Nat
  concurrentPartCount : Nat
  pAlongI : Nat → Nat
  currentPartitions : Nat → Nat
  newFuturePartitions : Nat → Nat
  inTotalCounts : Nat → Nat
  partitionedPointCoordinates : Nat → Nat
  allowNonRectelinearPart : Bool
  otherMinMaxTotal : Nat → List (Nat → ℚ)
  lowerRanks : Nat → Nat → List (Nat → ℚ)
  upperRanks : Nat → Nat → List (Nat → ℚ)
  fuel : Nat

/-- The arrays and counters one level of `AlgPQJagged` writes.  `sv` holds the arrays the
cut solver works on, its `cutCoordinates` being the whole array `allCutCoordinates`;
`cutBase` is the offset of the pointer `cutCoordinates` in it. -/
structure LevelState where
  sv : SolverState
  cutBase : Nat
  targetPartWeightRatios : Nat → ℚ
  localMinMaxTotal : Nat → ℚ
  globalMinMaxTotal : Nat → ℚ
  nonRectRatios : Nat → ℚ
  partPointCounts : Nat → Nat
  newpartitionedPointCoordinates : Nat → Nat
  outTotalCounts : Nat → Nat
  currentOut : Nat
  previousEnd : Nat
  obtainedPartCount : Nat

/-- The range `[coordinateBegin, coordinateEnd)` of part `currentPart` in the permutation
buffer: `inTotalCounts[currentPart - 1]` (0 for the first part) to
`inTotalCounts[currentPart]`. -/
def partBegin (inTotalCounts : Nat → Nat) (currentPart : Nat) : Nat :=
  if currentPart = 0 then 0 else inTotalCounts (currentPart - 1)

/-- Body of the loop of lines 5183-5211 for part `kk` of the window: local minimum,
maximum and total weight of a part that is split further; the second component counts
these parts (`workPartCount`). -/
def localMinMaxStep (inp : LevelInput) (currentWorkPart concurrentPart : Nat)
    (acc : (Nat → ℚ) × Nat) (kk : Nat) : (Nat → ℚ) × Nat :=
  let currentPart := currentWorkPart + kk
  if inp.pAlongI currentPart = 1 then acc
  else
    let r := pqJagged_getLocalMinMaxTotalCoord inp.partitionedPointCoordinates inp.pqCoord
      inp.pqJagged_uniformWeights inp.pqJagged_weights
      (partBegin inp.inTotalCounts currentPart) (inp.inTotalCounts currentPart)
      inp.maxScalar_t inp.minScalar_t
    (Function.update
      (Function.update (Function.update acc.1 kk r.1) (kk + concurrentPart) r.2.1)
      (kk + 2 * concurrentPart) r.2.2,
     acc.2 + 1)

/-- The counters of the loop of lines 5232-5293: `allDone`, `cutShifts`, `partShift`. -/
structure PrepareCounters where
  allDone : Int
  cutShifts : Nat
  partShift : Nat

/-- Body of the loop of lines 5232-5293 for part `kk` of the window: target ratios, initial
cuts and initial bucket ids of a part that is split and not empty, no cut to find for the
other parts. -/
def prepareStep (inp : LevelInput) (currentWorkPart concurrentPart : Nat)
    (acc : LevelState × PrepareCounters) (kk : Nat) : LevelState × PrepareCounters :=
  let st := acc.1
  let minCoordinate := st.globalMinMaxTotal kk
  let maxCoordinate := st.globalMinMaxTotal (kk + concurrentPart)
  let currentPart := currentWorkPart + kk
  let partition := inp.pAlongI currentPart
  let cutShifts := acc.2.cutShifts
  let partShift := acc.2.partShift
  let st1 : LevelState × Int :=
    if partition > 1 ∧ minCoordinate ≤ maxCoordinate then
      let cw := pqJagged_getCutCoord_Weights minCoordinate maxCoordinate
        inp.pqJagged_uniformParts inp.pqJagged_partSizes (partition - 1)
        (view st.sv.cutCoordinates (st.cutBase + cutShifts))
        (view st.targetPartWeightRatios partShift)
        inp.currentPartitions inp.newFuturePartitions currentPart st.obtainedPartCount
      let ids := getInitialPartAssignments inp.eps maxCoordinate minCoordinate
        (partBegin inp.inTotalCounts currentPart) (inp.inTotalCounts currentPart)
        inp.partitionedPointCoordinates inp.pqCoord st.sv.partIds partition
      ({ st with
          sv := { st.sv with
            cutCoordinates := unview st.sv.cutCoordinates (st.cutBase + cutShifts) cw.1
            myNonDoneCounts := Function.update st.sv.myNonDoneCounts kk
              ((partition : Int) - 1)
            partIds := ids }
          targetPartWeightRatios := unview st.targetPartWeightRatios partShift cw.2 },
       acc.2.allDone + ((partition : Int) - 1))
    else
      ({ st with sv := { st.sv with
            myNonDoneCounts := Function.update st.sv.myNonDoneCounts kk 0 } },
       acc.2.allDone)
  ({ st1.1 with obtainedPartCount := st1.1.obtainedPartCount + partition },
   { allDone := st1.2
     cutShifts := cutShifts + (partition - 1)
     partShift := partShift + partition })

/-- The input of the call of `pqJagged_1D_Partition` of lines 5302-5344, for the window that
starts at part `currentWorkPart`; the tolerance it passes is `used_imbalance = 0`. -/
def solverInput (inp : LevelInput) (st : LevelState) (currentWorkPart concurrentPart : Nat) :
    SolverInput where
  eps := inp.eps
  partitionedPointPermutations := inp.partitionedPointCoordinates
  pqJagged_coordinates := inp.pqCoord
  pqJagged_uniformWeights := inp.pqJagged_uniformWeights
  pqJagged_weights := inp.pqJagged_weights
  targetPartWeightRatios := st.targetPartWeightRatios
  globalMinMaxTotal := st.globalMinMaxTotal
  maxScalar := inp.maxScalar_t
  imbalanceTolerance := 0
  currentPartBeginIndex := currentWorkPart
  concurrentPartCount := concurrentPart
  inTotalCounts := inp.inTotalCounts
  allowNonRectelinearPart := inp.allowNonRectelinearPart
  pVector := inp.pAlongI
  lowerRanks := inp.lowerRanks currentWorkPart
  upperRanks := inp.upperRanks currentWorkPart

/-- Lines 5183-5211: the local minima, maxima and total weights of the parts of the window
that are split further, and the number `workPartCount` of these parts. -/
def localMinMaxWindow (inp : LevelInput) (currentWorkPart concurrentPart : Nat)
    (st : LevelState) : LevelState × Nat :=
  let lm := (List.range concurrentPart).foldl
    (localMinMaxStep inp currentWorkPart concurrentPart) (st.localMinMaxTotal, 0)
  ({ st with localMinMaxTotal := lm.1 }, lm.2)

/-- Lines 5216-5293: the global minima and maxima and the preparation of every part of the
window. -/
def prepareWindow (inp : LevelInput) (currentWorkPart concurrentPart : Nat)
    (st : LevelState) : LevelState × PrepareCounters :=
  (List.range concurrentPart).foldl
    (prepareStep inp currentWorkPart concurrentPart)
    ({ st with globalMinMaxTotal :=
        (pqJagged_getGlobalMinMaxTotalCoord concurrentPart
          (inp.otherMinMaxTotal currentWorkPart) st.localMinMaxTotal st.globalMinMaxTotal) },
     ⟨0, 0, 0⟩)

/-- The solver arrays as `pqJagged_1D_Partition` receives them (lines 5302-5344): the
pointer `cutCoordinates` of the level, and `allDone`. -/
def solverEntry (st : LevelState) (allDone : Int) : SolverState :=
  { st.sv with
    cutCoordinates := view st.sv.cutCoordinates st.cutBase
    allDone := allDone }

/-- The level arrays after `pqJagged_1D_Partition` has returned the solver arrays `sv`. -/
def solverExit (st : LevelState) (sv : SolverState) : LevelState :=
  { st with
    sv := { sv with
      cutCoordinates := unview st.sv.cutCoordinates st.cutBase sv.cutCoordinates } }

/-- Lines 5180-5348: when the window has a part to split, the global minima and maxima,
the preparation of every part, and the cut solver; `none` when the solver runs out of
fuel. -/
def solveWindow (inp : LevelInput) (currentWorkPart concurrentPart : Nat) (st : LevelState) :
    Option LevelState :=
  let lm := localMinMaxWindow inp currentWorkPart concurrentPart st
  if lm.2 > 0 then
    let pr := prepareWindow inp currentWorkPart concurrentPart lm.1
    (pqJagged_1D_Partition (solverInput inp pr.1 currentWorkPart concurrentPart) inp.fuel
      (solverEntry pr.1 pr.2.allDone)).map (solverExit pr.1)
  else some lm.1

/-- The shifts of the loop of lines 5429-5506: `outShift`, `cutShift`, `tlrShift`,
`pwShift`. -/
structure ReassignShifts where
  outShift : Nat
  cutShift : Nat
  tlrShift : Nat
  pwShift : Nat

/-- Body of the loop of lines 5429-5506 for part `kk` of the window: the end offsets of the
children of the part inside the part, and its points in the next buffer. -/
def reassignStep (inp : LevelInput) (currentWorkPart concurrentPart : Nat)
    (acc : LevelState × ReassignShifts) (kk : Nat) : LevelState × ReassignShifts :=
  let st := acc.1
  let sh := acc.2
  let curr := currentWorkPart + kk
  let noParts := inp.pAlongI curr
  let next : ReassignShifts :=
    { outShift := sh.outShift + noParts
      cutShift := sh.cutShift + (noParts - 1)
      tlrShift := sh.tlrShift + (4 * (noParts - 1) + 1)
      pwShift := sh.pwShift + (2 * (noParts - 1) + 1) }
  if noParts ≠ 1 ∧ st.globalMinMaxTotal kk > st.globalMinMaxTotal (kk + concurrentPart) then
    -- if the part is empty, skip the part
    ({ st with outTotalCounts := ((List.range noParts).foldl
          (fun o jj => Function.update o (st.currentOut + sh.outShift + jj) 0)
          st.outTotalCounts) },
     next)
  else
    let coordinateEnd := inp.inTotalCounts curr
    let coordinateBegin := partBegin inp.inTotalCounts curr
    if noParts > 1 then
      let c := getChunksFromCoordinates inp.eps noParts inp.partitionedPointCoordinates
        inp.pqJagged_uniformWeights inp.pqJagged_weights
        (view st.sv.cutCoordinates (st.cutBase + sh.cutShift))
        coordinateBegin coordinateEnd inp.allowNonRectelinearPart
        (view st.sv.nonRectelinearPartRatios sh.cutShift)
        (view st.sv.local_totalPartWeights_leftClosest_rightCloset sh.tlrShift)
        (view st.sv.partWeights sh.pwShift) false
        { myRatios := st.nonRectRatios
          myPartPointCounts := st.partPointCounts
          totalCounts := view st.outTotalCounts (st.currentOut + sh.outShift)
          partIds := st.sv.partIds
          newpartitionedPointPermutations := st.newpartitionedPointCoordinates }
      ({ st with
          sv := { st.sv with partIds := c.partIds }
          nonRectRatios := c.myRatios
          partPointCounts := c.myPartPointCounts
          outTotalCounts := unview st.outTotalCounts (st.currentOut + sh.outShift)
            c.totalCounts
          newpartitionedPointCoordinates := c.newpartitionedPointPermutations },
       next)
    else
      -- if this part is partitioned into 1 then just copy the old values
      let partSize := coordinateEnd - coordinateBegin
      ({ st with
          outTotalCounts := Function.update st.outTotalCounts (st.currentOut + sh.outShift)
            partSize
          newpartitionedPointCoordinates := fun x =>
            if coordinateBegin ≤ x ∧ x < coordinateBegin + partSize then
              inp.partitionedPointCoordinates x
            else st.newpartitionedPointCoordinates x },
       next)

/-- Body of the loop of lines 5514-5532 for part `kk` of the window: the end offsets of the
children of the part are shifted by the end of the previous part. -/
def shiftStep (inp : LevelInput) (currentWorkPart : Nat) (st : LevelState) (kk : Nat) :
    LevelState :=
  let noParts := inp.pAlongI (currentWorkPart + kk)
  let out := (List.range noParts).foldl
    (fun o ii => Function.update o (st.currentOut + ii) (o (st.currentOut + ii) + st.previousEnd))
    st.outTotalCounts
  { st with
    outTotalCounts := out
    previousEnd := out (st.currentOut + noParts - 1)
    currentOut := st.currentOut + noParts }

/-- Body of the loop over the windows (lines 5172-5534) for the window that starts at part
`currentWorkPart`. -/
def levelWindow (inp : LevelInput) (currentWorkPart : Nat) (st : LevelState) :
    Option LevelState :=
  let concurrentPart := min (inp.currentPartitionCount - currentWorkPart) inp.concurrentPartCount
  (solveWindow inp currentWorkPart concurrentPart st).map (fun st1 =>
    let re := (List.range concurrentPart).foldl
      (reassignStep inp currentWorkPart concurrentPart) (st1, ⟨0, 0, 0, 0⟩)
    let st2 : LevelState := { re.1 with cutBase := re.1.cutBase + re.2.cutShift }
    (List.range concurrentPart).foldl (shiftStep inp currentWorkPart) st2)

/-- The parts at which the windows of a level start: `0`, `concurrentPartCount`,
`2 * concurrentPartCount`, ... below `currentPartitionCount`. -/
def windowStarts (inp : LevelInput) : List Nat :=
  (List.range ((inp.currentPartitionCount + inp.concurrentPartCount - 1) /
    inp.concurrentPartCount)).map (fun w => w * inp.concurrentPartCount)

/-- The loop over the windows of one level of `AlgPQJagged` (lines 5156-5534), for
`concurrentPartCount >= 1`; `currentOut` and `previousEnd` start at 0. -/
def levelLoop (inp : LevelInput) (st : LevelState) : Option LevelState :=
  (windowStarts inp).foldl
    (fun (acc : Option LevelState) w => acc.bind (levelWindow inp w))
    (some { st with currentOut := 0, previousEnd := 0 })

/-! ## Concrete levels -/

/-- Solver arrays filled with zeros. -/
def zeroSolverState : SolverState where
  cutCoordinates := fun _ => 0
  cutCoordinatesWork := fun _ => 0
  swapped := false
  leftClosestDistance := fun _ => 0
  rightClosestDistance := fun _ => 0
  cutUpperBounds := fun _ => 0
  cutLowerBounds := fun _ => 0
  cutUpperWeight := fun _ => 0
  cutLowerWeight := fun _ => 0
  isDone := fun _ => false
  partWeights := fun _ => 0
  local_totalPartWeights_leftClosest_rightCloset := fun _ => 0
  global_totalPartWeights_leftClosest_rightCloset := fun _ => 0
  nonRectelinearPartRatios := fun _ => 0
  localCutWeights := fun _ => 0
  globalCutWeights := fun _ => 0
  allDone := 0
  myNonDoneCounts := fun _ => 0
  partIds := fun _ => 0
  recteLinearCutCount := 0

/-- Level arrays filled with zeros. -/
def zeroLevelState : LevelState where
  sv := zeroSolverState
  cutBase := 0
  targetPartWeightRatios := fun _ => 0
  localMinMaxTotal := fun _ => 0
  globalMinMaxTotal := fun _ => 0
  nonRectRatios := fun _ => 0
  partPointCounts := fun _ => 0
  newpartitionedPointCoordinates := fun _ => 0
  outTotalCounts := fun _ => 0
  currentOut := 0
  previousEnd := 0
  obtainedPartCount := 0

/-- A level on one process that splits one part, the points `0 .. n - 1` with the given
coordinates (and weights, unit weights when `weights` is `none`), uniformly into `parts`
parts, the solver running for at most `fuel` iterations. -/
def onePartLevel (coords : List ℚ) (weights : Option (List ℚ)) (parts : Nat) (allow : Bool)
    (fuel : Nat) : LevelInput where
  eps := epsDouble
  maxScalar_t := maxDouble
  minScalar_t := -maxDouble
  pqCoord := arrQ coords
  pqJagged_uniformWeights := weights.isNone
  pqJagged_weights := arrQ (weights.getD [])
  pqJagged_uniformParts := true
  pqJagged_partSizes := fun _ => 0
  currentPartitionCount := 1
  concurrentPartCount := 16
  pAlongI := arrN [parts]
  currentPartitions := arrN [parts]
  newFuturePartitions := fun _ => 1
  inTotalCounts := arrN [coords.length]
  partitionedPointCoordinates := fun i => i
  allowNonRectelinearPart := allow
  otherMinMaxTotal := fun _ => []
  lowerRanks := fun _ _ => []
  upperRanks := fun _ _ => []
  fuel := fuel

/-- What a level leaves for a part split into `parts` parts with `n` points. -/
structure LevelReport where
  cutCoordinates : List ℚ
  globalPartWeights : List ℚ
  targetPartWeightRatios : List ℚ
  outTotalCounts : List Nat
  newpartitionedPointCoordinates : List Nat
  partIds : List Nat
deriving DecidableEq

/-- What a level reports of a part split into `parts` parts with `n` points: its cut
coordinates, its global histogram, the cumulative target ratios, the end offsets of its
children, the next permutation buffer and the bin of every point. -/
def levelReport (n parts : Nat) (st : LevelState) : LevelReport where
  cutCoordinates := (List.range (parts - 1)).map st.sv.cutCoordinates
  globalPartWeights :=
    (List.range (2 * parts - 1)).map st.sv.global_totalPartWeights_leftClosest_rightCloset
  targetPartWeightRatios := (List.range parts).map st.targetPartWeightRatios
  outTotalCounts := (List.range parts).map st.outTotalCounts
  newpartitionedPointCoordinates := (List.range n).map st.newpartitionedPointCoordinates
  partIds := (List.range n).map st.sv.partIds

/-- The cut coordinates of the first `noCuts` cuts on entry to the first iteration of the
cut solver for the first window of a level (the initial coordinates written by
`pqJagged_getCutCoord_Weights`), and after that iteration (the coordinates written by
`getNewCoordinates` from the histogram of the classifier). -/
def firstIterationCuts (inp : LevelInput) (noCuts : Nat) : List ℚ × List ℚ :=
  let concurrentPart := min inp.currentPartitionCount inp.concurrentPartCount
  let pr := prepareWindow inp 0 concurrentPart
    (localMinMaxWindow inp 0 concurrentPart zeroLevelState).1
  let sin := solverInput inp pr.1 0 concurrentPart
  let s0 := solverInit sin (solverEntry pr.1 pr.2.allDone)
  ((List.range noCuts).map s0.cutCoordinates_tmp,
   (List.range noCuts).map (solverIteration sin 1 s0).cutCoordinates_tmp)

/-- A level on one process with two parents in one window, each split into two: the first
parent holds the points `0 .. 3` at the coordinates 0, 1, 2, 3 with unit weights, the second
parent holds no point. -/
def emptyParentLevel : LevelInput where
  eps := epsDouble
  maxScalar_t := maxDouble
  minScalar_t := -maxDouble
  pqCoord := arrQ [0, 1, 2, 3]
  pqJagged_uniformWeights := true
  pqJagged_weights := fun _ => 1
  pqJagged_uniformParts := true
  pqJagged_partSizes := fun _ => 0
  currentPartitionCount := 2
  concurrentPartCount := 16
  pAlongI := arrN [2, 2]
  currentPartitions := arrN [2, 2]
  newFuturePartitions := fun _ => 1
  inTotalCounts := arrN [4, 4]
  partitionedPointCoordinates := fun i => i
  allowNonRectelinearPart := false
  otherMinMaxTotal := fun _ => []
  lowerRanks := fun _ _ => []
  upperRanks := fun _ _ => []
  fuel := 8

/-! ## Predicates used in the statements -/

/-- A result of the binary search names a cut below `noCuts`. -/
def Located.Valid (noCuts : Nat) : Located → Prop
  | Located.onCut j => j < noCuts
  | Located.onRight lastPart => lastPart < noCuts
  | Located.onLeft lastPart => lastPart < noCuts
  | Located.nowhere => False

/-- The bucket ids of the points of part `q` are in `[0, 2 * (pVector q - 1)]`: every point
of the range of the part in the permutation buffer has a bucket id that names one of the
`pVector q` sub-parts or one of the `pVector q - 1` cuts between them. -/
def BucketsValid (perm : Nat → Nat) (inTotalCounts pVector : Nat → Nat) (partIds : Nat → Nat)
    (q : Nat) : Prop :=
  ∀ i ∈ rangeIds perm (partBegin inTotalCounts q) (inTotalCounts q),
    partIds i ≤ 2 * (pVector q - 1)

/-- The ranges of two different parts below `n` hold different point ids. -/
def RangesDisjoint (perm : Nat → Nat) (inTotalCounts : Nat → Nat) (n : Nat) : Prop :=
  ∀ q q', q < n → q' < n → q ≠ q' →
    ∀ i ∈ rangeIds perm (partBegin inTotalCounts q) (inTotalCounts q),
      i ∉ rangeIds perm (partBegin inTotalCounts q') (inTotalCounts q')

/-- The offset of the first child of part `q` in `outTotalCounts`: the number of children
of the parts before it. -/
def childOffset (pAlongI : Nat → Nat) (q : Nat) : Nat :=
  ((List.range q).map pAlongI).sum

/-- The end offsets of the children of part `q` inside the part, as the reassignment
leaves them: non-decreasing, the last being the number of points of the part. -/
def ChildrenCount (pAlongI inTotalCounts outTotalCounts : Nat → Nat) (q : Nat) : Prop :=
  (∀ j j', j ≤ j' → j' < pAlongI q →
    outTotalCounts (childOffset pAlongI q + j) ≤ outTotalCounts (childOffset pAlongI q + j')) ∧
  outTotalCounts (childOffset pAlongI q + pAlongI q - 1) =
    inTotalCounts q - partBegin inTotalCounts q

/-- The end offsets of the children of part `q` tile the range of the part: they start at
or after the begin of the part, are non-decreasing, and the last is the end of the part. -/
def ChildrenTile (pAlongI inTotalCounts outTotalCounts : Nat → Nat) (q : Nat) : Prop :=
  (∀ j, j < pAlongI q →
    partBegin inTotalCounts q ≤ outTotalCounts (childOffset pAlongI q + j)) ∧
  (∀ j j', j ≤ j' → j' < pAlongI q →
    outTotalCounts (childOffset pAlongI q + j) ≤ outTotalCounts (childOffset pAlongI q + j')) ∧
  outTotalCounts (childOffset pAlongI q + pAlongI q - 1) = inTotalCounts q

/-! ## Brute-force weighted median

The quantities of the specification, computed over the points of a part without any search:
coordinates are compared up to the epsilon of the solver. -/

/-- The weight of the point `i`: 1 with uniform weights. -/
def pointWeight (uniform : Bool) (weights : Nat → ℚ) (i : Nat) : ℚ :=
  if uniform then 1 else weights i

/-- The total weight of the points `ids`. -/
def totalWeight (uniform : Bool) (weights : Nat → ℚ) (ids : List Nat) : ℚ :=
  (ids.map (pointWeight uniform weights)).sum

/-- The weight of the points with coordinate below `c`, up to epsilon: at most `c - eps`. -/
def weightBelow (eps : ℚ) (coords : Nat → ℚ) (uniform : Bool) (weights : Nat → ℚ)
    (ids : List Nat) (c : ℚ) : ℚ :=
  ((ids.filter (fun i => decide (coords i ≤ c - eps))).map (pointWeight uniform weights)).sum

/-- The weight of the points with coordinate below or equal to `c`, up to epsilon: below
`c + eps`. -/
def weightUpTo (eps : ℚ) (coords : Nat → ℚ) (uniform : Bool) (weights : Nat → ℚ)
    (ids : List Nat) (c : ℚ) : ℚ :=
  ((ids.filter (fun i => decide (coords i < c + eps))).map (pointWeight uniform weights)).sum

/-- The coordinate `c` is a weighted median of the points `ids`:
`weight(coord < c) <= W / 2 <= weight(coord <= c)`, coordinates compared up to epsilon. -/
def IsWeightedMedian (eps : ℚ) (coords : Nat → ℚ) (uniform : Bool) (weights : Nat → ℚ)
    (ids : List Nat) (c : ℚ) : Prop :=
  weightBelow eps coords uniform weights ids c ≤ totalWeight uniform weights ids / 2 ∧
  totalWeight uniform weights ids / 2 ≤ weightUpTo eps coords uniform weights ids c

instance (eps : ℚ) (coords : Nat → ℚ) (uniform : Bool) (weights : Nat → ℚ)
    (ids : List Nat) (c : ℚ) : Decidable (IsWeightedMedian eps coords uniform weights ids c) := by
  unfold IsWeightedMedian
  exact inferInstance

/-- The input of the call of `pqJagged_1D_Partition` for the first window of a level that
starts from zeroed arrays (lines 5180-5344). -/
def firstWindowSolverInput (inp : LevelInput) : SolverInput :=
  let concurrentPart := min inp.currentPartitionCount inp.concurrentPartCount
  let pr := prepareWindow inp 0 concurrentPart
    (localMinMaxWindow inp 0 concurrentPart zeroLevelState).1
  solverInput inp pr.1 0 concurrentPart

/-- The solver arrays on entry to the call of `pqJagged_1D_Partition` for the first window
of a level that starts from zeroed arrays. -/
def firstWindowSolverEntry (inp : LevelInput) : SolverState :=
  let concurrentPart := min inp.currentPartitionCount inp.concurrentPartCount
  let pr := prepareWindow inp 0 concurrentPart
    (localMinMaxWindow inp 0 concurrentPart zeroLevelState).1
  solverEntry pr.1 pr.2.allDone

/-- Three points with weights 1, 1, 3 at the coordinates 0, 3/2 epsilon and 3 epsilon,
split into two parts on one process. -/
def closePointsLevel : LevelInput :=
  onePartLevel [0, 3 * epsDouble / 2, 3 * epsDouble] (some [1, 1, 3]) 2 false 4

/-- The point ids of the first part of the window of the solver, in the order of the
permutation buffer. -/
def SolverInput.firstPartIds (inp : SolverInput) : List Nat :=
  rangeIds inp.partitionedPointPermutations
    (partBegin inp.inTotalCounts inp.currentPartBeginIndex)
    (inp.inTotalCounts inp.currentPartBeginIndex)

/-- Three points with unit weights at the coordinates 0, 1 minus half an epsilon and 2, split
into two parts on one process without tie splitting. -/
def nearPointLevel : LevelInput :=
  onePartLevel [0, 1 - epsDouble / 2, 2] none 2 false 8

/-- Two points at the coordinates 0 and 1 with the weights 1 and 1 plus half an epsilon,
split into two parts on one process. -/
def nearWeightsLevel : LevelInput :=
  onePartLevel [0, 1] (some [1, 1 + epsDouble / 2]) 2 true 8

/-- Five points with unit weights at the coordinates 0, 1, 2, 3 and 10, split into two parts
on one process with tie splitting. -/
def fivePointsLevel : LevelInput :=
  onePartLevel [0, 1, 2, 3, 10] none 2 true 8

/-- The input of the cut solver for the five points. -/
def fivePointsInput : SolverInput := firstWindowSolverInput fivePointsLevel

/-- The solver arrays on entry to the cut solver for the five points. -/
def fivePointsEntry : SolverState := firstWindowSolverEntry fivePointsLevel

/-- The three points of `closePointsLevel`, with tie splitting. -/
def closePointsTieLevel : LevelInput :=
  onePartLevel [0, 3 * epsDouble / 2, 3 * epsDouble] (some [1, 1, 3]) 2 true 4

/-- Three points with unit weights at the coordinates 0, 1 and 2, split into two parts on
one process without tie splitting. -/
def threePointsLevel : LevelInput :=
  onePartLevel [0, 1, 2] none 2 false 8

/-- The input of the cut solver for the three points. -/
def threePointsInput : SolverInput := firstWindowSolverInput threePointsLevel

/-- The solver arrays on entry to the cut solver for the three points. -/
def threePointsEntry : SolverState := firstWindowSolverEntry threePointsLevel

/-- How `getNewCoordinates` marks a cut at the coordinate `c` Done, with `wBelow` and `wUpTo`
the histogram entries left of the cut and up to the cut and `expected` the target ratio as
the code holds it in a `float`: by the tolerance test on both
sides of the cut, or by tie splitting (the target weight is reached by a part of the
weight on the cut), or by the guard (the pivot interpolated in the bracket `br` is less than
epsilon away from `c`, or the bounds of the bracket have crossed). -/
def DoneBy (eps total tol expected : ℚ) (allow : Bool) (wBelow wUpTo c : ℚ) (br : Bracket) :
    Prop :=
  (|wBelow / (total * expected) - 1| < tol + eps ∧
    |(total - wBelow) / (total * toFloat (1 - expected)) - 1| < tol + eps) ∨
  (allow = true ∧ wBelow < total * expected ∧ total * expected ≤ wUpTo) ∨
  (ABS (c - pivotPos br (total * expected)) < eps * EPS_SCALE ∨ br.upperBound < br.lowerBound)

/-! ## The cut solver as a weighted-median search

Predicates for the solver on one part with one cut of target ratio 1/2. -/

/-- The weight of the points of `ids` that satisfy `p`. -/
def weightWhere (uniform : Bool) (weights : Nat → ℚ) (ids : List Nat) (p : Nat → Bool) : ℚ :=
  ((ids.filter p).map (pointWeight uniform weights)).sum

/-- What the classifier leaves as the closest distance `d` on one side of a single cut for
the points `ids`, starting from `maxScalar`: `d` is 0 when a point is on the cut; it is not
above the distance `dist a` of any point `a` on that side of the cut; and, when no point is
on the cut, it is `maxScalar` or the distance of a point on that side. -/
def ClosestOf (maxScalar : ℚ) (ids : List Nat) (onCut side : Nat → Prop) (dist : Nat → ℚ)
    (d : ℚ) : Prop :=
  0 ≤ d ∧ (∀ a ∈ ids, side a → d ≤ dist a) ∧ ((∃ a ∈ ids, onCut a) → d = 0) ∧
  ((∀ a ∈ ids, ¬ onCut a) → d = maxScalar ∨ ∃ a ∈ ids, side a ∧ d = dist a)

/-- The points of a part as the weighted-median search needs them: positive weights of total
`total`, coordinates in `[minC, maxC]` with `maxC - minC` below `maxScalar`, two coordinates
equal or at least `δ` apart, the weight below any threshold equal to half of the total or at
least `γ` away from it, and epsilon and the tolerance small against `δ` and `γ`. -/
structure WellSeparated (eps tol maxScalar minC maxC δ γ total : ℚ) (coords : Nat → ℚ)
    (uniform : Bool) (weights : Nat → ℚ) (ids : List Nat) : Prop where
  eps_pos : 0 < eps
  tol_nonneg : 0 ≤ tol
  gap_pos : 0 < γ
  total_eq : total = totalWeight uniform weights ids
  weight_pos : ∀ i ∈ ids, 0 < pointWeight uniform weights i
  nonempty : ids ≠ []
  in_range : ∀ i ∈ ids, minC ≤ coords i ∧ coords i ≤ maxC
  range_lt : maxC - minC < maxScalar
  separated : ∀ i ∈ ids, ∀ j ∈ ids, coords i = coords j ∨ δ ≤ |coords i - coords j|
  gap : ∀ c : ℚ, weightBelow eps coords uniform weights ids c = total / 2 ∨
    γ ≤ |weightBelow eps coords uniform weights ids c - total / 2|
  eps_small : eps * total ≤ (δ - eps) * γ
  tol_small : (tol + eps) * (total / 2) ≤ γ

/-- Invariant of the loop of the solver for one cut with the target ratio 1/2, on the
bracket `br` of the cut and its coordinate `c`: the bounds are in `[minC, maxC]` around `c`,
the bound weights are at least `γ` away from half of the total weight on either side, more
than half of the weight is at or below the upper bound, and less than half of the weight is
below the lower bound, unless tie splitting is off and the lower bound is a weighted median
with a point on it. -/
structure MedianBracket (eps minC maxC γ total : ℚ) (allow : Bool) (coords : Nat → ℚ)
    (uniform : Bool) (weights : Nat → ℚ) (ids : List Nat) (br : Bracket) (c : ℚ) : Prop where
  lower_ge : minC ≤ br.lowerBound
  lower_le : br.lowerBound ≤ c
  le_upper : c ≤ br.upperBound
  upper_le : br.upperBound ≤ maxC
  lowerWeight_nonneg : 0 ≤ br.lowerWeight
  lowerWeight_le : br.lowerWeight + γ ≤ total / 2
  upperWeight_ge : total / 2 + γ ≤ br.upperWeight
  upperWeight_le : br.upperWeight ≤ total
  upper_heavy : total / 2 <
    weightWhere uniform weights ids (fun i => decide (coords i ≤ br.upperBound))
  lower_light :
    weightWhere uniform weights ids (fun i => decide (coords i < br.lowerBound)) < total / 2 ∨
    (allow = false ∧ weightBelow eps coords uniform weights ids br.lowerBound < total / 2 ∧
      total / 2 ≤ weightUpTo eps coords uniform weights ids br.lowerBound)

/-- The arrays `pqJagged_1D_Partition` passes to `getNewCoordinates` for the first part of
the window when the part has one cut (lines 2376-2420): the arrays of the cuts at the shift
0, the work buffer of the cut coordinates, and the closest distances at the entries 3 and 4
of the reduced buffer, after the three histogram entries of the part. -/
def SolverState.firstCutState (s : SolverState) : CutState where
  isDone := s.isDone
  cutUpperBounds := s.cutUpperBounds
  cutLowerBounds := s.cutLowerBounds
  cutUpperWeight := s.cutUpperWeight
  cutLowerWeight := s.cutLowerWeight
  newCutCoordinates := if s.swapped then s.cutCoordinates else s.cutCoordinatesWork
  leftClosestDistance := view s.global_totalPartWeights_leftClosest_rightCloset 3
  rightClosestDistance := view s.global_totalPartWeights_leftClosest_rightCloset 4
  nonRectelinearPartRatios := s.nonRectelinearPartRatios
  rectilinearCutCount := s.recteLinearCutCount
  localCutWeights := s.localCutWeights
  globalCutWeights := s.globalCutWeights
  myNoneDoneCount := s.myNonDoneCounts 0

/-! ## Partition plan: `getPartCount`, `getPartitionArrays` -/

/-- The function `getPartCount` (lines 872-882) on the value `fp` that the library call
`pow(numFuture, root)` returns.  The power of a count is not negative, so its truncation
`partId_t (fp)` is a natural number. -/
def getPartCount (fp fEpsilon : ℚ) : Nat :=
  let ip := (truncInt fp).toNat
  if fp - (ip : ℚ) < fEpsilon then ip else ip + 1

/-- What `getPartitionArrays` returns and leaves in the vectors it fills and in
`futurePartNumbers`. -/
structure PartitionArrays where
  outPartCount : Nat
  pAlongI : List Nat
  newFuturePartitions : List Nat
  futurePartNumbers : Nat
deriving DecidableEq

/-- The loop of lines 4541-4552 for one part: the remaining leaf counts pushed for its
`numParts` children, `numFuture / numParts` each and one more for the first
`numFuture % numParts` children. -/
def childLeafCounts (numFuture numParts : Nat) : List Nat :=
  (List.range numParts).map (fun iii =>
    let fNofCuts := numFuture / numParts
    if iii < numFuture % numParts then fNofCuts + 1 else fNofCuts)

/-- The value `numParts` of the loop of lines 4519-4554 (no plan given) for the part `ii`:
`getPartCount` of its remaining leaf count and the root `1.0f / (partArraySize - i)`; `pow`
is the library function. -/
def derivedNumParts (pow : Nat → ℚ → ℚ) (fEpsilon : ℚ) (currentPartitions : Nat → Nat)
    (partArraySize i ii : Nat) : Nat :=
  getPartCount
    (pow (currentPartitions ii) (1 / (((partArraySize : Int) - (i : Int) : Int) : ℚ))) fEpsilon

/-- Body of the loop of lines 4519-4554 (no plan given) for the part `ii`; `none` when the
call exits (`numParts > maxPartNo`) or divides by `numParts = 0`. -/
def derivedPlanStep (pow : Nat → ℚ → ℚ) (fEpsilon : ℚ) (currentPartitions : Nat → Nat)
    (partArraySize i maxPartNo : Nat) (acc : Option PartitionArrays) (ii : Nat) :
    Option PartitionArrays :=
  acc.bind (fun a =>
    let numFuture := currentPartitions ii
    let numParts := derivedNumParts pow fEpsilon currentPartitions partArraySize i ii
    if numParts > maxPartNo then none
    else if numParts = 0 then none
    else
      let children := childLeafCounts numFuture numParts
      some
        { outPartCount := a.outPartCount + numParts
          pAlongI := a.pAlongI ++ [numParts]
          newFuturePartitions := a.newFuturePartitions ++ children
          futurePartNumbers := children.foldl
            (fun f fNofCuts => if fNofCuts > f then fNofCuts else f) a.futurePartNumbers })

/-- The function `getPartitionArrays` (lines 4465-4557), called with empty vectors `pAlongI`
and `newFuturePartitions`; `partNo` is `none` for the null pointer.  The result is `none`
when the call exits, divides by zero, or reads `pAlongI[0]` from an empty vector
(`currentPartitionCount = 0` with a plan). -/
def getPartitionArrays (pow : Nat → ℚ → ℚ) (fEpsilon : ℚ) (partNo : Option (Nat → Int))
    (currentPartitions : Nat → Nat) (futurePartNumbers currentPartitionCount : Nat)
    (partArraySize i maxPartNo : Nat) : Option PartitionArrays :=
  match partNo with
  | some partNo =>
    let p := partNo i
    if p < 1 then none
    else if p = 1 then
      some
        { outPartCount := currentPartitionCount
          pAlongI := []
          newFuturePartitions := []
          futurePartNumbers := futurePartNumbers }
    else if currentPartitionCount = 0 then none
    else
      let pAlongI := List.replicate currentPartitionCount p.toNat
      let futurePartNumbers' := futurePartNumbers / p.toNat
      let outPartCount := currentPartitionCount * p.toNat
      some
        { outPartCount := outPartCount
          pAlongI := pAlongI
          newFuturePartitions := List.replicate outPartCount futurePartNumbers'
          futurePartNumbers := futurePartNumbers' }
  | none =>
    (List.range currentPartitionCount).foldl
      (derivedPlanStep pow fEpsilon currentPartitions partArraySize i maxPartNo)
      (some
        { outPartCount := 0
          pAlongI := []
          newFuturePartitions := []
          futurePartNumbers := 1 })

/-- Body of the loop of lines 4757-4771 of `AlgPQJagged` (no plan given) for the dimension
`i`; the state of the loop is `(futureNumParts, maxPartNo)`, `none` after a division by
zero. -/
def maxPartNoStep (pow : Nat → ℚ → ℚ) (fEpsilon : ℚ) (coordDim : Nat)
    (acc : Option (Nat × Nat)) (i : Nat) : Option (Nat × Nat) :=
  acc.bind (fun a =>
    let maxNoPartAlongI := getPartCount
      (pow a.1 (1 / (((coordDim : Int) - (i : Int) : Int) : ℚ))) fEpsilon
    let maxPartNo := if maxNoPartAlongI > a.2 then maxNoPartAlongI else a.2
    if maxNoPartAlongI = 0 then none
    else
      let nfutureNumParts := a.1 / maxNoPartAlongI
      some
        (if a.1 % maxNoPartAlongI ≠ 0 then nfutureNumParts + 1 else nfutureNumParts,
         maxPartNo))

/-- Lines 4757-4771 of `AlgPQJagged` (no plan given): the largest number of parts along a
dimension, `maxPartNo`. -/
def derivedMaxPartNo (pow : Nat → ℚ → ℚ) (fEpsilon : ℚ) (numGlobalParts coordDim : Nat) :
    Option Nat :=
  ((List.range coordDim).foldl (maxPartNoStep pow fEpsilon coordDim)
    (some (numGlobalParts, 0))).map (fun a => a.2)

/-! ## Parameters: `pqJagged_getParameters` -/

/-- The entries of the parameter list that `pqJagged_getParameters` reads for the outputs
below. -/
structure ParameterList where
  imbalance_tolerance : Option ℚ
  parallel_part_calculation_count : Option Nat
  rectilinear_blocks : Option Int

/-- The outputs of `pqJagged_getParameters` that `AlgPQJagged` could use. -/
structure Parameters where
  imbalanceTolerance : ℚ
  concurrentPartCount : Nat
  allowNonrectilinear : Bool

/-- The function `pqJagged_getParameters` (lines 393-511), for the outputs
`imbalanceTolerance` (lines 439-445, 479-480), `concurrentPartCount` (lines 483-488) and
`allowNonrectilinear` (lines 496-506). -/
def pqJagged_getParameters (pl : ParameterList) : Parameters :=
  let imbalanceTolerance0 : ℚ :=
    match pl.imbalance_tolerance with
    | some tol => tol - 1
    | none => 1 / 10
  let val : Int :=
    match pl.rectilinear_blocks with
    | some v => v
    | none => 0
  { imbalanceTolerance := if imbalanceTolerance0 ≤ 0 then 10 / 10000 else imbalanceTolerance0
    concurrentPartCount :=
      match pl.parallel_part_calculation_count with
      | some c => c
      | none => 0
    allowNonrectilinear := if val = 1 then false else true }

/-! ## Driver: the loop over the levels of `AlgPQJagged` and the final assignment -/

/-- What the loop over the levels of `AlgPQJagged` (lines 5080-5621) reads.  `partNo`,
`partArraySize`, `maxPartNo`, `totalPartCount` and `concurrentPartCount` are the values its
prologue (lines 4735-4823) has computed; `pl` is the parameter list.  The buffers of the
other processes are given per level. -/
structure AlgInput where
  pl : ParameterList
  partNo : Option (Nat → Int)
  partArraySize : Nat
  maxPartNo : Nat
  totalPartCount : Nat
  numGlobalParts : Nat
  concurrentPartCount : Nat
  coordDim : Nat
  numLocalCoords : Nat
  pqJagged_coordinates : Nat → Nat → ℚ
  pqJagged_uniformWeights : Bool
  pqJagged_weights : Nat → ℚ
  pqJagged_uniformParts : Bool
  pqJagged_partSizes : Nat → ℚ
  eps : ℚ
  maxScalar_t : ℚ
  minScalar_t : ℚ
  fEpsilon : ℚ
  pow : Nat → ℚ → ℚ
  otherMinMaxTotal : Nat → Nat → List (Nat → ℚ)
  lowerRanks : Nat → Nat → Nat → List (Nat → ℚ)
  upperRanks : Nat → Nat → Nat → List (Nat → ℚ)
  fuel : Nat

/-- The variables of the loop over the levels: the two plan vectors, `futurePartNumbers`,
`currentPartitionCount`, `inTotalCounts`, the current permutation buffer, and the arrays of
the levels (`lv.newpartitionedPointCoordinates` is the other permutation buffer). -/
structure AlgState where
  currentPartitions : List Nat
  newFuturePartitions : List Nat
  futurePartNumbers : Nat
  currentPartitionCount : Nat
  inTotalCounts : Nat → Nat
  partitionedPointCoordinates : Nat → Nat
  lv : LevelState

/-- The call of `getPartitionArrays` of level `i` (lines 5105-5123), after the two plan
vectors have been exchanged and `newFuturePartitions` cleared. -/
def levelPlan (inp : AlgInput) (st : AlgState) (i : Nat) : Option PartitionArrays :=
  getPartitionArrays inp.pow inp.fEpsilon inp.partNo (arrN st.newFuturePartitions)
    st.futurePartNumbers st.currentPartitionCount inp.partArraySize i inp.maxPartNo

/-- The inputs of level `i` when it is not skipped (lines 5141-5170): the axis
`i % coordDim`, the plan `r` of the level, the parameters `allowNonRectelinearPart` and
`concurrentPartCount`.  The output `imbalanceTolerance` of `pqJagged_getParameters` is not
among them. -/
def levelInput (inp : AlgInput) (st : AlgState) (r : PartitionArrays) (i : Nat) :
    LevelInput where
  eps := inp.eps
  maxScalar_t := inp.maxScalar_t
  minScalar_t := inp.minScalar_t
  pqCoord := inp.pqJagged_coordinates (i % inp.coordDim)
  pqJagged_uniformWeights := inp.pqJagged_uniformWeights
  pqJagged_weights := inp.pqJagged_weights
  pqJagged_uniformParts := inp.pqJagged_uniformParts
  pqJagged_partSizes := inp.pqJagged_partSizes
  currentPartitionCount := st.currentPartitionCount
  concurrentPartCount := inp.concurrentPartCount
  pAlongI := arrN r.pAlongI
  currentPartitions := arrN st.newFuturePartitions
  newFuturePartitions := arrN r.newFuturePartitions
  inTotalCounts := st.inTotalCounts
  partitionedPointCoordinates := st.partitionedPointCoordinates
  allowNonRectelinearPart := (pqJagged_getParameters inp.pl).allowNonrectilinear
  otherMinMaxTotal := inp.otherMinMaxTotal i
  lowerRanks := inp.lowerRanks i
  upperRanks := inp.upperRanks i
  fuel := inp.fuel

/-- Body of the loop over the levels (lines 5080-5621) for level `i`: the plan vectors are
exchanged, `getPartitionArrays` is called, and the level is skipped when it gives as many
parts as there are (`continue`, the plan vectors exchanged again); otherwise the windows of
the level run, the permutation buffers are exchanged and `outTotalCounts` becomes
`inTotalCounts`.  The result is `none` when `getPartitionArrays` exits or the cut solver
runs out of fuel. -/
def algLevel (inp : AlgInput) (st : AlgState) (i : Nat) : Option AlgState :=
  (levelPlan inp st i).bind (fun r =>
    if r.outPartCount = st.currentPartitionCount then
      some
        { st with
          currentPartitions := r.newFuturePartitions
          newFuturePartitions := st.newFuturePartitions
          futurePartNumbers := r.futurePartNumbers }
    else
      (levelLoop (levelInput inp st r i) { st.lv with obtainedPartCount := 0 }).map
        (fun lv =>
          { currentPartitions := st.newFuturePartitions
            newFuturePartitions := r.newFuturePartitions
            futurePartNumbers := r.futurePartNumbers
            currentPartitionCount := r.outPartCount
            inTotalCounts := lv.outTotalCounts
            partitionedPointCoordinates := lv.newpartitionedPointCoordinates
            lv := { lv with
              newpartitionedPointCoordinates := st.partitionedPointCoordinates } }))

/-- The state on entry to the loop over the levels (lines 4849-4866, 5071-5078): one part
that holds the points `0 .. numLocalCoords - 1` in order; `lv` holds the arrays as
allocated. -/
def algInit (inp : AlgInput) (lv : LevelState) : AlgState where
  currentPartitions := []
  newFuturePartitions := [inp.numGlobalParts]
  futurePartNumbers := inp.totalPartCount
  currentPartitionCount := 1
  inTotalCounts := arrN [inp.numLocalCoords]
  partitionedPointCoordinates := fun i => i
  lv := lv

/-- The first `n` levels of the loop over the levels. -/
def algLevels (inp : AlgInput) (lv : LevelState) (n : Nat) : Option AlgState :=
  (List.range n).foldl (fun (acc : Option AlgState) i => acc.bind (fun st => algLevel inp st i))
    (some (algInit inp lv))

/-- Lines 5630-5651: every point of part `i` gets the part id `i + partIndexBegin`, with
`partIndexBegin = 0` when no migration is compiled. -/
def finalAssignment (st : AlgState) : Nat → Nat :=
  (List.range st.currentPartitionCount).foldl
    (fun partIds i =>
      (rangeIds st.partitionedPointCoordinates (partBegin st.inTotalCounts i)
        (st.inTotalCounts i)).foldl
        (fun p k => Function.update p k (i + 0)) partIds)
    st.lv.sv.partIds

/-- The loop over the levels of `AlgPQJagged` and the final assignment: the part id of
every point. -/
def AlgPQJagged (inp : AlgInput) (lv : LevelState) : Option (Nat → Nat) :=
  (algLevels inp lv inp.partArraySize).map finalAssignment

/-- One part requested of three points in two dimensions, no plan given: the prologue's
values for `numGlobalParts = 1`, a library `pow` that is exact on 1, and level arrays
filled with zeros. -/
def onePartRequest : AlgInput where
  pl := { imbalance_tolerance := none, parallel_part_calculation_count := none,
          rectilinear_blocks := none }
  partNo := none
  partArraySize := 2
  maxPartNo := 1
  totalPartCount := 1
  numGlobalParts := 1
  concurrentPartCount := 1
  coordDim := 2
  numLocalCoords := 3
  pqJagged_coordinates := fun d => if d = 0 then arrQ [0, 1, 2] else arrQ [5, 3, 4]
  pqJagged_uniformWeights := true
  pqJagged_weights := fun _ => 0
  pqJagged_uniformParts := true
  pqJagged_partSizes := fun _ => 0
  eps := epsDouble
  maxScalar_t := maxDouble
  minScalar_t := -maxDouble
  fEpsilon := 1 / 8388608
  pow := fun n _ => if n = 1 then 1 else 0
  otherMinMaxTotal := fun _ _ => []
  lowerRanks := fun _ _ _ => []
  upperRanks := fun _ _ _ => []
  fuel := 100

/-! ## Degenerate parts -/

/-- The state on entry to the loop of lines 5232-5293 for the first window of a level that
starts from arrays filled with zeros: the global minima and maxima are known, the counters
are 0. -/
def prepareEntry (inp : LevelInput) : LevelState × PrepareCounters :=
  let concurrentPart := min inp.currentPartitionCount inp.concurrentPartCount
  let st := (localMinMaxWindow inp 0 concurrentPart zeroLevelState).1
  ({ st with globalMinMaxTotal :=
      (pqJagged_getGlobalMinMaxTotalCoord concurrentPart (inp.otherMinMaxTotal 0)
        st.localMinMaxTotal st.globalMinMaxTotal) },
   ⟨0, 0, 0⟩)

/-- A level on one process that splits one part of four points, all at the coordinate 1
with unit weights, into two parts, tie splitting enabled. -/
def equalPointsLevel : LevelInput := onePartLevel [1, 1, 1, 1] none 2 true 8

/-! ## Concrete plans -/

/-- A library `pow` on the two calls of the plan below: the square roots of 6 and of 5 to
two decimal places. -/
def powSample (n : Nat) (_ : ℚ) : ℚ := if n = 6 then 49 / 20 else 9 / 4

/-- The value of `numeric_limits<float>::epsilon()`. -/
def epsFloat : ℚ := 1 / 8388608

/-! ## The layout of the reduction buffers, as the specification words it -/

/-- The three kinds of entries of the buffers of the combined reduction. -/
inductive EntryKind where
  | weight
  | leftClosest
  | rightClosest
deriving DecidableEq

/-- The specification's layout of the buffers for a window with the sub-part counts
`parts`: for every part `p`, `2 * p - 1` weight entries, then `p - 1` left-closest entries,
then `p - 1` right-closest entries, one part after the other; `none` past the last
segment. -/
def layoutKind : List Nat → Nat → Option EntryKind
  | [], _ => none
  | p :: rest, x =>
    if x < 2 * p - 1 then some EntryKind.weight
    else if x < (2 * p - 1) + (p - 1) then some EntryKind.leftClosest
    else if x < (2 * p - 1) + (p - 1) + (p - 1) then some EntryKind.rightClosest
    else layoutKind rest (x - ((2 * p - 1) + (p - 1) + (p - 1)))

/-- The specification's combination of an entry of `inoutBuffer` with the entry of
`inBuffer`: the sum on a weight entry, the minimum on a closest-distance entry, the entry
itself outside the layout. -/
def combineEntry : Option EntryKind → ℚ → ℚ → ℚ
  | some EntryKind.weight, a, c => a + c
  | some EntryKind.leftClosest, a, c => min a c
  | some EntryKind.rightClosest, a, c => min a c
  | none, a, _ => a

/-! ## The position of a point among the cuts -/

/-- What an outcome of the search says about the coordinate: on cut `j` the point is less
than epsilon away from the cut; right of cut `j` it is at least epsilon above cut `j` and,
when there is a next cut, at least epsilon below it; left of cut `j` it is at least epsilon
below cut `j` and, when there is a previous cut, at least epsilon above it. -/
def Located.Correct (eps : ℚ) (noCuts : Nat) (cuts : Nat → ℚ) (coord : ℚ) : Located → Prop
  | Located.onCut j => j < noCuts ∧ ABS (coord - cuts j) < eps
  | Located.onRight j =>
    j < noCuts ∧ cuts j + eps ≤ coord ∧ (j + 1 < noCuts → coord ≤ cuts (j + 1) - eps)
  | Located.onLeft j =>
    j < noCuts ∧ coord ≤ cuts j - eps ∧ (1 ≤ j → cuts (j - 1) + eps ≤ coord)
  | Located.nowhere => False

/-- The bucket id the classifier writes for an outcome of the search: `2 j + 1` on cut `j`,
`2 j + 2` right of cut `j`, `2 j` left of cut `j`. -/
def Located.bucket : Located → Nat
  | Located.onCut j => j * 2 + 1
  | Located.onRight lastPart => 2 * lastPart + 2
  | Located.onLeft lastPart => 2 * lastPart
  | Located.nowhere => 0

/-- The bucket `b` of a coordinate among `noCuts` cuts, by comparison with every cut: the
buckets up to `2 k` hold the coordinates at most `cut_k - eps`, the buckets up to `2 k + 1`
the coordinates below `cut_k + eps`, and there are `2 noCuts + 1` buckets. -/
def IsBucket (eps : ℚ) (noCuts : Nat) (cuts : Nat → ℚ) (coord : ℚ) (b : Nat) : Prop :=
  b ≤ 2 * noCuts ∧
  ∀ k, k < noCuts →
    (b ≤ 2 * k ↔ coord ≤ cuts k - eps) ∧ (b ≤ 2 * k + 1 ↔ coord < cuts k + eps)

/-- The sum of the entries `0 .. m` of an array. -/
def prefixTotal (pw : Nat → ℚ) (m : Nat) : ℚ := ((List.range (m + 1)).map pw).sum

/-- Classifier arrays filled with zeros, every cached bucket id being `cached`. -/
def zeroClassifyState (cached : Nat) : ClassifyState where
  myPartWeights := fun _ => 0
  myLeftClosest := fun _ => 0
  myRightClosest := fun _ => 0
  partIds := fun _ => cached

/-- Five points at the coordinates 0, 1, 3/2, 2, 5/2. -/
def fivePoints : Nat → ℚ := arrQ [0, 1, 3 / 2, 2, 5 / 2]

/-- State of a part with one cut at the coordinate 5 on entry to a call of
`getNewCoordinates`: seven unit-weight points between 0 and 10, the bracket as initialised
(bounds 0 and 10, bound weights 0 and 7), the closest point on the left of the cut at the
distance 1/2 and the closest point on its right at the distance 1. -/
def oneCutState : CutState :=
  { initialCutState 0 10 7 with
    leftClosestDistance := fun _ => 1 / 2
    rightClosestDistance := fun _ => 1 }

/-! ## Local weight classifier: `pqJagged_1DPart_getPartWeights` (linear scan) -/

/-- The block of lines 1608-1649 (again at lines 1664-1709 and 1735-1776): the point `i` is
on cut `j`; its weight goes to bucket `2 j + 1` and to the cuts that share the position. -/
def onCutBlock (eps : ℚ) (noCuts : Nat) (w : ℚ) (cutCoordinates_tmp : Nat → ℚ)
    (s : ClassifyState) (i j : Nat) : ClassifyState :=
  let cut := cutCoordinates_tmp j
  let s1 : ClassifyState :=
    { s with
      myPartWeights := Function.update s.myPartWeights (j * 2 + 1)
        (s.myPartWeights (j * 2 + 1) + w)
      partIds := Function.update s.partIds i (j * 2 + 1)
      myLeftClosest := Function.update s.myLeftClosest j 0
      myRightClosest := Function.update s.myRightClosest j 0 }
  let s2 := spreadRight eps w cut cutCoordinates_tmp
    (List.range' (j + 1) (noCuts - (j + 1))) s1
  spreadLeft eps w cut cutCoordinates_tmp (List.range j).reverse s2

/-- The loop `while ((absdistance > _EPSILON) && distance < 0)` of lines 1652-1662, run for
at most `fuel` iterations: the cut index `j`, `distance`, `absdistance` and `myLeftClosest`
when the loop is left.  The index goes down by one at every iteration and the loop is left
below 0, so `j + 1` iterations are enough. -/
def walkLeft (eps : ℚ) (cutCoordinates_tmp : Nat → ℚ) (coord : ℚ) :
    Nat → Int → ℚ → ℚ → (Nat → ℚ) → Int × ℚ × ℚ × (Nat → ℚ)
  | 0, j, distance, absdistance, myLeftClosest => (j, distance, absdistance, myLeftClosest)
  | fuel + 1, j, distance, absdistance, myLeftClosest =>
    if absdistance > eps ∧ distance < 0 then
      let myLeftClosest1 :=
        if myLeftClosest j.toNat > absdistance then
          Function.update myLeftClosest j.toNat absdistance
        else myLeftClosest
      let j1 := j - 1
      if j1 < 0 then (j1, distance, absdistance, myLeftClosest1)
      else
        walkLeft eps cutCoordinates_tmp coord fuel j1 (coord - cutCoordinates_tmp j1.toNat)
          (ABS (coord - cutCoordinates_tmp j1.toNat)) myLeftClosest1
    else (j, distance, absdistance, myLeftClosest)

/-- The loop `while ((absdistance > _EPSILON) && distance > 0)` of lines 1723-1732, run for
at most `fuel` iterations; the loop is left at `noCuts`, so `noCuts - j` iterations are
enough. -/
def walkRight (eps : ℚ) (noCuts : Nat) (cutCoordinates_tmp : Nat → ℚ) (coord : ℚ) :
    Nat → Int → ℚ → ℚ → (Nat → ℚ) → Int × ℚ × ℚ × (Nat → ℚ)
  | 0, j, distance, absdistance, myRightClosest => (j, distance, absdistance, myRightClosest)
  | fuel + 1, j, distance, absdistance, myRightClosest =>
    if absdistance > eps ∧ distance > 0 then
      let myRightClosest1 :=
        if myRightClosest j.toNat > absdistance then
          Function.update myRightClosest j.toNat absdistance
        else myRightClosest
      let j1 := j + 1
      if j1 ≥ (noCuts : Int) then (j1, distance, absdistance, myRightClosest1)
      else
        walkRight eps noCuts cutCoordinates_tmp coord fuel j1
          (coord - cutCoordinates_tmp j1.toNat)
          (ABS (coord - cutCoordinates_tmp j1.toNat)) myRightClosest1
    else (j, distance, absdistance, myRightClosest)

/-- Body of the loop over the points of lines 1590-1796 (linear scan) for the point id
`i`, for `noCuts >= 1`. -/
def classifyPointLinear (eps : ℚ) (noCuts : Nat) (pqJagged_coordinates : Nat → ℚ)
    (pqJagged_uniformWeights : Bool) (pqJagged_weights cutCoordinates_tmp : Nat → ℚ)
    (s : ClassifyState) (i : Nat) : ClassifyState :=
  let w : ℚ := if pqJagged_uniformWeights then 1 else pqJagged_weights i
  let coord := pqJagged_coordinates i
  let j0 : Int := (s.partIds i / 2 : Nat)
  let j : Int := if j0 ≥ (noCuts : Int) then (noCuts : Int) - 1 else j0
  let cut := cutCoordinates_tmp j.toNat
  let distance := coord - cut
  let absdistance := ABS distance
  if absdistance < eps then
    onCutBlock eps noCuts w cutCoordinates_tmp s i j.toNat
  else if distance < 0 then
    let r := walkLeft eps cutCoordinates_tmp coord noCuts j distance absdistance
      s.myLeftClosest
    let s1 : ClassifyState := { s with myLeftClosest := r.2.2.2 }
    if r.2.2.1 < eps then
      onCutBlock eps noCuts w cutCoordinates_tmp s1 i r.1.toNat
    else
      { s1 with
        myPartWeights := Function.update s1.myPartWeights (r.1 * 2 + 2).toNat
          (s1.myPartWeights (r.1 * 2 + 2).toNat + w)
        myRightClosest :=
          if r.1 ≥ 0 ∧ s1.myRightClosest r.1.toNat > r.2.2.1 then
            Function.update s1.myRightClosest r.1.toNat r.2.2.1
          else s1.myRightClosest
        partIds := Function.update s1.partIds i (r.1 * 2 + 2).toNat }
  else
    let r := walkRight eps noCuts cutCoordinates_tmp coord noCuts j distance absdistance
      s.myRightClosest
    let s1 : ClassifyState := { s with myRightClosest := r.2.2.2 }
    if r.2.2.1 < eps then
      onCutBlock eps noCuts w cutCoordinates_tmp s1 i r.1.toNat
    else
      { s1 with
        myPartWeights := Function.update s1.myPartWeights (r.1 * 2).toNat
          (s1.myPartWeights (r.1 * 2).toNat + w)
        myLeftClosest :=
          if r.1 < (noCuts : Int) ∧ s1.myLeftClosest r.1.toNat > r.2.2.1 then
            Function.update s1.myLeftClosest r.1.toNat r.2.2.1
          else s1.myLeftClosest
        partIds := Function.update s1.partIds i (r.1 * 2).toNat }

/-- The function `pqJagged_1DPart_getPartWeights` (lines 1357-1859) for one thread and
`useBinarySearch = false`.  With `noCuts = 0` the scan of a point reads
`cutCoordinates_tmp[-1]`: the result is `none` then. -/
def pqJagged_1DPart_getPartWeights_linear (total_part_count noCuts : Nat) (maxScalar eps : ℚ)
    (coordinateBegin coordinateEnd : Nat) (partitionedPointPermutations : Nat → Nat)
    (pqJagged_coordinates : Nat → ℚ) (pqJagged_uniformWeights : Bool)
    (pqJagged_weights cutCoordinates_tmp : Nat → ℚ) (s : ClassifyState) :
    Option ClassifyState :=
  let s0 : ClassifyState :=
    { s with
      myPartWeights := fun i => if i < total_part_count then 0 else s.myPartWeights i
      myLeftClosest := fun i => if i < noCuts then maxScalar else s.myLeftClosest i
      myRightClosest := fun i => if i < noCuts then maxScalar else s.myRightClosest i }
  if noCuts = 0 ∧ coordinateBegin < coordinateEnd then none
  else
    let s1 := (rangeIds partitionedPointPermutations coordinateBegin coordinateEnd).foldl
      (classifyPointLinear eps noCuts pqJagged_coordinates pqJagged_uniformWeights
        pqJagged_weights cutCoordinates_tmp) s0
    some
      { s1 with
        myPartWeights := (List.range' 1 (total_part_count - 1)).foldl
          (prefixWeightStep eps total_part_count cutCoordinates_tmp) s1.myPartWeights }

/-- What a call of the classifier reports for `n` points: the histogram of length
`total_part_count` and the bucket ids of the points. -/
def classifierReport (total_part_count n : Nat) (s : ClassifyState) : List ℚ × List Nat :=
  ((List.range total_part_count).map s.myPartWeights, (List.range n).map s.partIds)

/-! ## The cuts that are still to find -/

/-- The number of cuts among the first `n` whose flag `isDone` is false. -/
def activeCuts (isDone : Nat → Bool) (n : Nat) : Nat :=
  ((List.range n).filter (fun i => !isDone i)).length

/-- The buffer the pointer `cutCoordinatesWork` points to: the other one of the two buffers
than `cutCoordinates_tmp`. -/
def SolverState.workBuffer (s : SolverState) : Nat → ℚ :=
  if s.swapped then s.cutCoordinates else s.cutCoordinatesWork

/-- The state of `pqJagged_1D_Partition` after `n` iterations of the loop
`while (allDone != 0)` (the loop condition is not looked at). -/
def solverStateAt (inp : SolverInput) (s : SolverState) : Nat → SolverState
  | 0 => solverInit inp s
  | n + 1 => solverIteration inp (n + 1) (solverStateAt inp s n)

/-- The offset of the cuts of part `kk` of the window in the arrays of the cuts
(`cutShift`). -/
def cutShiftOf (inp : SolverInput) (kk : Nat) : Nat := (windowShifts inp kk).1

/-- The number of cuts of part `kk` of the window (`noCuts = partNo - 1`). -/
def noCutsOf (inp : SolverInput) (kk : Nat) : Nat :=
  inp.pVector (inp.currentPartBeginIndex + kk) - 1

/-- The part of the solver's state that the classifier and the reductions of an iteration do
not write: the flags, the counts, `allDone`, the two buffers of cut coordinates and which of
them is `cutCoordinates_tmp`. -/
def SolverState.control (s : SolverState) :
    (Nat → Bool) × (Nat → Int) × Int × (Nat → ℚ) × (Nat → ℚ) × Bool :=
  (s.isDone, s.myNonDoneCounts, s.allDone, s.cutCoordinates, s.cutCoordinatesWork, s.swapped)

/-- The state `oneCutState` with its cut marked Done. -/
def doneCutState : CutState := { oneCutState with isDone := fun _ => true, myNoneDoneCount := 0 }

/-- The input of the cut solver for the window of `emptyParentLevel`: one part of four
points to be split in two, and one empty part. -/
def emptyParentInput : SolverInput := firstWindowSolverInput emptyParentLevel

/-- The solver arrays on entry to the cut solver for the window of `emptyParentLevel`. -/
def emptyParentEntry : SolverState := firstWindowSolverEntry emptyParentLevel

/-- The two arrays of bound weights of the solver. -/
def SolverState.boundWeights (s : SolverState) : (Nat → ℚ) × (Nat → ℚ) :=
  (s.cutLowerWeight, s.cutUpperWeight)

/-- The target weight of the cut with index `j` of part `kk` of the window as
`getNewCoordinates` computes it (lines 1152, 1233): `globalTotalWeight * expected`, with the
total weight and the target ratios `pqJagged_1D_Partition` passes, and `expected` the
target ratio of the cut converted to `float`. -/
def targetWeightOf (inp : SolverInput) (kk j : Nat) : ℚ :=
  inp.globalMinMaxTotal (kk + inp.concurrentPartCount * 2) *
    toFloat (view inp.targetPartWeightRatios (cutShiftOf inp kk + kk) j)

/-- The loop over the window of `PQJaggedCombinedReductionOp::reduce` with
`reductionType = 0` (lines 138-151), over the remaining `k` parts, from the buffer position
`next`: every part has `numSum_0` sums, `numMin_1` minimums and `numMin_2` minimums. -/
def reduceCountsLoop (numSum_0 numMin_1 numMin_2 : Nat) (inBuffer : Nat → ℚ) :
    Nat → Nat → (Nat → ℚ) → (Nat → ℚ)
  | 0, _, inoutBuffer => inoutBuffer
  | k + 1, next, inoutBuffer =>
    let b1 := (List.range' next numSum_0).foldl (reduceSum inBuffer) inoutBuffer
    let b2 := (List.range' (next + numSum_0) numMin_1).foldl (reduceMin inBuffer) b1
    let b3 := (List.range' (next + numSum_0 + numMin_1) numMin_2).foldl
      (reduceMin inBuffer) b2
    reduceCountsLoop numSum_0 numMin_1 numMin_2 inBuffer k
      (next + numSum_0 + numMin_1 + numMin_2) b3

/-- The method `PQJaggedCombinedReductionOp::reduce` (lines 135-171) of the operator built
by the constructor of lines 116-120 (`reductionType = 0`): fold `inBuffer` into
`inoutBuffer`. -/
def reduceCounts (numSum_0 numMin_1 numMin_2 k : Nat) (inBuffer inoutBuffer : Nat → ℚ) :
    Nat → ℚ :=
  reduceCountsLoop numSum_0 numMin_1 numMin_2 inBuffer k 0 inoutBuffer

/-- The kind of the entry `x` of the buffers of `reduceCounts` for `k` parts. -/
def countsKind (numSum_0 numMin_1 numMin_2 : Nat) : Nat → Nat → Option EntryKind
  | 0, _ => none
  | k + 1, x =>
    if x < numSum_0 then some EntryKind.weight
    else if x < numSum_0 + numMin_1 then some EntryKind.leftClosest
    else if x < numSum_0 + numMin_1 + numMin_2 then some EntryKind.rightClosest
    else countsKind numSum_0 numMin_1 numMin_2 k (x - (numSum_0 + numMin_1 + numMin_2))

/-! # Theorems -/

/-! ## Lemmas on the reassignment -/

section ChunkLemmas

variable (allow : Bool) (eps : ℚ) (noCuts : Nat) (uniform : Bool) (cw cc : Nat → ℚ)

theorem assignPoint_partIds_ne (s : ChunkState) (i j : Nat) (h : j ≠ i) :
    (assignPoint allow eps noCuts uniform cw cc s i).partIds j = s.partIds j := by
  unfold assignPoint
  dsimp only
  split_ifs <;> simp [Function.update_noteq h]

theorem assignPoint_counts (s : ChunkState) (i : Nat) :
    (assignPoint allow eps noCuts uniform cw cc s i).myPartPointCounts =
      Function.update s.myPartPointCounts
        ((assignPoint allow eps noCuts uniform cw cc s i).partIds i)
        (s.myPartPointCounts ((assignPoint allow eps noCuts uniform cw cc s i).partIds i) + 1) := by
  unfold assignPoint
  dsimp only
  split_ifs <;> simp

theorem assignPoint_totalCounts (s : ChunkState) (i : Nat) :
    (assignPoint allow eps noCuts uniform cw cc s i).totalCounts = s.totalCounts := by
  unfold assignPoint
  dsimp only
  split_ifs <;> rfl

theorem assignPoint_newperm (s : ChunkState) (i : Nat) :
    (assignPoint allow eps noCuts uniform cw cc s i).newpartitionedPointPermutations =
      s.newpartitionedPointPermutations := by
  unfold assignPoint
  dsimp only
  split_ifs <;> rfl

/-- The bin `assignPoint` gives a point: bucket `2p` goes to bin `p`, bucket `2p+1` to bin
`p` or `p + 1`. -/
theorem assignPoint_bin (s : ChunkState) (i : Nat) :
    (s.partIds i % 2 = 0 →
      (assignPoint allow eps noCuts uniform cw cc s i).partIds i = s.partIds i / 2) ∧
    (s.partIds i % 2 = 1 →
      (assignPoint allow eps noCuts uniform cw cc s i).partIds i = s.partIds i / 2 ∨
      (assignPoint allow eps noCuts uniform cw cc s i).partIds i = s.partIds i / 2 + 1) ∧
    (allow = false → s.partIds i % 2 = 1 →
      (assignPoint allow eps noCuts uniform cw cc s i).partIds i = s.partIds i / 2 + 1) := by
  unfold assignPoint
  dsimp only
  split_ifs with h1 h2 <;> simp_all

theorem assign_fold_partIds_not_mem (l : List Nat) (s : ChunkState) (i : Nat) (h : i ∉ l) :
    (l.foldl (assignPoint allow eps noCuts uniform cw cc) s).partIds i = s.partIds i := by
  induction l generalizing s with
  | nil => rfl
  | cons a l ih =>
    simp only [List.mem_cons, not_or] at h
    rw [List.foldl_cons, ih _ h.2, assignPoint_partIds_ne _ _ _ _ _ _ _ _ _ h.1]

theorem assign_fold_totalCounts (l : List Nat) (s : ChunkState) :
    (l.foldl (assignPoint allow eps noCuts uniform cw cc) s).totalCounts = s.totalCounts := by
  induction l generalizing s with
  | nil => rfl
  | cons a l ih => rw [List.foldl_cons, ih, assignPoint_totalCounts]

theorem assign_fold_newperm (l : List Nat) (s : ChunkState) :
    (l.foldl (assignPoint allow eps noCuts uniform cw cc) s).newpartitionedPointPermutations =
      s.newpartitionedPointPermutations := by
  induction l generalizing s with
  | nil => rfl
  | cons a l ih => rw [List.foldl_cons, ih, assignPoint_newperm]

/-- After the first loop over distinct point ids, the count of bin `j` has grown by the
number of points whose final bin is `j`. -/
theorem assign_fold_counts (l : List Nat) (hl : l.Nodup) (s : ChunkState) (j : Nat) :
    (l.foldl (assignPoint allow eps noCuts uniform cw cc) s).myPartPointCounts j =
      s.myPartPointCounts j +
      l.countP (fun i => (l.foldl (assignPoint allow eps noCuts uniform cw cc) s).partIds i = j) := by
  induction l generalizing s with
  | nil => simp
  | cons a l ih =>
    rw [List.nodup_cons] at hl
    simp only [List.foldl_cons]
    rw [ih hl.2, assignPoint_counts]
    have ha := assign_fold_partIds_not_mem allow eps noCuts uniform cw cc l
      (assignPoint allow eps noCuts uniform cw cc s a) a hl.1
    rw [List.countP_cons]
    simp only [ha]
    by_cases hj : (assignPoint allow eps noCuts uniform cw cc s a).partIds a = j
    · subst hj
      simp
      omega
    · have hj2 : j ≠ (assignPoint allow eps noCuts uniform cw cc s a).partIds a := fun h => hj h.symm
      simp [Function.update_noteq hj2, hj]

/-- The final bin of every point of the range, from its bucket id on entry. -/
theorem assign_fold_bin (l : List Nat) (hl : l.Nodup) (s : ChunkState) (i : Nat) (hi : i ∈ l) :
    (s.partIds i % 2 = 0 →
      (l.foldl (assignPoint allow eps noCuts uniform cw cc) s).partIds i = s.partIds i / 2) ∧
    (s.partIds i % 2 = 1 →
      (l.foldl (assignPoint allow eps noCuts uniform cw cc) s).partIds i = s.partIds i / 2 ∨
      (l.foldl (assignPoint allow eps noCuts uniform cw cc) s).partIds i = s.partIds i / 2 + 1) ∧
    (allow = false → s.partIds i % 2 = 1 →
      (l.foldl (assignPoint allow eps noCuts uniform cw cc) s).partIds i = s.partIds i / 2 + 1) := by
  induction l generalizing s with
  | nil => simp at hi
  | cons a l ih =>
    rw [List.nodup_cons] at hl
    simp only [List.foldl_cons]
    by_cases hia : i = a
    · subst hia
      rw [assign_fold_partIds_not_mem allow eps noCuts uniform cw cc l _ i hl.1]
      exact assignPoint_bin allow eps noCuts uniform cw cc s i
    · have hil : i ∈ l := by
        rcases List.mem_cons.1 hi with h | h
        · exact absurd h hia
        · exact h
      have := ih hl.2 (assignPoint allow eps noCuts uniform cw cc s a) hil
      rwa [assignPoint_partIds_ne allow eps noCuts uniform cw cc s a i hia] at this

theorem scatterPoint_partIds (b : Nat) (s : ChunkState) (i : Nat) :
    (scatterPoint b s i).partIds = s.partIds := rfl

theorem scatter_fold_partIds (b : Nat) (l : List Nat) (s : ChunkState) :
    (l.foldl (scatterPoint b) s).partIds = s.partIds := by
  induction l generalizing s with
  | nil => rfl
  | cons a l ih => rw [List.foldl_cons, ih, scatterPoint_partIds]

theorem scatter_fold_totalCounts (b : Nat) (l : List Nat) (s : ChunkState) :
    (l.foldl (scatterPoint b) s).totalCounts = s.totalCounts := by
  induction l generalizing s with
  | nil => rfl
  | cons a l ih => rw [List.foldl_cons, ih]; rfl

theorem binCount_cons (f : Nat → Nat) (a : Nat) (l : List Nat) (j : Nat) :
    binCount f (a :: l) j = binCount f l j + (if f a = j then 1 else 0) := by
  unfold binCount
  rw [List.countP_cons]
  simp

/-- The scatter loop as a stable counting sort: when the write windows of the bins
(`myPartPointCounts[j]` onwards, one slot per point of bin `j`) do not overlap, the window
of bin `j` receives the points of bin `j` in their order in the range, and no slot outside
the windows is written. -/
theorem scatter_fold (b : Nat) (l : List Nat) (s : ChunkState)
    (hdisj : ∀ j k, j ≠ k → ∀ x,
      s.myPartPointCounts j ≤ x → x < s.myPartPointCounts j + binCount s.partIds l j →
      s.myPartPointCounts k ≤ x → x < s.myPartPointCounts k + binCount s.partIds l k → False) :
    (∀ j, (List.range' (b + s.myPartPointCounts j) (binCount s.partIds l j)).map
        (l.foldl (scatterPoint b) s).newpartitionedPointPermutations =
        l.filter (fun i => s.partIds i = j)) ∧
    (∀ x, (∀ j, ¬ (s.myPartPointCounts j ≤ x ∧
        x < s.myPartPointCounts j + binCount s.partIds l j)) →
      (l.foldl (scatterPoint b) s).newpartitionedPointPermutations (b + x) =
        s.newpartitionedPointPermutations (b + x)) := by
  induction l generalizing s with
  | nil =>
    refine ⟨fun j => ?_, fun x _ => rfl⟩
    simp [binCount]
  | cons a l ih =>
    have hc' : ∀ j, (scatterPoint b s a).myPartPointCounts j =
        s.myPartPointCounts j + (if s.partIds a = j then 1 else 0) := by
      intro j
      unfold scatterPoint
      dsimp only
      by_cases h : s.partIds a = j
      · subst h; simp
      · have h2 : j ≠ s.partIds a := fun e => h e.symm
        simp [Function.update_noteq h2, h]
    have hsub : ∀ j x, (scatterPoint b s a).myPartPointCounts j ≤ x →
        x < (scatterPoint b s a).myPartPointCounts j + binCount s.partIds l j →
        s.myPartPointCounts j ≤ x ∧
          x < s.myPartPointCounts j + binCount s.partIds (a :: l) j := by
      intro j x h1 h2
      rw [hc'] at h1 h2
      rw [binCount_cons]
      constructor <;> omega
    have hd' : ∀ j k, j ≠ k → ∀ x,
        (scatterPoint b s a).myPartPointCounts j ≤ x →
        x < (scatterPoint b s a).myPartPointCounts j + binCount (scatterPoint b s a).partIds l j →
        (scatterPoint b s a).myPartPointCounts k ≤ x →
        x < (scatterPoint b s a).myPartPointCounts k + binCount (scatterPoint b s a).partIds l k →
        False := by
      intro j k hjk x h1 h2 h3 h4
      rw [scatterPoint_partIds] at h2 h4
      obtain ⟨a1, a2⟩ := hsub j x h1 h2
      obtain ⟨a3, a4⟩ := hsub k x h3 h4
      exact hdisj j k hjk x a1 a2 a3 a4
    obtain ⟨ih1, ih2⟩ := ih (scatterPoint b s a) hd'
    simp only [scatterPoint_partIds] at ih1 ih2
    have hhead : (l.foldl (scatterPoint b) (scatterPoint b s a)).newpartitionedPointPermutations
        (b + s.myPartPointCounts (s.partIds a)) = a := by
      rw [ih2]
      · unfold scatterPoint
        simp
      · intro j hj
        by_cases h : s.partIds a = j
        · subst h
          rw [hc'] at hj
          simp at hj
        · have hj' := hj
          rw [hc'] at hj'
          simp only [h, if_false, Nat.add_zero] at hj'
          refine hdisj j (s.partIds a) (fun e => h e.symm) _ hj'.1 ?_ le_rfl ?_
          · rw [binCount_cons]; omega
          · rw [binCount_cons]; simp
    refine ⟨fun j => ?_, fun x hx => ?_⟩
    · rw [List.foldl_cons, binCount_cons]
      by_cases h : s.partIds a = j
      · subst h
        simp only [if_true]
        rw [List.range'_succ, List.map_cons, hhead]
        have := ih1 (s.partIds a)
        rw [hc'] at this
        simp only [if_true] at this
        rw [show b + s.myPartPointCounts (s.partIds a) + 1 =
          b + (s.myPartPointCounts (s.partIds a) + 1) by omega, this]
        simp
      · have := ih1 j
        rw [hc'] at this
        simp only [h, if_false, Nat.add_zero] at this ⊢
        rw [this]
        simp [h]
    · rw [List.foldl_cons, ih2]
      · unfold scatterPoint
        dsimp only
        have hne : x ≠ s.myPartPointCounts (s.partIds a) := by
          intro e
          apply hx (s.partIds a)
          rw [binCount_cons, e]
          simp
        rw [Function.update_noteq]
        omega
      · intro j hj
        exact hx j (hsub j x hj.1 hj.2)

theorem cumul_mono (n : Nat → Nat) {j k : Nat} (h : j ≤ k) : cumul n j ≤ cumul n k := by
  induction k with
  | zero => simp at h; subst h; exact le_rfl
  | succ k ih =>
    rcases Nat.eq_or_lt_of_le h with h1 | h1
    · subst h1; exact le_rfl
    · have := ih (Nat.le_of_lt_succ h1)
      simp only [cumul]
      omega

theorem cumul_succ_le (n : Nat → Nat) {j k : Nat} (h : j < k) :
    cumul n j + n j ≤ cumul n k := by
  have := cumul_mono n (Nat.succ_le_of_lt h)
  simpa [cumul] using this

theorem countP_lt_succ (f : Nat → Nat) (l : List Nat) (j : Nat) :
    l.countP (fun i => f i < j + 1) =
      l.countP (fun i => f i < j) + l.countP (fun i => f i = j) := by
  induction l with
  | nil => simp
  | cons a l ihl =>
    simp only [List.countP_cons, ihl]
    by_cases h1 : f a < j
    · have h2 : f a ≠ j := by omega
      have h3 : f a < j + 1 := by omega
      simp only [h1, h2, h3, decide_True, decide_False, if_true]
      simp
      omega
    · by_cases h2 : f a = j
      · have h3 : f a < j + 1 := by omega
        simp only [h1, h2, h3, decide_True, decide_False, if_true]
        simp
        omega
      · have h3 : ¬ f a < j + 1 := by omega
        simp only [h1, h2, h3, decide_True, decide_False, if_true]
        simp

theorem cumul_binCount (f : Nat → Nat) (l : List Nat) (j : Nat) :
    cumul (binCount f l) j = l.countP (fun i => f i < j) := by
  induction j with
  | zero => simp [cumul]
  | succ j ih =>
    rw [countP_lt_succ, ← ih]
    rfl

theorem flatMap_filter_perm (f : Nat → Nat) (l : List Nat) (P : Nat) :
    List.Perm ((List.range P).flatMap (fun j => l.filter (fun i => f i = j)))
      (l.filter (fun i => f i < P)) := by
  induction P with
  | zero => simp
  | succ P ih =>
    rw [List.range_succ, List.flatMap_append]
    simp only [List.flatMap_cons, List.flatMap_nil, List.append_nil]
    have h1 : (l.filter (fun i => f i < P + 1)).filter (fun i => f i < P) =
        l.filter (fun i => f i < P) := by
      rw [List.filter_filter]
      congr 1
      funext i
      by_cases h : f i < P
      · have : f i < P + 1 := by omega
        simp [h, this]
      · simp [h]
    have h4 : (l.filter (fun i => f i < P + 1)).filter (fun x => !decide (f x < P)) =
        l.filter (fun i => f i = P) := by
      rw [List.filter_filter]
      congr 1
      funext i
      by_cases h : f i < P
      · have : f i ≠ P := by omega
        simp [h, this]
      · by_cases h' : f i = P
        · simp [h']
        · have : ¬ f i < P + 1 := by omega
          simp [h, h', this]
    have h3 := List.filter_append_perm (fun i => f i < P) (l.filter (fun i => f i < P + 1))
    rw [h1, h4] at h3
    exact (List.Perm.append_right _ ih).trans h3

theorem map_range'_cumul (g : Nat → Nat) (n : Nat → Nat) (b P : Nat) :
    (List.range' b (cumul n P)).map g =
      (List.range P).flatMap (fun j => (List.range' (b + cumul n j) (n j)).map g) := by
  induction P with
  | zero => simp [cumul]
  | succ P ih =>
    rw [List.range_succ, List.flatMap_append]
    simp only [List.flatMap_cons, List.flatMap_nil, List.append_nil]
    rw [← ih, ← List.map_append]
    congr 1
    simp only [cumul]
    rw [List.range'_append_1, Nat.add_comm]

theorem threadPrefix_spec (P : Nat) (s : ChunkState) :
    (∀ j, (threadPrefix P s).totalCounts j =
      if j < P then s.myPartPointCounts j else s.totalCounts j) ∧
    (∀ j, (threadPrefix P s).myPartPointCounts j =
      if j < P then 0 else s.myPartPointCounts j) ∧
    (threadPrefix P s).partIds = s.partIds ∧
    (threadPrefix P s).newpartitionedPointPermutations = s.newpartitionedPointPermutations := by
  unfold threadPrefix
  induction P with
  | zero => simp
  | succ P ih =>
    rw [List.range_succ, List.foldl_append]
    simp only [List.foldl_cons, List.foldl_nil]
    obtain ⟨h1, h2, h3, h4⟩ := ih
    refine ⟨fun j => ?_, fun j => ?_, h3, h4⟩
    · show Function.update _ P _ j = _
      by_cases hj : j = P
      · subst hj
        have e1 : ¬ j < j := by omega
        have e2 : j < j + 1 := by omega
        rw [Function.update_same, h2, if_neg e1, if_pos e2, Nat.zero_add]
      · rw [Function.update_noteq hj, h1]
        by_cases hlt : j < P
        · rw [if_pos hlt, if_pos (by omega)]
        · rw [if_neg hlt, if_neg (by omega)]
    · show Function.update _ P _ j = _
      by_cases hj : j = P
      · subst hj
        rw [Function.update_same, if_pos (by omega)]
      · rw [Function.update_noteq hj, h2]
        by_cases hlt : j < P
        · rw [if_pos hlt, if_pos (by omega)]
        · rw [if_neg hlt, if_neg (by omega)]

theorem prefixTotalCounts_spec (P : Nat) (s : ChunkState) :
    (∀ j, (prefixTotalCounts P s).totalCounts j =
      if j < P then cumul s.totalCounts (j + 1) else s.totalCounts j) ∧
    (prefixTotalCounts P s).myPartPointCounts = s.myPartPointCounts ∧
    (prefixTotalCounts P s).partIds = s.partIds ∧
    (prefixTotalCounts P s).newpartitionedPointPermutations =
      s.newpartitionedPointPermutations := by
  unfold prefixTotalCounts
  cases P with
  | zero => simp
  | succ m =>
    simp only [Nat.add_sub_cancel]
    induction m with
    | zero =>
      refine ⟨fun j => ?_, rfl, rfl, rfl⟩
      by_cases hj : j = 0
      · subst hj; simp [cumul]
      · rw [if_neg (by omega)]; rfl
    | succ m ih =>
      rw [List.range'_1_concat, List.foldl_append]
      simp only [List.foldl_cons, List.foldl_nil]
      obtain ⟨h1, h2, h3, h4⟩ := ih
      refine ⟨fun j => ?_, h2, h3, h4⟩
      show Function.update _ (1 + m) _ j = _
      by_cases hj : j = 1 + m
      · subst hj
        rw [Function.update_same, h1, h1, if_neg (by omega), if_pos (by omega),
          if_pos (by omega)]
        rw [show 1 + m - 1 + 1 = 1 + m by omega]
        rw [show cumul s.totalCounts (1 + m + 1) =
          cumul s.totalCounts (1 + m) + s.totalCounts (1 + m) from rfl]
        omega
      · rw [Function.update_noteq hj, h1]
        by_cases hlt : j < m + 1
        · rw [if_pos hlt, if_pos (by omega)]
        · rw [if_neg hlt, if_neg (by omega)]

theorem offsetPartPointCounts_spec (P : Nat) (s : ChunkState) :
    (∀ j, (offsetPartPointCounts P s).myPartPointCounts j =
      if 1 ≤ j ∧ j < P then s.myPartPointCounts j + s.totalCounts (j - 1)
      else s.myPartPointCounts j) ∧
    (offsetPartPointCounts P s).totalCounts = s.totalCounts ∧
    (offsetPartPointCounts P s).partIds = s.partIds ∧
    (offsetPartPointCounts P s).newpartitionedPointPermutations =
      s.newpartitionedPointPermutations := by
  unfold offsetPartPointCounts
  cases P with
  | zero => simp
  | succ m =>
    simp only [Nat.add_sub_cancel]
    induction m with
    | zero =>
      refine ⟨fun j => ?_, rfl, rfl, rfl⟩
      rw [if_neg (by omega)]; rfl
    | succ m ih =>
      rw [List.range'_1_concat, List.foldl_append]
      simp only [List.foldl_cons, List.foldl_nil]
      obtain ⟨h1, h2, h3, h4⟩ := ih
      refine ⟨fun j => ?_, h2, h3, h4⟩
      show Function.update _ (1 + m) _ j = _
      by_cases hj : j = 1 + m
      · subst hj
        rw [Function.update_same, h1, h2, if_neg (by omega), if_pos (by omega)]
      · rw [Function.update_noteq hj, h1]
        by_cases hlt : 1 ≤ j ∧ j < m + 1
        · rw [if_pos hlt, if_pos (by omega)]
        · rw [if_neg hlt, if_neg (by omega)]

theorem cumul_congr (f g : Nat → Nat) (j : Nat) (h : ∀ k, k < j → f k = g k) :
    cumul f j = cumul g j := by
  induction j with
  | zero => rfl
  | succ j ih =>
    simp only [cumul]
    rw [ih (fun k hk => h k (by omega)), h j (by omega)]

theorem binCount_pos (f : Nat → Nat) (l : List Nat) (j : Nat) (h : 0 < binCount f l j) :
    ∃ i ∈ l, f i = j := by
  unfold binCount at h
  obtain ⟨i, hi, hp⟩ := List.countP_pos_iff.1 h
  exact ⟨i, hi, by simpa using hp⟩

end ChunkLemmas

section ChunkMain

variable (eps : ℚ) (partNo : Nat) (perm : Nat → Nat) (uniform : Bool) (cw cc : Nat → ℚ)
  (b e : Nat) (allow : Bool) (ar lpw pw : Nat → ℚ) (mig : Bool) (s : ChunkState)

/-- The bins on return are those of the first loop over the points. -/
theorem getChunks_partIds :
    (getChunksFromCoordinates eps partNo perm uniform cw cc b e allow ar lpw pw mig s).partIds =
      ((rangeIds perm b e).foldl
        (assignPoint (if mig then false else allow) eps (partNo - 1) uniform cw cc)
        (zeroPartPointCounts partNo
          (if (if mig then false else allow) = true then
            { s with myRatios := prepareTieBudgets eps (partNo - 1) ar lpw pw cc s.myRatios }
          else s))).partIds := by
  unfold getChunksFromCoordinates
  simp only
  rw [scatter_fold_partIds, (offsetPartPointCounts_spec _ _).2.2.1,
    (prefixTotalCounts_spec _ _).2.2.1, (threadPrefix_spec _ _).2.2.1]

/-- The bin of a point of the range on return, from its bucket id on entry. -/
theorem getChunks_bin (hnd : (rangeIds perm b e).Nodup) (i : Nat)
    (hi : i ∈ rangeIds perm b e) :
    (s.partIds i % 2 = 0 →
      (getChunksFromCoordinates eps partNo perm uniform cw cc b e allow ar lpw pw mig s).partIds i
        = s.partIds i / 2) ∧
    (s.partIds i % 2 = 1 →
      (getChunksFromCoordinates eps partNo perm uniform cw cc b e allow ar lpw pw mig s).partIds i
        = s.partIds i / 2 ∨
      (getChunksFromCoordinates eps partNo perm uniform cw cc b e allow ar lpw pw mig s).partIds i
        = s.partIds i / 2 + 1) ∧
    ((if mig then false else allow) = false → s.partIds i % 2 = 1 →
      (getChunksFromCoordinates eps partNo perm uniform cw cc b e allow ar lpw pw mig s).partIds i
        = s.partIds i / 2 + 1) := by
  rw [getChunks_partIds]
  have h := assign_fold_bin (if mig then false else allow) eps (partNo - 1) uniform cw cc
    (rangeIds perm b e) hnd
    (zeroPartPointCounts partNo
      (if (if mig then false else allow) = true then
        { s with myRatios := prepareTieBudgets eps (partNo - 1) ar lpw pw cc s.myRatios }
      else s)) i hi
  have hp : (zeroPartPointCounts partNo
      (if (if mig then false else allow) = true then
        { s with myRatios := prepareTieBudgets eps (partNo - 1) ar lpw pw cc s.myRatios }
      else s)).partIds = s.partIds := by
    unfold zeroPartPointCounts
    split_ifs <;> rfl
  rw [hp] at h
  exact h

/-- Every bin on return is below `partNo` when the bucket ids on entry are at most
`2 * (partNo - 1)`. -/
theorem getChunks_bin_lt (hnd : (rangeIds perm b e).Nodup)
    (hrange : ∀ i ∈ rangeIds perm b e, (s.partIds i : Int) ≤ 2 * ((partNo : Int) - 1))
    (i : Nat) (hi : i ∈ rangeIds perm b e) :
    (getChunksFromCoordinates eps partNo perm uniform cw cc b e allow ar lpw pw mig s).partIds i
      < partNo := by
  obtain ⟨h0, h1, _⟩ := getChunks_bin eps partNo perm uniform cw cc b e allow ar lpw pw mig s hnd i hi
  have hr := hrange i hi
  rcases Nat.mod_two_eq_zero_or_one (s.partIds i) with h | h
  · rw [h0 h]; omega
  · rcases h1 h with h2 | h2 <;> rw [h2] <;> omega

/-- The counting sort of `getChunksFromCoordinates`: with `n j` the number of points of the
range whose bin is `j`, `totalCounts[j] = n 0 + ... + n j`, and the `n j` slots from
`coordinateBegin + n 0 + ... + n (j - 1)` hold the points of bin `j` in range order. -/
theorem getChunks_sorted (hnd : (rangeIds perm b e).Nodup)
    (hbin : ∀ i ∈ rangeIds perm b e,
      (getChunksFromCoordinates eps partNo perm uniform cw cc b e allow ar lpw pw mig s).partIds i
        < partNo) :
    (∀ j, j < partNo →
      (getChunksFromCoordinates eps partNo perm uniform cw cc b e allow ar lpw pw mig s).totalCounts j
        = cumul (binCount
            (getChunksFromCoordinates eps partNo perm uniform cw cc b e allow ar lpw pw mig s).partIds
            (rangeIds perm b e)) (j + 1)) ∧
    (∀ j, j < partNo →
      (List.range' (b + cumul (binCount
            (getChunksFromCoordinates eps partNo perm uniform cw cc b e allow ar lpw pw mig s).partIds
            (rangeIds perm b e)) j)
          (binCount
            (getChunksFromCoordinates eps partNo perm uniform cw cc b e allow ar lpw pw mig s).partIds
            (rangeIds perm b e) j)).map
        (getChunksFromCoordinates eps partNo perm uniform cw cc b e allow ar lpw pw mig
          s).newpartitionedPointPermutations
        = (rangeIds perm b e).filter (fun i =>
          (getChunksFromCoordinates eps partNo perm uniform cw cc b e allow ar lpw pw mig s).partIds i
            = j)) := by
  rw [getChunks_partIds] at hbin ⊢
  unfold getChunksFromCoordinates
  simp only
  generalize hs1 : (zeroPartPointCounts partNo
          (if (if mig then false else allow) = true then
            { s with myRatios := prepareTieBudgets eps (partNo - 1) ar lpw pw cc s.myRatios }
          else s)) = s2 at hbin ⊢
  generalize hal : (if mig then false else allow) = al at hbin ⊢
  set ids := rangeIds perm b e with hids
  set s3 := ids.foldl (assignPoint al eps (partNo - 1) uniform cw cc) s2 with hs3
  set n := binCount s3.partIds ids with hn
  have hz : ∀ j, j < partNo → s2.myPartPointCounts j = 0 := by
    intro j hj
    rw [← hs1]
    unfold zeroPartPointCounts
    simp [hj]
  have hc3 : ∀ j, j < partNo → s3.myPartPointCounts j = n j := by
    intro j hj
    rw [hs3, assign_fold_counts al eps (partNo - 1) uniform cw cc ids hnd s2 j, hz j hj,
      Nat.zero_add]
    rfl
  obtain ⟨t1, t2, t3, t4⟩ := threadPrefix_spec partNo s3
  obtain ⟨p1, p2, p3, p4⟩ := prefixTotalCounts_spec partNo (threadPrefix partNo s3)
  obtain ⟨o1, o2, o3, o4⟩ := offsetPartPointCounts_spec partNo
    (prefixTotalCounts partNo (threadPrefix partNo s3))
  set s6 := offsetPartPointCounts partNo (prefixTotalCounts partNo (threadPrefix partNo s3))
    with hs6
  have hT : ∀ j, j < partNo → s6.totalCounts j = cumul n (j + 1) := by
    intro j hj
    rw [o2, p1, if_pos hj]
    apply cumul_congr
    intro k hk
    rw [t1, if_pos (by omega), hc3 k (by omega)]
  have hC : ∀ j, j < partNo → s6.myPartPointCounts j = cumul n j := by
    intro j hj
    rw [o1]
    by_cases h1 : 1 ≤ j ∧ j < partNo
    · rw [if_pos h1, p2, t2, if_pos hj, Nat.zero_add, p1, if_pos (by omega)]
      rw [show j - 1 + 1 = j by omega]
      apply cumul_congr
      intro k hk
      rw [t1, if_pos (by omega), hc3 k (by omega)]
    · rw [if_neg h1, p2, t2, if_pos hj]
      have : j = 0 := by omega
      subst this
      rfl
  have hP6 : s6.partIds = s3.partIds := by rw [o3, p3, t3]
  have hpos : ∀ j, 0 < n j → j < partNo := by
    intro j hj
    obtain ⟨i, hi, hij⟩ := binCount_pos _ _ _ hj
    rw [← hij]
    exact hbin i hi
  have hdisj : ∀ j k, j ≠ k → ∀ x,
      s6.myPartPointCounts j ≤ x → x < s6.myPartPointCounts j + binCount s6.partIds ids j →
      s6.myPartPointCounts k ≤ x → x < s6.myPartPointCounts k + binCount s6.partIds ids k →
      False := by
    intro j k hjk x h1 h2 h3 h4
    rw [hP6] at h2 h4
    have hj : j < partNo := hpos j (by change 0 < binCount s3.partIds ids j; omega)
    have hk : k < partNo := hpos k (by change 0 < binCount s3.partIds ids k; omega)
    rw [hC j hj] at h1 h2
    rw [hC k hk] at h3 h4
    rcases Nat.lt_or_gt_of_ne hjk with h | h
    · have := cumul_succ_le n h
      change x < cumul n j + n j at h2
      omega
    · have := cumul_succ_le n h
      change x < cumul n k + n k at h4
      omega
  obtain ⟨sc1, _⟩ := scatter_fold b ids s6 hdisj
  refine ⟨fun j hj => ?_, fun j hj => ?_⟩
  · rw [scatter_fold_totalCounts, hT j hj]
  · have := sc1 j
    rw [hP6, hC j hj] at this
    exact this

end ChunkMain


/-! ## Claims on the reassignment -/

section ChunkClaims

variable (eps : ℚ) (partNo : Nat) (perm : Nat → Nat) (uniform : Bool) (cw cc : Nat → ℚ)
  (b e : Nat) (allow : Bool) (ar lpw pw : Nat → ℚ) (mig : Bool) (s : ChunkState)

theorem rangeIds_length (buffer : Nat → Nat) (b e : Nat) :
    (rangeIds buffer b e).length = e - b := by
  simp [rangeIds]

/-- The slots of the range on return, bin after bin. -/
theorem getChunks_slice (hnd : (rangeIds perm b e).Nodup)
    (hrange : ∀ i ∈ rangeIds perm b e, (s.partIds i : Int) ≤ 2 * ((partNo : Int) - 1)) :
    rangeIds (getChunksFromCoordinates eps partNo perm uniform cw cc b e allow ar lpw pw mig
        s).newpartitionedPointPermutations b e =
      (List.range partNo).flatMap (fun j => (rangeIds perm b e).filter (fun i =>
        (getChunksFromCoordinates eps partNo perm uniform cw cc b e allow ar lpw pw mig s).partIds i
          = j)) := by
  have hbin := getChunks_bin_lt eps partNo perm uniform cw cc b e allow ar lpw pw mig s hnd hrange
  obtain ⟨_, h2⟩ := getChunks_sorted eps partNo perm uniform cw cc b e allow ar lpw pw mig s hnd hbin
  have hlen : e - b = cumul (binCount
      (getChunksFromCoordinates eps partNo perm uniform cw cc b e allow ar lpw pw mig s).partIds
      (rangeIds perm b e)) partNo := by
    rw [cumul_binCount, ← rangeIds_length perm b e]
    symm
    rw [List.countP_eq_length]
    intro i hi
    simpa using hbin i hi
  have hsl : rangeIds (getChunksFromCoordinates eps partNo perm uniform cw cc b e allow ar lpw pw
      mig s).newpartitionedPointPermutations b e =
      (List.range' b (cumul (binCount
        (getChunksFromCoordinates eps partNo perm uniform cw cc b e allow ar lpw pw mig s).partIds
        (rangeIds perm b e)) partNo)).map
        (getChunksFromCoordinates eps partNo perm uniform cw cc b e allow ar lpw pw mig
          s).newpartitionedPointPermutations :=
    congrArg (fun n => (List.range' b n).map
      (getChunksFromCoordinates eps partNo perm uniform cw cc b e allow ar lpw pw mig
        s).newpartitionedPointPermutations) hlen
  rw [hsl, map_range'_cumul]
  apply List.flatMap_congr
  intro j hj
  exact h2 j (List.mem_range.1 hj)

/-- C1: a single-threaded `getChunksFromCoordinates`, with or without tie splitting, on a
range of pairwise distinct point ids whose bucket ids lie in `[0, 2 * (partNo - 1)]`:
the slots `[coordinateBegin, coordinateEnd)` of the new buffer are a permutation of the
same slots of the old buffer, so hold as many ids, each once. -/
theorem getChunksFromCoordinates_permutation
    (hnd : (rangeIds perm b e).Nodup)
    (hrange : ∀ i ∈ rangeIds perm b e, (s.partIds i : Int) ≤ 2 * ((partNo : Int) - 1)) :
    List.Perm
      (rangeIds (getChunksFromCoordinates eps partNo perm uniform cw cc b e allow ar lpw pw mig
        s).newpartitionedPointPermutations b e)
      (rangeIds perm b e) ∧
    (rangeIds (getChunksFromCoordinates eps partNo perm uniform cw cc b e allow ar lpw pw mig
        s).newpartitionedPointPermutations b e).length = e - b ∧
    (rangeIds (getChunksFromCoordinates eps partNo perm uniform cw cc b e allow ar lpw pw mig
        s).newpartitionedPointPermutations b e).Nodup := by
  have hbin := getChunks_bin_lt eps partNo perm uniform cw cc b e allow ar lpw pw mig s hnd hrange
  have hperm : List.Perm
      (rangeIds (getChunksFromCoordinates eps partNo perm uniform cw cc b e allow ar lpw pw mig
        s).newpartitionedPointPermutations b e)
      (rangeIds perm b e) := by
    rw [getChunks_slice eps partNo perm uniform cw cc b e allow ar lpw pw mig s hnd hrange]
    refine (flatMap_filter_perm _ _ _).trans ?_
    rw [List.filter_eq_self.2]
    intro i hi
    simpa using hbin i hi
  exact ⟨hperm, rangeIds_length _ b e, hperm.nodup_iff.2 hnd⟩


theorem getChunksFromCoordinates_permutation_witness :
    (rangeIds (arrN [4, 3, 2, 1, 0]) 0 5).Nodup ∧
    (∀ i ∈ rangeIds (arrN [4, 3, 2, 1, 0]) 0 5,
      (tieScenarioState.partIds i : Int) ≤ 2 * (((2 : Nat) : Int) - 1)) ∧
    List.Perm
      (rangeIds (getChunksFromCoordinates epsDouble 2 (arrN [4, 3, 2, 1, 0]) true (fun _ => 1)
        (arrQ [1]) 0 5 true (arrQ [1 / 2]) tieScenarioWeights tieScenarioWeights false
        tieScenarioState).newpartitionedPointPermutations 0 5)
      (rangeIds (arrN [4, 3, 2, 1, 0]) 0 5) :=
  ⟨by decide, by decide,
    (getChunksFromCoordinates_permutation epsDouble 2 (arrN [4, 3, 2, 1, 0]) true (fun _ => 1)
      (arrQ [1]) 0 5 true (arrQ [1 / 2]) tieScenarioWeights tieScenarioWeights false
      tieScenarioState (by decide) (by decide)).1⟩

/-- C2: a single-threaded `getChunksFromCoordinates` without tie splitting, on a range of
pairwise distinct ids with bucket ids in `[0, 2 * (partNo - 1)]`: every point gets the bin
`binOfBucket` of its bucket id, `totalCounts[j]` is the number of points of the range with
bin at most `j` (so it is non-decreasing and its last entry is the size of the range), and
the slots from `coordinateBegin + totalCounts[j - 1]` up to `coordinateBegin + totalCounts[j]`
hold the points of bin `j`. -/
theorem getChunksFromCoordinates_no_tie_bins
    (hnd : (rangeIds perm b e).Nodup)
    (hrange : ∀ i ∈ rangeIds perm b e, (s.partIds i : Int) ≤ 2 * ((partNo : Int) - 1))
    (htie : allow = false ∨ mig = true) :
    (∀ i ∈ rangeIds perm b e,
      (getChunksFromCoordinates eps partNo perm uniform cw cc b e allow ar lpw pw mig s).partIds i
        = binOfBucket (s.partIds i)) ∧
    (∀ j, j < partNo →
      (getChunksFromCoordinates eps partNo perm uniform cw cc b e allow ar lpw pw mig s).totalCounts j
        = (rangeIds perm b e).countP (fun i => binOfBucket (s.partIds i) ≤ j)) ∧
    (∀ j k, j ≤ k → k < partNo →
      (getChunksFromCoordinates eps partNo perm uniform cw cc b e allow ar lpw pw mig s).totalCounts j
        ≤ (getChunksFromCoordinates eps partNo perm uniform cw cc b e allow ar lpw pw mig
            s).totalCounts k) ∧
    (∀ j, j + 1 = partNo →
      (getChunksFromCoordinates eps partNo perm uniform cw cc b e allow ar lpw pw mig s).totalCounts j
        = e - b) ∧
    (∀ j, j < partNo →
      (List.range'
          (b + (if j = 0 then 0 else
            (getChunksFromCoordinates eps partNo perm uniform cw cc b e allow ar lpw pw mig
              s).totalCounts (j - 1)))
          ((getChunksFromCoordinates eps partNo perm uniform cw cc b e allow ar lpw pw mig
              s).totalCounts j -
            (if j = 0 then 0 else
              (getChunksFromCoordinates eps partNo perm uniform cw cc b e allow ar lpw pw mig
                s).totalCounts (j - 1)))).map
        (getChunksFromCoordinates eps partNo perm uniform cw cc b e allow ar lpw pw mig
          s).newpartitionedPointPermutations
        = (rangeIds perm b e).filter (fun i => binOfBucket (s.partIds i) = j)) := by
  have hbin := getChunks_bin_lt eps partNo perm uniform cw cc b e allow ar lpw pw mig s hnd hrange
  obtain ⟨hT, hS⟩ :=
    getChunks_sorted eps partNo perm uniform cw cc b e allow ar lpw pw mig s hnd hbin
  have hal : (if mig then false else allow) = false := by
    rcases htie with h | h <;> simp [h]
  have hA : ∀ i ∈ rangeIds perm b e,
      (getChunksFromCoordinates eps partNo perm uniform cw cc b e allow ar lpw pw mig s).partIds i
        = binOfBucket (s.partIds i) := by
    intro i hi
    obtain ⟨h0, _, h1⟩ :=
      getChunks_bin eps partNo perm uniform cw cc b e allow ar lpw pw mig s hnd i hi
    unfold binOfBucket
    rcases Nat.mod_two_eq_zero_or_one (s.partIds i) with h | h
    · rw [if_neg (by omega), h0 h]
    · rw [if_pos h, h1 hal h]
  have hB : ∀ j, j < partNo →
      (getChunksFromCoordinates eps partNo perm uniform cw cc b e allow ar lpw pw mig s).totalCounts j
        = (rangeIds perm b e).countP (fun i => binOfBucket (s.partIds i) ≤ j) := by
    intro j hj
    rw [hT j hj, cumul_binCount]
    apply List.countP_congr
    intro i hi
    rw [hA i hi]
    simp [Nat.lt_succ_iff]
  have hfilter : ∀ j, (rangeIds perm b e).filter (fun i =>
      (getChunksFromCoordinates eps partNo perm uniform cw cc b e allow ar lpw pw mig s).partIds i
        = j) = (rangeIds perm b e).filter (fun i => binOfBucket (s.partIds i) = j) := by
    intro j
    apply List.filter_congr
    intro i hi
    rw [hA i hi]
  refine ⟨hA, hB, ?_, ?_, ?_⟩
  · intro j k hjk hk
    rw [hB j (by omega), hB k hk]
    apply List.countP_mono_left
    intro i _ h
    simp only [decide_eq_true_eq] at h ⊢
    omega
  · intro j hj
    rw [hB j (by omega), ← rangeIds_length perm b e, List.countP_eq_length]
    intro i hi
    have := hbin i hi
    rw [hA i hi] at this
    simp only [decide_eq_true_eq]
    omega
  · intro j hj
    have h := hS j hj
    rw [hfilter] at h
    rw [← h]
    by_cases hj0 : j = 0
    · subst hj0
      rw [if_pos rfl, hT 0 hj]
      simp [cumul]
    · rw [if_neg hj0, hT j hj, hT (j - 1) (by omega)]
      rw [show j - 1 + 1 = j by omega]
      simp [cumul]


theorem getChunksFromCoordinates_no_tie_bins_witness :
    (rangeIds (arrN [4, 3, 2, 1, 0]) 0 5).Nodup ∧
    (getChunksFromCoordinates epsDouble 2 (arrN [4, 3, 2, 1, 0]) true (fun _ => 1)
        (arrQ [1]) 0 5 false (arrQ [1 / 2]) tieScenarioWeights tieScenarioWeights false
        tieScenarioState).totalCounts 1 = 5 - 0 :=
  ⟨by decide,
    (getChunksFromCoordinates_no_tie_bins epsDouble 2 (arrN [4, 3, 2, 1, 0]) true (fun _ => 1)
      (arrQ [1]) 0 5 false (arrQ [1 / 2]) tieScenarioWeights tieScenarioWeights false
      tieScenarioState (by decide) (by decide) (Or.inl rfl)).2.2.2.1 1 rfl⟩

theorem toFloat_zero : toFloat 0 = 0 := by
  unfold toFloat
  rw [if_pos rfl]

/-- The ratio 1/2 is a `float`. -/
theorem toFloat_half : toFloat (1 / 2) = 1 / 2 := by decide!

theorem toFloat_one : toFloat 1 = 1 := by decide!

theorem log2Fuel_mono_arg (fuel n m : Nat) (h : n ≤ m) :
    log2Fuel fuel n ≤ log2Fuel fuel m := by
  induction fuel generalizing n m with
  | zero => simp [log2Fuel]
  | succ fuel ih =>
    unfold log2Fuel
    by_cases hn : 2 ≤ n
    · rw [if_pos hn, if_pos (le_trans hn h)]
      exact Nat.succ_le_succ (ih _ _ (Nat.div_le_div_right h))
    · rw [if_neg hn]
      exact Nat.zero_le _

theorem log2Fuel_mono_fuel (fuel n : Nat) :
    log2Fuel fuel n ≤ log2Fuel (fuel + 1) n := by
  induction fuel generalizing n with
  | zero => simp [log2Fuel]
  | succ fuel ih =>
    rw [log2Fuel, log2Fuel]
    by_cases hn : 2 ≤ n
    · rw [if_pos hn, if_pos hn]
      exact Nat.succ_le_succ (ih _)
    · rw [if_neg hn, if_neg hn]

theorem log2Fuel_mono (n m : Nat) (h : n ≤ m) : log2Fuel n n ≤ log2Fuel m m := by
  have h1 : ∀ k, log2Fuel n n ≤ log2Fuel (n + k) n := by
    intro k
    induction k with
    | zero => exact le_refl _
    | succ k ih => exact le_trans ih (log2Fuel_mono_fuel _ _)
  obtain ⟨k, rfl⟩ := Nat.exists_eq_add_of_le h
  exact le_trans (h1 k) (log2Fuel_mono_arg _ _ _ (Nat.le_add_right _ _))

/-- Rounding to the nearest integer does not pass an integer bound. -/
theorem roundHalfEven_le (m : ℚ) (N : Int) (h : m ≤ N) : roundHalfEven m ≤ N := by
  unfold roundHalfEven
  dsimp only
  have hf : ⌊m⌋ ≤ N := Int.floor_le_iff.2 (by
    have : m < (N : ℚ) + 1 := by linarith
    exact_mod_cast this)
  by_cases h1 : m - ⌊m⌋ < 1 / 2
  · rw [if_pos h1]
    exact hf
  · have hlt : ⌊m⌋ < N := by
      rcases lt_or_eq_of_le hf with h2 | h2
      · exact h2
      · exfalso
        have h3 : ((⌊m⌋ : Int) : ℚ) ≤ m := Int.floor_le m
        rw [h2] at h3 h1
        have : m = N := le_antisymm h h3
        rw [this] at h1
        norm_num at h1
    rw [if_neg h1]
    split_ifs <;> omega

theorem pow2_pos (q : Int) : 0 < pow2 q := by
  unfold pow2
  split_ifs
  · positivity
  · apply div_pos one_pos
    positivity

/-- The conversion to `float` of a value that is at most 1 is at most 1. -/
theorem toFloat_le_one (x : ℚ) (h1 : x ≤ 1) : toFloat x ≤ 1 := by
  unfold toFloat
  by_cases h0 : x = 0
  · rw [if_pos h0]
    exact zero_le_one
  · rw [if_neg h0]
    dsimp only
    by_cases hneg : x < 0
    · rw [if_pos hneg, if_pos hneg]
      have key : ∀ q : Int, -((roundHalfEven (-x / pow2 q) : ℚ) * pow2 q) ≤ 1 := by
        intro q
        have hm : 0 ≤ -x / pow2 q := div_nonneg (by linarith) (le_of_lt (pow2_pos q))
        have hr : 0 ≤ roundHalfEven (-x / pow2 q) := by
          unfold roundHalfEven
          dsimp only
          have hf : 0 ≤ ⌊-x / pow2 q⌋ := Int.floor_nonneg.2 hm
          split_ifs <;> omega
        have : 0 ≤ (roundHalfEven (-x / pow2 q) : ℚ) * pow2 q :=
          mul_nonneg (by exact_mod_cast hr) (le_of_lt (pow2_pos q))
        linarith
      exact key _
    · rw [if_neg hneg, if_neg hneg]
      have hx : 0 < x := lt_of_le_of_ne (not_lt.1 hneg) (Ne.symm h0)
      have hnum : 0 < x.num := Rat.num_pos.2 hx
      have hnd : x.num.natAbs ≤ x.den := by
        have h2 : (x.num : ℚ) / (x.den : ℚ) ≤ 1 := by rw [Rat.num_div_den]; exact h1
        have hd : (0 : ℚ) < x.den := by exact_mod_cast x.den_pos
        rw [div_le_one hd] at h2
        have h3 : x.num ≤ (x.den : Int) := by exact_mod_cast h2
        omega
      have he0 : (log2Fuel x.num.natAbs x.num.natAbs : Int) - (log2Fuel x.den x.den : Int)
          ≤ 0 := by
        have := log2Fuel_mono _ _ hnd
        omega
      generalize (log2Fuel x.num.natAbs x.num.natAbs : Int) - (log2Fuel x.den x.den : Int)
        = e0 at he0 ⊢
      have he : (if pow2 e0 ≤ x then e0 else e0 - 1) ≤ 0 := by
        split_ifs <;> omega
      generalize (if pow2 e0 ≤ x then e0 else e0 - 1) = e at he ⊢
      have hq : (if e - 23 < -149 then (-149 : Int) else e - 23) < 0 := by
        split_ifs <;> omega
      generalize (if e - 23 < -149 then (-149 : Int) else e - 23) = q at hq ⊢
      have hp : pow2 q = 1 / ((2 ^ (-q).toNat : Nat) : ℚ) := by
        unfold pow2
        rw [if_neg (by omega)]
      have hpos : (0 : ℚ) < ((2 ^ (-q).toNat : Nat) : ℚ) := by
        positivity
      have hm : x / pow2 q ≤ (((2 ^ (-q).toNat : Nat) : Int) : ℚ) := by
        rw [hp, div_div_eq_mul_div, div_one]
        have : x * ((2 ^ (-q).toNat : Nat) : ℚ) ≤ 1 * ((2 ^ (-q).toNat : Nat) : ℚ) :=
          mul_le_mul_of_nonneg_right h1 (le_of_lt hpos)
        rw [one_mul] at this
        exact_mod_cast this
      have hr := roundHalfEven_le _ _ hm
      have hr' : (roundHalfEven (x / pow2 q) : ℚ) ≤ ((2 ^ (-q).toNat : Nat) : ℚ) := by
        exact_mod_cast hr
      calc (roundHalfEven (x / pow2 q) : ℚ) * pow2 q
          ≤ ((2 ^ (-q).toNat : Nat) : ℚ) * pow2 q :=
            mul_le_mul_of_nonneg_right hr' (le_of_lt (pow2_pos q))
        _ = 1 := by
            rw [hp]
            field_simp

theorem tieSplitLeftFloat_cons (eps : ℚ) (w : Nat → ℚ) (B : ℚ) (a : Nat) (l : List Nat) :
    tieSplitLeftFloat eps w B (a :: l) =
      if B > eps then true :: tieSplitLeftFloat eps w (toFloat (B - w a)) l
      else false :: tieSplitLeftFloat eps w B l := rfl

theorem tieSplitLeftFloat_exhausted (eps : ℚ) (w : Nat → ℚ) (B : ℚ) (l : List Nat)
    (h : ¬ B > eps) :
    tieSplitLeftFloat eps w B l = List.replicate l.length false := by
  induction l with
  | nil => rfl
  | cons a l ih =>
    rw [tieSplitLeftFloat_cons, if_neg h, ih]
    rfl

theorem tieSplitLeftFloat_prefix (eps : ℚ) (w : Nat → ℚ) (B : ℚ) (l : List Nat) :
    ∃ k, k ≤ l.length ∧
      tieSplitLeftFloat eps w B l =
        List.replicate k true ++ List.replicate (l.length - k) false := by
  induction l generalizing B with
  | nil => exact ⟨0, le_rfl, rfl⟩
  | cons a l ih =>
    by_cases h : B > eps
    · obtain ⟨k, hk, e⟩ := ih (toFloat (B - w a))
      refine ⟨k + 1, by simp; omega, ?_⟩
      rw [tieSplitLeftFloat_cons, if_pos h, e]
      simp [List.replicate_succ]
    · refine ⟨0, by simp, ?_⟩
      rw [tieSplitLeftFloat_exhausted eps w B _ h]
      simp

/-- With one cut and tie splitting, the first loop over the points sends the on-cut points
left or right as `tieSplitLeftFloat` does from the budget `myRatios[0]`. -/
theorem assign_fold_tie (l : List Nat) (hl : l.Nodup) (s : ChunkState) :
    (l.filter (fun i => s.partIds i = 1)).map
        (l.foldl (assignPoint true eps 1 uniform cw cc) s).partIds =
      (tieSplitLeftFloat eps (fun i => if uniform then 1 else cw i) (s.myRatios 0)
        (l.filter (fun i => s.partIds i = 1))).map (fun t => if t then 0 else 1) := by
  induction l generalizing s with
  | nil => rfl
  | cons a l ih =>
    rw [List.nodup_cons] at hl
    have hfil : l.filter (fun i => (assignPoint true eps 1 uniform cw cc s a).partIds i = 1) =
        l.filter (fun i => s.partIds i = 1) := by
      apply List.filter_congr
      intro i hi
      have : i ≠ a := fun e => hl.1 (e ▸ hi)
      rw [assignPoint_partIds_ne true eps 1 uniform cw cc s a i this]
    have ih' := ih hl.2 (assignPoint true eps 1 uniform cw cc s a)
    rw [hfil] at ih'
    have ha := assign_fold_partIds_not_mem true eps 1 uniform cw cc l
      (assignPoint true eps 1 uniform cw cc s a) a hl.1
    rw [List.foldl_cons]
    by_cases h1 : s.partIds a = 1
    · rw [List.filter_cons_of_pos (by simpa using h1), List.map_cons, ha, ih']
      rw [tieSplitLeftFloat_cons]
      by_cases hb : s.myRatios 0 > eps
      · rw [if_pos hb, List.map_cons]
        have e1 : (assignPoint true eps 1 uniform cw cc s a).partIds a = 0 := by
          unfold assignPoint
          simp [h1, hb, EPS_SCALE]
        have e2 : (assignPoint true eps 1 uniform cw cc s a).myRatios 0 =
            toFloat (s.myRatios 0 - (if uniform then 1 else cw a)) := by
          unfold assignPoint
          simp [h1, hb, EPS_SCALE]
        rw [e1, e2]
        rfl
      · rw [if_neg hb, List.map_cons]
        have e1 : (assignPoint true eps 1 uniform cw cc s a).partIds a = 1 := by
          unfold assignPoint
          simp [h1, hb, EPS_SCALE]
        have e2 : (assignPoint true eps 1 uniform cw cc s a).myRatios 0 = s.myRatios 0 := by
          unfold assignPoint
          simp [h1, hb, EPS_SCALE]
        rw [e1, e2]
        rfl
    · rw [List.filter_cons_of_neg (by simpa using h1), ih']
      have e2 : (assignPoint true eps 1 uniform cw cc s a).myRatios 0 = s.myRatios 0 := by
        unfold assignPoint
        dsimp only
        by_cases hodd : s.partIds a % 2 = 1
        · have hp : (0 : Nat) ≠ s.partIds a / 2 := by omega
          rw [if_pos hodd]
          split_ifs <;>
            first
              | rfl
              | (exfalso; omega)
              | (simp only [Function.update_noteq hp])
        · rw [if_neg hodd]
      rw [e2]

/-- The budget of a single cut that the code stores in `myRatios[0]`: the product
`tieRatio * (weight on the cut)` rounded to `float` when it exceeds `eps`, and 0
otherwise. -/
theorem initialTieBudget_single (heps : 0 ≤ eps) (hr0 : 0 ≤ ar 0) (hr1 : ar 0 ≤ 1)
    (hthread : pw 1 - pw 0 = lpw 1 - lpw 0) :
    initialTieBudget eps ar lpw pw 0 =
      if ar 0 * (lpw 1 - lpw 0) > eps then toFloat (ar 0 * (lpw 1 - lpw 0)) else 0 := by
  unfold initialTieBudget
  simp only [Nat.zero_mul, Nat.zero_add]
  by_cases h : ar 0 * (lpw 1 - lpw 0) > eps
  · rw [if_pos h, if_pos h, hthread]
    by_cases hlt : lpw 1 - lpw 0 < ar 0 * (lpw 1 - lpw 0)
    · -- the weight on the cut is then not positive: the product is the weight itself
      have hW : lpw 1 - lpw 0 ≤ 0 := by
        by_contra hc
        have : ar 0 * (lpw 1 - lpw 0) ≤ 1 * (lpw 1 - lpw 0) :=
          mul_le_mul_of_nonneg_right hr1 (le_of_lt (not_le.1 hc))
        linarith
      have : ar 0 * (lpw 1 - lpw 0) ≤ 0 := mul_nonpos_of_nonneg_of_nonpos hr0 hW
      exfalso
      linarith
    · rw [if_neg hlt]
  · rw [if_neg h, if_neg h]

/-- C10, as stated, fails: the budget is held in a `float`.  Seven unit-weight points lie on
the only cut and the tie ratio is `float(4/7)`, so the budget `tieRatio * 7` is a little
above 4.  By the claim's rule the budget still exceeds `eps` after four points and a fifth
point goes left; the code rounds the budget to `4.0f` when it stores it and sends exactly
four points left. -/
theorem getChunksFromCoordinates_float_budget :
    toFloat (4 / 7) * 7 - 4 > epsDouble ∧
    (tieSplitLeft epsDouble (fun _ => 1) (toFloat (4 / 7) * (sevenTieWeights 1 - sevenTieWeights 0))
        [0, 1, 2, 3, 4, 5, 6]).map (fun t => if t then 0 else 1) = [0, 0, 0, 0, 0, 1, 1] ∧
    [0, 1, 2, 3, 4, 5, 6].map
        (getChunksFromCoordinates epsDouble 2 (arrN [0, 1, 2, 3, 4, 5, 6]) true (fun _ => 1)
          (arrQ [1]) 0 7 true (fun _ => toFloat (4 / 7)) sevenTieWeights sevenTieWeights false
          sevenTieState).partIds = [0, 0, 0, 0, 1, 1, 1] := by
  decide!

/-- C10, amended: a single-threaded `getChunksFromCoordinates` with tie splitting on a part
with one cut (`partNo = 2`), on a range of pairwise distinct ids, with a tie ratio in
`[0, 1]` and the thread's histogram equal to the local one: the on-cut points (bucket id 1),
in permutation order, go to bin 0 exactly while the remaining budget exceeds `eps`, and to
bin 1 afterwards, where the budget is held in single precision: it starts at
`tieRatio * (weight on the cut)` rounded to `float` (at 0 when the product does not exceed
`eps`), and the budget decreased by the weight of a point sent left is rounded to `float`;
so the points sent left are a prefix of the on-cut points; and two on-cut points of weight 1
with tie ratio 1/2 are split one left, one right. -/
theorem getChunksFromCoordinates_tie_split
    (hnd : (rangeIds perm b e).Nodup)
    (heps : 0 ≤ eps) (hr0 : 0 ≤ ar 0) (hr1 : ar 0 ≤ 1)
    (hthread : pw 1 - pw 0 = lpw 1 - lpw 0) :
    ((rangeIds perm b e).filter (fun i => s.partIds i = 1)).map
        (getChunksFromCoordinates eps 2 perm uniform cw cc b e true ar lpw pw false s).partIds =
      (tieSplitLeftFloat eps (fun i => if uniform then 1 else cw i)
        (if ar 0 * (lpw 1 - lpw 0) > eps then toFloat (ar 0 * (lpw 1 - lpw 0)) else 0)
        ((rangeIds perm b e).filter (fun i => s.partIds i = 1))).map
        (fun t => if t then 0 else 1) ∧
    (∃ k, k ≤ ((rangeIds perm b e).filter (fun i => s.partIds i = 1)).length ∧
      ((rangeIds perm b e).filter (fun i => s.partIds i = 1)).map
          (getChunksFromCoordinates eps 2 perm uniform cw cc b e true ar lpw pw false s).partIds =
        List.replicate k 0 ++
          List.replicate (((rangeIds perm b e).filter (fun i => s.partIds i = 1)).length - k) 1) ∧
    (∀ x y, (rangeIds perm b e).filter (fun i => s.partIds i = 1) = [x, y] →
      (if uniform then 1 else cw x) = 1 → (if uniform then 1 else cw y) = 1 →
      ar 0 = 1 / 2 → lpw 1 - lpw 0 = 2 → eps < 1 →
      (getChunksFromCoordinates eps 2 perm uniform cw cc b e true ar lpw pw false s).partIds x = 0 ∧
      (getChunksFromCoordinates eps 2 perm uniform cw cc b e true ar lpw pw false s).partIds y = 1)
    := by
  have hmain : ((rangeIds perm b e).filter (fun i => s.partIds i = 1)).map
        (getChunksFromCoordinates eps 2 perm uniform cw cc b e true ar lpw pw false s).partIds =
      (tieSplitLeftFloat eps (fun i => if uniform then 1 else cw i)
        (if ar 0 * (lpw 1 - lpw 0) > eps then toFloat (ar 0 * (lpw 1 - lpw 0)) else 0)
        ((rangeIds perm b e).filter (fun i => s.partIds i = 1))).map
        (fun t => if t then 0 else 1) := by
    rw [getChunks_partIds]
    have h := assign_fold_tie eps uniform cw cc (rangeIds perm b e) hnd
      (zeroPartPointCounts 2
        { s with myRatios := prepareTieBudgets eps (2 - 1) ar lpw pw cc s.myRatios })
    have hb : (zeroPartPointCounts 2
        { s with myRatios := prepareTieBudgets eps (2 - 1) ar lpw pw cc s.myRatios }).myRatios 0
        = initialTieBudget eps ar lpw pw 0 := by
      simp [zeroPartPointCounts, prepareTieBudgets, List.range_succ]
    rw [hb, initialTieBudget_single eps ar lpw pw heps hr0 hr1 hthread] at h
    exact h
  refine ⟨hmain, ?_, ?_⟩
  · obtain ⟨k, hk, hkk⟩ := tieSplitLeftFloat_prefix eps (fun i => if uniform then 1 else cw i)
      (if ar 0 * (lpw 1 - lpw 0) > eps then toFloat (ar 0 * (lpw 1 - lpw 0)) else 0)
      ((rangeIds perm b e).filter (fun i => s.partIds i = 1))
    refine ⟨k, hk, ?_⟩
    rw [hmain, hkk]
    simp
  · intro x y hxy hwx hwy hr hW heps1
    rw [hxy] at hmain
    have hprod : ar 0 * (lpw 1 - lpw 0) = 1 := by
      rw [hr, hW]
      norm_num
    rw [hprod, if_pos heps1, toFloat_one, tieSplitLeftFloat_cons, if_pos heps1, hwx, sub_self,
      toFloat_zero, tieSplitLeftFloat_cons, if_neg (not_lt.2 heps)] at hmain
    simp only [List.map_cons, List.map_nil, tieSplitLeftFloat] at hmain
    simp only [List.cons.injEq, if_true] at hmain
    exact ⟨hmain.1, by simpa using hmain.2.1⟩

/-- C10 for the tie scenario: two unit-weight points on the cut with tie ratio 1/2, the
first one goes left and the second one right. -/
theorem getChunksFromCoordinates_tie_split_witness :
    (rangeIds (arrN [0, 1, 2, 3, 4]) 0 5).Nodup ∧
    (0 ≤ epsDouble ∧ 0 ≤ arrQ [1 / 2] 0 ∧ arrQ [1 / 2] 0 ≤ 1) ∧
    (getChunksFromCoordinates epsDouble 2 (arrN [0, 1, 2, 3, 4]) true (fun _ => 1)
        (arrQ [1]) 0 5 true (arrQ [1 / 2]) tieScenarioWeights tieScenarioWeights false
        tieScenarioState).partIds 1 = 0 ∧
    (getChunksFromCoordinates epsDouble 2 (arrN [0, 1, 2, 3, 4]) true (fun _ => 1)
        (arrQ [1]) 0 5 true (arrQ [1 / 2]) tieScenarioWeights tieScenarioWeights false
        tieScenarioState).partIds 2 = 1 :=
  ⟨by decide, by decide!,
    (getChunksFromCoordinates_tie_split epsDouble (arrN [0, 1, 2, 3, 4]) true (fun _ => 1)
      (arrQ [1]) 0 5 (arrQ [1 / 2]) tieScenarioWeights tieScenarioWeights
      tieScenarioState (by decide) (by decide!) (by decide!) (by decide!) rfl).2.2 1 2
      (by decide) rfl rfl (by decide!) (by decide!) (by decide!)⟩

end ChunkClaims

/-! ## Lemmas on `getNewCoordinates` -/

section CutLemmas

variable (eps : ℚ) (noCuts : Nat) (total tol maxScalar : ℚ)
  (gpw lpw ratios cuts : Nat → ℚ) (allow : Bool)

theorem AgreeAt.refl (i : Nat) (s : CutState) : AgreeAt i s s :=
  ⟨rfl, rfl, rfl, rfl, rfl, rfl, rfl, rfl⟩

theorem AgreeAt.trans {i : Nat} {s t u : CutState} (h1 : AgreeAt i s t) (h2 : AgreeAt i t u) :
    AgreeAt i s u := by
  obtain ⟨a1, a2, a3, a4, a5, a6, a7, a8⟩ := h1
  obtain ⟨b1, b2, b3, b4, b5, b6, b7, b8⟩ := h2
  exact ⟨a1.trans b1, a2.trans b2, a3.trans b3, a4.trans b4, a5.trans b5, a6.trans b6,
    a7.trans b7, a8.trans b8⟩

/-- The loop body for cut `i` leaves the entries of every other cut untouched. -/
theorem processCut_frame (s : CutState) (i j : Nat) (h : j ≠ i) :
    AgreeAt j (processCut eps noCuts total tol gpw lpw ratios cuts allow s i) s := by
  unfold processCut CutState.moveTo CutState.markDone CutState.setBracket AgreeAt
    CutState.bracket
  dsimp only
  split_ifs <;> simp [Function.update_noteq h]

theorem processCut_fold_frame (l : List Nat) (s : CutState) (j : Nat) (h : j ∉ l) :
    AgreeAt j (l.foldl (processCut eps noCuts total tol gpw lpw ratios cuts allow) s) s := by
  induction l generalizing s with
  | nil => exact AgreeAt.refl j s
  | cons a l ih =>
    simp only [List.mem_cons, not_or] at h
    rw [List.foldl_cons]
    exact (ih _ h.2).trans (processCut_frame eps noCuts total tol gpw lpw ratios cuts allow s a j h.1)

/-- The loop body for cut `i` reads, of the arrays it writes, only the entries of cut `i`
and the closest distances. -/
theorem processCut_agree (s t : CutState) (i : Nat) (h : AgreeAt i s t) :
    AgreeAt i (processCut eps noCuts total tol gpw lpw ratios cuts allow s i)
      (processCut eps noCuts total tol gpw lpw ratios cuts allow t i) := by
  obtain ⟨h1, h2, h3, h4, h5, h6, h7, h8⟩ := h
  simp only [CutState.bracket, Bracket.mk.injEq] at h2
  obtain ⟨b1, b2, b3, b4⟩ := h2
  unfold processCut CutState.moveTo CutState.markDone CutState.setBracket AgreeAt
    CutState.bracket
  dsimp only
  rw [h1, h7, h8, b1, b2, b3, b4]
  split_ifs <;> simp [h1, h3, h4, h5, h6, b1, b2, b3, b4]

theorem range_split (n i : Nat) (hi : i < n) :
    List.range n = List.range i ++ i :: List.range' (i + 1) (n - (i + 1)) := by
  rw [List.range_eq_range', List.range_eq_range']
  have h1 : List.range' 0 n = List.range' 0 i ++ List.range' (0 + i) (n - i) := by
    rw [List.range'_append_1]
    congr 1
    omega
  rw [h1, Nat.zero_add]
  congr 1
  obtain ⟨k, hk⟩ : ∃ k, n - i = k + 1 := ⟨n - i - 1, by omega⟩
  rw [hk, List.range'_succ]
  congr 2
  omega

/-- The iterations of the main loop are independent: the entries of cut `i` on exit are
those the loop body for cut `i` computes from the state on entry. -/
theorem getNewCoordinatesLoop_at (s : CutState) (i : Nat) (hi : i < noCuts) :
    AgreeAt i
      (getNewCoordinatesLoop eps noCuts total tol maxScalar gpw lpw ratios cuts allow s)
      (processCut eps noCuts total tol gpw lpw ratios cuts allow
        (s.resetClosest noCuts maxScalar) i) := by
  unfold getNewCoordinatesLoop
  rw [range_split noCuts i hi, List.foldl_append, List.foldl_cons]
  have h1 := processCut_fold_frame eps noCuts total tol gpw lpw ratios cuts allow
    (List.range i) (s.resetClosest noCuts maxScalar) i (by simp)
  have h2 := processCut_agree eps noCuts total tol gpw lpw ratios cuts allow _ _ i h1
  refine (processCut_fold_frame eps noCuts total tol gpw lpw ratios cuts allow _ _ i ?_).trans h2
  intro hmem
  rw [List.mem_range'_1] at hmem
  omega

/-- The loop of the tie ratios only writes `nonRectelinearPartRatios`. -/
theorem tieRatioStep_eq (s : CutState) (i : Nat) :
    tieRatioStep total gpw ratios s i =
      { s with nonRectelinearPartRatios :=
          (tieRatioStep total gpw ratios s i).nonRectelinearPartRatios } := by
  unfold tieRatioStep
  dsimp only
  split_ifs <;> rfl

theorem tieRatio_fold_eq (l : List Nat) (s : CutState) :
    l.foldl (tieRatioStep total gpw ratios) s =
      { s with nonRectelinearPartRatios :=
          (l.foldl (tieRatioStep total gpw ratios) s).nonRectelinearPartRatios } := by
  induction l generalizing s with
  | nil => rfl
  | cons a l ih =>
    rw [List.foldl_cons, ih, tieRatioStep_eq]

theorem tieRatioStep_ratio_ne (s : CutState) (i j : Nat) (h : j ≠ i) :
    (tieRatioStep total gpw ratios s i).nonRectelinearPartRatios j =
      s.nonRectelinearPartRatios j := by
  unfold tieRatioStep
  dsimp only
  split_ifs <;> simp [Function.update_noteq h]

theorem tieRatioStep_congr (s t : CutState) (j : Nat)
    (hg : s.globalCutWeights j = t.globalCutWeights j)
    (hl : s.localCutWeights j = t.localCutWeights j)
    (hr : s.nonRectelinearPartRatios j = t.nonRectelinearPartRatios j) :
    (tieRatioStep total gpw ratios s j).nonRectelinearPartRatios j =
      (tieRatioStep total gpw ratios t j).nonRectelinearPartRatios j := by
  unfold tieRatioStep
  dsimp only
  rw [hg, hl]
  split_ifs <;> simp [hr]

/-- The tie ratio of cut `j` after the loop of the tie ratios over distinct cuts. -/
theorem tieRatio_fold_ratio (l : List Nat) (hl : l.Nodup) (s : CutState) (j : Nat) :
    (l.foldl (tieRatioStep total gpw ratios) s).nonRectelinearPartRatios j =
      if j ∈ l then (tieRatioStep total gpw ratios s j).nonRectelinearPartRatios j
      else s.nonRectelinearPartRatios j := by
  induction l generalizing s with
  | nil => simp
  | cons a l ih =>
    rw [List.nodup_cons] at hl
    rw [List.foldl_cons, ih hl.2]
    by_cases hja : j = a
    · subst hja
      rw [if_neg hl.1, if_pos (List.mem_cons_self _ _)]
    · by_cases hjl : j ∈ l
      · rw [if_pos hjl, if_pos (List.mem_cons_of_mem _ hjl)]
        have e := tieRatioStep_eq total gpw ratios s a
        have h1 : (tieRatioStep total gpw ratios s a).globalCutWeights = s.globalCutWeights := by
          rw [e]
        have h2 : (tieRatioStep total gpw ratios s a).localCutWeights = s.localCutWeights := by
          rw [e]
        have h3 := tieRatioStep_ratio_ne total gpw ratios s a j hja
        exact tieRatioStep_congr total gpw ratios _ _ j (by rw [h1]) (by rw [h2]) h3
      · rw [if_neg hjl, if_neg (by simp [hja, hjl])]
        exact tieRatioStep_ratio_ne total gpw ratios s a j hja

/-- What `getNewCoordinates` leaves in the entries of cut `i` other than the tie ratio is
what its main loop leaves there. -/
theorem getNewCoordinates_agree_loop (lowerRanks : List (Nat → ℚ)) (s : CutState) (i : Nat) :
    (getNewCoordinates eps noCuts total tol maxScalar gpw lpw ratios cuts allow lowerRanks
        s).isDone =
      (getNewCoordinatesLoop eps noCuts total tol maxScalar gpw lpw ratios cuts allow s).isDone ∧
    (getNewCoordinates eps noCuts total tol maxScalar gpw lpw ratios cuts allow lowerRanks
        s).bracket i =
      (getNewCoordinatesLoop eps noCuts total tol maxScalar gpw lpw ratios cuts allow
        s).bracket i ∧
    (getNewCoordinates eps noCuts total tol maxScalar gpw lpw ratios cuts allow lowerRanks
        s).newCutCoordinates =
      (getNewCoordinatesLoop eps noCuts total tol maxScalar gpw lpw ratios cuts allow
        s).newCutCoordinates ∧
    (getNewCoordinates eps noCuts total tol maxScalar gpw lpw ratios cuts allow lowerRanks
        s).myNoneDoneCount =
      (getNewCoordinatesLoop eps noCuts total tol maxScalar gpw lpw ratios cuts allow
        s).myNoneDoneCount := by
  unfold getNewCoordinates
  dsimp only
  split_ifs
  · rw [tieRatio_fold_eq]
    exact ⟨rfl, rfl, rfl, rfl⟩
  · exact ⟨rfl, rfl, rfl, rfl⟩

/-- The tie ratio of cut `i` on return. -/
theorem getNewCoordinates_ratio (lowerRanks : List (Nat → ℚ)) (s : CutState) (i : Nat) :
    (getNewCoordinates eps noCuts total tol maxScalar gpw lpw ratios cuts allow lowerRanks
        s).nonRectelinearPartRatios i =
      if (getNewCoordinatesLoop eps noCuts total tol maxScalar gpw lpw ratios cuts allow
            s).rectilinearCutCount > 0 ∧ i < noCuts then
        (tieRatioStep total gpw ratios
          { getNewCoordinatesLoop eps noCuts total tol maxScalar gpw lpw ratios cuts allow s with
            globalCutWeights := scannedCutWeights eps noCuts total tol maxScalar gpw lpw
              ratios cuts allow lowerRanks s } i).nonRectelinearPartRatios i
      else
        (getNewCoordinatesLoop eps noCuts total tol maxScalar gpw lpw ratios cuts allow
          s).nonRectelinearPartRatios i := by
  unfold getNewCoordinates
  dsimp only
  by_cases hc : (getNewCoordinatesLoop eps noCuts total tol maxScalar gpw lpw ratios cuts allow
            s).rectilinearCutCount > 0
  · rw [if_pos hc]
    show (List.foldl (tieRatioStep total gpw ratios) _ _).nonRectelinearPartRatios i = _
    rw [tieRatio_fold_ratio total gpw ratios _ (List.nodup_range noCuts)]
    by_cases hi : i < noCuts
    · rw [if_pos (List.mem_range.2 hi), if_pos ⟨hc, hi⟩]
    · rw [if_neg (by simpa using hi), if_neg (fun h => hi h.2)]
  · rw [if_neg hc, if_neg (fun h => hc h.1)]

/-- The loop body on an Active cut within tolerance. -/
theorem processCut_within (s : CutState) (i : Nat) (hd : s.isDone i = false)
    (hw : withinTolerance eps total tol gpw ratios i = true) :
    processCut eps noCuts total tol gpw lpw ratios cuts allow s i =
      ({ s with
          globalCutWeights := Function.update s.globalCutWeights i 0
          localCutWeights := Function.update s.localCutWeights i 0 } : CutState).markDone
        cuts i := by
  unfold processCut
  dsimp only
  rw [hd, if_neg (by simp), if_pos hw]

/-- The main loop on an Active cut within tolerance: the cut is Done at its coordinate, its
bracket and tie ratio are untouched, and it has no weight to split. -/
theorem getNewCoordinatesLoop_within (s : CutState) (i : Nat) (hi : i < noCuts)
    (hd : s.isDone i = false)
    (hw : withinTolerance eps total tol gpw ratios i = true) :
    (getNewCoordinatesLoop eps noCuts total tol maxScalar gpw lpw ratios cuts allow
      s).isDone i = true ∧
    (getNewCoordinatesLoop eps noCuts total tol maxScalar gpw lpw ratios cuts allow
      s).newCutCoordinates i = cuts i ∧
    (getNewCoordinatesLoop eps noCuts total tol maxScalar gpw lpw ratios cuts allow
      s).bracket i = s.bracket i ∧
    (getNewCoordinatesLoop eps noCuts total tol maxScalar gpw lpw ratios cuts allow
      s).nonRectelinearPartRatios i = s.nonRectelinearPartRatios i ∧
    (getNewCoordinatesLoop eps noCuts total tol maxScalar gpw lpw ratios cuts allow
      s).localCutWeights i = 0 := by
  obtain ⟨h1, h2, h3, h4, h5, _⟩ :=
    getNewCoordinatesLoop_at eps noCuts total tol maxScalar gpw lpw ratios cuts allow s i hi
  rw [processCut_within eps noCuts total tol gpw lpw ratios cuts allow
    (s.resetClosest noCuts maxScalar) i hd hw] at h1 h2 h3 h4 h5
  refine ⟨h1.trans ?_, h3.trans ?_, h2.trans ?_, h4.trans ?_, h5.trans ?_⟩ <;>
    simp [CutState.markDone, CutState.bracket, CutState.resetClosest]

/-- The loop body never lowers `rectilinearCutCount`. -/
theorem processCut_rectCount_le (s : CutState) (i : Nat) :
    s.rectilinearCutCount ≤
      (processCut eps noCuts total tol gpw lpw ratios cuts allow s i).rectilinearCutCount := by
  unfold processCut CutState.moveTo CutState.markDone CutState.setBracket
  dsimp only
  split_ifs <;> simp

theorem processCut_fold_rectCount_le (l : List Nat) (s : CutState) :
    s.rectilinearCutCount ≤
      (l.foldl (processCut eps noCuts total tol gpw lpw ratios cuts allow)
        s).rectilinearCutCount := by
  induction l generalizing s with
  | nil => exact le_rfl
  | cons a l ih =>
    rw [List.foldl_cons]
    exact (processCut_rectCount_le eps noCuts total tol gpw lpw ratios cuts allow s a).trans
      (ih _)

/-- The loop body on an Active cut, not within tolerance, with too little weight on its
left and more than the expected weight up to and on the cut, when tie splitting is on. -/
theorem processCut_tie (s : CutState) (i : Nat) (hd : s.isDone i = false)
    (hw : withinTolerance eps total tol gpw ratios i = false)
    (hl : imbalanceOf (gpw (i * 2)) total (toFloat (ratios i)) < 0)
    (ha : allow = true) (hgt : gpw (i * 2 + 1) > total * toFloat (ratios i)) :
    processCut eps noCuts total tol gpw lpw ratios cuts allow s i =
      { ({ s with
            globalCutWeights := Function.update s.globalCutWeights i 0
            localCutWeights := Function.update s.localCutWeights i 0 } : CutState).markDone
          cuts i with
        rectilinearCutCount := s.rectilinearCutCount + 1
        localCutWeights := Function.update (Function.update s.localCutWeights i 0) i
          (lpw (i * 2 + 1) - lpw (i * 2)) } := by
  unfold processCut
  dsimp only
  rw [hd, if_neg (by simp), hw, if_neg (by simp), if_pos hl,
    if_neg (fun h => (ne_of_gt hgt) h.2), if_pos ⟨ha, hgt⟩]

/-- The main loop on such a cut: the cut is Done at its coordinate, its weight on the cut
is recorded, and `rectilinearCutCount` has grown. -/
theorem getNewCoordinatesLoop_tie (s : CutState) (i : Nat) (hi : i < noCuts)
    (hd : s.isDone i = false)
    (hw : withinTolerance eps total tol gpw ratios i = false)
    (hl : imbalanceOf (gpw (i * 2)) total (toFloat (ratios i)) < 0)
    (ha : allow = true) (hgt : gpw (i * 2 + 1) > total * toFloat (ratios i)) :
    (getNewCoordinatesLoop eps noCuts total tol maxScalar gpw lpw ratios cuts allow
      s).isDone i = true ∧
    (getNewCoordinatesLoop eps noCuts total tol maxScalar gpw lpw ratios cuts allow
      s).newCutCoordinates i = cuts i ∧
    (getNewCoordinatesLoop eps noCuts total tol maxScalar gpw lpw ratios cuts allow
      s).localCutWeights i = lpw (i * 2 + 1) - lpw (i * 2) ∧
    s.rectilinearCutCount + 1 ≤
      (getNewCoordinatesLoop eps noCuts total tol maxScalar gpw lpw ratios cuts allow
        s).rectilinearCutCount := by
  obtain ⟨h1, _, h3, _, h5, _⟩ :=
    getNewCoordinatesLoop_at eps noCuts total tol maxScalar gpw lpw ratios cuts allow s i hi
  rw [processCut_tie eps noCuts total tol gpw lpw ratios cuts allow
    (s.resetClosest noCuts maxScalar) i hd hw hl ha hgt] at h1 h3 h5
  refine ⟨h1.trans ?_, h3.trans ?_, h5.trans ?_, ?_⟩
  · simp [CutState.markDone]
  · simp [CutState.markDone]
  · simp
  · unfold getNewCoordinatesLoop
    rw [range_split noCuts i hi, List.foldl_append, List.foldl_cons]
    refine le_trans ?_ (processCut_fold_rectCount_le eps noCuts total tol gpw lpw ratios cuts
      allow _ _)
    have hf := processCut_fold_frame eps noCuts total tol gpw lpw ratios cuts allow
      (List.range i) (s.resetClosest noCuts maxScalar) i (by simp)
    have hd' : (List.foldl (processCut eps noCuts total tol gpw lpw ratios cuts allow)
        (s.resetClosest noCuts maxScalar) (List.range i)).isDone i = false := by
      rw [hf.1]; exact hd
    rw [processCut_tie eps noCuts total tol gpw lpw ratios cuts allow _ i hd' hw hl ha hgt]
    have := processCut_fold_rectCount_le eps noCuts total tol gpw lpw ratios cuts allow
      (List.range i) (s.resetClosest noCuts maxScalar)
    show s.rectilinearCutCount + 1 ≤ _ + 1
    have e : (s.resetClosest noCuts maxScalar).rectilinearCutCount = s.rectilinearCutCount := rfl
    omega

end CutLemmas

/-! ## Claims on `getNewCoordinates` -/

section CutClaims

variable (eps : ℚ) (noCuts : Nat) (total tol maxScalar : ℚ)
  (gpw lpw ratios cuts : Nat → ℚ) (allow : Bool)

theorem ABS_eq_abs (x : ℚ) : ABS x = |x| := by
  unfold ABS
  split_ifs with h
  · exact (abs_of_nonneg h).symm
  · exact (abs_of_neg (not_le.1 h)).symm

theorem withinTolerance_iff (i : Nat) :
    withinTolerance eps total tol gpw ratios i = true ↔
      |gpw (i * 2) / (total * toFloat (ratios i)) - 1| - tol < eps ∧
      |(total - gpw (i * 2)) / (total * toFloat (1 - toFloat (ratios i))) - 1| - tol < eps := by
  simp [withinTolerance, imbalanceOf, ABS_eq_abs]

/-- C5, as stated, fails: the code tests the imbalances with the target ratio converted to
`float`.  For six unit weights to be split in three parts, with two of them left of the
first cut (target ratio 1/3, tolerance 0), the left imbalance `2 / (6 * 1/3) - 1` and the
right imbalance `4 / (6 * 2/3) - 1` are both 0, and the cut is Active; the code computes
the two imbalances with `float(1/3)` and `1 - float(1/3)` in `float`, finds them different
from 0 by more than epsilon, and leaves the cut Active. -/
theorem getNewCoordinates_float_imbalance :
    (initialCutState 0 6 6).isDone 0 = false ∧
    |arrQ [2, 2, 6] (0 * 2) / (6 * arrQ [1 / 3, 2 / 3] 0) - 1| - 0 < epsDouble ∧
    |(6 - arrQ [2, 2, 6] (0 * 2)) / (6 * (1 - arrQ [1 / 3, 2 / 3] 0)) - 1| - 0 < epsDouble ∧
    (getNewCoordinates epsDouble 1 6 0 maxDouble (arrQ [2, 2, 6]) (arrQ [2, 2, 6])
      (arrQ [1 / 3, 2 / 3]) (arrQ [2]) false [] (initialCutState 0 6 6)).isDone 0 = false := by
  decide!

/-- C5, amended: for an Active cut `i` whose left imbalance `W / (total * e) - 1` and right
imbalance `(total - W) / (total * e') - 1` are within the tolerance up to `eps` in absolute
value, where `e` is the target ratio converted to `float` and `e'` is `1 - e` computed in
`float` (the two divisors being positive), `getNewCoordinates` marks the cut Done, copies
its coordinate to `newCutCoordinates`, leaves its bounds, bound weights and tie ratio as
they were, and the loop body for the cut lowers `myNoneDoneCount` by one. -/
theorem getNewCoordinates_within_tolerance (lowerRanks : List (Nat → ℚ)) (s : CutState)
    (i : Nat) (hi : i < noCuts) (hd : s.isDone i = false)
    (hT : 0 < total) (he0 : 0 < toFloat (ratios i))
    (he1 : 0 < toFloat (1 - toFloat (ratios i)))
    (hleft : |gpw (i * 2) / (total * toFloat (ratios i)) - 1| - tol < eps)
    (hright :
      |(total - gpw (i * 2)) / (total * toFloat (1 - toFloat (ratios i))) - 1| - tol < eps) :
    (0 < total * toFloat (ratios i) ∧ 0 < total * toFloat (1 - toFloat (ratios i))) ∧
    (getNewCoordinates eps noCuts total tol maxScalar gpw lpw ratios cuts allow lowerRanks
      s).isDone i = true ∧
    (getNewCoordinates eps noCuts total tol maxScalar gpw lpw ratios cuts allow lowerRanks
      s).newCutCoordinates i = cuts i ∧
    (getNewCoordinates eps noCuts total tol maxScalar gpw lpw ratios cuts allow lowerRanks
      s).bracket i = s.bracket i ∧
    (getNewCoordinates eps noCuts total tol maxScalar gpw lpw ratios cuts allow lowerRanks
      s).nonRectelinearPartRatios i = s.nonRectelinearPartRatios i ∧
    (∀ t : CutState, t.isDone i = false →
      (processCut eps noCuts total tol gpw lpw ratios cuts allow t i).myNoneDoneCount =
        t.myNoneDoneCount - 1) := by
  have hw : withinTolerance eps total tol gpw ratios i = true :=
    (withinTolerance_iff eps total tol gpw ratios i).2 ⟨hleft, hright⟩
  obtain ⟨l1, l2, l3, l4, l5⟩ :=
    getNewCoordinatesLoop_within eps noCuts total tol maxScalar gpw lpw ratios cuts allow s i
      hi hd hw
  obtain ⟨a1, a2, a3, _⟩ :=
    getNewCoordinates_agree_loop eps noCuts total tol maxScalar gpw lpw ratios cuts allow
      lowerRanks s i
  refine ⟨⟨mul_pos hT he0, mul_pos hT he1⟩, by rw [a1, l1], by rw [a3, l2],
    by rw [a2, l3], ?_, ?_⟩
  · rw [getNewCoordinates_ratio]
    split_ifs with hc
    · have hscan : scannedCutWeights eps noCuts total tol maxScalar gpw lpw ratios cuts allow
          lowerRanks s i = 0 := by
        unfold scannedCutWeights
        rw [if_pos hi, l5, add_zero]
        apply List.sum_eq_zero
        intro x hx
        obtain ⟨lp, _, rfl⟩ := List.mem_map.1 hx
        exact (getNewCoordinatesLoop_within eps noCuts total tol maxScalar gpw lp ratios cuts
          allow s i hi hd hw).2.2.2.2
      unfold tieRatioStep
      dsimp only
      rw [hscan, if_neg (lt_irrefl 0), l4]
    · exact l4
  · intro t ht
    rw [processCut_within eps noCuts total tol gpw lpw ratios cuts allow t i ht hw]
    rfl

/-- C5 for two unit weights split in two halves (target ratio 1/2, a `float`), one of them
left of the cut at 1. -/
theorem getNewCoordinates_within_tolerance_witness :
    (initialCutState 0 2 2).isDone 0 = false ∧
    (getNewCoordinates epsDouble 1 2 0 maxDouble (arrQ [1, 1, 2]) (arrQ [1, 1, 2])
      (arrQ [1 / 2, 1]) (arrQ [1]) false [] (initialCutState 0 2 2)).isDone 0 = true ∧
    (getNewCoordinates epsDouble 1 2 0 maxDouble (arrQ [1, 1, 2]) (arrQ [1, 1, 2])
      (arrQ [1 / 2, 1]) (arrQ [1]) false [] (initialCutState 0 2 2)).newCutCoordinates 0 = 1 :=
  ⟨rfl,
    (getNewCoordinates_within_tolerance epsDouble 1 2 0 maxDouble (arrQ [1, 1, 2])
      (arrQ [1, 1, 2]) (arrQ [1 / 2, 1]) (arrQ [1]) false [] (initialCutState 0 2 2) 0
      (by decide) rfl (by decide!) (by decide!) (by decide!) (by decide!) (by decide!)).2.1,
    (getNewCoordinates_within_tolerance epsDouble 1 2 0 maxDouble (arrQ [1, 1, 2])
      (arrQ [1, 1, 2]) (arrQ [1 / 2, 1]) (arrQ [1]) false [] (initialCutState 0 2 2) 0
      (by decide) rfl (by decide!) (by decide!) (by decide!) (by decide!) (by decide!)).2.2.1⟩

/-- C9, as stated, fails: the code chooses the branch with the target ratio converted to
`float`.  For the total weight 3 and the target ratio 1/3 (expected weight 1), with the
weight 1/2 left of the cut and `1/2 + 10^-8` on it, the cut is Active, not within tolerance
and `W_left < expected < W_left + W_on`; the code compares with `3 * float(1/3)`, which is
above `W_left + W_on`, does not split the tie and leaves the cut Active. -/
theorem getNewCoordinates_float_tie :
    (initialCutState 0 2 3).isDone 0 = false ∧
    withinTolerance epsDouble 3 0 (arrQ [1 / 2, 1 + 1 / 100000000, 3]) (arrQ [1 / 3, 2 / 3]) 0
      = false ∧
    arrQ [1 / 2, 1 + 1 / 100000000, 3] (0 * 2) < 3 * arrQ [1 / 3, 2 / 3] 0 ∧
    3 * arrQ [1 / 3, 2 / 3] 0 < arrQ [1 / 2, 1 + 1 / 100000000, 3] (0 * 2 + 1) ∧
    (getNewCoordinates epsDouble 1 3 0 maxDouble (arrQ [1 / 2, 1 + 1 / 100000000, 3])
      (arrQ [1 / 2, 1 + 1 / 100000000, 3]) (arrQ [1 / 3, 2 / 3]) (arrQ [1]) true []
      (initialCutState 0 2 3)).isDone 0 = false := by
  decide!

/-- C9, amended: on a single process (no lower ranks, the local histogram is the global
one) with tie splitting on, for an Active cut `i`, not within tolerance, with
`W_left < expected < W_left + W_on` both for `expected = total * targetRatio` and for the
value `total * float(targetRatio)` that the code compares with: `getNewCoordinates` marks
the cut Done at its current coordinate and sets its tie ratio to
`(total * targetRatio - W_left) / W_on` rounded to `float`. -/
theorem getNewCoordinates_tie_ratio (s : CutState) (i : Nat) (hi : i < noCuts)
    (hd : s.isDone i = false) (hc : 0 ≤ s.rectilinearCutCount)
    (hT : 0 < total) (he0 : 0 < toFloat (ratios i))
    (hw : withinTolerance eps total tol gpw ratios i = false)
    (hlt : gpw (i * 2) < total * ratios i)
    (hgt : total * ratios i < gpw (i * 2 + 1))
    (hltf : gpw (i * 2) < total * toFloat (ratios i))
    (hgtf : total * toFloat (ratios i) < gpw (i * 2 + 1)) :
    (getNewCoordinates eps noCuts total tol maxScalar gpw gpw ratios cuts true [] s).isDone i
      = true ∧
    (getNewCoordinates eps noCuts total tol maxScalar gpw gpw ratios cuts true []
      s).newCutCoordinates i = cuts i ∧
    (getNewCoordinates eps noCuts total tol maxScalar gpw gpw ratios cuts true []
      s).nonRectelinearPartRatios i =
        toFloat ((total * ratios i - gpw (i * 2)) / (gpw (i * 2 + 1) - gpw (i * 2))) := by
  have hpos : 0 < total * toFloat (ratios i) := mul_pos hT he0
  have hl : imbalanceOf (gpw (i * 2)) total (toFloat (ratios i)) < 0 := by
    unfold imbalanceOf
    have : gpw (i * 2) / (total * toFloat (ratios i)) < 1 := (div_lt_one hpos).2 hltf
    linarith
  obtain ⟨l1, l2, l3, l4⟩ :=
    getNewCoordinatesLoop_tie eps noCuts total tol maxScalar gpw gpw ratios cuts true s i hi hd
      hw hl rfl hgtf
  obtain ⟨a1, _, a3, _⟩ :=
    getNewCoordinates_agree_loop eps noCuts total tol maxScalar gpw gpw ratios cuts true [] s i
  refine ⟨by rw [a1, l1], by rw [a3, l2], ?_⟩
  rw [getNewCoordinates_ratio, if_pos ⟨by omega, hi⟩]
  have hscan : scannedCutWeights eps noCuts total tol maxScalar gpw gpw ratios cuts true [] s i
      = gpw (i * 2 + 1) - gpw (i * 2) := by
    unfold scannedCutWeights
    rw [if_pos hi, l3]
    simp
  unfold tieRatioStep
  dsimp only
  rw [hscan, l3, if_pos (by linarith), if_neg (by linarith), if_neg (by linarith)]
  simp

/-- C9 for the tie scenario: total weight 5, target ratio 0.4, weight 1 left of the cut and
two unit weights on it; the tie ratio is 1/2. -/
theorem getNewCoordinates_tie_ratio_witness :
    (initialCutState 0 3 5).isDone 0 = false ∧
    withinTolerance epsDouble 5 (1 / 10) tieScenarioWeights (arrQ [2 / 5, 1]) 0 = false ∧
    (getNewCoordinates epsDouble 1 5 (1 / 10) maxDouble tieScenarioWeights tieScenarioWeights
      (arrQ [2 / 5, 1]) (arrQ [1]) true [] (initialCutState 0 3 5)).nonRectelinearPartRatios 0
      = 1 / 2 :=
  ⟨rfl, by decide!,
    (getNewCoordinates_tie_ratio epsDouble 1 5 (1 / 10) maxDouble tieScenarioWeights
      (arrQ [2 / 5, 1]) (arrQ [1]) (initialCutState 0 3 5) 0 (by decide) rfl (by decide)
      (by decide!) (by decide!) (by decide!) (by decide!) (by decide!) (by decide!)
      (by decide!)).2.2.trans
      (by decide!)⟩

end CutClaims

/-! ## Claims on the whole solver -/

/-- C8: for the 8 unit-weight points of coordinates 0, 1, ..., 7, one process, one thread,
split uniformly into 4 parts, the level ends (the solver loop terminates) with the cuts
7/4, 7/2, 21/4, the cut `k` in the gap `(2k - 1, 2k]`; the left weights of the cuts are 2, 4, 6
of the total 8, the imbalance of every cut is 0; and the reassignment gives the children
the end offsets 2, 4, 6, 8, that is two points each: points 0, 1 in part 0, points 2, 3 in
part 1, points 4, 5 in part 2, points 6, 7 in part 3. -/
theorem eight_points_four_parts :
    (levelLoop (onePartLevel [0, 1, 2, 3, 4, 5, 6, 7] none 4 false 8) zeroLevelState).map
        (levelReport 8 4) =
      some
        { cutCoordinates := [7 / 4, 7 / 2, 21 / 4]
          globalPartWeights := [2, 2, 4, 4, 6, 6, 8]
          targetPartWeightRatios := [1 / 4, 1 / 2, 3 / 4, 1]
          outTotalCounts := [2, 4, 6, 8]
          newpartitionedPointCoordinates := [0, 1, 2, 3, 4, 5, 6, 7]
          partIds := [0, 0, 1, 1, 2, 2, 3, 3] } ∧
    ((1 : ℚ) < 7 / 4 ∧ (7 / 4 : ℚ) ≤ 2 ∧ (3 : ℚ) < 7 / 2 ∧ (7 / 2 : ℚ) ≤ 4 ∧
      (5 : ℚ) < 21 / 4 ∧ (21 / 4 : ℚ) ≤ 6) ∧
    (imbalanceOf 2 8 (1 / 4) = 0 ∧ imbalanceOf 4 8 (1 / 2) = 0 ∧ imbalanceOf 6 8 (3 / 4) = 0) := by
  refine ⟨?_, ?_, ?_⟩
  · decide!
  · decide!
  · decide!

/-! ## Initial cut coordinates: `pqJagged_getCutCoord_Weights` -/

section InitialCuts

variable (minC maxC : ℚ) (sizes : Nat → ℚ) (cuts ratios : Nat → ℚ) (cur fut : Nat → Nat)
  (pi fai : Nat)

/-- The loop of the uniform branch after `n` cuts: the cumulative count, and for every cut
`i < n` its coordinate and its ratio. -/
theorem getCutCoord_uniform_fold (range total : ℚ) (n : Nat) :
    ((List.range n).foldl (uniformCutStep minC range total fut fai) (0, cuts, ratios)).1 =
      cumul (fun k => fut (k + fai)) n ∧
    (∀ i, ((List.range n).foldl (uniformCutStep minC range total fut fai)
        (0, cuts, ratios)).2.1 i =
      if i < n then minC + range * ((cumul (fun k => fut (k + fai)) (i + 1) : ℚ) / total)
      else cuts i) ∧
    (∀ i, ((List.range n).foldl (uniformCutStep minC range total fut fai)
        (0, cuts, ratios)).2.2 i =
      if i < n then (cumul (fun k => fut (k + fai)) (i + 1) : ℚ) / total
      else ratios i) := by
  induction n with
  | zero => simp [cumul]
  | succ n ih =>
    rw [List.range_succ, List.foldl_append]
    simp only [List.foldl_cons, List.foldl_nil]
    obtain ⟨h1, h2, h3⟩ := ih
    generalize (List.range n).foldl (uniformCutStep minC range total fut fai)
      (0, cuts, ratios) = acc at h1 h2 h3
    refine ⟨?_, fun i => ?_, fun i => ?_⟩
    · show acc.1 + fut (n + fai) = _
      rw [h1]; rfl
    · show Function.update acc.2.1 n _ i = _
      by_cases hin : i = n
      · subst hin
        rw [Function.update_same, if_pos (by omega), h1]
        rfl
      · rw [Function.update_noteq hin, h2]
        by_cases hlt : i < n
        · rw [if_pos hlt, if_pos (by omega)]
        · rw [if_neg hlt, if_neg (by omega)]
    · show Function.update acc.2.2 n _ i = _
      by_cases hin : i = n
      · subst hin
        rw [Function.update_same, if_pos (by omega), h1]
        rfl
      · rw [Function.update_noteq hin, h3]
        by_cases hlt : i < n
        · rw [if_pos hlt, if_pos (by omega)]
        · rw [if_neg hlt, if_neg (by omega)]

/-- The initial coordinate of cut `i` for uniform parts. -/
theorem getCutCoord_Weights_uniform (noCuts i : Nat) (hi : i < noCuts) :
    (pqJagged_getCutCoord_Weights minC maxC true sizes noCuts cuts ratios cur fut pi fai).1 i =
      minC + (maxC - minC) * ((cumul (fun k => fut (k + fai)) (i + 1) : ℚ) / (cur pi : ℚ)) := by
  unfold pqJagged_getCutCoord_Weights
  simp only [if_true]
  rw [(getCutCoord_uniform_fold minC cuts ratios fut fai (maxC - minC) (cur pi : ℚ)
    noCuts).2.1 i, if_pos hi]

/-- The loop of the branch of user part sizes after the cuts `1 .. m`, from a state in
which cut 0 is the range times its ratio: every cut coordinate is the range times its
ratio, and every later ratio adds its part size to the previous ratio. -/
theorem getCutCoord_sizes_fold (range : ℚ) (c0 r0 : Nat → ℚ) (h0 : c0 0 = range * r0 0)
    (m : Nat) :
    (∀ i, i ≤ m →
      ((List.range' 1 m).foldl (sizesCutStep range sizes) (c0, r0)).1 i =
      range * ((List.range' 1 m).foldl (sizesCutStep range sizes) (c0, r0)).2 i) ∧
    (∀ i, 1 ≤ i → i ≤ m →
      ((List.range' 1 m).foldl (sizesCutStep range sizes) (c0, r0)).2 i =
      sizes i + ((List.range' 1 m).foldl (sizesCutStep range sizes) (c0, r0)).2 (i - 1)) := by
  induction m with
  | zero =>
    refine ⟨fun i hi => ?_, fun i h1 h2 => by omega⟩
    have : i = 0 := by omega
    subst this
    exact h0
  | succ m ih =>
    rw [List.range'_1_concat, List.foldl_append]
    simp only [List.foldl_cons, List.foldl_nil]
    obtain ⟨h1, h2⟩ := ih
    generalize (List.range' 1 m).foldl (sizesCutStep range sizes) (c0, r0) = acc at h1 h2
    have hne : 1 + m - 1 ≠ 1 + m := by omega
    refine ⟨fun i hi => ?_, fun i hi1 hi2 => ?_⟩
    · show Function.update acc.1 (1 + m) _ i = range * Function.update acc.2 (1 + m) _ i
      by_cases him : i = 1 + m
      · subst him
        rw [Function.update_same, Function.update_same]
      · rw [Function.update_noteq him, Function.update_noteq him]
        exact h1 i (by omega)
    · show Function.update acc.2 (1 + m) _ i = sizes i + Function.update acc.2 (1 + m) _ (i - 1)
      have hne2 : i - 1 ≠ 1 + m := by omega
      by_cases him : i = 1 + m
      · subst him
        rw [Function.update_same, Function.update_noteq hne2]
      · rw [Function.update_noteq him, Function.update_noteq hne2]
        exact h2 i hi1 (by omega)

/-- C6, amended: the initial cut coordinates written by `pqJagged_getCutCoord_Weights` are
non-decreasing, `cut[i] <= cut[i + 1]`, when `minCoordinate <= maxCoordinate`: for uniform
parts (with a positive number of leaf parts to produce), and for user part sizes that are
not negative. -/
theorem getCutCoord_Weights_sorted (uniform : Bool) (noCuts : Nat)
    (hmm : minC ≤ maxC) (hcur : uniform = true → 0 < cur pi)
    (hsz : uniform = false → ∀ k, 1 ≤ k → k < noCuts → 0 ≤ sizes k)
    (i : Nat) (hi : i + 1 < noCuts) :
    (pqJagged_getCutCoord_Weights minC maxC uniform sizes noCuts cuts ratios cur fut pi fai).1 i ≤
    (pqJagged_getCutCoord_Weights minC maxC uniform sizes noCuts cuts ratios cur fut pi fai).1
      (i + 1) := by
  cases uniform with
  | true =>
    rw [getCutCoord_Weights_uniform minC maxC sizes cuts ratios cur fut pi fai noCuts i (by omega),
      getCutCoord_Weights_uniform minC maxC sizes cuts ratios cur fut pi fai noCuts (i + 1) hi]
    have hpos : (0 : ℚ) < (cur pi : ℚ) := by exact_mod_cast hcur rfl
    have hcum : (cumul (fun k => fut (k + fai)) (i + 1) : ℚ) ≤
        (cumul (fun k => fut (k + fai)) (i + 1 + 1) : ℚ) := by
      exact_mod_cast cumul_mono _ (Nat.le_succ (i + 1))
    have hdiv := div_le_div_of_nonneg_right hcum hpos.le
    have hr : 0 ≤ maxC - minC := by linarith
    have := mul_le_mul_of_nonneg_left hdiv hr
    linarith
  | false =>
    unfold pqJagged_getCutCoord_Weights
    simp only [Bool.false_eq_true, if_false]
    obtain ⟨h1, h2⟩ := getCutCoord_sizes_fold sizes (maxC - minC)
      (Function.update cuts 0 ((maxC - minC) * Function.update ratios 0 (sizes 0) 0))
      (Function.update ratios 0 (sizes 0)) (by simp) (noCuts - 1)
    rw [h1 i (by omega), h1 (i + 1) (by omega), h2 (i + 1) (by omega) (by omega)]
    have hs := hsz rfl (i + 1) (by omega) hi
    have hr : 0 ≤ maxC - minC := by linarith
    simp only [Nat.add_sub_cancel]
    nlinarith [mul_nonneg hr hs]

theorem getCutCoord_Weights_sorted_witness :
    (0 : ℚ) ≤ 7 ∧
    (pqJagged_getCutCoord_Weights 0 7 true (fun _ => 0) 3 (fun _ => 0) (fun _ => 0) (arrN [4])
        (fun _ => 1) 0 0).1 0 ≤
      (pqJagged_getCutCoord_Weights 0 7 true (fun _ => 0) 3 (fun _ => 0) (fun _ => 0) (arrN [4])
        (fun _ => 1) 0 0).1 (0 + 1) :=
  ⟨by decide!,
    getCutCoord_Weights_sorted 0 7 (fun _ => 0) (fun _ => 0) (fun _ => 0) (arrN [4])
      (fun _ => 1) 0 0 true 3 (by decide!) (fun _ => by decide) (fun h => by simp at h) 0
      (by decide)⟩

/-- C6, as stated, fails: for the unit-weight points of coordinates 5, 3, 2, 2, 1 split
uniformly into 4 parts without tie splitting, the cuts enter the first call of
`getNewCoordinates` at 2, 3, 4, in order, with the histogram of the classifier, and leave
it at 17/8, 2, 3: the first cut has passed the second. -/
theorem getNewCoordinates_breaks_cut_order :
    firstIterationCuts (onePartLevel [5, 3, 2, 2, 1] none 4 false 0) 3 =
      ([2, 3, 4], [17 / 8, 2, 3]) ∧
    ¬ ((17 / 8 : ℚ) ≤ 2) := by
  decide!

end InitialCuts

/-! ## Lemmas on the classifier -/

section ClassifierLemmas

variable (eps : ℚ) (noCuts : Nat) (cuts : Nat → ℚ) (coord : ℚ)

/-- The binary search ends on a cut below `noCuts`: the interval `[lc, uc]` stays inside
`[0, noCuts - 1]` and holds `j`. -/
theorem locate_valid (fuel : Nat) (j lc uc : Int) (last : Located)
    (hlc : 0 ≤ lc) (huc : uc < noCuts) (hj : lc ≤ uc → lc ≤ j ∧ j ≤ uc)
    (hlast : last.Valid noCuts ∨ (1 ≤ fuel ∧ lc ≤ uc)) :
    (locate eps noCuts cuts coord fuel j lc uc last).Valid noCuts := by
  induction fuel generalizing j lc uc last with
  | zero =>
    rcases hlast with h | h
    · exact h
    · omega
  | succ fuel ih =>
    unfold locate
    by_cases hule : uc ≥ lc
    · rw [if_pos hule]
      obtain ⟨hj1, hj2⟩ := hj hule
      have hjn : j.toNat < noCuts := by omega
      dsimp only
      split_ifs
      · exact hjn
      · exact hjn
      · apply ih
        · exact hlc
        · omega
        · intro h; constructor <;> omega
        · exact Or.inl hjn
      · exact hjn
      · apply ih
        · omega
        · exact huc
        · intro h; constructor <;> omega
        · exact Or.inl hjn
    · rw [if_neg hule]
      rcases hlast with h | h
      · exact h
      · omega

variable (w cut : ℚ)

theorem spreadRight_partIds (l : List Nat) (s : ClassifyState) :
    (spreadRight eps w cut cuts l s).partIds = s.partIds := by
  induction l generalizing s with
  | nil => rfl
  | cons a l ih =>
    unfold spreadRight
    dsimp only
    split_ifs
    · rw [ih]
    · rfl
    · rfl

theorem spreadLeft_partIds (l : List Nat) (s : ClassifyState) :
    (spreadLeft eps w cut cuts l s).partIds = s.partIds := by
  induction l generalizing s with
  | nil => rfl
  | cons a l ih =>
    unfold spreadLeft
    dsimp only
    split_ifs
    · rw [ih]
    · rfl
    · rfl

variable (coords : Nat → ℚ) (uniform : Bool) (weights : Nat → ℚ)

/-- Classifying the point `i` leaves the bucket id of every other point. -/
theorem classifyPoint_partIds_ne (s : ClassifyState) (i k : Nat) (h : k ≠ i) :
    (classifyPoint eps noCuts coords uniform weights cuts s i).partIds k = s.partIds k := by
  unfold classifyPoint
  dsimp only
  split
  · rw [spreadLeft_partIds, spreadRight_partIds]
    exact Function.update_noteq h _ _
  · exact Function.update_noteq h _ _
  · exact Function.update_noteq h _ _
  · rfl

/-- Classifying the point `i` against at least one cut gives it a bucket id in
`[0, 2 * noCuts]`. -/
theorem classifyPoint_partIds_le (s : ClassifyState) (i : Nat) (hn : 1 ≤ noCuts) :
    (classifyPoint eps noCuts coords uniform weights cuts s i).partIds i ≤ 2 * noCuts := by
  have hv := locate_valid eps noCuts cuts (coords i) noCuts
    (if ((s.partIds i / 2 : Nat) : Int) ≥ (noCuts : Int) then (noCuts : Int) - 1
      else ((s.partIds i / 2 : Nat) : Int)) 0 ((noCuts : Int) - 1) Located.nowhere
    le_rfl (by omega) (by intro _; split_ifs <;> omega) (Or.inr ⟨hn, by omega⟩)
  unfold classifyPoint
  dsimp only
  split
  · rename_i j hj
    rw [hj] at hv
    rw [spreadLeft_partIds, spreadRight_partIds]
    simp only [Function.update_same]
    have : j < noCuts := hv
    omega
  · rename_i lastPart hj
    rw [hj] at hv
    simp only [Function.update_same]
    have : lastPart < noCuts := hv
    omega
  · rename_i lastPart hj
    rw [hj] at hv
    simp only [Function.update_same]
    have : lastPart < noCuts := hv
    omega
  · rename_i hj
    rw [hj] at hv
    exact absurd hv (by simp [Located.Valid])

/-- The loop over the points gives every point of the range a bucket id in
`[0, 2 * noCuts]` and leaves the bucket ids of the other points. -/
theorem classify_fold_partIds (l : List Nat) (s : ClassifyState) (hn : 1 ≤ noCuts) :
    (∀ i ∈ l, (l.foldl (classifyPoint eps noCuts coords uniform weights cuts) s).partIds i
      ≤ 2 * noCuts) ∧
    (∀ i, i ∉ l → (l.foldl (classifyPoint eps noCuts coords uniform weights cuts) s).partIds i
      = s.partIds i) := by
  induction l generalizing s with
  | nil => exact ⟨fun i hi => by simp at hi, fun i _ => rfl⟩
  | cons a l ih =>
    obtain ⟨h1, h2⟩ := ih (classifyPoint eps noCuts coords uniform weights cuts s a)
    rw [List.foldl_cons]
    refine ⟨fun i hi => ?_, fun i hi => ?_⟩
    · by_cases hil : i ∈ l
      · exact h1 i hil
      · have hia : i = a := by
          rcases List.mem_cons.1 hi with h | h
          · exact h
          · exact absurd h hil
        subst hia
        rw [h2 i hil]
        exact classifyPoint_partIds_le eps noCuts cuts coords uniform weights s i hn
    · simp only [List.mem_cons, not_or] at hi
      rw [h2 i hi.2]
      exact classifyPoint_partIds_ne eps noCuts cuts coords uniform weights s a i hi.1

/-- The classifier gives every point of the range a bucket id in `[0, 2 * noCuts]` and
leaves the bucket ids of the other points. -/
theorem getPartWeights_partIds (tpc : Nat) (maxScalar : ℚ) (b e : Nat) (perm : Nat → Nat)
    (s : ClassifyState) :
    (1 ≤ noCuts → ∀ i ∈ rangeIds perm b e,
      (pqJagged_1DPart_getPartWeights tpc noCuts maxScalar eps b e perm coords uniform weights
        cuts s).partIds i ≤ 2 * noCuts) ∧
    (∀ i, i ∉ rangeIds perm b e →
      (pqJagged_1DPart_getPartWeights tpc noCuts maxScalar eps b e perm coords uniform weights
        cuts s).partIds i = s.partIds i) := by
  unfold pqJagged_1DPart_getPartWeights
  dsimp only
  constructor
  · intro hn i hi
    exact (classify_fold_partIds eps noCuts cuts coords uniform weights _ _ hn).1 i hi
  · intro i hi
    by_cases hn : 1 ≤ noCuts
    · exact (classify_fold_partIds eps noCuts cuts coords uniform weights _ _ hn).2 i hi
    · -- no cut: the search never runs and no bucket id is written
      have h0 : noCuts = 0 := by omega
      subst h0
      have : ∀ (l : List Nat) (t : ClassifyState),
          (l.foldl (classifyPoint eps 0 coords uniform weights cuts) t).partIds = t.partIds := by
        intro l
        induction l with
        | nil => intro t; rfl
        | cons a l ih =>
          intro t
          rw [List.foldl_cons, ih]
          unfold classifyPoint
          simp [locate]
      rw [this]

end ClassifierLemmas

/-! ## Lemmas on the cut solver: the bucket ids it leaves -/

section SolverLemmas

/-- A loop whose body keeps `g` of the state keeps it. -/
theorem foldl_keep {σ ι γ : Type} (f : σ → ι → σ) (g : σ → γ)
    (h : ∀ s i, g (f s i) = g s) (l : List ι) (s : σ) : g (l.foldl f s) = g s := by
  induction l generalizing s with
  | nil => rfl
  | cons a l ih => rw [List.foldl_cons, ih, h]

variable (inp : SolverInput)

theorem classifyPart_counts (s : SolverState) (kk : Nat) :
    (classifyPart inp s kk).myNonDoneCounts = s.myNonDoneCounts := by
  unfold classifyPart
  dsimp only
  by_cases hc : s.myNonDoneCounts kk > 0
  · rw [if_pos hc]
  · rw [if_neg hc]

theorem classifyPart_partIds_not_mem (s : SolverState) (kk i : Nat)
    (hi : i ∉ rangeIds inp.partitionedPointPermutations
      (partBegin inp.inTotalCounts (inp.currentPartBeginIndex + kk))
      (inp.inTotalCounts (inp.currentPartBeginIndex + kk))) :
    (classifyPart inp s kk).partIds i = s.partIds i := by
  unfold classifyPart
  dsimp only
  by_cases hc : s.myNonDoneCounts kk > 0
  · rw [if_pos hc]
    exact (getPartWeights_partIds inp.eps _ _ _ _ _ _ _
      (partBegin inp.inTotalCounts (inp.currentPartBeginIndex + kk)) _ _ _).2 i hi
  · rw [if_neg hc]

theorem classifyPart_valid (s : SolverState) (kk : Nat) (hc : s.myNonDoneCounts kk > 0)
    (hp : 2 ≤ inp.pVector (inp.currentPartBeginIndex + kk)) :
    BucketsValid inp.partitionedPointPermutations inp.inTotalCounts inp.pVector
      (classifyPart inp s kk).partIds (inp.currentPartBeginIndex + kk) := by
  intro i hi
  unfold classifyPart
  dsimp only
  rw [if_pos hc]
  exact (getPartWeights_partIds inp.eps _ _ _ _ _ _ _
    (partBegin inp.inTotalCounts (inp.currentPartBeginIndex + kk)) _ _ _).1 (by omega) i hi

/-- The first loop over the parts of the window: a part whose bucket ids were valid, or
that still has cuts to find, has valid bucket ids after it. -/
theorem classify_fold_valid
    (hd : RangesDisjoint inp.partitionedPointPermutations inp.inTotalCounts
      (inp.currentPartBeginIndex + inp.concurrentPartCount))
    (l : List Nat) (hl : ∀ a ∈ l, a < inp.concurrentPartCount) (s : SolverState)
    (hinv : ∀ kk, kk < inp.concurrentPartCount →
      inp.pVector (inp.currentPartBeginIndex + kk) < 2 → s.myNonDoneCounts kk = 0) :
    (l.foldl (classifyPart inp) s).myNonDoneCounts = s.myNonDoneCounts ∧
    ∀ kk, kk < inp.concurrentPartCount →
      (BucketsValid inp.partitionedPointPermutations inp.inTotalCounts inp.pVector s.partIds
          (inp.currentPartBeginIndex + kk) ∨ (kk ∈ l ∧ s.myNonDoneCounts kk > 0)) →
      BucketsValid inp.partitionedPointPermutations inp.inTotalCounts inp.pVector
        (l.foldl (classifyPart inp) s).partIds (inp.currentPartBeginIndex + kk) := by
  induction l generalizing s with
  | nil =>
    refine ⟨rfl, fun kk _ h => ?_⟩
    rcases h with h | h
    · exact h
    · exact absurd h.1 (List.not_mem_nil _)
  | cons a l ih =>
    have ha : a < inp.concurrentPartCount := hl a (List.mem_cons_self _ _)
    have hc1 := classifyPart_counts inp s a
    obtain ⟨ih1, ih2⟩ := ih (fun b hb => hl b (List.mem_cons_of_mem _ hb)) (classifyPart inp s a)
      (by rw [hc1]; exact hinv)
    rw [List.foldl_cons]
    refine ⟨by rw [ih1, hc1], fun kk hkk h => ?_⟩
    have hstep : BucketsValid inp.partitionedPointPermutations inp.inTotalCounts inp.pVector
          s.partIds (inp.currentPartBeginIndex + kk) →
        BucketsValid inp.partitionedPointPermutations inp.inTotalCounts inp.pVector
          (classifyPart inp s a).partIds (inp.currentPartBeginIndex + kk) := by
      intro hv
      by_cases hak : a = kk
      · subst hak
        by_cases hc : s.myNonDoneCounts a > 0
        · apply classifyPart_valid inp s a hc
          by_contra hlt
          have := hinv a ha (by omega)
          omega
        · have : classifyPart inp s a = s := by
            unfold classifyPart
            dsimp only
            rw [if_neg hc]
          rw [this]
          exact hv
      · intro i hi
        rw [classifyPart_partIds_not_mem inp s a i
          (hd _ _ (by omega) (by omega) (by omega) i hi)]
        exact hv i hi
    rcases h with h | ⟨h1, h2⟩
    · exact ih2 kk hkk (Or.inl (hstep h))
    · rcases List.mem_cons.1 h1 with h3 | h3
      · subst h3
        apply ih2 kk hkk (Or.inl ?_)
        apply classifyPart_valid inp s kk h2
        by_contra hlt
        have := hinv kk ha (by omega)
        omega
      · exact ih2 kk hkk (Or.inr ⟨h3, by rw [hc1]; exact h2⟩)

theorem accumulateThreadResults_keep (s : SolverState) :
    (accumulateThreadResults inp s).partIds = s.partIds ∧
    (accumulateThreadResults inp s).myNonDoneCounts = s.myNonDoneCounts := by
  have h1 : ∀ (t : SolverState) (i : Nat),
      ((accumulateClosest inp t i).partIds, (accumulateClosest inp t i).myNonDoneCounts) =
        (t.partIds, t.myNonDoneCounts) := by
    intro t i
    unfold accumulateClosest
    dsimp only
    apply foldl_keep _ (fun u : SolverState => (u.partIds, u.myNonDoneCounts))
    intro u ii
    dsimp only
    split_ifs <;> rfl
  have h2 : ∀ (t : SolverState) (i : Nat),
      ((accumulateWeights inp t i).partIds, (accumulateWeights inp t i).myNonDoneCounts) =
        (t.partIds, t.myNonDoneCounts) := by
    intro t i
    unfold accumulateWeights
    dsimp only
    apply foldl_keep _ (fun u : SolverState => (u.partIds, u.myNonDoneCounts))
    intro u ii
    dsimp only
    split_ifs <;> rfl
  have h3 := foldl_keep (accumulateClosest inp)
    (fun u : SolverState => (u.partIds, u.myNonDoneCounts)) h1
    (List.range inp.concurrentPartCount) s
  have h4 := foldl_keep (accumulateWeights inp)
    (fun u : SolverState => (u.partIds, u.myNonDoneCounts)) h2
    (List.range inp.concurrentPartCount)
    ((List.range inp.concurrentPartCount).foldl (accumulateClosest inp) s)
  unfold accumulateThreadResults
  rw [Prod.mk.injEq] at h3 h4
  exact ⟨h4.1.trans h3.1, h4.2.trans h3.2⟩

theorem solvePart_partIds (it : Nat) (s : SolverState) (kk : Nat) :
    (solvePart inp it s kk).partIds = s.partIds := by
  unfold solvePart
  dsimp only
  by_cases h0 : s.myNonDoneCounts kk = 0
  · rw [if_pos h0]
  · rw [if_neg h0]

theorem solvePart_counts_zero (it : Nat) (s : SolverState) (kk k : Nat)
    (h : s.myNonDoneCounts k = 0) : (solvePart inp it s kk).myNonDoneCounts k = 0 := by
  unfold solvePart
  dsimp only
  by_cases h0 : s.myNonDoneCounts kk = 0
  · rw [if_pos h0]
    exact h
  · rw [if_neg h0]
    show Function.update _ _ _ _ = _
    rw [Function.update_noteq (by rintro rfl; exact h0 h)]
    exact h

theorem solve_fold_keep (it : Nat) (l : List Nat) (s : SolverState) :
    (l.foldl (solvePart inp it) s).partIds = s.partIds ∧
    ∀ k, s.myNonDoneCounts k = 0 → (l.foldl (solvePart inp it) s).myNonDoneCounts k = 0 := by
  induction l generalizing s with
  | nil => exact ⟨rfl, fun k h => h⟩
  | cons a l ih =>
    obtain ⟨h1, h2⟩ := ih (solvePart inp it s a)
    rw [List.foldl_cons]
    exact ⟨by rw [h1, solvePart_partIds], fun k h =>
      h2 k (solvePart_counts_zero inp it s a k h)⟩

/-- One iteration of the solver: a part whose bucket ids were valid, or that still has cuts
to find, has valid bucket ids after it. -/
theorem solverIteration_valid
    (hd : RangesDisjoint inp.partitionedPointPermutations inp.inTotalCounts
      (inp.currentPartBeginIndex + inp.concurrentPartCount))
    (it : Nat) (s : SolverState)
    (hinv : ∀ kk, kk < inp.concurrentPartCount →
      inp.pVector (inp.currentPartBeginIndex + kk) < 2 → s.myNonDoneCounts kk = 0) :
    (∀ kk, kk < inp.concurrentPartCount →
      inp.pVector (inp.currentPartBeginIndex + kk) < 2 →
      (solverIteration inp it s).myNonDoneCounts kk = 0) ∧
    ∀ kk, kk < inp.concurrentPartCount →
      (BucketsValid inp.partitionedPointPermutations inp.inTotalCounts inp.pVector s.partIds
          (inp.currentPartBeginIndex + kk) ∨ s.myNonDoneCounts kk > 0) →
      BucketsValid inp.partitionedPointPermutations inp.inTotalCounts inp.pVector
        (solverIteration inp it s).partIds (inp.currentPartBeginIndex + kk) := by
  obtain ⟨c1, c2⟩ := classify_fold_valid inp hd (List.range inp.concurrentPartCount)
    (fun a ha => List.mem_range.1 ha) s hinv
  obtain ⟨a1, a2⟩ := accumulateThreadResults_keep inp
    ((List.range inp.concurrentPartCount).foldl (classifyPart inp) s)
  obtain ⟨s1, s2⟩ := solve_fold_keep inp it (List.range inp.concurrentPartCount)
    (reduceAllRanks inp it (accumulateThreadResults inp
      ((List.range inp.concurrentPartCount).foldl (classifyPart inp) s)))
  have hp : (solverIteration inp it s).partIds =
      ((List.range inp.concurrentPartCount).foldl (classifyPart inp) s).partIds := by
    show (List.foldl (solvePart inp it) _ (List.range inp.concurrentPartCount)).partIds = _
    rw [s1]
    exact a1
  refine ⟨fun kk hkk hlt => ?_, fun kk hkk h => ?_⟩
  · show (List.foldl (solvePart inp it) _ (List.range inp.concurrentPartCount)).myNonDoneCounts kk = 0
    apply s2
    show (accumulateThreadResults inp _).myNonDoneCounts kk = 0
    rw [a2, c1]
    exact hinv kk hkk hlt
  · rw [hp]
    apply c2 kk hkk
    rcases h with h | h
    · exact Or.inl h
    · exact Or.inr ⟨List.mem_range.2 hkk, h⟩

/-- The loop of the solver: when it ends, a part whose bucket ids were valid, or that had
cuts to find when the loop was entered with `allDone` not 0, has valid bucket ids. -/
theorem solverLoop_valid
    (hd : RangesDisjoint inp.partitionedPointPermutations inp.inTotalCounts
      (inp.currentPartBeginIndex + inp.concurrentPartCount))
    (fuel it : Nat) (s s' : SolverState)
    (hinv : ∀ kk, kk < inp.concurrentPartCount →
      inp.pVector (inp.currentPartBeginIndex + kk) < 2 → s.myNonDoneCounts kk = 0)
    (hrun : solverLoop inp fuel it s = some s') :
    ∀ kk, kk < inp.concurrentPartCount →
      (BucketsValid inp.partitionedPointPermutations inp.inTotalCounts inp.pVector s.partIds
          (inp.currentPartBeginIndex + kk) ∨ (s.allDone ≠ 0 ∧ s.myNonDoneCounts kk > 0)) →
      BucketsValid inp.partitionedPointPermutations inp.inTotalCounts inp.pVector
        s'.partIds (inp.currentPartBeginIndex + kk) := by
  induction fuel generalizing it s with
  | zero =>
    intro kk hkk h
    unfold solverLoop at hrun
    split_ifs at hrun with h0
    injection hrun with hrun
    subst hrun
    rcases h with h | h
    · exact h
    · exact absurd h.1 h0
  | succ fuel ih =>
    intro kk hkk h
    unfold solverLoop at hrun
    split_ifs at hrun with h0
    · obtain ⟨i1, i2⟩ := solverIteration_valid inp hd (it + 1) s hinv
      apply ih (it + 1) (solverIteration inp (it + 1) s) i1 hrun kk hkk
      apply Or.inl
      apply i2 kk hkk
      rcases h with h | h
      · exact Or.inl h
      · exact Or.inr h.2
    · injection hrun with hrun
      subst hrun
      rcases h with h | h
      · exact h
      · exact absurd h.1 h0

theorem solverInit_keep (s : SolverState) :
    (solverInit inp s).partIds = s.partIds ∧
    (solverInit inp s).myNonDoneCounts = s.myNonDoneCounts ∧
    (solverInit inp s).allDone = s.allDone := by
  have h1 : ∀ (t : SolverState) (i : Nat),
      ((initBoundsPart inp t i).partIds, (initBoundsPart inp t i).myNonDoneCounts,
        (initBoundsPart inp t i).allDone) = (t.partIds, t.myNonDoneCounts, t.allDone) := by
    intro t i
    unfold initBoundsPart
    dsimp only
    apply foldl_keep _ (fun u : SolverState => (u.partIds, u.myNonDoneCounts, u.allDone))
    intro u ii
    rfl
  have h3 := foldl_keep (initBoundsPart inp)
    (fun u : SolverState => (u.partIds, u.myNonDoneCounts, u.allDone)) h1
    (List.range inp.concurrentPartCount) { s with swapped := false, recteLinearCutCount := 0 }
  unfold solverInit
  rw [Prod.mk.injEq, Prod.mk.injEq] at h3
  exact ⟨h3.1, h3.2.1, h3.2.2⟩

/-- The cut solver: when it returns, every part of the window that had cuts to find on
entry has valid bucket ids. -/
theorem pqJagged_1D_Partition_valid
    (hd : RangesDisjoint inp.partitionedPointPermutations inp.inTotalCounts
      (inp.currentPartBeginIndex + inp.concurrentPartCount))
    (fuel : Nat) (s s' : SolverState)
    (hinv : ∀ kk, kk < inp.concurrentPartCount →
      inp.pVector (inp.currentPartBeginIndex + kk) < 2 → s.myNonDoneCounts kk = 0)
    (hall : s.allDone ≠ 0)
    (hrun : pqJagged_1D_Partition inp fuel s = some s') :
    ∀ kk, kk < inp.concurrentPartCount → s.myNonDoneCounts kk > 0 →
      BucketsValid inp.partitionedPointPermutations inp.inTotalCounts inp.pVector
        s'.partIds (inp.currentPartBeginIndex + kk) := by
  intro kk hkk hc
  unfold pqJagged_1D_Partition at hrun
  obtain ⟨k1, k2, k3⟩ := solverInit_keep inp s
  cases hl : solverLoop inp fuel 0 (solverInit inp s) with
  | none => rw [hl] at hrun; simp at hrun
  | some t =>
    rw [hl] at hrun
    simp only [Option.map_some', Option.some.injEq] at hrun
    have hv := solverLoop_valid inp hd fuel 0 (solverInit inp s) t
      (by rw [k2]; exact hinv) hl kk hkk (Or.inr ⟨by rw [k3]; exact hall, by rw [k2]; exact hc⟩)
    have hp : s'.partIds = t.partIds := by
      rw [← hrun]
      unfold copyBack
      split_ifs <;> rfl
    rw [hp]
    exact hv

end SolverLemmas

/-! ## Lemmas on the level: end offsets of the children -/

section ChunkTotals

variable (eps : ℚ) (partNo : Nat) (perm : Nat → Nat) (uniform : Bool) (cw cc : Nat → ℚ)
  (b e : Nat) (allow : Bool) (ar lpw pw : Nat → ℚ) (mig : Bool) (s : ChunkState)

/-- The entries of `totalCounts` from `partNo` on are not written. -/
theorem getChunks_totalCounts_ge (j : Nat) (hj : partNo ≤ j) :
    (getChunksFromCoordinates eps partNo perm uniform cw cc b e allow ar lpw pw mig s).totalCounts j
      = s.totalCounts j := by
  unfold getChunksFromCoordinates
  simp only
  rw [scatter_fold_totalCounts, (offsetPartPointCounts_spec _ _).2.1,
    (prefixTotalCounts_spec _ _).1, if_neg (by omega), (threadPrefix_spec _ _).1,
    if_neg (by omega), assign_fold_totalCounts]
  unfold zeroPartPointCounts
  split_ifs <;> rfl

/-- The bucket id of a point outside the range is not written. -/
theorem getChunks_partIds_not_mem (i : Nat) (hi : i ∉ rangeIds perm b e) :
    (getChunksFromCoordinates eps partNo perm uniform cw cc b e allow ar lpw pw mig s).partIds i
      = s.partIds i := by
  rw [getChunks_partIds, assign_fold_partIds_not_mem _ _ _ _ _ _ _ _ _ hi]
  unfold zeroPartPointCounts
  split_ifs <;> rfl

/-- The end offsets `totalCounts[0 .. partNo)` that `getChunksFromCoordinates` leaves are
non-decreasing and the last is the number of points of the range. -/
theorem getChunks_totalCounts (hnd : (rangeIds perm b e).Nodup)
    (hrange : ∀ i ∈ rangeIds perm b e, s.partIds i ≤ 2 * (partNo - 1)) (hP : 1 ≤ partNo) :
    (∀ j k, j ≤ k → k < partNo →
      (getChunksFromCoordinates eps partNo perm uniform cw cc b e allow ar lpw pw mig
        s).totalCounts j ≤
      (getChunksFromCoordinates eps partNo perm uniform cw cc b e allow ar lpw pw mig
        s).totalCounts k) ∧
    (getChunksFromCoordinates eps partNo perm uniform cw cc b e allow ar lpw pw mig
      s).totalCounts (partNo - 1) = e - b := by
  have hrange' : ∀ i ∈ rangeIds perm b e, (s.partIds i : Int) ≤ 2 * ((partNo : Int) - 1) := by
    intro i hi
    have := hrange i hi
    omega
  have hbin := getChunks_bin_lt eps partNo perm uniform cw cc b e allow ar lpw pw mig s hnd hrange'
  obtain ⟨h1, _⟩ := getChunks_sorted eps partNo perm uniform cw cc b e allow ar lpw pw mig s hnd hbin
  refine ⟨fun j k hjk hk => ?_, ?_⟩
  · rw [h1 j (by omega), h1 k hk]
    exact cumul_mono _ (by omega)
  · rw [h1 (partNo - 1) (by omega), show partNo - 1 + 1 = partNo by omega, cumul_binCount,
      ← rangeIds_length perm b e, List.countP_eq_length]
    intro i hi
    simpa using hbin i hi

end ChunkTotals

section MinMaxLemmas

/-- The minimum that `pqJagged_getLocalMinMaxTotalCoord` finds in a range that is not empty
is at most the maximum. -/
theorem getLocalMinMaxTotalCoord_le (perm : Nat → Nat) (coords : Nat → ℚ) (uniform : Bool)
    (weights : Nat → ℚ) (b e : Nat) (maxS minS : ℚ) (h : b < e) :
    (pqJagged_getLocalMinMaxTotalCoord perm coords uniform weights b e maxS minS).1 ≤
      (pqJagged_getLocalMinMaxTotalCoord perm coords uniform weights b e maxS minS).2.1 := by
  unfold pqJagged_getLocalMinMaxTotalCoord
  rw [if_neg (by omega)]
  dsimp only
  have : ∀ (l : List Nat) (acc : ℚ × ℚ), acc.1 ≤ acc.2 →
      (l.foldl (fun (acc : ℚ × ℚ) i =>
        ((if coords i < acc.1 then coords i else acc.1),
         (if coords i > acc.2 then coords i else acc.2))) acc).1 ≤
      (l.foldl (fun (acc : ℚ × ℚ) i =>
        ((if coords i < acc.1 then coords i else acc.1),
         (if coords i > acc.2 then coords i else acc.2))) acc).2 := by
    intro l
    induction l with
    | nil => intro acc h; exact h
    | cons a l ih =>
      intro acc h
      rw [List.foldl_cons]
      apply ih
      dsimp only
      split_ifs <;> linarith
  exact this _ _ le_rfl

/-- The reduction of the minima and maxima only lowers a minimum and raises a maximum. -/
theorem getGlobalMinMaxTotalCoord_le (n : Nat) (others : List (Nat → ℚ))
    (loc glob : Nat → ℚ) (kk : Nat) (hkk : kk < n) :
    pqJagged_getGlobalMinMaxTotalCoord n others loc glob kk ≤ loc kk ∧
    loc (kk + n) ≤ pqJagged_getGlobalMinMaxTotalCoord n others loc glob (kk + n) := by
  have : ∀ (l : List (Nat → ℚ)) (acc : Nat → ℚ),
      (l.foldl (fun acc other => reduceMinMaxTotal n other acc) acc) kk ≤ acc kk ∧
      acc (kk + n) ≤ (l.foldl (fun acc other => reduceMinMaxTotal n other acc) acc) (kk + n) := by
    intro l
    induction l with
    | nil => intro acc; exact ⟨le_rfl, le_rfl⟩
    | cons a l ih =>
      intro acc
      rw [List.foldl_cons]
      obtain ⟨h1, h2⟩ := ih (reduceMinMaxTotal n a acc)
      constructor
      · refine h1.trans ?_
        unfold reduceMinMaxTotal
        rw [if_pos hkk]
        split_ifs <;> linarith
      · refine le_trans ?_ h2
        unfold reduceMinMaxTotal
        rw [if_neg (by omega), if_pos (by omega)]
        split_ifs <;> linarith
  unfold pqJagged_getGlobalMinMaxTotalCoord
  rw [if_pos (by omega), if_pos (by omega)]
  exact this others loc

end MinMaxLemmas

section WindowLemmas

variable (inp : LevelInput) (cw cp : Nat)

/-- The loop of lines 5183-5211: a part that is split further and is not empty gets a
local minimum at most its local maximum; when no part is counted, no part is split. -/
theorem localMinMax_fold (k : Nat) (hk : k ≤ cp) (acc0 : (Nat → ℚ) × Nat) :
    (∀ kk, kk < k → inp.pAlongI (cw + kk) ≠ 1 →
      partBegin inp.inTotalCounts (cw + kk) < inp.inTotalCounts (cw + kk) →
      ((List.range k).foldl (localMinMaxStep inp cw cp) acc0).1 kk ≤
        ((List.range k).foldl (localMinMaxStep inp cw cp) acc0).1 (kk + cp)) ∧
    (((List.range k).foldl (localMinMaxStep inp cw cp) acc0).2 = 0 →
      ∀ kk, kk < k → inp.pAlongI (cw + kk) = 1) := by
  induction k with
  | zero => exact ⟨fun kk h => absurd h (Nat.not_lt_zero _), fun _ kk h => absurd h (Nat.not_lt_zero _)⟩
  | succ k ih =>
    obtain ⟨h1, h2⟩ := ih (by omega)
    rw [List.range_succ, List.foldl_append, List.foldl_cons, List.foldl_nil]
    generalize (List.range k).foldl (localMinMaxStep inp cw cp) acc0 = acc at h1 h2
    by_cases hp : inp.pAlongI (cw + k) = 1
    · have hs : localMinMaxStep inp cw cp acc k = acc := by
        unfold localMinMaxStep
        dsimp only
        rw [if_pos hp]
      rw [hs]
      refine ⟨fun kk hkk hne hb => ?_, fun h0 kk hkk => ?_⟩
      · rcases Nat.lt_succ_iff_lt_or_eq.1 hkk with h | h
        · exact h1 kk h hne hb
        · subst h; exact absurd hp hne
      · rcases Nat.lt_succ_iff_lt_or_eq.1 hkk with h | h
        · exact h2 h0 kk h
        · subst h; exact hp
    · unfold localMinMaxStep
      dsimp only
      rw [if_neg hp]
      refine ⟨fun kk hkk hne hb => ?_, fun h0 => ?_⟩
      · dsimp only
        rcases Nat.lt_succ_iff_lt_or_eq.1 hkk with h | h
        · have e1 : kk ≠ k + 2 * cp := by omega
          have e2 : kk ≠ k + cp := by omega
          have e3 : kk ≠ k := by omega
          have e4 : kk + cp ≠ k + 2 * cp := by omega
          have e5 : kk + cp ≠ k + cp := by omega
          have e6 : kk + cp ≠ k := by omega
          rw [Function.update_noteq e1, Function.update_noteq e2, Function.update_noteq e3,
            Function.update_noteq e4, Function.update_noteq e5, Function.update_noteq e6]
          exact h1 kk h hne hb
        · subst h
          have e1 : kk ≠ kk + 2 * cp := by omega
          have e2 : kk ≠ kk + cp := by omega
          have e4 : kk + cp ≠ kk + 2 * cp := by omega
          rw [Function.update_noteq e1, Function.update_noteq e2, Function.update_same,
            Function.update_noteq e4, Function.update_same]
          exact getLocalMinMaxTotalCoord_le _ _ _ _ _ _ _ _ hb
      · dsimp only at h0
        omega

/-- What `prepareStep` writes for part `kk`: the count of cuts to find and `allDone`; the
global minima and maxima, `outTotalCounts`, `currentOut`, `previousEnd` and `cutBase`
stay. -/
theorem prepareStep_spec (acc : LevelState × PrepareCounters) (kk : Nat) :
    (prepareStep inp cw cp acc kk).1.globalMinMaxTotal = acc.1.globalMinMaxTotal ∧
    (prepareStep inp cw cp acc kk).1.outTotalCounts = acc.1.outTotalCounts ∧
    (prepareStep inp cw cp acc kk).1.currentOut = acc.1.currentOut ∧
    (prepareStep inp cw cp acc kk).1.previousEnd = acc.1.previousEnd ∧
    (prepareStep inp cw cp acc kk).1.cutBase = acc.1.cutBase ∧
    (prepareStep inp cw cp acc kk).1.sv.myNonDoneCounts =
      Function.update acc.1.sv.myNonDoneCounts kk
        (if inp.pAlongI (cw + kk) > 1 ∧
            acc.1.globalMinMaxTotal kk ≤ acc.1.globalMinMaxTotal (kk + cp)
          then (inp.pAlongI (cw + kk) : Int) - 1 else 0) ∧
    (prepareStep inp cw cp acc kk).2.allDone = acc.2.allDone +
        (if inp.pAlongI (cw + kk) > 1 ∧
            acc.1.globalMinMaxTotal kk ≤ acc.1.globalMinMaxTotal (kk + cp)
          then (inp.pAlongI (cw + kk) : Int) - 1 else 0) := by
  unfold prepareStep
  dsimp only
  by_cases h : inp.pAlongI (cw + kk) > 1 ∧
      acc.1.globalMinMaxTotal kk ≤ acc.1.globalMinMaxTotal (kk + cp)
  · rw [if_pos h, if_pos h]
    exact ⟨rfl, rfl, rfl, rfl, rfl, rfl, rfl⟩
  · rw [if_neg h, if_neg h]
    exact ⟨rfl, rfl, rfl, rfl, rfl, rfl, by simp⟩

/-- The loop of lines 5232-5293: a part that is split and not flagged empty has
`pAlongI - 1` cuts to find, the other parts none, and `allDone` is at least every count. -/
theorem prepare_fold (st0 : LevelState) (c0 : PrepareCounters) (hc0 : c0.allDone = 0)
    (k : Nat) :
    ((List.range k).foldl (prepareStep inp cw cp) (st0, c0)).1.globalMinMaxTotal =
      st0.globalMinMaxTotal ∧
    ((List.range k).foldl (prepareStep inp cw cp) (st0, c0)).1.outTotalCounts =
      st0.outTotalCounts ∧
    ((List.range k).foldl (prepareStep inp cw cp) (st0, c0)).1.currentOut = st0.currentOut ∧
    ((List.range k).foldl (prepareStep inp cw cp) (st0, c0)).1.previousEnd = st0.previousEnd ∧
    ((List.range k).foldl (prepareStep inp cw cp) (st0, c0)).1.cutBase = st0.cutBase ∧
    (∀ kk, kk < k →
      ((List.range k).foldl (prepareStep inp cw cp) (st0, c0)).1.sv.myNonDoneCounts kk =
        (if inp.pAlongI (cw + kk) > 1 ∧
            st0.globalMinMaxTotal kk ≤ st0.globalMinMaxTotal (kk + cp)
          then (inp.pAlongI (cw + kk) : Int) - 1 else 0)) ∧
    0 ≤ ((List.range k).foldl (prepareStep inp cw cp) (st0, c0)).2.allDone ∧
    (∀ kk, kk < k →
      ((List.range k).foldl (prepareStep inp cw cp) (st0, c0)).1.sv.myNonDoneCounts kk ≤
        ((List.range k).foldl (prepareStep inp cw cp) (st0, c0)).2.allDone) := by
  induction k with
  | zero =>
    refine ⟨rfl, rfl, rfl, rfl, rfl, fun kk h => absurd h (Nat.not_lt_zero _), ?_,
      fun kk h => absurd h (Nat.not_lt_zero _)⟩
    simp [hc0]
  | succ k ih =>
    obtain ⟨h1, h2, h3, h4, h5, h6, h7, h8⟩ := ih
    rw [List.range_succ, List.foldl_append, List.foldl_cons, List.foldl_nil]
    generalize (List.range k).foldl (prepareStep inp cw cp) (st0, c0) = acc at *
    obtain ⟨p1, p2, p3, p4, p5, p6, p7⟩ := prepareStep_spec inp cw cp acc k
    have hnn : (0 : Int) ≤ (if inp.pAlongI (cw + k) > 1 ∧
            acc.1.globalMinMaxTotal k ≤ acc.1.globalMinMaxTotal (k + cp)
          then (inp.pAlongI (cw + k) : Int) - 1 else 0) := by
      split_ifs with h
      · omega
      · exact le_rfl
    refine ⟨p1.trans h1, p2.trans h2, p3.trans h3, p4.trans h4, p5.trans h5,
      fun kk hkk => ?_, by rw [p7]; omega, fun kk hkk => ?_⟩
    · rw [p6]
      rcases Nat.lt_succ_iff_lt_or_eq.1 hkk with h | h
      · rw [Function.update_noteq (by omega)]
        exact h6 kk h
      · subst h
        rw [Function.update_same, h1]
    · rw [p6, p7]
      rcases Nat.lt_succ_iff_lt_or_eq.1 hkk with h | h
      · rw [Function.update_noteq (by omega)]
        have := h8 kk h
        omega
      · subst h
        rw [Function.update_same]
        omega

/-- The window after the cut solver: the end offsets are not touched, and a part that is
split further is either flagged empty, and then has no point, or has valid bucket ids. -/
theorem solveWindow_spec (st st1 : LevelState)
    (hp : ∀ kk, kk < cp → 1 ≤ inp.pAlongI (cw + kk))
    (hd : RangesDisjoint inp.partitionedPointCoordinates inp.inTotalCounts (cw + cp))
    (hrun : solveWindow inp cw cp st = some st1) :
    st1.outTotalCounts = st.outTotalCounts ∧ st1.currentOut = st.currentOut ∧
    st1.previousEnd = st.previousEnd ∧ st1.cutBase = st.cutBase ∧
    ∀ kk, kk < cp → inp.pAlongI (cw + kk) ≠ 1 →
      (st1.globalMinMaxTotal kk > st1.globalMinMaxTotal (kk + cp) →
        inp.inTotalCounts (cw + kk) ≤ partBegin inp.inTotalCounts (cw + kk)) ∧
      (¬ st1.globalMinMaxTotal kk > st1.globalMinMaxTotal (kk + cp) →
        BucketsValid inp.partitionedPointCoordinates inp.inTotalCounts inp.pAlongI
          st1.sv.partIds (cw + kk)) := by
  obtain ⟨l1, l2⟩ := localMinMax_fold inp cw cp cp le_rfl (st.localMinMaxTotal, 0)
  unfold solveWindow at hrun
  dsimp only at hrun
  by_cases hl : (localMinMaxWindow inp cw cp st).2 > 0
  · rw [if_pos hl] at hrun
    obtain ⟨h1, h2, h3, h4, h5, h6, h7, h8⟩ := prepare_fold inp cw cp
      { (localMinMaxWindow inp cw cp st).1 with globalMinMaxTotal :=
          (pqJagged_getGlobalMinMaxTotalCoord cp (inp.otherMinMaxTotal cw)
            (localMinMaxWindow inp cw cp st).1.localMinMaxTotal
            (localMinMaxWindow inp cw cp st).1.globalMinMaxTotal) }
      ⟨0, 0, 0⟩ rfl cp
    change (prepareWindow inp cw cp (localMinMaxWindow inp cw cp st).1).1.globalMinMaxTotal = _
      at h1
    change (prepareWindow inp cw cp (localMinMaxWindow inp cw cp st).1).1.outTotalCounts = _
      at h2
    change (prepareWindow inp cw cp (localMinMaxWindow inp cw cp st).1).1.currentOut = _ at h3
    change (prepareWindow inp cw cp (localMinMaxWindow inp cw cp st).1).1.previousEnd = _ at h4
    change (prepareWindow inp cw cp (localMinMaxWindow inp cw cp st).1).1.cutBase = _ at h5
    change ∀ kk, kk < cp →
      (prepareWindow inp cw cp (localMinMaxWindow inp cw cp st).1).1.sv.myNonDoneCounts kk = _
      at h6
    change 0 ≤ (prepareWindow inp cw cp (localMinMaxWindow inp cw cp st).1).2.allDone at h7
    change ∀ kk, kk < cp →
      (prepareWindow inp cw cp (localMinMaxWindow inp cw cp st).1).1.sv.myNonDoneCounts kk ≤
        (prepareWindow inp cw cp (localMinMaxWindow inp cw cp st).1).2.allDone at h8
    generalize prepareWindow inp cw cp (localMinMaxWindow inp cw cp st).1 = pr at *
    cases hs : pqJagged_1D_Partition (solverInput inp pr.1 cw cp) inp.fuel
        (solverEntry pr.1 pr.2.allDone) with
    | none => rw [hs] at hrun; simp at hrun
    | some sv =>
      rw [hs] at hrun
      simp only [Option.map_some', Option.some.injEq] at hrun
      subst hrun
      refine ⟨h2, h3, h4, h5, fun kk hkk hne => ⟨fun hflag => ?_, fun hflag => ?_⟩⟩
      · -- flagged empty: the local minimum is above the local maximum
        change pr.1.globalMinMaxTotal kk > pr.1.globalMinMaxTotal (kk + cp) at hflag
        rw [h1] at hflag
        dsimp only at hflag
        obtain ⟨g1, g2⟩ := getGlobalMinMaxTotalCoord_le cp (inp.otherMinMaxTotal cw)
          (localMinMaxWindow inp cw cp st).1.localMinMaxTotal
          (localMinMaxWindow inp cw cp st).1.globalMinMaxTotal kk hkk
        by_contra hne2
        have := l1 kk hkk hne (by omega)
        change (localMinMaxWindow inp cw cp st).1.localMinMaxTotal kk ≤
          (localMinMaxWindow inp cw cp st).1.localMinMaxTotal (kk + cp) at this
        linarith
      · change ¬ pr.1.globalMinMaxTotal kk > pr.1.globalMinMaxTotal (kk + cp) at hflag
        have hcond : inp.pAlongI (cw + kk) > 1 ∧
            pr.1.globalMinMaxTotal kk ≤ pr.1.globalMinMaxTotal (kk + cp) :=
          ⟨by have := hp kk hkk; omega, not_lt.1 hflag⟩
        have hcnt : pr.1.sv.myNonDoneCounts kk > 0 := by
          rw [h6 kk hkk]
          rw [h1] at hcond
          rw [if_pos hcond]
          omega
        have hvalid := pqJagged_1D_Partition_valid (solverInput inp pr.1 cw cp) hd inp.fuel
          (solverEntry pr.1 pr.2.allDone) sv
          (by
            intro k hk hlt
            change pr.1.sv.myNonDoneCounts k = 0
            rw [h6 k hk]
            rw [if_neg]
            intro hc
            change inp.pAlongI (cw + k) < 2 at hlt
            omega)
          (by
            change pr.2.allDone ≠ 0
            have := h8 kk hkk
            omega)
          hs kk hkk hcnt
        exact hvalid
  · rw [if_neg hl] at hrun
    simp only [Option.some.injEq] at hrun
    subst hrun
    refine ⟨rfl, rfl, rfl, rfl, fun kk hkk hne => ?_⟩
    exact absurd (l2 (by
      change (localMinMaxWindow inp cw cp st).2 = 0
      omega) kk hkk) hne

end WindowLemmas

section ReassignLemmas

variable (inp : LevelInput) (cw cp : Nat)

theorem zero_fold_apply (o : Nat → Nat) (base n x : Nat) :
    ((List.range n).foldl (fun o jj => Function.update o (base + jj) 0) o) x =
      if base ≤ x ∧ x < base + n then 0 else o x := by
  induction n with
  | zero => rw [if_neg (by omega)]; rfl
  | succ n ih =>
    rw [List.range_succ, List.foldl_append, List.foldl_cons, List.foldl_nil]
    by_cases hx : x = base + n
    · subst hx
      rw [Function.update_same, if_pos (by omega)]
    · rw [Function.update_noteq hx, ih]
      by_cases h : base ≤ x ∧ x < base + n
      · rw [if_pos h, if_pos (by omega)]
      · rw [if_neg h, if_neg (by omega)]

/-- What `reassignStep` writes for part `kk`, whose children start at
`currentOut + outShift`: their end offsets inside the part are non-decreasing and the last
is the number of points of the part; the other entries of `outTotalCounts` and the bucket
ids of the points of the other parts stay. -/
theorem reassignStep_spec (acc : LevelState × ReassignShifts) (kk : Nat)
    (hP : 1 ≤ inp.pAlongI (cw + kk))
    (hnd : (rangeIds inp.partitionedPointCoordinates (partBegin inp.inTotalCounts (cw + kk))
      (inp.inTotalCounts (cw + kk))).Nodup)
    (hok : inp.pAlongI (cw + kk) ≠ 1 →
      (acc.1.globalMinMaxTotal kk > acc.1.globalMinMaxTotal (kk + cp) →
        inp.inTotalCounts (cw + kk) ≤ partBegin inp.inTotalCounts (cw + kk)) ∧
      (¬ acc.1.globalMinMaxTotal kk > acc.1.globalMinMaxTotal (kk + cp) →
        BucketsValid inp.partitionedPointCoordinates inp.inTotalCounts inp.pAlongI
          acc.1.sv.partIds (cw + kk))) :
    (reassignStep inp cw cp acc kk).2.outShift = acc.2.outShift + inp.pAlongI (cw + kk) ∧
    (reassignStep inp cw cp acc kk).1.currentOut = acc.1.currentOut ∧
    (reassignStep inp cw cp acc kk).1.previousEnd = acc.1.previousEnd ∧
    (reassignStep inp cw cp acc kk).1.globalMinMaxTotal = acc.1.globalMinMaxTotal ∧
    (reassignStep inp cw cp acc kk).1.cutBase = acc.1.cutBase ∧
    (∀ x, (x < acc.1.currentOut + acc.2.outShift ∨
        acc.1.currentOut + acc.2.outShift + inp.pAlongI (cw + kk) ≤ x) →
      (reassignStep inp cw cp acc kk).1.outTotalCounts x = acc.1.outTotalCounts x) ∧
    (∀ i, i ∉ rangeIds inp.partitionedPointCoordinates (partBegin inp.inTotalCounts (cw + kk))
        (inp.inTotalCounts (cw + kk)) →
      (reassignStep inp cw cp acc kk).1.sv.partIds i = acc.1.sv.partIds i) ∧
    (∀ j j', j ≤ j' → j' < inp.pAlongI (cw + kk) →
      (reassignStep inp cw cp acc kk).1.outTotalCounts (acc.1.currentOut + acc.2.outShift + j) ≤
      (reassignStep inp cw cp acc kk).1.outTotalCounts
        (acc.1.currentOut + acc.2.outShift + j')) ∧
    (reassignStep inp cw cp acc kk).1.outTotalCounts
        (acc.1.currentOut + acc.2.outShift + inp.pAlongI (cw + kk) - 1) =
      inp.inTotalCounts (cw + kk) - partBegin inp.inTotalCounts (cw + kk) := by
  generalize hr : reassignStep inp cw cp acc kk = r
  unfold reassignStep at hr
  dsimp only at hr
  by_cases hflag : inp.pAlongI (cw + kk) ≠ 1 ∧
      acc.1.globalMinMaxTotal kk > acc.1.globalMinMaxTotal (kk + cp)
  · rw [if_pos hflag] at hr
    subst hr
    refine ⟨rfl, rfl, rfl, rfl, rfl, fun x hx => ?_, fun i _ => rfl, fun j j' hj hj' => ?_, ?_⟩
    · dsimp only
      rw [zero_fold_apply, if_neg (by omega)]
    · dsimp only
      rw [zero_fold_apply, zero_fold_apply, if_pos (by omega), if_pos (by omega)]
    · dsimp only
      rw [zero_fold_apply, if_pos (by omega)]
      have := (hok hflag.1).1 hflag.2
      omega
  · rw [if_neg hflag] at hr
    by_cases hgt : inp.pAlongI (cw + kk) > 1
    · rw [if_pos hgt] at hr
      subst hr
      have hvalid := (hok (by omega)).2 (fun h => hflag ⟨by omega, h⟩)
      obtain ⟨t1, t2⟩ := getChunks_totalCounts inp.eps (inp.pAlongI (cw + kk))
        inp.partitionedPointCoordinates inp.pqJagged_uniformWeights inp.pqJagged_weights
        (view acc.1.sv.cutCoordinates (acc.1.cutBase + acc.2.cutShift))
        (partBegin inp.inTotalCounts (cw + kk)) (inp.inTotalCounts (cw + kk))
        inp.allowNonRectelinearPart
        (view acc.1.sv.nonRectelinearPartRatios acc.2.cutShift)
        (view acc.1.sv.local_totalPartWeights_leftClosest_rightCloset acc.2.tlrShift)
        (view acc.1.sv.partWeights acc.2.pwShift) false
        { myRatios := acc.1.nonRectRatios
          myPartPointCounts := acc.1.partPointCounts
          totalCounts := view acc.1.outTotalCounts (acc.1.currentOut + acc.2.outShift)
          partIds := acc.1.sv.partIds
          newpartitionedPointPermutations := acc.1.newpartitionedPointCoordinates }
        hnd hvalid hP
      refine ⟨rfl, rfl, rfl, rfl, rfl, fun x hx => ?_, fun i hi => ?_, fun j j' hj hj' => ?_, ?_⟩
      · dsimp only
        unfold unview
        rcases hx with hx | hx
        · rw [if_neg (by omega)]
        · rw [if_pos (by omega), getChunks_totalCounts_ge _ _ _ _ _ _ _ _ _ _ _ _ _ _ _ (by omega)]
          show view _ _ _ = _
          unfold view
          rw [show acc.1.currentOut + acc.2.outShift + (x - (acc.1.currentOut + acc.2.outShift))
            = x by omega]
      · exact getChunks_partIds_not_mem _ _ _ _ _ _ _ _ _ _ _ _ _ _ i hi
      · dsimp only
        unfold unview
        rw [if_pos (by omega), if_pos (by omega),
          show acc.1.currentOut + acc.2.outShift + j - (acc.1.currentOut + acc.2.outShift) = j
            by omega,
          show acc.1.currentOut + acc.2.outShift + j' - (acc.1.currentOut + acc.2.outShift) = j'
            by omega]
        exact t1 j j' hj hj'
      · dsimp only
        unfold unview
        rw [if_pos (by omega),
          show acc.1.currentOut + acc.2.outShift + inp.pAlongI (cw + kk) - 1 -
            (acc.1.currentOut + acc.2.outShift) = inp.pAlongI (cw + kk) - 1 by omega]
        exact t2
    · rw [if_neg hgt] at hr
      subst hr
      have h1 : inp.pAlongI (cw + kk) = 1 := by omega
      refine ⟨rfl, rfl, rfl, rfl, rfl, fun x hx => ?_, fun i _ => rfl, fun j j' hj hj' => ?_, ?_⟩
      · dsimp only
        rw [Function.update_noteq (by omega)]
      · have hj0 : j = 0 := by omega
        have hj0' : j' = 0 := by omega
        subst hj0 hj0'
        exact le_rfl
      · dsimp only
        rw [h1, show acc.1.currentOut + acc.2.outShift + 1 - 1 =
          acc.1.currentOut + acc.2.outShift by omega, Function.update_same]

theorem childOffset_succ (p : Nat → Nat) (q : Nat) :
    childOffset p (q + 1) = childOffset p q + p q := by
  unfold childOffset
  rw [List.range_succ, List.map_append, List.sum_append]
  simp

theorem childOffset_mono (p : Nat → Nat) {a b : Nat} (h : a ≤ b) :
    childOffset p a ≤ childOffset p b := by
  induction b with
  | zero =>
    have : a = 0 := by omega
    subst this
    exact le_rfl
  | succ b ih =>
    rcases Nat.eq_or_lt_of_le h with h1 | h1
    · subst h1; exact le_rfl
    · have := ih (by omega)
      rw [childOffset_succ]
      omega

theorem partBegin_succ (inTotalCounts : Nat → Nat) (q : Nat) :
    partBegin inTotalCounts (q + 1) = inTotalCounts q := by
  unfold partBegin
  rw [if_neg (by omega), Nat.add_sub_cancel]

/-- The loop of lines 5429-5506 over the parts of the window: the children of every part
get end offsets inside the part that are non-decreasing and end at the size of the part;
the entries of `outTotalCounts` outside the window stay. -/
theorem reassign_fold (st1 : LevelState)
    (hco : st1.currentOut = childOffset inp.pAlongI cw)
    (hp : ∀ kk, kk < cp → 1 ≤ inp.pAlongI (cw + kk))
    (hnd : ∀ kk, kk < cp →
      (rangeIds inp.partitionedPointCoordinates (partBegin inp.inTotalCounts (cw + kk))
        (inp.inTotalCounts (cw + kk))).Nodup)
    (hd : RangesDisjoint inp.partitionedPointCoordinates inp.inTotalCounts (cw + cp))
    (hok : ∀ kk, kk < cp → inp.pAlongI (cw + kk) ≠ 1 →
      (st1.globalMinMaxTotal kk > st1.globalMinMaxTotal (kk + cp) →
        inp.inTotalCounts (cw + kk) ≤ partBegin inp.inTotalCounts (cw + kk)) ∧
      (¬ st1.globalMinMaxTotal kk > st1.globalMinMaxTotal (kk + cp) →
        BucketsValid inp.partitionedPointCoordinates inp.inTotalCounts inp.pAlongI
          st1.sv.partIds (cw + kk)))
    (k : Nat) (hk : k ≤ cp) :
    ((List.range k).foldl (reassignStep inp cw cp) (st1, ⟨0, 0, 0, 0⟩)).1.currentOut =
      st1.currentOut ∧
    ((List.range k).foldl (reassignStep inp cw cp) (st1, ⟨0, 0, 0, 0⟩)).1.previousEnd =
      st1.previousEnd ∧
    ((List.range k).foldl (reassignStep inp cw cp) (st1, ⟨0, 0, 0, 0⟩)).1.globalMinMaxTotal =
      st1.globalMinMaxTotal ∧
    ((List.range k).foldl (reassignStep inp cw cp) (st1, ⟨0, 0, 0, 0⟩)).1.currentOut +
      ((List.range k).foldl (reassignStep inp cw cp) (st1, ⟨0, 0, 0, 0⟩)).2.outShift =
      childOffset inp.pAlongI (cw + k) ∧
    (∀ x, (x < childOffset inp.pAlongI cw ∨ childOffset inp.pAlongI (cw + k) ≤ x) →
      ((List.range k).foldl (reassignStep inp cw cp) (st1, ⟨0, 0, 0, 0⟩)).1.outTotalCounts x =
        st1.outTotalCounts x) ∧
    (∀ i, (∀ kk, kk < k → i ∉ rangeIds inp.partitionedPointCoordinates
        (partBegin inp.inTotalCounts (cw + kk)) (inp.inTotalCounts (cw + kk))) →
      ((List.range k).foldl (reassignStep inp cw cp) (st1, ⟨0, 0, 0, 0⟩)).1.sv.partIds i =
        st1.sv.partIds i) ∧
    (∀ kk, kk < k → ChildrenCount inp.pAlongI inp.inTotalCounts
      ((List.range k).foldl (reassignStep inp cw cp) (st1, ⟨0, 0, 0, 0⟩)).1.outTotalCounts
      (cw + kk)) := by
  induction k with
  | zero =>
    refine ⟨rfl, rfl, rfl, ?_, fun x _ => rfl, fun i _ => rfl,
      fun kk h => absurd h (Nat.not_lt_zero _)⟩
    exact hco
  | succ k ih =>
    obtain ⟨h1, h2, h3, h4, h5, h6, h7⟩ := ih (by omega)
    rw [List.range_succ, List.foldl_append, List.foldl_cons, List.foldl_nil]
    generalize (List.range k).foldl (reassignStep inp cw cp) (st1, ⟨0, 0, 0, 0⟩) = acc at *
    have hkc : k < cp := by omega
    have hok1 : inp.pAlongI (cw + k) ≠ 1 →
        (acc.1.globalMinMaxTotal k > acc.1.globalMinMaxTotal (k + cp) →
          inp.inTotalCounts (cw + k) ≤ partBegin inp.inTotalCounts (cw + k)) ∧
        (¬ acc.1.globalMinMaxTotal k > acc.1.globalMinMaxTotal (k + cp) →
          BucketsValid inp.partitionedPointCoordinates inp.inTotalCounts inp.pAlongI
            acc.1.sv.partIds (cw + k)) := by
      intro hne
      rw [h3]
      refine ⟨(hok k hkc hne).1, fun hf i hi => ?_⟩
      rw [h6 i (fun kk hkk => hd (cw + k) (cw + kk) (by omega) (by omega) (by omega) i hi)]
      exact (hok k hkc hne).2 hf i hi
    obtain ⟨s1, s2, s3, s4, _, s6, s7, s8, s9⟩ :=
      reassignStep_spec inp cw cp acc k (hp k hkc) (hnd k hkc) hok1
    rw [h4] at s6 s8 s9
    have hm1 : childOffset inp.pAlongI cw ≤ childOffset inp.pAlongI (cw + k) :=
      childOffset_mono _ (by omega)
    have hsucc : childOffset inp.pAlongI (cw + (k + 1)) =
        childOffset inp.pAlongI (cw + k) + inp.pAlongI (cw + k) := childOffset_succ _ _
    refine ⟨s2.trans h1, s3.trans h2, s4.trans h3, ?_, fun x hx => ?_, fun i hi => ?_,
      fun kk hkk => ?_⟩
    · rw [s2, s1, hsucc]
      omega
    · rw [s6 x (by omega)]
      exact h5 x (by omega)
    · rw [s7 i (hi k (by omega))]
      exact h6 i (fun kk hkk => hi kk (by omega))
    · rcases Nat.lt_succ_iff_lt_or_eq.1 hkk with h | h
      · obtain ⟨c1, c2⟩ := h7 kk h
        have hm2 : childOffset inp.pAlongI (cw + kk) + inp.pAlongI (cw + kk) ≤
            childOffset inp.pAlongI (cw + k) := by
          rw [← childOffset_succ]
          exact childOffset_mono _ (by omega)
        have hpk := hp kk (by omega)
        refine ⟨fun j j' hj hj' => ?_, ?_⟩
        · rw [s6 _ (by omega), s6 _ (by omega)]
          exact c1 j j' hj hj'
        · rw [s6 _ (by omega)]
          exact c2
      · subst h
        exact ⟨s8, s9⟩

theorem shift_fold_apply (o : Nat → Nat) (base pe n x : Nat) :
    ((List.range n).foldl
      (fun o ii => Function.update o (base + ii) (o (base + ii) + pe)) o) x =
      if base ≤ x ∧ x < base + n then o x + pe else o x := by
  induction n generalizing x with
  | zero => rw [if_neg (by omega)]; rfl
  | succ n ih =>
    rw [List.range_succ, List.foldl_append, List.foldl_cons, List.foldl_nil]
    by_cases hx : x = base + n
    · subst hx
      rw [Function.update_same, if_pos (by omega), ih, if_neg (by omega)]
    · rw [Function.update_noteq hx, ih]
      by_cases h : base ≤ x ∧ x < base + n
      · rw [if_pos h, if_pos (by omega)]
      · rw [if_neg h, if_neg (by omega)]

/-- The loop of lines 5514-5532 over the parts of the window: the end offsets inside the
parts become end offsets in the buffer, so that the children of every part tile it. -/
theorem shift_fold (st2 : LevelState)
    (hco : st2.currentOut = childOffset inp.pAlongI cw)
    (hpe : st2.previousEnd = partBegin inp.inTotalCounts cw)
    (hp : ∀ kk, kk < cp → 1 ≤ inp.pAlongI (cw + kk))
    (hin : ∀ kk, kk < cp →
      partBegin inp.inTotalCounts (cw + kk) ≤ inp.inTotalCounts (cw + kk))
    (hrel : ∀ kk, kk < cp →
      ChildrenCount inp.pAlongI inp.inTotalCounts st2.outTotalCounts (cw + kk))
    (k : Nat) (hk : k ≤ cp) :
    ((List.range k).foldl (shiftStep inp cw) st2).currentOut =
      childOffset inp.pAlongI (cw + k) ∧
    ((List.range k).foldl (shiftStep inp cw) st2).previousEnd =
      partBegin inp.inTotalCounts (cw + k) ∧
    (∀ x, (x < childOffset inp.pAlongI cw ∨ childOffset inp.pAlongI (cw + k) ≤ x) →
      ((List.range k).foldl (shiftStep inp cw) st2).outTotalCounts x = st2.outTotalCounts x) ∧
    (∀ kk, kk < k → ChildrenTile inp.pAlongI inp.inTotalCounts
      ((List.range k).foldl (shiftStep inp cw) st2).outTotalCounts (cw + kk)) := by
  induction k with
  | zero =>
    exact ⟨hco, hpe, fun x _ => rfl, fun kk h => absurd h (Nat.not_lt_zero _)⟩
  | succ k ih =>
    obtain ⟨h1, h2, h3, h4⟩ := ih (by omega)
    rw [List.range_succ, List.foldl_append, List.foldl_cons, List.foldl_nil]
    generalize (List.range k).foldl (shiftStep inp cw) st2 = acc at *
    have hkc : k < cp := by omega
    have hpk := hp k hkc
    have hm1 : childOffset inp.pAlongI cw ≤ childOffset inp.pAlongI (cw + k) :=
      childOffset_mono _ (by omega)
    have hsucc : childOffset inp.pAlongI (cw + (k + 1)) =
        childOffset inp.pAlongI (cw + k) + inp.pAlongI (cw + k) := childOffset_succ _ _
    have hout : ∀ x, (shiftStep inp cw acc k).outTotalCounts x =
        if childOffset inp.pAlongI (cw + k) ≤ x ∧
            x < childOffset inp.pAlongI (cw + k) + inp.pAlongI (cw + k)
          then acc.outTotalCounts x + partBegin inp.inTotalCounts (cw + k)
          else acc.outTotalCounts x := by
      intro x
      unfold shiftStep
      dsimp only
      rw [shift_fold_apply, h1, h2]
    obtain ⟨r1, r2⟩ := hrel k hkc
    have hlast : (shiftStep inp cw acc k).outTotalCounts
        (childOffset inp.pAlongI (cw + k) + inp.pAlongI (cw + k) - 1) =
        inp.inTotalCounts (cw + k) := by
      rw [hout, if_pos (by omega), h3 _ (Or.inr (by omega)), r2]
      have := hin k hkc
      omega
    refine ⟨?_, ?_, fun x hx => ?_, fun kk hkk => ?_⟩
    · show acc.currentOut + inp.pAlongI (cw + k) = _
      rw [h1, hsucc]
    · show (shiftStep inp cw acc k).outTotalCounts (acc.currentOut + inp.pAlongI (cw + k) - 1)
        = _
      rw [h1, hlast]
      exact (partBegin_succ _ _).symm
    · rw [hout, if_neg (by omega)]
      exact h3 x (by omega)
    · rcases Nat.lt_succ_iff_lt_or_eq.1 hkk with h | h
      · obtain ⟨c1, c2, c3⟩ := h4 kk h
        have hm2 : childOffset inp.pAlongI (cw + kk) + inp.pAlongI (cw + kk) ≤
            childOffset inp.pAlongI (cw + k) := by
          rw [← childOffset_succ]
          exact childOffset_mono _ (by omega)
        have hpkk := hp kk (by omega)
        refine ⟨fun j hj => ?_, fun j j' hj hj' => ?_, ?_⟩
        · rw [hout, if_neg (by omega)]
          exact c1 j hj
        · rw [hout, hout, if_neg (by omega), if_neg (by omega)]
          exact c2 j j' hj hj'
        · rw [hout, if_neg (by omega)]
          exact c3
      · subst h
        refine ⟨fun j hj => ?_, fun j j' hj hj' => ?_, hlast⟩
        · rw [hout, if_pos (by omega)]
          omega
        · rw [hout, hout, if_pos (by omega), if_pos (by omega),
            h3 _ (Or.inr (by omega)), h3 _ (Or.inr (by omega))]
          have := r1 j j' hj hj'
          omega

end ReassignLemmas

section LevelLemmas

variable (inp : LevelInput)

/-- In a buffer that holds pairwise distinct point ids, the range of every part holds
distinct ids and the ranges of different parts hold different ids. -/
theorem ranges_of_distinct (perm : Nat → Nat) (inTotalCounts : Nat → Nat) (n : Nat)
    (hin : ∀ q q', q ≤ q' → q' < n → inTotalCounts q ≤ inTotalCounts q')
    (hperm : ∀ x y, x < y → y < inTotalCounts (n - 1) → perm x ≠ perm y) :
    (∀ q, q < n →
      (rangeIds perm (partBegin inTotalCounts q) (inTotalCounts q)).Nodup) ∧
    RangesDisjoint perm inTotalCounts n := by
  have hmem : ∀ q, q < n → ∀ i, i ∈ rangeIds perm (partBegin inTotalCounts q) (inTotalCounts q) →
      ∃ x, partBegin inTotalCounts q ≤ x ∧ x < inTotalCounts q ∧ perm x = i := by
    intro q _ i hi
    unfold rangeIds at hi
    obtain ⟨x, hx, hxi⟩ := List.mem_map.1 hi
    rw [List.mem_range'_1] at hx
    exact ⟨x, hx.1, by omega, hxi⟩
  have hend : ∀ q, q < n → inTotalCounts q ≤ inTotalCounts (n - 1) :=
    fun q hq => hin q (n - 1) (by omega) (by omega)
  have hlt : ∀ q q', q < q' → q' < n → inTotalCounts q ≤ partBegin inTotalCounts q' := by
    intro q q' h h'
    unfold partBegin
    rw [if_neg (by omega)]
    exact hin q (q' - 1) (by omega) (by omega)
  constructor
  · intro q hq
    unfold rangeIds
    apply List.Nodup.map_on _ (List.nodup_range' _ _)
    intro x hx y hy hxy
    rw [List.mem_range'_1] at hx hy
    have := hend q hq
    by_contra hne
    rcases Nat.lt_or_gt_of_ne hne with h | h
    · exact hperm x y h (by omega) hxy
    · exact hperm y x h (by omega) hxy.symm
  · intro q q' hq hq' hne i hi hi'
    obtain ⟨x, x1, x2, x3⟩ := hmem q hq i hi
    obtain ⟨y, y1, y2, y3⟩ := hmem q' hq' i hi'
    have e1 := hend q hq
    have e2 := hend q' hq'
    rcases Nat.lt_or_gt_of_ne hne with h | h
    · have := hlt q q' h hq'
      exact hperm x y (by omega) (by omega) (x3.trans y3.symm)
    · have := hlt q' q h hq
      exact hperm y x (by omega) (by omega) (y3.trans x3.symm)

/-- One window of the level: when the children of the parts before the window tile their
parts, so do the children of the parts of the window after it. -/
theorem levelWindow_spec (cw : Nat) (st st' : LevelState)
    (hcw : cw ≤ inp.currentPartitionCount)
    (hco : st.currentOut = childOffset inp.pAlongI cw)
    (hpe : st.previousEnd = partBegin inp.inTotalCounts cw)
    (hp : ∀ q, q < inp.currentPartitionCount → 1 ≤ inp.pAlongI q)
    (hin : ∀ q, q < inp.currentPartitionCount →
      partBegin inp.inTotalCounts q ≤ inp.inTotalCounts q)
    (hnd : ∀ q, q < inp.currentPartitionCount →
      (rangeIds inp.partitionedPointCoordinates (partBegin inp.inTotalCounts q)
        (inp.inTotalCounts q)).Nodup)
    (hd : RangesDisjoint inp.partitionedPointCoordinates inp.inTotalCounts
      inp.currentPartitionCount)
    (hrun : levelWindow inp cw st = some st') :
    st'.currentOut = childOffset inp.pAlongI
      (cw + min (inp.currentPartitionCount - cw) inp.concurrentPartCount) ∧
    st'.previousEnd = partBegin inp.inTotalCounts
      (cw + min (inp.currentPartitionCount - cw) inp.concurrentPartCount) ∧
    (∀ x, x < childOffset inp.pAlongI cw → st'.outTotalCounts x = st.outTotalCounts x) ∧
    (∀ kk, kk < min (inp.currentPartitionCount - cw) inp.concurrentPartCount →
      ChildrenTile inp.pAlongI inp.inTotalCounts st'.outTotalCounts (cw + kk)) := by
  unfold levelWindow at hrun
  dsimp only at hrun
  generalize hcp : min (inp.currentPartitionCount - cw) inp.concurrentPartCount = cp at *
  have hcple : cw + cp ≤ inp.currentPartitionCount := by omega
  cases hs : solveWindow inp cw cp st with
  | none => rw [hs] at hrun; simp at hrun
  | some st1 =>
    rw [hs] at hrun
    simp only [Option.map_some', Option.some.injEq] at hrun
    have hd' : RangesDisjoint inp.partitionedPointCoordinates inp.inTotalCounts (cw + cp) :=
      fun q q' hq hq' => hd q q' (by omega) (by omega)
    obtain ⟨w1, w2, w3, _, w5⟩ := solveWindow_spec inp cw cp st st1
      (fun kk hkk => hp _ (by omega)) hd' hs
    obtain ⟨r1, r2, _, _, r5, _, r7⟩ := reassign_fold inp cw cp st1 (w2.trans hco)
      (fun kk hkk => hp _ (by omega)) (fun kk hkk => hnd _ (by omega)) hd' w5 cp le_rfl
    generalize (List.range cp).foldl (reassignStep inp cw cp) (st1, ⟨0, 0, 0, 0⟩) = re at *
    obtain ⟨f1, f2, f3, f4⟩ := shift_fold inp cw cp
      { re.1 with cutBase := re.1.cutBase + re.2.cutShift }
      (r1.trans (w2.trans hco)) (r2.trans (w3.trans hpe))
      (fun kk hkk => hp _ (by omega)) (fun kk hkk => hin _ (by omega)) r7 cp le_rfl
    rw [← hrun]
    refine ⟨f1, f2, fun x hx => ?_, f4⟩
    rw [f3 x (Or.inl hx)]
    show re.1.outTotalCounts x = _
    rw [r5 x (Or.inl hx), w1]

/-- The loop over the windows: after `n` windows the children of the parts of these
windows tile their parts. -/
theorem levelLoop_fold (hC : 1 ≤ inp.concurrentPartCount)
    (hp : ∀ q, q < inp.currentPartitionCount → 1 ≤ inp.pAlongI q)
    (hin : ∀ q, q < inp.currentPartitionCount →
      partBegin inp.inTotalCounts q ≤ inp.inTotalCounts q)
    (hnd : ∀ q, q < inp.currentPartitionCount →
      (rangeIds inp.partitionedPointCoordinates (partBegin inp.inTotalCounts q)
        (inp.inTotalCounts q)).Nodup)
    (hd : RangesDisjoint inp.partitionedPointCoordinates inp.inTotalCounts
      inp.currentPartitionCount)
    (st0 : LevelState) (hco0 : st0.currentOut = 0) (hpe0 : st0.previousEnd = 0)
    (n : Nat)
    (hn : n ≤ (inp.currentPartitionCount + inp.concurrentPartCount - 1) /
      inp.concurrentPartCount)
    (st' : LevelState)
    (hrun : (((List.range n).map (fun w => w * inp.concurrentPartCount)).foldl
      (fun (acc : Option LevelState) w => acc.bind (levelWindow inp w)) (some st0)) =
      some st') :
    st'.currentOut = childOffset inp.pAlongI
      (min (n * inp.concurrentPartCount) inp.currentPartitionCount) ∧
    st'.previousEnd = partBegin inp.inTotalCounts
      (min (n * inp.concurrentPartCount) inp.currentPartitionCount) ∧
    (∀ q, q < min (n * inp.concurrentPartCount) inp.currentPartitionCount →
      ChildrenTile inp.pAlongI inp.inTotalCounts st'.outTotalCounts q) := by
  induction n generalizing st' with
  | zero =>
    simp only [List.range_zero, List.map_nil, List.foldl_nil, Option.some.injEq] at hrun
    subst hrun
    rw [Nat.zero_mul, Nat.zero_min]
    exact ⟨hco0, hpe0, fun q h => absurd h (Nat.not_lt_zero _)⟩
  | succ n ih =>
    rw [List.range_succ, List.map_append, List.foldl_append, List.map_cons, List.map_nil,
      List.foldl_cons, List.foldl_nil] at hrun
    have hlt : n * inp.concurrentPartCount < inp.currentPartitionCount := by
      have h1 := (Nat.le_div_iff_mul_le (by omega)).1 hn
      rw [Nat.succ_mul] at h1
      omega
    cases hprev : ((List.range n).map (fun w => w * inp.concurrentPartCount)).foldl
        (fun (acc : Option LevelState) w => acc.bind (levelWindow inp w)) (some st0) with
    | none => rw [hprev] at hrun; simp at hrun
    | some st =>
      rw [hprev] at hrun
      simp only [Option.some_bind] at hrun
      obtain ⟨i1, i2, i3⟩ := ih (by omega) st hprev
      rw [Nat.min_eq_left (by omega)] at i1 i2 i3
      obtain ⟨l1, l2, l3, l4⟩ := levelWindow_spec inp (n * inp.concurrentPartCount) st st'
        (by omega) i1 i2 hp hin hnd hd hrun
      have hmin : n * inp.concurrentPartCount +
          min (inp.currentPartitionCount - n * inp.concurrentPartCount)
            inp.concurrentPartCount =
          min ((n + 1) * inp.concurrentPartCount) inp.currentPartitionCount := by
        rw [Nat.succ_mul]
        omega
      rw [hmin] at l1 l2
      refine ⟨l1, l2, fun q hq => ?_⟩
      by_cases hqw : q < n * inp.concurrentPartCount
      · obtain ⟨c1, c2, c3⟩ := i3 q hqw
        have hm2 : childOffset inp.pAlongI q + inp.pAlongI q ≤
            childOffset inp.pAlongI (n * inp.concurrentPartCount) := by
          rw [← childOffset_succ]
          exact childOffset_mono _ (by omega)
        have hpq := hp q (by omega)
        refine ⟨fun j hj => ?_, fun j j' hj hj' => ?_, ?_⟩
        · rw [l3 _ (by omega)]
          exact c1 j hj
        · rw [l3 _ (by omega), l3 _ (by omega)]
          exact c2 j j' hj hj'
        · rw [l3 _ (by omega)]
          exact c3
      · have := l4 (q - n * inp.concurrentPartCount) (by
          rw [← hmin] at hq
          omega)
        rw [show n * inp.concurrentPartCount + (q - n * inp.concurrentPartCount) = q
          by omega] at this
        exact this

/-- Every entry below `childOffset p n` is the entry of a child of a part below `n`. -/
theorem childOffset_cover (p : Nat → Nat) (n x : Nat) (hx : x < childOffset p n) :
    ∃ q j, q < n ∧ j < p q ∧ x = childOffset p q + j := by
  induction n with
  | zero => exact absurd hx (Nat.not_lt_zero _)
  | succ n ih =>
    rw [childOffset_succ] at hx
    by_cases h : x < childOffset p n
    · obtain ⟨q, j, h1, h2, h3⟩ := ih h
      exact ⟨q, j, by omega, h2, h3⟩
    · exact ⟨n, x - childOffset p n, by omega, by omega, by omega⟩

end LevelLemmas

/-! ## Claim on the level -/

/-- C3: at the end of a level of `AlgPQJagged` (migration not compiled, every call of the
cut solver returning), given that `inTotalCounts` is non-decreasing and ends at
`numLocalCoords`, that every parent has at least one child and that the permutation buffer
holds pairwise distinct point ids: `outTotalCounts` is non-decreasing over the children of
all parents, the last child of every parent ends at the end offset of the parent, the last
entry is `numLocalCoords`, the end offset of every child lies between the begin and the end
of its parent, and all children of a parent without points end at the end of the parent. -/
theorem levelLoop_children_tile (inp : LevelInput) (st st' : LevelState)
    (numLocalCoords : Nat)
    (hC : 1 ≤ inp.concurrentPartCount)
    (hcount : 1 ≤ inp.currentPartitionCount)
    (hp : ∀ q, q < inp.currentPartitionCount → 1 ≤ inp.pAlongI q)
    (hin : ∀ q q', q ≤ q' → q' < inp.currentPartitionCount →
      inp.inTotalCounts q ≤ inp.inTotalCounts q')
    (hlast : inp.inTotalCounts (inp.currentPartitionCount - 1) = numLocalCoords)
    (hperm : ∀ x y, x < y → y < numLocalCoords →
      inp.partitionedPointCoordinates x ≠ inp.partitionedPointCoordinates y)
    (hrun : levelLoop inp st = some st') :
    (∀ x y, x ≤ y → y < childOffset inp.pAlongI inp.currentPartitionCount →
      st'.outTotalCounts x ≤ st'.outTotalCounts y) ∧
    (∀ q, q < inp.currentPartitionCount →
      st'.outTotalCounts (childOffset inp.pAlongI q + inp.pAlongI q - 1) =
        inp.inTotalCounts q) ∧
    st'.outTotalCounts (childOffset inp.pAlongI inp.currentPartitionCount - 1) =
      numLocalCoords ∧
    (∀ q, q < inp.currentPartitionCount → ∀ j, j < inp.pAlongI q →
      partBegin inp.inTotalCounts q ≤ st'.outTotalCounts (childOffset inp.pAlongI q + j) ∧
      st'.outTotalCounts (childOffset inp.pAlongI q + j) ≤ inp.inTotalCounts q) ∧
    (∀ q, q < inp.currentPartitionCount →
      inp.inTotalCounts q = partBegin inp.inTotalCounts q → ∀ j, j < inp.pAlongI q →
      st'.outTotalCounts (childOffset inp.pAlongI q + j) = inp.inTotalCounts q) := by
  obtain ⟨hnd, hd⟩ := ranges_of_distinct inp.partitionedPointCoordinates inp.inTotalCounts
    inp.currentPartitionCount hin (by rw [hlast]; exact hperm)
  have hbe : ∀ q, q < inp.currentPartitionCount →
      partBegin inp.inTotalCounts q ≤ inp.inTotalCounts q := by
    intro q hq
    unfold partBegin
    split_ifs
    · exact Nat.zero_le _
    · exact hin (q - 1) q (by omega) hq
  have hlt : ∀ q q', q < q' → q' < inp.currentPartitionCount →
      inp.inTotalCounts q ≤ partBegin inp.inTotalCounts q' := by
    intro q q' h h'
    unfold partBegin
    rw [if_neg (by omega)]
    exact hin q (q' - 1) (by omega) (by omega)
  unfold levelLoop windowStarts at hrun
  obtain ⟨_, _, htile⟩ := levelLoop_fold inp hC hp hbe hnd hd
    { st with currentOut := 0, previousEnd := 0 } rfl rfl _ le_rfl st' hrun
  have hcover : inp.currentPartitionCount ≤
      (inp.currentPartitionCount + inp.concurrentPartCount - 1) / inp.concurrentPartCount *
        inp.concurrentPartCount := by
    have := Nat.lt_mul_div_succ (inp.currentPartitionCount + inp.concurrentPartCount - 1)
      (show 0 < inp.concurrentPartCount by omega)
    rw [Nat.mul_add, Nat.mul_one, Nat.mul_comm] at this
    omega
  rw [Nat.min_eq_right hcover] at htile
  have hseg : ∀ q, q < inp.currentPartitionCount → ∀ j, j < inp.pAlongI q →
      partBegin inp.inTotalCounts q ≤ st'.outTotalCounts (childOffset inp.pAlongI q + j) ∧
      st'.outTotalCounts (childOffset inp.pAlongI q + j) ≤ inp.inTotalCounts q := by
    intro q hq j hj
    obtain ⟨c1, c2, c3⟩ := htile q hq
    refine ⟨c1 j hj, ?_⟩
    have := c2 j (inp.pAlongI q - 1) (by omega) (by omega)
    rw [show childOffset inp.pAlongI q + (inp.pAlongI q - 1) =
      childOffset inp.pAlongI q + inp.pAlongI q - 1 by omega, c3] at this
    exact this
  refine ⟨fun x y hxy hy => ?_, fun q hq => (htile q hq).2.2, ?_, hseg, fun q hq he j hj => ?_⟩
  · obtain ⟨qx, jx, x1, x2, x3⟩ := childOffset_cover inp.pAlongI inp.currentPartitionCount x (by omega)
    obtain ⟨qy, jy, y1, y2, y3⟩ := childOffset_cover inp.pAlongI inp.currentPartitionCount y hy
    subst x3 y3
    rcases Nat.lt_trichotomy qx qy with h | h | h
    · have a := (hseg qx x1 jx x2).2
      have b := (hseg qy y1 jy y2).1
      have c := hlt qx qy h y1
      omega
    · subst h
      exact (htile qx x1).2.1 jx jy (by omega) y2
    · have : childOffset inp.pAlongI qy + inp.pAlongI qy ≤ childOffset inp.pAlongI qx := by
        rw [← childOffset_succ]
        exact childOffset_mono _ (by omega)
      omega
  · have h1 := (htile (inp.currentPartitionCount - 1) (by omega)).2.2
    have h2 := childOffset_succ inp.pAlongI (inp.currentPartitionCount - 1)
    rw [show inp.currentPartitionCount - 1 + 1 = inp.currentPartitionCount by omega] at h2
    rw [h2, h1, hlast]
  · have := hseg q hq j hj
    omega

theorem levelLoop_children_tile_witness :
    ∃ st', levelLoop emptyParentLevel zeroLevelState = some st' ∧
      ((List.range 4).map st'.outTotalCounts = [2, 4, 4, 4]) ∧
      (∀ x y, x ≤ y → y < childOffset emptyParentLevel.pAlongI 2 →
        st'.outTotalCounts x ≤ st'.outTotalCounts y) ∧
      (∀ q, q < 2 →
        st'.outTotalCounts (childOffset emptyParentLevel.pAlongI q +
          emptyParentLevel.pAlongI q - 1) = emptyParentLevel.inTotalCounts q) ∧
      st'.outTotalCounts (childOffset emptyParentLevel.pAlongI 2 - 1) = 4 := by
  have hsome : (levelLoop emptyParentLevel zeroLevelState).isSome = true ∧
      (levelLoop emptyParentLevel zeroLevelState).map
        (fun st' => (List.range 4).map st'.outTotalCounts) = some [2, 4, 4, 4] := by
    constructor <;> decide!
  obtain ⟨st', hst⟩ := Option.isSome_iff_exists.1 hsome.1
  have hout := hsome.2
  rw [hst] at hout
  simp only [Option.map_some', Option.some.injEq] at hout
  have h := levelLoop_children_tile emptyParentLevel zeroLevelState st' 4
    (by decide) (by decide) (by decide)
    (by
      intro q q' h1 h2
      have h3 : q' < 2 := h2
      interval_cases q' <;> interval_cases q <;> decide)
    (by decide) (fun x y hxy _ => Nat.ne_of_lt hxy) hst
  exact ⟨st', hst, hout, h.1, h.2.1, h.2.2.1⟩

/-! ## Lemmas on the solver for one part with one cut -/

section OneCutClassifier

variable (eps : ℚ) (coords : Nat → ℚ) (uniform : Bool) (weights cuts : Nat → ℚ)

/-- With one cut the binary search compares the point with that cut once. -/
theorem locate_one (coord : ℚ) :
    locate eps 1 cuts coord 1 0 0 (((1 : Nat) : Int) - 1) Located.nowhere =
      (if ABS (coord - cuts 0) < eps then Located.onCut 0
        else if coord - cuts 0 < 0 then Located.onLeft 0 else Located.onRight 0) := by
  simp [locate]

theorem classifyPoint_one (s : ClassifyState) (i : Nat) :
    (classifyPoint eps 1 coords uniform weights cuts s i).myPartWeights =
      (if ABS (coords i - cuts 0) < eps then
        Function.update s.myPartWeights 1 (s.myPartWeights 1 + pointWeight uniform weights i)
      else if coords i - cuts 0 < 0 then
        Function.update s.myPartWeights 0 (s.myPartWeights 0 + pointWeight uniform weights i)
      else
        Function.update s.myPartWeights 2
          (s.myPartWeights 2 + pointWeight uniform weights i)) := by
  have hj : (if ((s.partIds i / 2 : Nat) : Int) ≥ ((1 : Nat) : Int) then ((1 : Nat) : Int) - 1
      else ((s.partIds i / 2 : Nat) : Int)) = 0 := by
    split_ifs <;> omega
  unfold classifyPoint
  dsimp only
  rw [hj, locate_one]
  unfold pointWeight
  by_cases h1 : ABS (coords i - cuts 0) < eps
  · rw [if_pos h1, if_pos h1]
    simp [spreadRight, spreadLeft]
  · rw [if_neg h1, if_neg h1]
    by_cases h2 : coords i - cuts 0 < 0
    · rw [if_pos h2, if_pos h2]
    · rw [if_neg h2, if_neg h2]

theorem weightBelow_cons (a : Nat) (l : List Nat) (c : ℚ) :
    weightBelow eps coords uniform weights (a :: l) c =
      (if coords a ≤ c - eps then pointWeight uniform weights a else 0) +
        weightBelow eps coords uniform weights l c := by
  unfold weightBelow
  by_cases h : coords a ≤ c - eps
  · rw [List.filter_cons_of_pos (by simpa using h), if_pos h, List.map_cons, List.sum_cons]
  · rw [List.filter_cons_of_neg (by simpa using h), if_neg h, zero_add]

theorem weightUpTo_cons (a : Nat) (l : List Nat) (c : ℚ) :
    weightUpTo eps coords uniform weights (a :: l) c =
      (if coords a < c + eps then pointWeight uniform weights a else 0) +
        weightUpTo eps coords uniform weights l c := by
  unfold weightUpTo
  by_cases h : coords a < c + eps
  · rw [List.filter_cons_of_pos (by simpa using h), if_pos h, List.map_cons, List.sum_cons]
  · rw [List.filter_cons_of_neg (by simpa using h), if_neg h, zero_add]

/-- The loop over the points with one cut: entry 0 of the histogram grows by the weight
below the cut, entries 0 and 1 together by the weight up to the cut. -/
theorem classify_fold_one (heps : 0 < eps) (l : List Nat) (s : ClassifyState) :
    (l.foldl (classifyPoint eps 1 coords uniform weights cuts) s).myPartWeights 0 =
      s.myPartWeights 0 + weightBelow eps coords uniform weights l (cuts 0) ∧
    (l.foldl (classifyPoint eps 1 coords uniform weights cuts) s).myPartWeights 0 +
      (l.foldl (classifyPoint eps 1 coords uniform weights cuts) s).myPartWeights 1 =
      s.myPartWeights 0 + s.myPartWeights 1 +
        weightUpTo eps coords uniform weights l (cuts 0) := by
  induction l generalizing s with
  | nil => simp [weightBelow, weightUpTo]
  | cons a l ih =>
    obtain ⟨h1, h2⟩ := ih (classifyPoint eps 1 coords uniform weights cuts s a)
    rw [List.foldl_cons]
    refine ⟨h1.trans ?_, h2.trans ?_⟩ <;>
    · simp only [weightBelow_cons, weightUpTo_cons, classifyPoint_one]
      by_cases c1 : ABS (coords a - cuts 0) < eps
      · rw [if_pos c1]
        rw [ABS_eq_abs, abs_lt] at c1
        simp only [if_neg (show ¬ coords a ≤ cuts 0 - eps by linarith),
          if_pos (show coords a < cuts 0 + eps by linarith),
          Function.update_noteq (show (0 : Nat) ≠ 1 by decide), Function.update_same]
        ring
      · rw [if_neg c1]
        rw [ABS_eq_abs, abs_lt] at c1
        by_cases c2 : coords a - cuts 0 < 0
        · have hle : coords a ≤ cuts 0 - eps := by
            by_contra hc
            exact c1 ⟨by linarith, by linarith⟩
          simp only [if_pos c2, if_pos hle, if_pos (show coords a < cuts 0 + eps by linarith),
            Function.update_same, Function.update_noteq (show (1 : Nat) ≠ 0 by decide)]
          ring
        · have hge : cuts 0 + eps ≤ coords a := by
            by_contra hc
            exact c1 ⟨by linarith, by linarith⟩
          simp only [if_neg c2, if_neg (show ¬ coords a ≤ cuts 0 - eps by linarith),
            if_neg (show ¬ coords a < cuts 0 + eps by linarith),
            Function.update_noteq (show (0 : Nat) ≠ 2 by decide),
            Function.update_noteq (show (1 : Nat) ≠ 2 by decide)]
          ring

/-- The histogram of the classifier for one cut: entry 0 is the weight below the cut and
entry 1 the weight up to the cut, as computed by brute force. -/
theorem getPartWeights_one (heps : 0 < eps) (maxScalar : ℚ) (b e : Nat) (perm : Nat → Nat)
    (s : ClassifyState) :
    (pqJagged_1DPart_getPartWeights 3 1 maxScalar eps b e perm coords uniform weights cuts
      s).myPartWeights 0 =
      weightBelow eps coords uniform weights (rangeIds perm b e) (cuts 0) ∧
    (pqJagged_1DPart_getPartWeights 3 1 maxScalar eps b e perm coords uniform weights cuts
      s).myPartWeights 1 =
      weightUpTo eps coords uniform weights (rangeIds perm b e) (cuts 0) := by
  unfold pqJagged_1DPart_getPartWeights
  dsimp only
  obtain ⟨h1, h2⟩ := classify_fold_one eps coords uniform weights cuts heps (rangeIds perm b e)
    { s with
      myPartWeights := fun i => if i < 3 then 0 else s.myPartWeights i
      myLeftClosest := fun i => if i < 1 then maxScalar else s.myLeftClosest i
      myRightClosest := fun i => if i < 1 then maxScalar else s.myRightClosest i }
  simp only [Nat.ofNat_pos, if_true, zero_add, Nat.one_lt_ofNat] at h1 h2
  generalize ((rangeIds perm b e).foldl (classifyPoint eps 1 coords uniform weights cuts)
    { s with
      myPartWeights := fun i => if i < 3 then 0 else s.myPartWeights i
      myLeftClosest := fun i => if i < 1 then maxScalar else s.myLeftClosest i
      myRightClosest := fun i => if i < 1 then maxScalar else s.myRightClosest i }) = t
    at h1 h2 ⊢
  have hr : List.range' 1 (3 - 1) = [1, 2] := rfl
  rw [hr]
  simp only [List.foldl_cons, List.foldl_nil]
  have p1 : prefixWeightStep eps 3 cuts t.myPartWeights 1 =
      Function.update t.myPartWeights 1 (t.myPartWeights 1 + t.myPartWeights 0) := by
    unfold prefixWeightStep
    rw [if_neg (by omega)]
  have p2 : ∀ pw : Nat → ℚ, prefixWeightStep eps 3 cuts pw 2 =
      Function.update pw 2 (pw 2 + pw 1) := by
    intro pw
    unfold prefixWeightStep
    rw [if_neg (by omega)]
  rw [p1, p2]
  constructor
  · rw [Function.update_noteq (by decide), Function.update_noteq (by decide)]
    exact h1
  · rw [Function.update_noteq (by decide), Function.update_same]
    linarith

end OneCutClassifier

section OnePartSolver

variable (inp : SolverInput)

theorem windowShifts_zero : windowShifts inp 0 = (0, 0, 0) := rfl

/-- The classification of the only part of a window with one cut: entries 0 and 1 of the
histogram are the brute-force weights at the current cut coordinate. -/
theorem classifyPart_one (heps : 0 < inp.eps)
    (hpv : inp.pVector (inp.currentPartBeginIndex + 0) = 2) (s : SolverState)
    (hc : s.myNonDoneCounts 0 > 0) :
    (classifyPart inp s 0).partWeights 0 =
      weightBelow inp.eps inp.pqJagged_coordinates inp.pqJagged_uniformWeights
        inp.pqJagged_weights
        (rangeIds inp.partitionedPointPermutations
          (partBegin inp.inTotalCounts inp.currentPartBeginIndex)
          (inp.inTotalCounts inp.currentPartBeginIndex)) (s.cutCoordinates_tmp 0) ∧
    (classifyPart inp s 0).partWeights 1 =
      weightUpTo inp.eps inp.pqJagged_coordinates inp.pqJagged_uniformWeights
        inp.pqJagged_weights
        (rangeIds inp.partitionedPointPermutations
          (partBegin inp.inTotalCounts inp.currentPartBeginIndex)
          (inp.inTotalCounts inp.currentPartBeginIndex)) (s.cutCoordinates_tmp 0) ∧
    (classifyPart inp s 0).isDone = s.isDone ∧
    (classifyPart inp s 0).myNonDoneCounts = s.myNonDoneCounts ∧
    (classifyPart inp s 0).allDone = s.allDone ∧
    (classifyPart inp s 0).cutCoordinates = s.cutCoordinates ∧
    (classifyPart inp s 0).cutCoordinatesWork = s.cutCoordinatesWork ∧
    (classifyPart inp s 0).swapped = s.swapped := by
  obtain ⟨g1, g2⟩ := getPartWeights_one inp.eps inp.pqJagged_coordinates
    inp.pqJagged_uniformWeights inp.pqJagged_weights (view s.cutCoordinates_tmp 0) heps
    inp.maxScalar (partBegin inp.inTotalCounts inp.currentPartBeginIndex)
    (inp.inTotalCounts inp.currentPartBeginIndex) inp.partitionedPointPermutations
    { myPartWeights := view s.partWeights 0
      myLeftClosest := view s.leftClosestDistance 0
      myRightClosest := view s.rightClosestDistance 0
      partIds := s.partIds }
  unfold classifyPart
  dsimp only
  rw [if_pos hc, hpv, windowShifts_zero]
  refine ⟨?_, ?_, rfl, rfl, rfl, rfl, rfl, rfl⟩
  · exact g1
  · exact g2

/-- The state without its reduction buffer. -/
theorem accumulateThreadResults_frame (s : SolverState) :
    { accumulateThreadResults inp s with
        local_totalPartWeights_leftClosest_rightCloset := fun _ => 0 } =
      { s with local_totalPartWeights_leftClosest_rightCloset := fun _ => 0 } := by
  have h1 : ∀ (t : SolverState) (i : Nat),
      ({ accumulateClosest inp t i with
          local_totalPartWeights_leftClosest_rightCloset := fun _ => 0 } : SolverState) =
        { t with local_totalPartWeights_leftClosest_rightCloset := fun _ => 0 } := by
    intro t i
    unfold accumulateClosest
    dsimp only
    apply foldl_keep _ (fun u : SolverState =>
      ({ u with local_totalPartWeights_leftClosest_rightCloset := fun _ => 0 } : SolverState))
    intro u ii
    dsimp only
    split_ifs <;> rfl
  have h2 : ∀ (t : SolverState) (i : Nat),
      ({ accumulateWeights inp t i with
          local_totalPartWeights_leftClosest_rightCloset := fun _ => 0 } : SolverState) =
        { t with local_totalPartWeights_leftClosest_rightCloset := fun _ => 0 } := by
    intro t i
    unfold accumulateWeights
    dsimp only
    apply foldl_keep _ (fun u : SolverState =>
      ({ u with local_totalPartWeights_leftClosest_rightCloset := fun _ => 0 } : SolverState))
    intro u ii
    dsimp only
    split_ifs <;> rfl
  unfold accumulateThreadResults
  rw [foldl_keep (accumulateWeights inp) (fun u : SolverState =>
      ({ u with local_totalPartWeights_leftClosest_rightCloset := fun _ => 0 } : SolverState))
      h2,
    foldl_keep (accumulateClosest inp) (fun u : SolverState =>
      ({ u with local_totalPartWeights_leftClosest_rightCloset := fun _ => 0 } : SolverState))
      h1]

/-- For the only part of a window with one cut that is not done, entries 0 and 1 of the
histogram go to the reduction buffer. -/
theorem accumulateThreadResults_one (hcp : inp.concurrentPartCount = 1)
    (hpv : inp.pVector (inp.currentPartBeginIndex + 0) = 2) (s : SolverState)
    (hd : s.isDone 0 = false) :
    (accumulateThreadResults inp s).local_totalPartWeights_leftClosest_rightCloset 0 =
      s.partWeights 0 ∧
    (accumulateThreadResults inp s).local_totalPartWeights_leftClosest_rightCloset 1 =
      s.partWeights 1 := by
  have hf : ∀ t : SolverState,
      ({ accumulateClosest inp t 0 with
          local_totalPartWeights_leftClosest_rightCloset := fun _ => 0 } : SolverState) =
        { t with local_totalPartWeights_leftClosest_rightCloset := fun _ => 0 } := by
    intro t
    unfold accumulateClosest
    dsimp only
    apply foldl_keep _ (fun u : SolverState =>
      ({ u with local_totalPartWeights_leftClosest_rightCloset := fun _ => 0 } : SolverState))
    intro u ii
    dsimp only
    split_ifs <;> rfl
  have hd1 : (accumulateClosest inp s 0).isDone 0 = false := by
    have := congrArg SolverState.isDone (hf s)
    dsimp only at this
    rw [this]
    exact hd
  have hp1 : (accumulateClosest inp s 0).partWeights = s.partWeights := by
    have := congrArg SolverState.partWeights (hf s)
    exact this
  unfold accumulateThreadResults
  rw [hcp]
  have hr1 : List.range 1 = [0] := rfl
  rw [hr1]
  simp only [List.foldl_cons, List.foldl_nil]
  generalize accumulateClosest inp s 0 = u at hd1 hp1
  unfold accumulateWeights
  dsimp only
  rw [hpv, windowShifts_zero]
  have hr : List.range (2 + (2 - 1)) = [0, 1, 2] := rfl
  rw [hr]
  simp [hd1, hp1]

end OnePartSolver

section OneCutOutcome

variable (eps : ℚ) (noCuts : Nat) (total tol maxScalar : ℚ)
  (gpw lpw ratios cuts : Nat → ℚ) (allow : Bool)

/-- The end of the branches that move a cut: the cut stays Active, or the guard marks it
Done at its coordinate with the bracket stored. -/
theorem moveTo_outcome (s : CutState) (i : Nat) (br : Bracket) (ew : ℚ)
    (hd : s.isDone i = false) :
    ((s.moveTo eps cuts i br ew).isDone i = false ∧
      (s.moveTo eps cuts i br ew).myNoneDoneCount = s.myNoneDoneCount) ∨
    ((s.moveTo eps cuts i br ew).isDone i = true ∧
      (s.moveTo eps cuts i br ew).myNoneDoneCount = s.myNoneDoneCount - 1 ∧
      (s.moveTo eps cuts i br ew).newCutCoordinates i = cuts i ∧
      (ABS (cuts i - pivotPos ((s.moveTo eps cuts i br ew).bracket i) ew) < eps * EPS_SCALE ∨
        ((s.moveTo eps cuts i br ew).bracket i).upperBound <
          ((s.moveTo eps cuts i br ew).bracket i).lowerBound)) := by
  unfold CutState.moveTo
  dsimp only
  by_cases hg : ABS (cuts i - pivotPos br ew) < eps * EPS_SCALE ∨ br.upperBound < br.lowerBound
  · rw [if_pos hg]
    right
    have hb : ((s.setBracket i br).markDone cuts i).bracket i = br := by
      simp [CutState.bracket, CutState.markDone, CutState.setBracket]
    rw [hb]
    refine ⟨?_, rfl, ?_, hg⟩
    · simp [CutState.markDone]
    · simp [CutState.markDone]
  · rw [if_neg hg]
    left
    exact ⟨hd, rfl⟩

/-- The loop body on an Active cut: the cut stays Active, or it is marked Done at its
coordinate by the tolerance test, by tie splitting or by the guard. -/
theorem processCut_outcome (s : CutState) (i : Nat) (hd : s.isDone i = false)
    (hpos : 0 < total * toFloat (ratios i)) :
    ((processCut eps noCuts total tol gpw lpw ratios cuts allow s i).isDone i = false ∧
      (processCut eps noCuts total tol gpw lpw ratios cuts allow s i).myNoneDoneCount =
        s.myNoneDoneCount) ∨
    ((processCut eps noCuts total tol gpw lpw ratios cuts allow s i).isDone i = true ∧
      (processCut eps noCuts total tol gpw lpw ratios cuts allow s i).myNoneDoneCount =
        s.myNoneDoneCount - 1 ∧
      (processCut eps noCuts total tol gpw lpw ratios cuts allow s i).newCutCoordinates i =
        cuts i ∧
      DoneBy eps total tol (toFloat (ratios i)) allow (gpw (i * 2)) (gpw (i * 2 + 1)) (cuts i)
        ((processCut eps noCuts total tol gpw lpw ratios cuts allow s i).bracket i)) := by
  unfold processCut
  dsimp only
  rw [hd, if_neg (by simp)]
  by_cases hw : withinTolerance eps total tol gpw ratios i = true
  · rw [if_pos hw]
    right
    refine ⟨by simp [CutState.markDone], rfl, by simp [CutState.markDone], Or.inl ?_⟩
    obtain ⟨h1, h2⟩ := (withinTolerance_iff eps total tol gpw ratios i).1 hw
    exact ⟨by linarith, by linarith⟩
  · rw [if_neg hw]
    by_cases hl : imbalanceOf (gpw (i * 2)) total (toFloat (ratios i)) < 0
    · rw [if_pos hl]
      have hlt : gpw (i * 2) < total * toFloat (ratios i) := by
        unfold imbalanceOf at hl
        have : gpw (i * 2) / (total * toFloat (ratios i)) < 1 := by linarith
        exact (div_lt_one hpos).1 this
      by_cases t1 : allow = true ∧ gpw (i * 2 + 1) = total * toFloat (ratios i)
      · rw [if_pos t1]
        right
        exact ⟨by simp [CutState.markDone], rfl, by simp [CutState.markDone],
          Or.inr (Or.inl ⟨t1.1, hlt, le_of_eq t1.2.symm⟩)⟩
      · rw [if_neg t1]
        by_cases t2 : allow = true ∧ gpw (i * 2 + 1) > total * toFloat (ratios i)
        · rw [if_pos t2]
          right
          exact ⟨by simp [CutState.markDone], rfl, by simp [CutState.markDone],
            Or.inr (Or.inl ⟨t2.1, hlt, le_of_lt t2.2⟩)⟩
        · rw [if_neg t2]
          rcases moveTo_outcome eps cuts
            ({ s with
              globalCutWeights := Function.update s.globalCutWeights i 0
              localCutWeights := Function.update s.localCutWeights i 0 } : CutState) i
            (scanRight (total * toFloat (ratios i)) gpw cuts s.leftClosestDistance
              s.rightClosestDistance (List.range' (i + 1) (noCuts - (i + 1)))
              { ({ s with
                  globalCutWeights := Function.update s.globalCutWeights i 0
                  localCutWeights := Function.update s.localCutWeights i 0 } :
                  CutState).bracket i with
                lowerBound := cuts i + s.rightClosestDistance i
                lowerWeight := gpw (i * 2) })
            (total * toFloat (ratios i)) hd with h | h
          · exact Or.inl h
          · exact Or.inr ⟨h.1, h.2.1, h.2.2.1, Or.inr (Or.inr h.2.2.2)⟩
    · rw [if_neg hl]
      rcases moveTo_outcome eps cuts
        ({ s with
          globalCutWeights := Function.update s.globalCutWeights i 0
          localCutWeights := Function.update s.localCutWeights i 0 } : CutState) i
        (scanLeft (total * toFloat (ratios i)) gpw cuts s.leftClosestDistance
          s.rightClosestDistance (List.range i).reverse
          { ({ s with
              globalCutWeights := Function.update s.globalCutWeights i 0
              localCutWeights := Function.update s.localCutWeights i 0 } :
              CutState).bracket i with
            upperBound := cuts i - s.leftClosestDistance i
            upperWeight := gpw (i * 2) })
        (total * toFloat (ratios i)) hd with h | h
      · exact Or.inl h
      · exact Or.inr ⟨h.1, h.2.1, h.2.2.1, Or.inr (Or.inr h.2.2.2)⟩

/-- The function `getNewCoordinates` on a part with one cut that is Active: the cut stays
Active, or it is marked Done at its coordinate by the tolerance test, by tie splitting or by
the guard. -/
theorem getNewCoordinates_one (lowerRanks : List (Nat → ℚ)) (s : CutState)
    (hd : s.isDone 0 = false) (hpos : 0 < total * toFloat (ratios 0)) :
    ((getNewCoordinates eps 1 total tol maxScalar gpw lpw ratios cuts allow lowerRanks
        s).isDone 0 = false ∧
      (getNewCoordinates eps 1 total tol maxScalar gpw lpw ratios cuts allow lowerRanks
        s).myNoneDoneCount = s.myNoneDoneCount) ∨
    ((getNewCoordinates eps 1 total tol maxScalar gpw lpw ratios cuts allow lowerRanks
        s).isDone 0 = true ∧
      (getNewCoordinates eps 1 total tol maxScalar gpw lpw ratios cuts allow lowerRanks
        s).myNoneDoneCount = s.myNoneDoneCount - 1 ∧
      (getNewCoordinates eps 1 total tol maxScalar gpw lpw ratios cuts allow lowerRanks
        s).newCutCoordinates 0 = cuts 0 ∧
      DoneBy eps total tol (toFloat (ratios 0)) allow (gpw 0) (gpw 1) (cuts 0)
        ((getNewCoordinates eps 1 total tol maxScalar gpw lpw ratios cuts allow lowerRanks
          s).bracket 0)) := by
  obtain ⟨a1, a2, a3, a4⟩ := getNewCoordinates_agree_loop eps 1 total tol maxScalar gpw lpw
    ratios cuts allow lowerRanks s 0
  rw [a1, a2, a3, a4]
  have hloop : getNewCoordinatesLoop eps 1 total tol maxScalar gpw lpw ratios cuts allow s =
      processCut eps 1 total tol gpw lpw ratios cuts allow (s.resetClosest 1 maxScalar) 0 :=
    rfl
  rw [hloop]
  exact processCut_outcome eps 1 total tol gpw lpw ratios cuts allow
    (s.resetClosest 1 maxScalar) 0 hd hpos

end OneCutOutcome

/-! ## How a cut becomes Done -/

/-- C4, as stated, fails: (1) on the third call for the unit-weight points 0, 1, 2 split
in two halves with tolerance 1/10, the cut sits on the point 1 with left weight 1 of the
expected 3/2, the pivot does not move, and the cut goes from Active to Done with
`|W / (total * ratio) - 1| = 1/3`; (2) with tolerance 0 the tolerance test itself accepts
the left weight `1 + eps / 2` of the expected 1, an imbalance of `eps / 2 > 0`; (3) the
tolerance test uses the target ratio converted to `float`: for the total weight `2^24`, the
target ratio 2/3 and the left weight 11184811 it accepts the cut with tolerance 0, while
`|W / (total * ratio) - 1|` is above `10^-8`; (4) with tie splitting, on the first call for
the points 0, 1, 2 with tolerance 1/10, the cut on the point 1 has the left weight 1 below
the expected 3/2 and the weight 2 up to the cut above it, and the cut goes from Active to
Done with `|W / (total * ratio) - 1| = 1/3`. -/
theorem getNewCoordinates_done_outside_tolerance :
    (stuckCutState.isDone 0 = false ∧
      (getNewCoordinates epsDouble 1 3 (1 / 10) maxDouble (arrQ [1, 2, 3]) (arrQ [1, 2, 3])
        (arrQ [1 / 2, 1]) (arrQ [1]) false [] stuckCutState).isDone 0 = true ∧
      ¬ (|arrQ [1, 2, 3] (0 * 2) / (3 * arrQ [1 / 2, 1] 0) - 1| ≤ 1 / 10)) ∧
    ((initialCutState 0 2 2).isDone 0 = false ∧
      (getNewCoordinates epsDouble 1 2 0 maxDouble (arrQ [1 + epsDouble / 2, 1 + epsDouble / 2, 2])
        (arrQ [1 + epsDouble / 2, 1 + epsDouble / 2, 2])
        (arrQ [1 / 2, 1]) (arrQ [1]) false [] (initialCutState 0 2 2)).isDone 0 = true ∧
      ¬ (|arrQ [1 + epsDouble / 2, 1 + epsDouble / 2, 2] (0 * 2) / (2 * arrQ [1 / 2, 1] 0) - 1|
          ≤ 0)) ∧
    ((initialCutState 0 2 16777216).isDone 0 = false ∧
      (getNewCoordinates epsDouble 1 16777216 0 maxDouble (arrQ [11184811, 11184811, 16777216])
        (arrQ [11184811, 11184811, 16777216]) (arrQ [2 / 3, 1]) (arrQ [1]) false []
        (initialCutState 0 2 16777216)).isDone 0 = true ∧
      ¬ (|arrQ [11184811, 11184811, 16777216] (0 * 2) / (16777216 * arrQ [2 / 3, 1] 0) - 1|
          < 0 + 1 / 100000000)) ∧
    ((initialCutState 0 2 3).isDone 0 = false ∧
      (getNewCoordinates epsDouble 1 3 (1 / 10) maxDouble (arrQ [1, 2, 3]) (arrQ [1, 2, 3])
        (arrQ [1 / 2, 1]) (arrQ [1]) true [] (initialCutState 0 2 3)).isDone 0 = true ∧
      ¬ (|arrQ [1, 2, 3] (0 * 2) / (3 * arrQ [1 / 2, 1] 0) - 1| ≤ 1 / 10)) := by
  decide!

/-- C4, amended: for every cut `i` that `getNewCoordinates` changes from Active to Done,
with a positive total weight, a target ratio of at most 1, `e` the target ratio converted
to `float` (`0 < e`), `e'` the value `1 - e` computed in `float` and `W` the achieved left
weight: either the tolerance test accepted the cut, and then
`|W / (total * e) - 1| < tolerance + eps`, `|(total - W) / (total * e') - 1| < tolerance + eps`
and `|W - e * total| < (tolerance + eps) * total`; or tie splitting is on and
`W < total * e <= W + W_on`; or the guard froze the cut (the pivot of its bracket on exit
is less than `eps` away from the cut, or the bounds have crossed). -/
theorem getNewCoordinates_done_by_tolerance (eps : ℚ) (noCuts : Nat)
    (total tol maxScalar : ℚ) (gpw lpw ratios cuts : Nat → ℚ) (allow : Bool)
    (lowerRanks : List (Nat → ℚ)) (s : CutState)
    (i : Nat) (hi : i < noCuts) (hd : s.isDone i = false)
    (hT : 0 < total) (he0 : 0 < toFloat (ratios i)) (hr1 : ratios i ≤ 1)
    (hdone : (getNewCoordinates eps noCuts total tol maxScalar gpw lpw ratios cuts allow
      lowerRanks s).isDone i = true) :
    (|gpw (i * 2) / (total * toFloat (ratios i)) - 1| < tol + eps ∧
      |(total - gpw (i * 2)) / (total * toFloat (1 - toFloat (ratios i))) - 1| < tol + eps ∧
      |gpw (i * 2) - toFloat (ratios i) * total| < (tol + eps) * total) ∨
    (allow = true ∧ gpw (i * 2) < total * toFloat (ratios i) ∧
      total * toFloat (ratios i) ≤ gpw (i * 2 + 1)) ∨
    (ABS (cuts i - pivotPos
        ((getNewCoordinates eps noCuts total tol maxScalar gpw lpw ratios cuts allow
          lowerRanks s).bracket i) (total * toFloat (ratios i))) < eps ∨
      ((getNewCoordinates eps noCuts total tol maxScalar gpw lpw ratios cuts allow
        lowerRanks s).bracket i).upperBound <
      ((getNewCoordinates eps noCuts total tol maxScalar gpw lpw ratios cuts allow
        lowerRanks s).bracket i).lowerBound) := by
  have hpos : 0 < total * toFloat (ratios i) := mul_pos hT he0
  have he1 : toFloat (ratios i) ≤ 1 := toFloat_le_one _ hr1
  obtain ⟨a1, a2, _, _⟩ := getNewCoordinates_agree_loop eps noCuts total tol maxScalar gpw lpw
    ratios cuts allow lowerRanks s i
  obtain ⟨b1, b2, _⟩ := getNewCoordinatesLoop_at eps noCuts total tol maxScalar gpw lpw
    ratios cuts allow s i hi
  rw [a1, b1] at hdone
  rw [a2, b2]
  rcases processCut_outcome eps noCuts total tol gpw lpw ratios cuts allow
    (s.resetClosest noCuts maxScalar) i hd hpos with h | h
  · rw [h.1] at hdone
    exact absurd hdone (by simp)
  · obtain ⟨_, _, _, hby⟩ := h
    have he : eps * EPS_SCALE = eps := by
      unfold EPS_SCALE
      ring
    unfold DoneBy at hby
    rw [he] at hby
    rcases hby with ⟨h1, h2⟩ | h2 | h3
    · left
      refine ⟨h1, h2, ?_⟩
      have e2 : gpw (i * 2) - toFloat (ratios i) * total =
          (gpw (i * 2) / (total * toFloat (ratios i)) - 1) * (total * toFloat (ratios i)) := by
        field_simp
        ring
      have h3 : 0 ≤ |gpw (i * 2) / (total * toFloat (ratios i)) - 1| := abs_nonneg _
      rw [e2, abs_mul, abs_of_pos hpos]
      calc |gpw (i * 2) / (total * toFloat (ratios i)) - 1| * (total * toFloat (ratios i))
          < (tol + eps) * (total * toFloat (ratios i)) := mul_lt_mul_of_pos_right h1 hpos
        _ ≤ (tol + eps) * total := by
            apply mul_le_mul_of_nonneg_left _ (by linarith)
            nlinarith
    · exact Or.inr (Or.inl h2)
    · exact Or.inr (Or.inr h3)

/-- C4 for two unit weights split in two halves, one of them left of the cut at 1: the
tolerance test accepts the cut. -/
theorem getNewCoordinates_done_by_tolerance_witness :
    (|arrQ [1, 1, 2] (0 * 2) / (2 * toFloat (arrQ [1 / 2, 1] 0)) - 1| < 0 + epsDouble ∧
      |(2 - arrQ [1, 1, 2] (0 * 2)) / (2 * toFloat (1 - toFloat (arrQ [1 / 2, 1] 0))) - 1| <
        0 + epsDouble ∧
      |arrQ [1, 1, 2] (0 * 2) - toFloat (arrQ [1 / 2, 1] 0) * 2| < (0 + epsDouble) * 2) ∨
    (false = true ∧ arrQ [1, 1, 2] (0 * 2) < 2 * toFloat (arrQ [1 / 2, 1] 0) ∧
      2 * toFloat (arrQ [1 / 2, 1] 0) ≤ arrQ [1, 1, 2] (0 * 2 + 1)) ∨
    (ABS (arrQ [1] 0 - pivotPos
        ((getNewCoordinates epsDouble 1 2 0 maxDouble (arrQ [1, 1, 2]) (arrQ [1, 1, 2])
          (arrQ [1 / 2, 1]) (arrQ [1]) false [] (initialCutState 0 2 2)).bracket 0)
        (2 * toFloat (arrQ [1 / 2, 1] 0))) < epsDouble ∨
      ((getNewCoordinates epsDouble 1 2 0 maxDouble (arrQ [1, 1, 2]) (arrQ [1, 1, 2])
        (arrQ [1 / 2, 1]) (arrQ [1]) false [] (initialCutState 0 2 2)).bracket 0).upperBound <
      ((getNewCoordinates epsDouble 1 2 0 maxDouble (arrQ [1, 1, 2]) (arrQ [1, 1, 2])
        (arrQ [1 / 2, 1]) (arrQ [1]) false [] (initialCutState 0 2 2)).bracket 0).lowerBound) :=
  getNewCoordinates_done_by_tolerance epsDouble 1 2 0 maxDouble (arrQ [1, 1, 2])
    (arrQ [1, 1, 2]) (arrQ [1 / 2, 1]) (arrQ [1]) false [] (initialCutState 0 2 2) 0
    (by decide) rfl (by decide!) (by decide!) (by decide!) (by decide!)

section OnePartIteration

variable (inp : SolverInput)

theorem unview_zero {α : Type} (a v : Nat → α) : unview a 0 v = v := by
  funext k
  simp [unview]

theorem view_zero {α : Type} (a : Nat → α) : view a 0 = a := by
  funext k
  simp [view]

/-- On a single process the reduction copies the reduction buffer of the part. -/
theorem reduceAllRanks_one (hcp : inp.concurrentPartCount = 1)
    (hpv : inp.pVector (inp.currentPartBeginIndex + 0) = 2) (it : Nat)
    (hlow : inp.lowerRanks it = []) (hup : inp.upperRanks it = []) (s : SolverState) :
    (reduceAllRanks inp it s).global_totalPartWeights_leftClosest_rightCloset 0 =
      s.local_totalPartWeights_leftClosest_rightCloset 0 ∧
    (reduceAllRanks inp it s).global_totalPartWeights_leftClosest_rightCloset 1 =
      s.local_totalPartWeights_leftClosest_rightCloset 1 := by
  have ht : totalReductionSize inp = 5 := by
    unfold totalReductionSize
    rw [hcp]
    have hr1 : List.range 1 = [0] := rfl
    rw [hr1]
    have hpv1 : inp.pVector inp.currentPartBeginIndex = 2 := hpv
    simp [hpv1]
  unfold reduceAllRanks
  dsimp only
  rw [hlow, hup, ht]
  simp

/-- The second loop body of an iteration for the only part of a window, with one cut that
is Active: the cut stays Active, or it is Done at the coordinate the part was classified
at, marked by the tolerance test, by tie splitting or by the guard. -/
theorem solvePart_one (hcp : inp.concurrentPartCount = 1)
    (hpv : inp.pVector (inp.currentPartBeginIndex + 0) = 2) (it : Nat) (s : SolverState)
    (hcnt : s.myNonDoneCounts 0 = 1) (hall : s.allDone = 1) (hd : s.isDone 0 = false)
    (hpos : 0 < inp.globalMinMaxTotal 2 * toFloat (inp.targetPartWeightRatios 0)) :
    ((solvePart inp it s 0).isDone 0 = false ∧ (solvePart inp it s 0).myNonDoneCounts 0 = 1 ∧
      (solvePart inp it s 0).allDone = 1 ∧ (solvePart inp it s 0).swapped = s.swapped) ∨
    ((solvePart inp it s 0).isDone 0 = true ∧ (solvePart inp it s 0).myNonDoneCounts 0 = 0 ∧
      (solvePart inp it s 0).allDone = 0 ∧ (solvePart inp it s 0).swapped = s.swapped ∧
      (if s.swapped then (solvePart inp it s 0).cutCoordinates 0
        else (solvePart inp it s 0).cutCoordinatesWork 0) = s.cutCoordinates_tmp 0 ∧
      DoneBy inp.eps (inp.globalMinMaxTotal 2) inp.imbalanceTolerance
        (toFloat (inp.targetPartWeightRatios 0)) inp.allowNonRectelinearPart
        (s.global_totalPartWeights_leftClosest_rightCloset 0)
        (s.global_totalPartWeights_leftClosest_rightCloset 1) (s.cutCoordinates_tmp 0)
        ⟨(solvePart inp it s 0).cutUpperBounds 0, (solvePart inp it s 0).cutLowerBounds 0,
          (solvePart inp it s 0).cutUpperWeight 0, (solvePart inp it s 0).cutLowerWeight 0⟩) := by
  have key := getNewCoordinates_one inp.eps (inp.globalMinMaxTotal 2) inp.imbalanceTolerance
    inp.maxScalar s.global_totalPartWeights_leftClosest_rightCloset
    s.local_totalPartWeights_leftClosest_rightCloset inp.targetPartWeightRatios
    s.cutCoordinates_tmp inp.allowNonRectelinearPart
    ((inp.lowerRanks it).map (fun other => other))
    { isDone := s.isDone
      cutUpperBounds := s.cutUpperBounds
      cutLowerBounds := s.cutLowerBounds
      cutUpperWeight := s.cutUpperWeight
      cutLowerWeight := s.cutLowerWeight
      newCutCoordinates := if s.swapped then s.cutCoordinates else s.cutCoordinatesWork
      leftClosestDistance := view s.global_totalPartWeights_leftClosest_rightCloset 3
      rightClosestDistance := view s.global_totalPartWeights_leftClosest_rightCloset 4
      nonRectelinearPartRatios := s.nonRectelinearPartRatios
      rectilinearCutCount := s.recteLinearCutCount
      localCutWeights := s.localCutWeights
      globalCutWeights := s.globalCutWeights
      myNoneDoneCount := s.myNonDoneCounts 0 } hd hpos
  unfold solvePart
  dsimp only
  rw [if_neg (by rw [hcnt]; decide), hpv, hcp, windowShifts_zero]
  simp only [view_zero, unview_zero, Nat.zero_add, Nat.add_zero, Nat.one_mul,
    show (2 : Nat) - 1 = 1 from rfl, show (2 : Nat) + 1 = 3 from rfl,
    show (3 : Nat) + 1 = 4 from rfl, Function.update_same]
  generalize getNewCoordinates inp.eps 1 (inp.globalMinMaxTotal 2) inp.imbalanceTolerance
    inp.maxScalar s.global_totalPartWeights_leftClosest_rightCloset
    s.local_totalPartWeights_leftClosest_rightCloset inp.targetPartWeightRatios
    s.cutCoordinates_tmp inp.allowNonRectelinearPart
    ((inp.lowerRanks it).map (fun other => other))
    { isDone := s.isDone
      cutUpperBounds := s.cutUpperBounds
      cutLowerBounds := s.cutLowerBounds
      cutUpperWeight := s.cutUpperWeight
      cutLowerWeight := s.cutLowerWeight
      newCutCoordinates := if s.swapped then s.cutCoordinates else s.cutCoordinatesWork
      leftClosestDistance := view s.global_totalPartWeights_leftClosest_rightCloset 3
      rightClosestDistance := view s.global_totalPartWeights_leftClosest_rightCloset 4
      nonRectelinearPartRatios := s.nonRectelinearPartRatios
      rectilinearCutCount := s.recteLinearCutCount
      localCutWeights := s.localCutWeights
      globalCutWeights := s.globalCutWeights
      myNoneDoneCount := s.myNonDoneCounts 0 } = c at key ⊢
  dsimp only at key
  rcases key with h | h
  · left
    refine ⟨h.1, ?_, ?_, trivial⟩
    · rw [h.2, hcnt]
    · rw [h.2, hall]
      simp
  · right
    obtain ⟨h1, h2, h3, h4⟩ := h
    refine ⟨h1, ?_, ?_, trivial, ?_, h4⟩
    · rw [h2, hcnt]; rfl
    · rw [h2, hall, hcnt]; rfl
    · split_ifs <;> exact h3

/-- One iteration of the solver on a window of one part with one cut that is Active, on one
process: the cut stays Active, or the loop is over and the cut is Done at the coordinate
the part was classified at, the histogram entries being the brute-force weights there. -/
theorem solverIteration_one (heps : 0 < inp.eps) (hcp : inp.concurrentPartCount = 1)
    (hpv : inp.pVector (inp.currentPartBeginIndex + 0) = 2) (it : Nat)
    (hlow : inp.lowerRanks it = []) (hup : inp.upperRanks it = []) (s : SolverState)
    (hcnt : s.myNonDoneCounts 0 = 1) (hall : s.allDone = 1) (hd : s.isDone 0 = false)
    (hpos : 0 < inp.globalMinMaxTotal 2 * toFloat (inp.targetPartWeightRatios 0)) :
    ((solverIteration inp it s).isDone 0 = false ∧
      (solverIteration inp it s).myNonDoneCounts 0 = 1 ∧
      (solverIteration inp it s).allDone = 1) ∨
    ((solverIteration inp it s).allDone = 0 ∧
      (solverIteration inp it s).cutCoordinates_tmp 0 = s.cutCoordinates_tmp 0 ∧
      DoneBy inp.eps (inp.globalMinMaxTotal 2) inp.imbalanceTolerance
        (toFloat (inp.targetPartWeightRatios 0)) inp.allowNonRectelinearPart
        (weightBelow inp.eps inp.pqJagged_coordinates inp.pqJagged_uniformWeights
          inp.pqJagged_weights
          (rangeIds inp.partitionedPointPermutations
            (partBegin inp.inTotalCounts inp.currentPartBeginIndex)
            (inp.inTotalCounts inp.currentPartBeginIndex)) (s.cutCoordinates_tmp 0))
        (weightUpTo inp.eps inp.pqJagged_coordinates inp.pqJagged_uniformWeights
          inp.pqJagged_weights
          (rangeIds inp.partitionedPointPermutations
            (partBegin inp.inTotalCounts inp.currentPartBeginIndex)
            (inp.inTotalCounts inp.currentPartBeginIndex)) (s.cutCoordinates_tmp 0))
        (s.cutCoordinates_tmp 0)
        ⟨(solverIteration inp it s).cutUpperBounds 0, (solverIteration inp it s).cutLowerBounds 0,
          (solverIteration inp it s).cutUpperWeight 0,
          (solverIteration inp it s).cutLowerWeight 0⟩) := by
  obtain ⟨c1, c2, c3, c4, c5, c6, c7, c8⟩ := classifyPart_one inp heps hpv s
    (by rw [hcnt]; decide)
  have hf := accumulateThreadResults_frame inp (classifyPart inp s 0)
  have a3 : (accumulateThreadResults inp (classifyPart inp s 0)).isDone = s.isDone :=
    (congrArg SolverState.isDone hf).trans c3
  have a4 : (accumulateThreadResults inp (classifyPart inp s 0)).myNonDoneCounts =
      s.myNonDoneCounts := (congrArg SolverState.myNonDoneCounts hf).trans c4
  have a5 : (accumulateThreadResults inp (classifyPart inp s 0)).allDone = s.allDone :=
    (congrArg SolverState.allDone hf).trans c5
  have a6 : (accumulateThreadResults inp (classifyPart inp s 0)).cutCoordinates =
      s.cutCoordinates := (congrArg SolverState.cutCoordinates hf).trans c6
  have a7 : (accumulateThreadResults inp (classifyPart inp s 0)).cutCoordinatesWork =
      s.cutCoordinatesWork := (congrArg SolverState.cutCoordinatesWork hf).trans c7
  have a8 : (accumulateThreadResults inp (classifyPart inp s 0)).swapped = s.swapped :=
    (congrArg SolverState.swapped hf).trans c8
  obtain ⟨a1, a2⟩ := accumulateThreadResults_one inp hcp hpv (classifyPart inp s 0)
    (by rw [c3]; exact hd)
  obtain ⟨r1, r2⟩ := reduceAllRanks_one inp hcp hpv it hlow hup
    (accumulateThreadResults inp (classifyPart inp s 0))
  have htmp : (reduceAllRanks inp it
      (accumulateThreadResults inp (classifyPart inp s 0))).cutCoordinates_tmp =
      s.cutCoordinates_tmp := by
    show (if (accumulateThreadResults inp (classifyPart inp s 0)).swapped = true
      then (accumulateThreadResults inp (classifyPart inp s 0)).cutCoordinatesWork
      else (accumulateThreadResults inp (classifyPart inp s 0)).cutCoordinates) = _
    rw [a6, a7, a8]
    rfl
  have key := solvePart_one inp hcp hpv it
    (reduceAllRanks inp it (accumulateThreadResults inp (classifyPart inp s 0)))
    (by
      show (accumulateThreadResults inp (classifyPart inp s 0)).myNonDoneCounts 0 = 1
      rw [a4]; exact hcnt)
    (by
      show (accumulateThreadResults inp (classifyPart inp s 0)).allDone = 1
      rw [a5]; exact hall)
    (by
      show (accumulateThreadResults inp (classifyPart inp s 0)).isDone 0 = false
      rw [a3]; exact hd)
    hpos
  rw [r1, r2, a1, a2, c1, c2, htmp] at key
  have hit : solverIteration inp it s =
      { solvePart inp it
          (reduceAllRanks inp it (accumulateThreadResults inp (classifyPart inp s 0))) 0 with
        swapped := !(solvePart inp it
          (reduceAllRanks inp it
            (accumulateThreadResults inp (classifyPart inp s 0))) 0).swapped } := by
    unfold solverIteration
    dsimp only
    rw [hcp]
    rfl
  rw [hit]
  generalize solvePart inp it
    (reduceAllRanks inp it (accumulateThreadResults inp (classifyPart inp s 0))) 0 = s4 at key ⊢
  rcases key with h | h
  · exact Or.inl ⟨h.1, h.2.1, h.2.2.1⟩
  · obtain ⟨_, _, h3, h4, h5, h6⟩ := h
    refine Or.inr ⟨h3, ?_, h6⟩
    show (if (!s4.swapped) = true then s4.cutCoordinatesWork else s4.cutCoordinates) 0 = _
    rw [h4]
    have hsw : (reduceAllRanks inp it
        (accumulateThreadResults inp (classifyPart inp s 0))).swapped = s.swapped := a8
    rw [hsw] at h5 ⊢
    cases hs : s.swapped
    · rw [hs] at h5
      simpa using h5
    · rw [hs] at h5
      simpa using h5

theorem solverLoop_done (fuel it : Nat) (s : SolverState) (h : s.allDone = 0) :
    solverLoop inp fuel it s = some s := by
  cases fuel <;> simp [solverLoop, h]

/-- The loop of the solver on a window of one part with one cut that is Active, on one
process: when the loop ends, the cut is Done at the coordinate the part was last classified
at, the histogram entries being the brute-force weights there. -/
theorem solverLoop_one (heps : 0 < inp.eps) (hcp : inp.concurrentPartCount = 1)
    (hpv : inp.pVector (inp.currentPartBeginIndex + 0) = 2)
    (hlow : ∀ it, inp.lowerRanks it = []) (hup : ∀ it, inp.upperRanks it = [])
    (hpos : 0 < inp.globalMinMaxTotal 2 * toFloat (inp.targetPartWeightRatios 0))
    (fuel it : Nat) (s s' : SolverState)
    (hcnt : s.myNonDoneCounts 0 = 1) (hall : s.allDone = 1) (hd : s.isDone 0 = false)
    (hrun : solverLoop inp fuel it s = some s') :
    DoneBy inp.eps (inp.globalMinMaxTotal 2) inp.imbalanceTolerance
      (toFloat (inp.targetPartWeightRatios 0)) inp.allowNonRectelinearPart
      (weightBelow inp.eps inp.pqJagged_coordinates inp.pqJagged_uniformWeights
        inp.pqJagged_weights
        (rangeIds inp.partitionedPointPermutations
          (partBegin inp.inTotalCounts inp.currentPartBeginIndex)
          (inp.inTotalCounts inp.currentPartBeginIndex)) (s'.cutCoordinates_tmp 0))
      (weightUpTo inp.eps inp.pqJagged_coordinates inp.pqJagged_uniformWeights
        inp.pqJagged_weights
        (rangeIds inp.partitionedPointPermutations
          (partBegin inp.inTotalCounts inp.currentPartBeginIndex)
          (inp.inTotalCounts inp.currentPartBeginIndex)) (s'.cutCoordinates_tmp 0))
      (s'.cutCoordinates_tmp 0)
      ⟨s'.cutUpperBounds 0, s'.cutLowerBounds 0, s'.cutUpperWeight 0, s'.cutLowerWeight 0⟩ := by
  induction fuel generalizing it s with
  | zero =>
    unfold solverLoop at hrun
    rw [if_pos (by rw [hall]; decide)] at hrun
    exact absurd hrun (by simp)
  | succ fuel ih =>
    unfold solverLoop at hrun
    rw [if_pos (by rw [hall]; decide)] at hrun
    rcases solverIteration_one inp heps hcp hpv (it + 1) (hlow _) (hup _) s hcnt hall hd hpos
      with h | h
    · exact ih (it + 1) (solverIteration inp (it + 1) s) h.2.1 h.2.2 h.1 hrun
    · obtain ⟨h1, h2, h3⟩ := h
      rw [solverLoop_done inp fuel (it + 1) _ h1] at hrun
      injection hrun with hrun
      subst hrun
      rw [h2]
      exact h3

theorem windowCuts_one (hcp : inp.concurrentPartCount = 1)
    (hpv : inp.pVector (inp.currentPartBeginIndex + 0) = 2) : windowCuts inp = 1 := by
  unfold windowCuts windowShifts
  rw [hcp]
  have hr1 : List.range 1 = [0] := rfl
  rw [hr1]
  simp only [List.foldl_cons, List.foldl_nil]
  rw [hpv]

theorem solverInit_isDone (hcp : inp.concurrentPartCount = 1)
    (hpv : inp.pVector (inp.currentPartBeginIndex + 0) = 2) (s : SolverState) :
    (solverInit inp s).isDone 0 = false := by
  unfold solverInit
  rw [hcp]
  have hr1 : List.range 1 = [0] := rfl
  rw [hr1]
  simp only [List.foldl_cons, List.foldl_nil]
  unfold initBoundsPart
  dsimp only
  rw [hpv, windowShifts_zero]
  have hr2 : List.range' (0, 0, 0).1 (2 - 1) = [0] := rfl
  rw [hr2]
  simp

/-- The cut solver on a window of one part with one cut, on one process: when it returns,
the cut it leaves in `cutCoordinates[0]` is Done at the coordinate the part was last
classified at, the histogram entries being the brute-force weights there. -/
theorem pqJagged_1D_Partition_one (heps : 0 < inp.eps) (hcp : inp.concurrentPartCount = 1)
    (hpv : inp.pVector (inp.currentPartBeginIndex + 0) = 2)
    (hlow : ∀ it, inp.lowerRanks it = []) (hup : ∀ it, inp.upperRanks it = [])
    (hpos : 0 < inp.globalMinMaxTotal 2 * toFloat (inp.targetPartWeightRatios 0))
    (fuel : Nat) (s s' : SolverState)
    (hcnt : s.myNonDoneCounts 0 = 1) (hall : s.allDone = 1)
    (hrun : pqJagged_1D_Partition inp fuel s = some s') :
    DoneBy inp.eps (inp.globalMinMaxTotal 2) inp.imbalanceTolerance
      (toFloat (inp.targetPartWeightRatios 0)) inp.allowNonRectelinearPart
      (weightBelow inp.eps inp.pqJagged_coordinates inp.pqJagged_uniformWeights
        inp.pqJagged_weights
        (rangeIds inp.partitionedPointPermutations
          (partBegin inp.inTotalCounts inp.currentPartBeginIndex)
          (inp.inTotalCounts inp.currentPartBeginIndex)) (s'.cutCoordinates 0))
      (weightUpTo inp.eps inp.pqJagged_coordinates inp.pqJagged_uniformWeights
        inp.pqJagged_weights
        (rangeIds inp.partitionedPointPermutations
          (partBegin inp.inTotalCounts inp.currentPartBeginIndex)
          (inp.inTotalCounts inp.currentPartBeginIndex)) (s'.cutCoordinates 0))
      (s'.cutCoordinates 0)
      ⟨s'.cutUpperBounds 0, s'.cutLowerBounds 0, s'.cutUpperWeight 0, s'.cutLowerWeight 0⟩ := by
  unfold pqJagged_1D_Partition at hrun
  obtain ⟨_, k2, k3⟩ := solverInit_keep inp s
  cases hl : solverLoop inp fuel 0 (solverInit inp s) with
  | none => rw [hl] at hrun; simp at hrun
  | some t =>
    rw [hl] at hrun
    simp only [Option.map_some', Option.some.injEq] at hrun
    have key := solverLoop_one inp heps hcp hpv hlow hup hpos fuel 0 (solverInit inp s) t
      (by rw [k2]; exact hcnt) (by rw [k3]; exact hall) (solverInit_isDone inp hcp hpv s) hl
    have hc : s'.cutCoordinates 0 = t.cutCoordinates_tmp 0 := by
      rw [← hrun]
      unfold copyBack SolverState.cutCoordinates_tmp
      by_cases hs : t.swapped = true
      · rw [if_pos hs, if_pos hs]
        dsimp only
        rw [windowCuts_one inp hcp hpv, if_pos (by decide)]
      · rw [if_neg hs, if_neg hs]
    have hb : s'.cutUpperBounds = t.cutUpperBounds ∧ s'.cutLowerBounds = t.cutLowerBounds ∧
        s'.cutUpperWeight = t.cutUpperWeight ∧ s'.cutLowerWeight = t.cutLowerWeight := by
      rw [← hrun]
      unfold copyBack
      split_ifs <;> exact ⟨rfl, rfl, rfl, rfl⟩
    rw [hc, hb.1, hb.2.1, hb.2.2.1, hb.2.2.2]
    exact key

end OnePartIteration

/-! ## Claims on the plan and the driver -/

section PlanLemmas

theorem getPartCount_one (fEpsilon : ℚ) (h : 0 < fEpsilon) : getPartCount 1 fEpsilon = 1 := by
  have ht : truncInt 1 = 1 := by
    unfold truncInt
    rw [if_pos (by norm_num)]
    exact Int.floor_one
  unfold getPartCount
  simp only [ht]
  rw [if_pos]
  · rfl
  · simpa using h

/-- With one global part and a library `pow` with `pow(1, r) = 1`, the prologue finds
`maxPartNo >= 1` as soon as there is a dimension. -/
theorem derivedMaxPartNo_one (pow : Nat → ℚ → ℚ) (fEpsilon : ℚ) (h : 0 < fEpsilon)
    (hpow : ∀ r, pow 1 r = 1) (coordDim m : Nat)
    (hm : derivedMaxPartNo pow fEpsilon 1 coordDim = some m) (hd : 1 ≤ coordDim) : 1 ≤ m := by
  have key : ∀ (l : List Nat) (m0 : Nat),
      l.foldl (maxPartNoStep pow fEpsilon coordDim) (some (1, m0)) =
      some (1, if l = [] then m0 else max 1 m0) := by
    intro l
    induction l with
    | nil => intro m0; rfl
    | cons a l ih =>
      intro m0
      rw [List.foldl_cons]
      simp only [maxPartNoStep, Option.some_bind, hpow, getPartCount_one fEpsilon h]
      have e : (if (1 : Nat) = 0 then (none : Option (Nat × Nat))
          else some (if 1 % 1 ≠ 0 then 1 / 1 + 1 else 1 / 1, if 1 > m0 then 1 else m0)) =
          some (1, max 1 m0) := by
        rw [if_neg (by decide)]
        congr 1
        congr 1
        by_cases h1 : 1 > m0
        · rw [if_pos h1, max_eq_left (by omega)]
        · rw [if_neg h1, max_eq_right (by omega)]
      rw [e, ih]
      congr 1
      congr 1
      by_cases hl : l = []
      · simp [hl]
      · simp [hl]
  unfold derivedMaxPartNo at hm
  rw [key] at hm
  simp only [Option.map_some', Option.some.injEq] at hm
  have hne : List.range coordDim ≠ [] := by
    intro h0
    have := congrArg List.length h0
    simp at this
    omega
  rw [if_neg hne] at hm
  omega

/-- The plan of a level for one part with one leaf, no plan given: one child with one
leaf. -/
theorem getPartitionArrays_derived_one (pow : Nat → ℚ → ℚ) (fEpsilon : ℚ) (h : 0 < fEpsilon)
    (hpow : ∀ r, pow 1 r = 1) (f partArraySize i maxPartNo : Nat) (hmax : 1 ≤ maxPartNo) :
    getPartitionArrays pow fEpsilon none (arrN [1]) f 1 partArraySize i maxPartNo =
      some
        { outPartCount := 1
          pAlongI := [1]
          newFuturePartitions := [1]
          futurePartNumbers := 1 } := by
  unfold getPartitionArrays
  have hr1 : List.range 1 = [0] := rfl
  have ha : arrN [1] 0 = 1 := rfl
  simp only [hr1, List.foldl_cons, List.foldl_nil, derivedPlanStep, derivedNumParts,
    Option.some_bind, ha, hpow,
    getPartCount_one fEpsilon h]
  rw [if_neg (by omega), if_neg (by decide)]
  rfl

/-- A loop that stores a value for every id of a list leaves the other ids. -/
theorem update_fold_keep (l : List Nat) (v : Nat) (p : Nat → Nat) (k : Nat) (hk : k ∉ l) :
    (l.foldl (fun p k => Function.update p k v) p) k = p k := by
  induction l generalizing p with
  | nil => rfl
  | cons b l ih =>
    simp only [List.mem_cons, not_or] at hk
    rw [List.foldl_cons, ih _ hk.2, Function.update_noteq hk.1]

/-- A loop that stores the same value for every id of a list stores it for each of them. -/
theorem update_fold_const (l : List Nat) (v : Nat) (p : Nat → Nat) (k : Nat) (hk : k ∈ l) :
    (l.foldl (fun p k => Function.update p k v) p) k = v := by
  induction l generalizing p with
  | nil => exact absurd hk (List.not_mem_nil _)
  | cons a l ih =>
    rw [List.foldl_cons]
    by_cases hl : k ∈ l
    · exact ih _ hl
    · have hka : k = a := by
        rcases List.mem_cons.1 hk with h | h
        · exact h
        · exact absurd h hl
      subst hka
      rw [update_fold_keep l v _ k hl, Function.update_same]

end PlanLemmas

section OnePart

theorem algLevels_succ (inp : AlgInput) (lv : LevelState) (n : Nat) :
    algLevels inp lv (n + 1) = (algLevels inp lv n).bind (fun st => algLevel inp st n) := by
  unfold algLevels
  rw [List.range_succ, List.foldl_append]
  rfl

/-- A level whose plan gives as many parts as there are is skipped: only the plan vector
`currentPartitions` and `futurePartNumbers` change. -/
theorem algLevel_skip (inp : AlgInput) (st : AlgState) (i : Nat) (r : PartitionArrays)
    (hr : levelPlan inp st i = some r) (hc : r.outPartCount = st.currentPartitionCount) :
    algLevel inp st i = some
      { st with
        currentPartitions := r.newFuturePartitions
        futurePartNumbers := r.futurePartNumbers } := by
  unfold algLevel
  rw [hr, Option.some_bind, if_pos hc]

/-- The plan of a level for an explicit plan entry 1. -/
theorem explicit_plan_entry_one (pow : Nat → ℚ → ℚ) (fEpsilon : ℚ) (p : Nat → Int)
    (cur : Nat → Nat) (f c partArraySize i maxPartNo : Nat) (hp : p i = 1) :
    getPartitionArrays pow fEpsilon (some p) cur f c partArraySize i maxPartNo =
      some
        { outPartCount := c
          pAlongI := []
          newFuturePartitions := []
          futurePartNumbers := f } := by
  unfold getPartitionArrays
  simp only [hp]
  rw [if_neg (by decide)]
  rfl

/-- The state of the loop over the levels when one part is requested: one part that holds
all the points in order, the arrays of the levels as allocated. -/
theorem algLevels_one_part (inp : AlgInput) (lv : LevelState)
    (hplan : (inp.partNo = none ∧ inp.numGlobalParts = 1 ∧ inp.partArraySize = inp.coordDim ∧
        derivedMaxPartNo inp.pow inp.fEpsilon inp.numGlobalParts inp.coordDim =
          some inp.maxPartNo ∧ 0 < inp.fEpsilon ∧ ∀ r, inp.pow 1 r = 1) ∨
      (∃ p, inp.partNo = some p ∧ ∀ i, i < inp.partArraySize → p i = 1))
    (n : Nat) (hn : n ≤ inp.partArraySize) :
    ∃ st, algLevels inp lv n = some st ∧ st.currentPartitionCount = 1 ∧ st.lv = lv ∧
      st.inTotalCounts = arrN [inp.numLocalCoords] ∧
      st.partitionedPointCoordinates = (fun i => i) ∧
      (inp.partNo = none → st.newFuturePartitions = [1]) ∧
      (n < inp.partArraySize → ∃ r, levelPlan inp st n = some r ∧ r.outPartCount = 1) := by
  have plan : ∀ (st : AlgState) (i : Nat), i < inp.partArraySize →
      st.currentPartitionCount = 1 → (inp.partNo = none → st.newFuturePartitions = [1]) →
      ∃ r, levelPlan inp st i = some r ∧ r.outPartCount = 1 := by
    intro st i hi hc hf
    rcases hplan with ⟨h0, hg, hsz, hmax, heps, hpow⟩ | ⟨p, h0, hp⟩
    · have hm : 1 ≤ inp.maxPartNo := by
        rw [hg] at hmax
        exact derivedMaxPartNo_one inp.pow inp.fEpsilon heps hpow inp.coordDim _ hmax
          (by omega)
      have e : levelPlan inp st i = some
          { outPartCount := 1, pAlongI := [1], newFuturePartitions := [1],
            futurePartNumbers := 1 } := by
        unfold levelPlan
        rw [h0, hf h0, hc]
        exact getPartitionArrays_derived_one inp.pow inp.fEpsilon heps hpow _ _ _ _ hm
      exact ⟨_, e, rfl⟩
    · have e : levelPlan inp st i = some
          { outPartCount := st.currentPartitionCount, pAlongI := [], newFuturePartitions := [],
            futurePartNumbers := st.futurePartNumbers } := by
        unfold levelPlan
        rw [h0]
        exact explicit_plan_entry_one inp.pow inp.fEpsilon p _ _ _ _ _ _ (hp i hi)
      exact ⟨_, e, hc⟩
  induction n with
  | zero =>
    refine ⟨algInit inp lv, rfl, rfl, rfl, rfl, rfl, ?_, ?_⟩
    · intro h0
      rcases hplan with ⟨_, hg, _⟩ | ⟨p, hp, _⟩
      · show [inp.numGlobalParts] = [1]
        rw [hg]
      · rw [hp] at h0
        exact absurd h0 (by simp)
    · intro h
      exact plan _ 0 h rfl (by
        intro h0
        rcases hplan with ⟨_, hg, _⟩ | ⟨p, hp, _⟩
        · show [inp.numGlobalParts] = [1]
          rw [hg]
        · rw [hp] at h0
          exact absurd h0 (by simp))
  | succ n ih =>
    obtain ⟨st, hst, hc, hlv, hin, hperm, hf, hr⟩ := ih (by omega)
    obtain ⟨r, hr, hout⟩ := hr (by omega)
    have hskip := algLevel_skip inp st n r hr (by rw [hout, hc])
    refine ⟨{ st with
        currentPartitions := r.newFuturePartitions
        futurePartNumbers := r.futurePartNumbers }, ?_, hc, hlv, hin, hperm, hf, ?_⟩
    · rw [algLevels_succ, hst, Option.some_bind]
      exact hskip
    · intro h
      exact plan _ (n + 1) h hc hf

/-- The final assignment for one part that holds the points `0 .. n - 1` in order. -/
theorem finalAssignment_one_part (st : AlgState) (n : Nat) (hc : st.currentPartitionCount = 1)
    (hin : st.inTotalCounts = arrN [n]) (hperm : st.partitionedPointCoordinates = (fun i => i))
    (k : Nat) : finalAssignment st k = if k < n then 0 else st.lv.sv.partIds k := by
  unfold finalAssignment
  have hr1 : List.range 1 = [0] := rfl
  rw [hc, hr1, List.foldl_cons, List.foldl_nil, hin, hperm]
  have hb : partBegin (arrN [n]) 0 = 0 := rfl
  have he : arrN [n] 0 = n := rfl
  rw [hb, he]
  have hids : rangeIds (fun i => i) 0 n = List.range n := by
    unfold rangeIds
    rw [Nat.sub_zero, ← List.range_eq_range', List.map_id']
  rw [hids]
  by_cases hk : k < n
  · rw [if_pos hk]
    exact update_fold_const _ _ _ k (List.mem_range.2 hk)
  · rw [if_neg hk]
    exact update_fold_keep _ _ _ k (by simpa using hk)

end OnePart

/-- C11: when one part is requested (no plan given and `numGlobalParts = 1`, the library
`pow` being exact on 1, or a plan whose entries are all 1), every level finds one part, gets
from `getPartitionArrays` the output part count 1 and is skipped: it leaves the arrays of the
levels as they are (no solver iteration, no reassignment) and changes only the plan vector
`currentPartitions` and `futurePartNumbers`.  The call returns, and the final assignment
gives the part id 0 to every local point. -/
theorem AlgPQJagged_one_part (inp : AlgInput) (lv : LevelState)
    (hplan : (inp.partNo = none ∧ inp.numGlobalParts = 1 ∧ inp.partArraySize = inp.coordDim ∧
        derivedMaxPartNo inp.pow inp.fEpsilon inp.numGlobalParts inp.coordDim =
          some inp.maxPartNo ∧ 0 < inp.fEpsilon ∧ ∀ r, inp.pow 1 r = 1) ∨
      (∃ p, inp.partNo = some p ∧ ∀ i, i < inp.partArraySize → p i = 1)) :
    (∀ i, i < inp.partArraySize → ∃ st r, algLevels inp lv i = some st ∧
      st.currentPartitionCount = 1 ∧ st.lv = lv ∧
      levelPlan inp st i = some r ∧ r.outPartCount = 1 ∧
      algLevel inp st i = some
        { st with
          currentPartitions := r.newFuturePartitions
          futurePartNumbers := r.futurePartNumbers }) ∧
    ∃ partIds, AlgPQJagged inp lv = some partIds ∧
      (∀ k, k < inp.numLocalCoords → partIds k = 0) ∧
      ∀ k, inp.numLocalCoords ≤ k → partIds k = lv.sv.partIds k := by
  constructor
  · intro i hi
    obtain ⟨st, hst, hc, hlv, _, _, _, hr⟩ := algLevels_one_part inp lv hplan i (by omega)
    obtain ⟨r, hr, hout⟩ := hr hi
    exact ⟨st, r, hst, hc, hlv, hr, hout, algLevel_skip inp st i r hr (by rw [hout, hc])⟩
  · obtain ⟨st, hst, hc, hlv, hin, hperm, _, _⟩ :=
      algLevels_one_part inp lv hplan inp.partArraySize (le_refl _)
    refine ⟨finalAssignment st, ?_, ?_, ?_⟩
    · unfold AlgPQJagged
      rw [hst]
      rfl
    · intro k hk
      rw [finalAssignment_one_part st _ hc hin hperm, if_pos hk]
    · intro k hk
      rw [finalAssignment_one_part st _ hc hin hperm, if_neg (by omega), hlv]

/-- C11 at `onePartRequest`: three points, two dimensions, one part requested. -/
theorem AlgPQJagged_one_part_witness :
    (∀ i, i < onePartRequest.partArraySize → ∃ st r,
      algLevels onePartRequest zeroLevelState i = some st ∧
      st.currentPartitionCount = 1 ∧ st.lv = zeroLevelState ∧
      levelPlan onePartRequest st i = some r ∧ r.outPartCount = 1 ∧
      algLevel onePartRequest st i = some
        { st with
          currentPartitions := r.newFuturePartitions
          futurePartNumbers := r.futurePartNumbers }) ∧
    ∃ partIds, AlgPQJagged onePartRequest zeroLevelState = some partIds ∧
      (∀ k, k < onePartRequest.numLocalCoords → partIds k = 0) ∧
      ∀ k, onePartRequest.numLocalCoords ≤ k → partIds k = zeroLevelState.sv.partIds k :=
  AlgPQJagged_one_part onePartRequest zeroLevelState
    (Or.inl ⟨rfl, rfl, rfl, by decide!, by decide!, fun r => rfl⟩)

/-! ## Degenerate parts -/

/-- C12, as claimed, fails for a part whose points all lie on one coordinate: at
`equalPointsLevel` the global minimum and maximum of the part are both 1 (their difference
0 is below epsilon), yet the part gets one cut to find, `allDone` becomes 1, and the level
sends two of the four points to each child. -/
theorem single_coordinate_part_is_solved :
    (prepareEntry equalPointsLevel).1.globalMinMaxTotal 0 = 1 ∧
    (prepareEntry equalPointsLevel).1.globalMinMaxTotal (0 + 1) = 1 ∧
    (prepareStep equalPointsLevel 0 1 (prepareEntry equalPointsLevel) 0).1.sv.myNonDoneCounts 0
      = 1 ∧
    (prepareEntry equalPointsLevel).2.allDone = 0 ∧
    (prepareStep equalPointsLevel 0 1 (prepareEntry equalPointsLevel) 0).2.allDone = 1 ∧
    (levelLoop equalPointsLevel zeroLevelState).map (levelReport 4 2) =
      some
        { cutCoordinates := [1]
          globalPartWeights := [0, 4, 4]
          targetPartWeightRatios := [1 / 2, 1]
          outTotalCounts := [2, 4]
          newpartitionedPointCoordinates := [0, 1, 2, 3]
          partIds := [0, 0, 1, 1] } := by
  refine ⟨?_, ?_, ?_, ?_, ?_, ?_⟩
  · decide!
  · decide!
  · decide!
  · decide!
  · decide!
  · decide!

/-- C12, amended: a part of a window that is flagged empty (global minimum above global
maximum) gets the count 0 of cuts to find and adds nothing to `allDone`, and with the count
0 neither the classifier nor `getNewCoordinates` runs for it in an iteration of the cut
solver.  A part that is split into `p > 1` parts and is not flagged empty, also when all its
points lie on one coordinate, gets `p - 1` cuts to find, and they are added to `allDone`. -/
theorem prepareStep_degenerate (inp : LevelInput) (cw cp : Nat)
    (acc : LevelState × PrepareCounters) (kk : Nat) :
    (acc.1.globalMinMaxTotal kk > acc.1.globalMinMaxTotal (kk + cp) →
      (prepareStep inp cw cp acc kk).1.sv.myNonDoneCounts kk = 0 ∧
      (prepareStep inp cw cp acc kk).2.allDone = acc.2.allDone ∧
      ∀ (sin : SolverInput) (it : Nat) (s : SolverState),
        s.myNonDoneCounts kk = (prepareStep inp cw cp acc kk).1.sv.myNonDoneCounts kk →
        classifyPart sin s kk = s ∧ solvePart sin it s kk = s) ∧
    (inp.pAlongI (cw + kk) > 1 →
      acc.1.globalMinMaxTotal kk ≤ acc.1.globalMinMaxTotal (kk + cp) →
      (prepareStep inp cw cp acc kk).1.sv.myNonDoneCounts kk = (inp.pAlongI (cw + kk) : Int) - 1 ∧
      (prepareStep inp cw cp acc kk).2.allDone =
        acc.2.allDone + ((inp.pAlongI (cw + kk) : Int) - 1)) := by
  obtain ⟨_, _, _, _, _, h6, h7⟩ := prepareStep_spec inp cw cp acc kk
  constructor
  · intro hgt
    have hno : ¬ (inp.pAlongI (cw + kk) > 1 ∧
        acc.1.globalMinMaxTotal kk ≤ acc.1.globalMinMaxTotal (kk + cp)) :=
      fun h => absurd h.2 (not_le.2 hgt)
    rw [if_neg hno] at h6 h7
    have hz : (prepareStep inp cw cp acc kk).1.sv.myNonDoneCounts kk = 0 := by
      rw [h6, Function.update_same]
    refine ⟨hz, by rw [h7, add_zero], ?_⟩
    intro sin it s hs
    rw [hz] at hs
    constructor
    · unfold classifyPart
      dsimp only
      rw [if_neg (by rw [hs]; decide)]
    · unfold solvePart
      dsimp only
      rw [if_pos hs]
  · intro hp hle
    rw [if_pos ⟨hp, hle⟩] at h6 h7
    exact ⟨by rw [h6, Function.update_same], h7⟩

/-- C12, amended, at `emptyParentLevel`: its second parent is empty. -/
theorem prepareStep_degenerate_witness :
    (prepareStep emptyParentLevel 0 2 (prepareEntry emptyParentLevel) 1).1.sv.myNonDoneCounts 1
      = 0 ∧
    (prepareStep emptyParentLevel 0 2 (prepareEntry emptyParentLevel) 1).2.allDone =
      (prepareEntry emptyParentLevel).2.allDone ∧
    ∀ (sin : SolverInput) (it : Nat) (s : SolverState),
      s.myNonDoneCounts 1 =
        (prepareStep emptyParentLevel 0 2 (prepareEntry emptyParentLevel) 1).1.sv.myNonDoneCounts
          1 →
      classifyPart sin s 1 = s ∧ solvePart sin it s 1 = s :=
  (prepareStep_degenerate emptyParentLevel 0 2 (prepareEntry emptyParentLevel) 1).1
    (by decide!)

/-! ## The tolerance of the cut solver -/

/-- C13, as claimed, fails: with no `imbalance_tolerance` in the parameter list,
`pqJagged_getParameters` gives the tolerance 1/10, and the call of `pqJagged_1D_Partition`
for the first window of `equalPointsLevel` receives the tolerance 0. -/
theorem tolerance_not_passed :
    (pqJagged_getParameters
      { imbalance_tolerance := none, parallel_part_calculation_count := none,
        rectilinear_blocks := none }).imbalanceTolerance = 1 / 10 ∧
    (firstWindowSolverInput equalPointsLevel).imbalanceTolerance = 0 := by
  constructor
  · decide!
  · rfl

/-- C13, amended: the call of `pqJagged_1D_Partition` of every window receives the tolerance
`used_imbalance = 0`, whatever the level, the window and the parameter list are, and the
tolerance that `pqJagged_getParameters` produces is always positive, so the two are never
equal. -/
theorem solverInput_tolerance_zero (inp : LevelInput) (st : LevelState) (cw cp : Nat)
    (pl : ParameterList) :
    (solverInput inp st cw cp).imbalanceTolerance = 0 ∧
    0 < (pqJagged_getParameters pl).imbalanceTolerance ∧
    (solverInput inp st cw cp).imbalanceTolerance ≠
      (pqJagged_getParameters pl).imbalanceTolerance := by
  have hpos : 0 < (pqJagged_getParameters pl).imbalanceTolerance := by
    unfold pqJagged_getParameters
    dsimp only
    split_ifs with h
    · norm_num
    · exact not_le.1 h
  refine ⟨rfl, hpos, ?_⟩
  show (0 : ℚ) ≠ _
  exact ne_of_lt hpos

/-! ## The plan of a level -/

section Plan

/-- The leaf counts pushed for the children of one part: `q` each and one more for the
first `r` children. -/
theorem sum_range_extra (q r n : Nat) :
    ((List.range n).map (fun iii => if iii < r then q + 1 else q)).sum = n * q + min r n := by
  induction n with
  | zero => simp
  | succ n ih =>
    rw [List.range_succ, List.map_append, List.sum_append, ih, Nat.succ_mul]
    simp only [List.map_cons, List.map_nil, List.sum_cons, List.sum_nil, Nat.add_zero]
    by_cases h : n < r
    · rw [if_pos h, Nat.min_eq_right (by omega), Nat.min_eq_right (by omega)]
      omega
    · rw [if_neg h, Nat.min_eq_left (by omega), Nat.min_eq_left (by omega)]
      omega

theorem childLeafCounts_length (numFuture numParts : Nat) :
    (childLeafCounts numFuture numParts).length = numParts := by
  unfold childLeafCounts
  rw [List.length_map, List.length_range]

theorem childLeafCounts_sum (numFuture numParts : Nat) (h : 1 ≤ numParts) :
    (childLeafCounts numFuture numParts).sum = numFuture := by
  unfold childLeafCounts
  dsimp only
  rw [sum_range_extra, Nat.min_eq_left (le_of_lt (Nat.mod_lt _ (by omega)))]
  exact Nat.div_add_mod _ _

theorem sum_flatMap_nat {α : Type} (l : List α) (f : α → List Nat) :
    (l.flatMap f).sum = (l.map (fun a => (f a).sum)).sum := by
  induction l with
  | nil => rfl
  | cons a l ih => rw [List.flatMap_cons, List.sum_append, ih, List.map_cons, List.sum_cons]

theorem length_flatMap_nat {α : Type} (l : List α) (f : α → List Nat) :
    (l.flatMap f).length = (l.map (fun a => (f a).length)).sum := by
  induction l with
  | nil => rfl
  | cons a l ih =>
    rw [List.flatMap_cons, List.length_append, ih, List.map_cons, List.sum_cons]

/-- The loop of lines 4519-4554 over a list of parts that each get between 1 and `maxPartNo`
children: what it appends to the vectors. -/
theorem derivedPlan_fold (pow : Nat → ℚ → ℚ) (fEpsilon : ℚ) (cur : Nat → Nat)
    (partArraySize i maxPartNo : Nat) (l : List Nat)
    (hl : ∀ ii, ii ∈ l → 1 ≤ derivedNumParts pow fEpsilon cur partArraySize i ii ∧
      derivedNumParts pow fEpsilon cur partArraySize i ii ≤ maxPartNo)
    (a : PartitionArrays) :
    ∃ f, l.foldl (derivedPlanStep pow fEpsilon cur partArraySize i maxPartNo) (some a) =
      some
        { outPartCount := a.outPartCount +
            (l.map (derivedNumParts pow fEpsilon cur partArraySize i)).sum
          pAlongI := a.pAlongI ++ l.map (derivedNumParts pow fEpsilon cur partArraySize i)
          newFuturePartitions := a.newFuturePartitions ++ l.flatMap (fun ii =>
            childLeafCounts (cur ii) (derivedNumParts pow fEpsilon cur partArraySize i ii))
          futurePartNumbers := f } := by
  induction l generalizing a with
  | nil =>
    refine ⟨a.futurePartNumbers, ?_⟩
    simp
  | cons b l ih =>
    obtain ⟨h1, h2⟩ := hl b (List.mem_cons_self _ _)
    rw [List.foldl_cons]
    have hstep : derivedPlanStep pow fEpsilon cur partArraySize i maxPartNo (some a) b =
        some
          { outPartCount := a.outPartCount + derivedNumParts pow fEpsilon cur partArraySize i b
            pAlongI := a.pAlongI ++ [derivedNumParts pow fEpsilon cur partArraySize i b]
            newFuturePartitions := a.newFuturePartitions ++
              childLeafCounts (cur b) (derivedNumParts pow fEpsilon cur partArraySize i b)
            futurePartNumbers :=
              (childLeafCounts (cur b)
                (derivedNumParts pow fEpsilon cur partArraySize i b)).foldl
                (fun f fNofCuts => if fNofCuts > f then fNofCuts else f) a.futurePartNumbers } := by
      unfold derivedPlanStep
      rw [Option.some_bind]
      dsimp only
      rw [if_neg (by omega), if_neg (by omega)]
    rw [hstep]
    obtain ⟨f, hf⟩ := ih (fun ii hii => hl ii (List.mem_cons_of_mem _ hii)) _
    refine ⟨f, ?_⟩
    rw [hf]
    simp only [List.map_cons, List.sum_cons, List.flatMap_cons, List.append_assoc,
      List.singleton_append, Nat.add_assoc]

end Plan

/-- C14: with no plan given, when every current part gets between 1 and `maxPartNo`
children (`numParts`, the value of `getPartCount`), the leaf counts pushed for the children
of a part are `numParts` numbers that sum to the part's leaf count `numFuture`;
`getPartitionArrays` returns, `pAlongI` holds the values `numParts`, `newFuturePartitions`
holds the children's leaf counts part after part, its length is the returned `outPartCount`,
which is the sum of `pAlongI`, and its sum is the sum of `currentPartitions`. -/
theorem getPartitionArrays_derived_conserves (pow : Nat → ℚ → ℚ) (fEpsilon : ℚ)
    (cur : Nat → Nat) (f count partArraySize i maxPartNo : Nat)
    (hparts : ∀ ii, ii < count → 1 ≤ derivedNumParts pow fEpsilon cur partArraySize i ii ∧
      derivedNumParts pow fEpsilon cur partArraySize i ii ≤ maxPartNo) :
    (∀ ii, ii < count →
      (childLeafCounts (cur ii) (derivedNumParts pow fEpsilon cur partArraySize i ii)).length =
        derivedNumParts pow fEpsilon cur partArraySize i ii ∧
      (childLeafCounts (cur ii) (derivedNumParts pow fEpsilon cur partArraySize i ii)).sum =
        cur ii) ∧
    ∃ r, getPartitionArrays pow fEpsilon none cur f count partArraySize i maxPartNo = some r ∧
      r.pAlongI = (List.range count).map (derivedNumParts pow fEpsilon cur partArraySize i) ∧
      r.newFuturePartitions = (List.range count).flatMap (fun ii =>
        childLeafCounts (cur ii) (derivedNumParts pow fEpsilon cur partArraySize i ii)) ∧
      r.outPartCount = r.pAlongI.sum ∧
      r.newFuturePartitions.length = r.outPartCount ∧
      r.newFuturePartitions.sum = ((List.range count).map cur).sum := by
  constructor
  · intro ii hii
    exact ⟨childLeafCounts_length _ _, childLeafCounts_sum _ _ (hparts ii hii).1⟩
  · obtain ⟨f', hf⟩ := derivedPlan_fold pow fEpsilon cur partArraySize i maxPartNo
      (List.range count) (fun ii hii => hparts ii (List.mem_range.1 hii))
      { outPartCount := 0, pAlongI := [], newFuturePartitions := [], futurePartNumbers := 1 }
    refine ⟨_, hf, ?_, ?_, ?_, ?_, ?_⟩
    · exact List.nil_append _
    · exact List.nil_append _
    · show 0 + _ = ([] ++ _ : List Nat).sum
      rw [Nat.zero_add, List.nil_append]
    · show ([] ++ _ : List Nat).length = 0 + _
      rw [Nat.zero_add, List.nil_append, length_flatMap_nat]
      congr 1
      apply List.map_congr_left
      intro ii _
      exact childLeafCounts_length _ _
    · show ([] ++ _ : List Nat).sum = _
      rw [List.nil_append, sum_flatMap_nat]
      congr 1
      apply List.map_congr_left
      intro ii hii
      exact childLeafCounts_sum _ _ (hparts ii (List.mem_range.1 hii)).1

/-- C14 for two parts with the leaf counts 6 and 5 on the first of two levels: three
children each, with the leaf counts 2, 2, 2 and 2, 2, 1. -/
theorem getPartitionArrays_derived_conserves_witness :
    (∀ ii, ii < 2 →
      (childLeafCounts (arrN [6, 5] ii)
        (derivedNumParts powSample epsFloat (arrN [6, 5]) 2 0 ii)).length =
        derivedNumParts powSample epsFloat (arrN [6, 5]) 2 0 ii ∧
      (childLeafCounts (arrN [6, 5] ii)
        (derivedNumParts powSample epsFloat (arrN [6, 5]) 2 0 ii)).sum = arrN [6, 5] ii) ∧
    ∃ r, getPartitionArrays powSample epsFloat none (arrN [6, 5]) 11 2 2 0 3 = some r ∧
      r.pAlongI = (List.range 2).map (derivedNumParts powSample epsFloat (arrN [6, 5]) 2 0) ∧
      r.newFuturePartitions = (List.range 2).flatMap (fun ii =>
        childLeafCounts (arrN [6, 5] ii)
          (derivedNumParts powSample epsFloat (arrN [6, 5]) 2 0 ii)) ∧
      r.outPartCount = r.pAlongI.sum ∧
      r.newFuturePartitions.length = r.outPartCount ∧
      r.newFuturePartitions.sum = ((List.range 2).map (arrN [6, 5])).sum :=
  getPartitionArrays_derived_conserves powSample epsFloat (arrN [6, 5]) 11 2 2 0 3
    (by decide!)

/-- C15: with a plan given and at least one current part, `getPartitionArrays` exits
(no result) exactly when `partNo[i] < 1`; for `partNo[i] = 1` it returns
`currentPartitionCount`, pushes nothing and leaves `futurePartNumbers`; for
`partNo[i] = p > 1` it returns `currentPartitionCount * p`, `pAlongI` holds
`currentPartitionCount` copies of `p`, `futurePartNumbers` is divided by `p`, and
`newFuturePartitions` holds that quotient once for every output part. -/
theorem getPartitionArrays_explicit (pow : Nat → ℚ → ℚ) (fEpsilon : ℚ) (partNo : Nat → Int)
    (cur : Nat → Nat) (f count partArraySize i maxPartNo : Nat) (hcount : 1 ≤ count) :
    (getPartitionArrays pow fEpsilon (some partNo) cur f count partArraySize i maxPartNo = none
      ↔ partNo i < 1) ∧
    (partNo i = 1 →
      getPartitionArrays pow fEpsilon (some partNo) cur f count partArraySize i maxPartNo =
        some { outPartCount := count, pAlongI := [], newFuturePartitions := [],
               futurePartNumbers := f }) ∧
    (partNo i > 1 →
      getPartitionArrays pow fEpsilon (some partNo) cur f count partArraySize i maxPartNo =
        some { outPartCount := count * (partNo i).toNat
               pAlongI := List.replicate count (partNo i).toNat
               newFuturePartitions :=
                 List.replicate (count * (partNo i).toNat) (f / (partNo i).toNat)
               futurePartNumbers := f / (partNo i).toNat }) := by
  have h1 : partNo i = 1 →
      getPartitionArrays pow fEpsilon (some partNo) cur f count partArraySize i maxPartNo =
        some { outPartCount := count, pAlongI := [], newFuturePartitions := [],
               futurePartNumbers := f } := by
    intro hp
    exact explicit_plan_entry_one pow fEpsilon partNo cur f count partArraySize i
      maxPartNo hp
  have h2 : partNo i > 1 →
      getPartitionArrays pow fEpsilon (some partNo) cur f count partArraySize i maxPartNo =
        some { outPartCount := count * (partNo i).toNat
               pAlongI := List.replicate count (partNo i).toNat
               newFuturePartitions :=
                 List.replicate (count * (partNo i).toNat) (f / (partNo i).toNat)
               futurePartNumbers := f / (partNo i).toNat } := by
    intro hp
    unfold getPartitionArrays
    dsimp only
    rw [if_neg (by omega), if_neg (by omega), if_neg (by omega)]
  refine ⟨?_, h1, h2⟩
  constructor
  · intro hnone
    by_contra hlt
    rcases (by omega : partNo i = 1 ∨ partNo i > 1) with hp | hp
    · rw [h1 hp] at hnone
      exact absurd hnone (by simp)
    · rw [h2 hp] at hnone
      exact absurd hnone (by simp)
  · intro hlt
    unfold getPartitionArrays
    dsimp only
    rw [if_pos hlt]

/-- C15 for the plan 3, 1, 0 and two current parts with 12 leaves to come: level 0 gives
six parts, level 1 keeps the two parts, level 2 exits. -/
theorem getPartitionArrays_explicit_witness :
    (1 : Nat) ≤ 2 ∧
    getPartitionArrays powSample epsFloat (some (fun i => if i = 0 then 3 else 2 - (i : Int)))
        (arrN [6, 6]) 12 2 3 0 3 =
      some { outPartCount := 6, pAlongI := [3, 3], newFuturePartitions := [4, 4, 4, 4, 4, 4],
             futurePartNumbers := 4 } ∧
    getPartitionArrays powSample epsFloat (some (fun i => if i = 0 then 3 else 2 - (i : Int)))
        (arrN [6, 6]) 12 2 3 1 3 =
      some { outPartCount := 2, pAlongI := [], newFuturePartitions := [],
             futurePartNumbers := 12 } ∧
    getPartitionArrays powSample epsFloat (some (fun i => if i = 0 then 3 else 2 - (i : Int)))
        (arrN [6, 6]) 12 2 3 2 3 = none :=
  ⟨by decide,
   (getPartitionArrays_explicit powSample epsFloat
      (fun i => if i = 0 then 3 else 2 - (i : Int)) (arrN [6, 6]) 12 2 3 0 3
      (by decide)).2.2 (by decide),
   (getPartitionArrays_explicit powSample epsFloat
      (fun i => if i = 0 then 3 else 2 - (i : Int)) (arrN [6, 6]) 12 2 3 1 3
      (by decide)).2.1 (by decide),
   (getPartitionArrays_explicit powSample epsFloat
      (fun i => if i = 0 then 3 else 2 - (i : Int)) (arrN [6, 6]) 12 2 3 2 3
      (by decide)).1.2 (by decide)⟩

/-! ## The combined reduction -/

section Reduce

/-- A loop that combines the entries `a .. a + n - 1` of a buffer pointwise. -/
theorem pointwise_fold (inB : Nat → ℚ) (g : ℚ → ℚ → ℚ) (step : (Nat → ℚ) → Nat → (Nat → ℚ))
    (hstep : ∀ b next y, step b next y = if y = next then g (b next) (inB next) else b y)
    (n a : Nat) (b : Nat → ℚ) (y : Nat) :
    ((List.range' a n).foldl step b) y =
      if a ≤ y ∧ y < a + n then g (b y) (inB y) else b y := by
  induction n generalizing a b with
  | zero =>
    rw [if_neg (by omega)]
    rfl
  | succ n ih =>
    rw [List.range'_succ, List.foldl_cons, ih, hstep]
    by_cases h1 : y = a
    · subst h1
      rw [if_neg (by omega), if_pos rfl, if_pos (by omega)]
    · rw [if_neg h1]
      by_cases h2 : a + 1 ≤ y ∧ y < a + 1 + n
      · rw [if_pos h2, if_pos (by omega)]
      · rw [if_neg h2, if_neg (by omega)]

theorem reduceSum_apply (inB b : Nat → ℚ) (next y : Nat) :
    reduceSum inB b next y = if y = next then b next + inB next else b y := by
  unfold reduceSum
  by_cases h : y = next
  · subst h
    rw [if_pos rfl, Function.update_same]
  · rw [if_neg h, Function.update_noteq h]

theorem reduceMin_apply (inB b : Nat → ℚ) (next y : Nat) :
    reduceMin inB b next y = if y = next then min (b next) (inB next) else b y := by
  unfold reduceMin
  by_cases hgt : b next > inB next
  · rw [if_pos hgt]
    by_cases h : y = next
    · subst h
      rw [if_pos rfl, Function.update_same, min_eq_right (le_of_lt hgt)]
    · rw [if_neg h, Function.update_noteq h]
  · rw [if_neg hgt]
    by_cases h : y = next
    · subst h
      rw [if_pos rfl, min_eq_left (not_lt.1 hgt)]
    · rw [if_neg h]

theorem layoutKind_cons (p : Nat) (rest : List Nat) (x : Nat) :
    layoutKind (p :: rest) x =
      if x < 2 * p - 1 then some EntryKind.weight
      else if x < (2 * p - 1) + (p - 1) then some EntryKind.leftClosest
      else if x < (2 * p - 1) + (p - 1) + (p - 1) then some EntryKind.rightClosest
      else layoutKind rest (x - ((2 * p - 1) + (p - 1) + (p - 1))) := rfl

/-- The loop over the window of `reduce` from the buffer position `next`: the entries before
`next` stay, the others are combined as the layout says. -/
theorem reduceParts_apply (inB : Nat → ℚ) (parts : List Nat) (next : Nat) (b : Nat → ℚ)
    (x : Nat) :
    reduceParts inB parts next b x =
      if x < next then b x else combineEntry (layoutKind parts (x - next)) (b x) (inB x) := by
  induction parts generalizing next b with
  | nil =>
    unfold reduceParts
    by_cases h : x < next
    · rw [if_pos h]
    · rw [if_neg h]
      rfl
  | cons p rest ih =>
    unfold reduceParts
    dsimp only
    rw [ih]
    rw [pointwise_fold inB (fun a c => min a c) (reduceMin inB) (reduceMin_apply inB),
      pointwise_fold inB (fun a c => min a c) (reduceMin inB) (reduceMin_apply inB),
      pointwise_fold inB (fun a c => a + c) (reduceSum inB) (reduceSum_apply inB)]
    rw [layoutKind_cons]
    by_cases h0 : x < next
    · rw [if_pos (by omega), if_neg (by omega), if_neg (by omega), if_neg (by omega),
        if_pos h0]
    · rw [if_neg h0]
      by_cases h1 : x < next + (2 * p - 1)
      · rw [if_pos (by omega), if_neg (by omega), if_neg (by omega), if_pos (by omega),
          if_pos (by omega)]
        rfl
      · by_cases h2 : x < next + (2 * p - 1) + (p - 1)
        · rw [if_pos (by omega), if_neg (by omega), if_pos (by omega), if_neg (by omega),
            if_neg (by omega), if_pos (by omega)]
          rfl
        · by_cases h3 : x < next + (2 * p - 1) + (p - 1) + (p - 1)
          · rw [if_pos (by omega), if_pos (by omega), if_neg (by omega), if_neg (by omega),
              if_neg (by omega), if_neg (by omega), if_pos (by omega)]
            rfl
          · rw [if_neg (by omega), if_neg (by omega), if_neg (by omega), if_neg (by omega),
              if_neg (by omega), if_neg (by omega), if_neg (by omega)]
            have e : x - (next + (2 * p - 1) + (p - 1) + (p - 1)) =
                x - next - ((2 * p - 1) + (p - 1) + (p - 1)) := by omega
            rw [e]

/-- The layout covers exactly the first entries, as many as its segments hold. -/
theorem layoutKind_isSome (parts : List Nat) (x : Nat) :
    (layoutKind parts x).isSome = true ↔
      x < (parts.map (fun p => (2 * p - 1) + (p - 1) + (p - 1))).sum := by
  induction parts generalizing x with
  | nil =>
    unfold layoutKind
    simp
  | cons p rest ih =>
    rw [layoutKind_cons, List.map_cons, List.sum_cons]
    by_cases h1 : x < 2 * p - 1
    · rw [if_pos h1]
      simp only [Option.isSome_some, true_iff]
      omega
    · rw [if_neg h1]
      by_cases h2 : x < (2 * p - 1) + (p - 1)
      · rw [if_pos h2]
        simp only [Option.isSome_some, true_iff]
        omega
      · rw [if_neg h2]
        by_cases h3 : x < (2 * p - 1) + (p - 1) + (p - 1)
        · rw [if_pos h3]
          simp only [Option.isSome_some, true_iff]
          omega
        · rw [if_neg h3, ih]
          omega

/-- The value `totalReductionSize` as a sum over the sub-part counts of the window. -/
theorem totalReductionSize_eq (inp : SolverInput)
    (hp : ∀ i, i < inp.concurrentPartCount → 1 ≤ inp.pVector (inp.currentPartBeginIndex + i)) :
    totalReductionSize inp =
      ((windowParts inp.pVector inp.currentPartBeginIndex inp.concurrentPartCount).map
        (fun p => (2 * p - 1) + (p - 1) + (p - 1))).sum ∧
    totalReductionSize inp =
      ((windowParts inp.pVector inp.currentPartBeginIndex inp.concurrentPartCount).map
        (fun p => 4 * p - 3)).sum := by
  have key : ∀ g : Nat → Nat, (∀ p, 1 ≤ p → g p = 4 * (p - 1) + 1) →
      totalReductionSize inp =
        ((windowParts inp.pVector inp.currentPartBeginIndex inp.concurrentPartCount).map
          g).sum := by
    intro g hg
    unfold totalReductionSize windowParts
    rw [List.range'_eq_map_range]
    simp only [List.map_map]
    congr 1
    apply List.map_congr_left
    intro i hi
    simp only [Function.comp]
    rw [hg _ (hp i (List.mem_range.1 hi))]
  exact ⟨key _ (fun p h => by omega), key _ (fun p h => by omega)⟩

end Reduce

/-- C16: for a window whose parts each have a sub-part count `p_i >= 1`, read from
`pVector` at `currentPartBeginIndex`, the method `reduce` (`reductionType = 1`) changes the
entry `x` of `inoutBuffer` as the layout of consecutive segments says (`2 p_i - 1` weight
entries, `p_i - 1` left-closest entries, `p_i - 1` right-closest entries per part): to
`inoutBuffer[x] + inBuffer[x]` on a weight entry, to the minimum of the two on a
closest-distance entry, and not at all past the layout; the layout holds exactly the entries
`x < totalReductionSize`, and `totalReductionSize` is the sum of `4 p_i - 3`. -/
theorem reduce_layout (inp : SolverInput)
    (hp : ∀ i, i < inp.concurrentPartCount → 1 ≤ inp.pVector (inp.currentPartBeginIndex + i))
    (inBuffer inoutBuffer : Nat → ℚ) (x : Nat) :
    reduce inp.pVector inp.currentPartBeginIndex inp.concurrentPartCount inBuffer inoutBuffer x =
      combineEntry
        (layoutKind (windowParts inp.pVector inp.currentPartBeginIndex inp.concurrentPartCount)
          x)
        (inoutBuffer x) (inBuffer x) ∧
    ((layoutKind (windowParts inp.pVector inp.currentPartBeginIndex inp.concurrentPartCount)
        x).isSome = true ↔ x < totalReductionSize inp) ∧
    (totalReductionSize inp ≤ x →
      reduce inp.pVector inp.currentPartBeginIndex inp.concurrentPartCount inBuffer inoutBuffer
        x = inoutBuffer x) ∧
    totalReductionSize inp =
      ((windowParts inp.pVector inp.currentPartBeginIndex inp.concurrentPartCount).map
        (fun p => 4 * p - 3)).sum := by
  have hred : reduce inp.pVector inp.currentPartBeginIndex inp.concurrentPartCount inBuffer
      inoutBuffer x =
      combineEntry
        (layoutKind (windowParts inp.pVector inp.currentPartBeginIndex inp.concurrentPartCount)
          x)
        (inoutBuffer x) (inBuffer x) := by
    unfold reduce
    rw [reduceParts_apply, if_neg (by omega), Nat.sub_zero]
  have hsome := layoutKind_isSome
    (windowParts inp.pVector inp.currentPartBeginIndex inp.concurrentPartCount) x
  rw [← (totalReductionSize_eq inp hp).1] at hsome
  refine ⟨hred, hsome, ?_, (totalReductionSize_eq inp hp).2⟩
  intro hx
  rw [hred]
  have hnone : layoutKind
      (windowParts inp.pVector inp.currentPartBeginIndex inp.concurrentPartCount) x = none := by
    rw [← Option.not_isSome_iff_eq_none, hsome]
    omega
  rw [hnone]
  rfl

/-- C16 for the window of `emptyParentLevel`, two parts with two sub-parts each: the
buffers hold 10 entries, `3 + 1 + 1` per part. -/
theorem reduce_layout_witness :
    (∀ i, i < (firstWindowSolverInput emptyParentLevel).concurrentPartCount →
      1 ≤ (firstWindowSolverInput emptyParentLevel).pVector
        ((firstWindowSolverInput emptyParentLevel).currentPartBeginIndex + i)) ∧
    ∀ (inBuffer inoutBuffer : Nat → ℚ) (x : Nat),
      reduce (arrN [2, 2]) 0 2 inBuffer inoutBuffer x =
        combineEntry (layoutKind [2, 2] x) (inoutBuffer x) (inBuffer x) ∧
      ((layoutKind [2, 2] x).isSome = true ↔ x < 10) ∧
      (10 ≤ x → reduce (arrN [2, 2]) 0 2 inBuffer inoutBuffer x = inoutBuffer x) ∧
      totalReductionSize (firstWindowSolverInput emptyParentLevel) = 10 :=
  ⟨by decide, fun inBuffer inoutBuffer x =>
    reduce_layout (firstWindowSolverInput emptyParentLevel) (by decide) inBuffer inoutBuffer x⟩

/-! ## The binary search of the classifier -/

section Search

variable (eps : ℚ) (noCuts : Nat) (cuts : Nat → ℚ) (coord : ℚ)

/-- Cuts with consecutive gaps above `2 eps` are that far apart pairwise. -/
theorem gaps_lt (heps : 0 < eps)
    (hgap : ∀ k, k + 1 < noCuts → cuts k + 2 * eps < cuts (k + 1))
    (j k : Nat) (hjk : j < k) (hk : k < noCuts) : cuts j + 2 * eps < cuts k := by
  induction k with
  | zero => omega
  | succ k ih =>
    by_cases h : j = k
    · subst h
      exact hgap j hk
    · have h1 := ih (by omega) (by omega)
      have h2 := hgap k hk
      linarith

theorem gaps_mono (heps : 0 < eps)
    (hgap : ∀ k, k + 1 < noCuts → cuts k + 2 * eps < cuts (k + 1))
    (j k : Nat) (hjk : j ≤ k) (hk : k < noCuts) : cuts j ≤ cuts k := by
  by_cases h : j = k
  · subst h
    exact le_refl _
  · have := gaps_lt eps noCuts cuts heps hgap j k (by omega) hk
    linarith

/-- A comparison that is neither within epsilon nor below zero is at least epsilon. -/
theorem ABS_not_lt_of_neg (x : ℚ) (h1 : ¬ ABS x < eps) (h2 : x < 0) : x ≤ -eps := by
  unfold ABS at h1
  rw [if_neg (by linarith)] at h1
  linarith

theorem ABS_not_lt_of_nonneg (x : ℚ) (h1 : ¬ ABS x < eps) (h2 : ¬ x < 0) : eps ≤ x := by
  unfold ABS at h1
  rw [if_pos (by linarith)] at h1
  linarith

/-- The binary search over sorted cuts ends with a correct outcome: the cuts below `lc` are
at least epsilon below the point, the cuts above `uc` at least epsilon above it, and the
interval `[lc, uc]` is searched with enough fuel. -/
theorem locate_correct_aux (hmono : ∀ a b, a ≤ b → b < noCuts → cuts a ≤ cuts b)
    (fuel : Nat) (j lc uc : Int) (last : Located)
    (hlc : 0 ≤ lc) (huc : uc < noCuts) (hj : lc ≤ uc → lc ≤ j ∧ j ≤ uc)
    (hfuel : uc - lc + 1 ≤ fuel)
    (hlo : ∀ k : Nat, (k : Int) < lc → cuts k + eps ≤ coord)
    (hhi : ∀ k : Nat, uc < (k : Int) → k < noCuts → coord ≤ cuts k - eps)
    (hlast : uc < lc → last.Correct eps noCuts cuts coord) :
    (locate eps noCuts cuts coord fuel j lc uc last).Correct eps noCuts cuts coord := by
  induction fuel generalizing j lc uc last with
  | zero =>
    unfold locate
    exact hlast (by omega)
  | succ fuel ih =>
    unfold locate
    by_cases hule : uc ≥ lc
    · rw [if_pos hule]
      obtain ⟨hj1, hj2⟩ := hj hule
      have hjn : j.toNat < noCuts := by omega
      have hjc : ((j.toNat : Nat) : Int) = j := Int.toNat_of_nonneg (by omega)
      dsimp only
      by_cases h1 : ABS (coord - cuts j.toNat) < eps
      · rw [if_pos h1]
        exact ⟨hjn, h1⟩
      · rw [if_neg h1]
        by_cases h2 : coord - cuts j.toNat < 0
        · rw [if_pos h2]
          have hle : coord ≤ cuts j.toNat - eps := by
            have := ABS_not_lt_of_neg eps _ h1 h2
            linarith
          by_cases hb : (decide (j > 0) && decide (coord - cuts (j - 1).toNat > eps)) = true
          · rw [if_pos hb]
            simp only [Bool.and_eq_true, decide_eq_true_eq] at hb
            refine ⟨hjn, hle, fun _ => ?_⟩
            have e : (j - 1).toNat = j.toNat - 1 := by omega
            rw [← e]
            linarith [hb.2]
          · rw [if_neg hb]
            apply ih
            · exact hlc
            · omega
            · intro h
              constructor <;> omega
            · omega
            · exact hlo
            · intro k hk1 hk2
              have := hmono j.toNat k (by omega) hk2
              linarith
            · intro hlt
              refine ⟨hjn, hle, fun h1 => ?_⟩
              exact hlo (j.toNat - 1) (by omega)
        · rw [if_neg h2]
          have hge : cuts j.toNat + eps ≤ coord := by
            have := ABS_not_lt_of_nonneg eps _ h1 h2
            linarith
          by_cases hb : (decide (j < (noCuts : Int) - 1) &&
              decide (coord - cuts (j + 1).toNat < -eps)) = true
          · rw [if_pos hb]
            simp only [Bool.and_eq_true, decide_eq_true_eq] at hb
            refine ⟨hjn, hge, fun _ => ?_⟩
            have e : (j + 1).toNat = j.toNat + 1 := by omega
            rw [← e]
            linarith [hb.2]
          · rw [if_neg hb]
            apply ih
            · omega
            · exact huc
            · intro h
              constructor <;> omega
            · omega
            · intro k hk1
              have := hmono k j.toNat (by omega) hjn
              linarith
            · exact hhi
            · intro hlt
              refine ⟨hjn, hge, fun h1 => ?_⟩
              exact hhi (j.toNat + 1) (by omega) h1
    · rw [if_neg hule]
      exact hlast (by omega)

/-- The binary search of the classifier, started at any cached cut, ends with a correct
outcome. -/
theorem locate_correct (heps : 0 < eps) (hn : 1 ≤ noCuts)
    (hgap : ∀ k, k + 1 < noCuts → cuts k + 2 * eps < cuts (k + 1)) (cached : Nat) :
    (locate eps noCuts cuts coord noCuts
      (if ((cached / 2 : Nat) : Int) ≥ (noCuts : Int) then (noCuts : Int) - 1
        else ((cached / 2 : Nat) : Int))
      0 ((noCuts : Int) - 1) Located.nowhere).Correct eps noCuts cuts coord := by
  apply locate_correct_aux eps noCuts cuts coord (gaps_mono eps noCuts cuts heps hgap)
  · exact le_refl _
  · omega
  · intro _
    split_ifs <;> constructor <;> omega
  · omega
  · intro k hk
    omega
  · intro k hk1 hk2
    omega
  · intro h
    omega

/-- A correct outcome names the bucket of the coordinate. -/
theorem correct_isBucket (heps : 0 < eps)
    (hgap : ∀ k, k + 1 < noCuts → cuts k + 2 * eps < cuts (k + 1)) (o : Located)
    (ho : o.Correct eps noCuts cuts coord) : IsBucket eps noCuts cuts coord o.bucket := by
  have hlt := gaps_lt eps noCuts cuts heps hgap
  have hmono := gaps_mono eps noCuts cuts heps hgap
  cases o with
  | onCut j =>
    obtain ⟨hj, habs⟩ := ho
    rw [ABS_eq_abs, abs_lt] at habs
    refine ⟨by show j * 2 + 1 ≤ _; omega, fun k hk => ?_⟩
    show (j * 2 + 1 ≤ 2 * k ↔ _) ∧ (j * 2 + 1 ≤ 2 * k + 1 ↔ _)
    constructor
    · constructor
      · intro h
        have := hlt j k (by omega) hk
        linarith [habs.2]
      · intro h
        by_contra hc
        have := hmono k j (by omega) hj
        linarith [habs.1]
    · constructor
      · intro h
        have := hmono j k (by omega) hk
        linarith [habs.2]
      · intro h
        by_contra hc
        have := hlt k j (by omega) hj
        linarith [habs.1]
  | onRight j =>
    obtain ⟨hj, hge, hnext⟩ := ho
    refine ⟨by show 2 * j + 2 ≤ _; omega, fun k hk => ?_⟩
    show (2 * j + 2 ≤ 2 * k ↔ _) ∧ (2 * j + 2 ≤ 2 * k + 1 ↔ _)
    constructor
    · constructor
      · intro h
        have h1 := hnext (by omega)
        have := hmono (j + 1) k (by omega) hk
        linarith
      · intro h
        by_contra hc
        have := hmono k j (by omega) hj
        linarith
    · constructor
      · intro h
        have h1 := hnext (by omega)
        have := hmono (j + 1) k (by omega) hk
        linarith
      · intro h
        by_contra hc
        have := hmono k j (by omega) hj
        linarith
  | onLeft j =>
    obtain ⟨hj, hle, hprev⟩ := ho
    refine ⟨by show 2 * j ≤ _; omega, fun k hk => ?_⟩
    show (2 * j ≤ 2 * k ↔ _) ∧ (2 * j ≤ 2 * k + 1 ↔ _)
    constructor
    · constructor
      · intro h
        have := hmono j k (by omega) hk
        linarith
      · intro h
        by_contra hc
        have h1 := hprev (by omega)
        have := hmono k (j - 1) (by omega) (by omega)
        linarith
    · constructor
      · intro h
        have := hmono j k (by omega) hk
        linarith
      · intro h
        by_contra hc
        have h1 := hprev (by omega)
        have := hmono k (j - 1) (by omega) (by omega)
        linarith
  | nowhere => exact absurd ho (by simp [Located.Correct])

/-- A coordinate has one bucket. -/
theorem isBucket_unique (b b' : Nat) (hb : IsBucket eps noCuts cuts coord b)
    (hb' : IsBucket eps noCuts cuts coord b') : b = b' := by
  have key : ∀ c c', IsBucket eps noCuts cuts coord c → IsBucket eps noCuts cuts coord c' →
      ¬ c < c' := by
    intro c c' hc hc' hlt
    have hk : c / 2 < noCuts := by
      have := hc'.1
      omega
    obtain ⟨h1, h2⟩ := hc.2 (c / 2) hk
    obtain ⟨h1', h2'⟩ := hc'.2 (c / 2) hk
    by_cases hpar : c % 2 = 0
    · have := h1'.2 (h1.1 (by omega))
      omega
    · have := h2'.2 (h2.1 (by omega))
      omega
  have := key b b' hb hb'
  have := key b' b hb' hb
  omega

end Search

/-! ## The histogram of the classifier -/

section Histogram

variable (eps : ℚ) (noCuts : Nat) (coords : Nat → ℚ) (uniform : Bool) (weights cuts : Nat → ℚ)

/-- The loop to the right stops at once at a cut that is not within epsilon: no weight
changes. -/
theorem spreadRight_weights (w cut : ℚ) (kk : Nat) (l : List Nat) (s : ClassifyState)
    (h : ¬ ABS (cuts kk - cut) < eps) :
    (spreadRight eps w cut cuts (kk :: l) s).myPartWeights = s.myPartWeights := by
  unfold spreadRight
  dsimp only
  rw [if_neg h]
  split_ifs <;> rfl

theorem spreadLeft_weights (w cut : ℚ) (kk : Nat) (l : List Nat) (s : ClassifyState)
    (h : ¬ ABS (cuts kk - cut) < eps) :
    (spreadLeft eps w cut cuts (kk :: l) s).myPartWeights = s.myPartWeights := by
  unfold spreadLeft
  dsimp only
  rw [if_neg h]
  split_ifs <;> rfl

/-- Two different cuts are not within epsilon of each other. -/
theorem gaps_not_close (heps : 0 < eps)
    (hgap : ∀ k, k + 1 < noCuts → cuts k + 2 * eps < cuts (k + 1))
    (j k : Nat) (hj : j < noCuts) (hk : k < noCuts) (hjk : j ≠ k) :
    ¬ ABS (cuts k - cuts j) < eps := by
  rw [ABS_eq_abs, abs_lt]
  intro h
  rcases Nat.lt_or_gt_of_ne hjk with h1 | h1
  · have := gaps_lt eps noCuts cuts heps hgap j k h1 hk
    linarith [h.2]
  · have := gaps_lt eps noCuts cuts heps hgap k j h1 hj
    linarith [h.1]

/-- The loops over the cuts that share a position change no weight when the cuts are more
than `2 eps` apart. -/
theorem spreads_weights (heps : 0 < eps)
    (hgap : ∀ k, k + 1 < noCuts → cuts k + 2 * eps < cuts (k + 1))
    (w : ℚ) (j : Nat) (hj : j < noCuts) (s : ClassifyState) :
    (spreadLeft eps w (cuts j) cuts (List.range j).reverse
      (spreadRight eps w (cuts j) cuts (List.range' (j + 1) (noCuts - (j + 1)))
        s)).myPartWeights = s.myPartWeights := by
  have h1 : (spreadRight eps w (cuts j) cuts (List.range' (j + 1) (noCuts - (j + 1)))
      s).myPartWeights = s.myPartWeights := by
    by_cases hn : j + 1 < noCuts
    · obtain ⟨m, hm⟩ : ∃ m, noCuts - (j + 1) = m + 1 := ⟨noCuts - (j + 1) - 1, by omega⟩
      rw [hm, List.range'_succ]
      exact spreadRight_weights eps cuts w _ _ _ _
        (gaps_not_close eps noCuts cuts heps hgap j (j + 1) hj hn (by omega))
    · have hm : noCuts - (j + 1) = 0 := by omega
      rw [hm]
      rfl
  rw [← h1]
  cases j with
  | zero => rfl
  | succ j =>
    rw [List.range_succ, List.reverse_append, List.reverse_singleton, List.singleton_append]
    exact spreadLeft_weights eps cuts w _ _ _ _
      (gaps_not_close eps noCuts cuts heps hgap (j + 1) j hj (by omega) (by omega))

/-- The classifier adds the weight of a point to the bucket of its coordinate and caches
that bucket. -/
theorem classifyPoint_bucket (heps : 0 < eps) (hn : 1 ≤ noCuts)
    (hgap : ∀ k, k + 1 < noCuts → cuts k + 2 * eps < cuts (k + 1))
    (s : ClassifyState) (i : Nat) :
    ∃ b, IsBucket eps noCuts cuts (coords i) b ∧
      (classifyPoint eps noCuts coords uniform weights cuts s i).myPartWeights =
        Function.update s.myPartWeights b (s.myPartWeights b + pointWeight uniform weights i) ∧
      (classifyPoint eps noCuts coords uniform weights cuts s i).partIds =
        Function.update s.partIds i b := by
  have hc := locate_correct eps noCuts cuts (coords i) heps hn hgap (s.partIds i)
  unfold classifyPoint
  dsimp only
  generalize locate eps noCuts cuts (coords i) noCuts
    (if ((s.partIds i / 2 : Nat) : Int) ≥ (noCuts : Int) then (noCuts : Int) - 1
      else ((s.partIds i / 2 : Nat) : Int)) 0 ((noCuts : Int) - 1) Located.nowhere = o at hc ⊢
  have hb := correct_isBucket eps noCuts cuts (coords i) heps hgap o hc
  refine ⟨o.bucket, hb, ?_⟩
  cases o with
  | onCut j =>
    dsimp only
    rw [spreads_weights eps noCuts cuts heps hgap _ j hc.1, spreadLeft_partIds,
      spreadRight_partIds]
    exact ⟨rfl, rfl⟩
  | onRight j => exact ⟨rfl, rfl⟩
  | onLeft j => exact ⟨rfl, rfl⟩
  | nowhere => exact absurd hc (by simp [Located.Correct])

theorem prefixTotal_succ (pw : Nat → ℚ) (m : Nat) :
    prefixTotal pw (m + 1) = prefixTotal pw m + pw (m + 1) := by
  unfold prefixTotal
  rw [List.range_succ, List.map_append, List.sum_append]
  simp

theorem prefixTotal_zero (pw : Nat → ℚ) : prefixTotal pw 0 = pw 0 := by
  unfold prefixTotal
  have hr1 : List.range (0 + 1) = [0] := rfl
  rw [hr1]
  simp

/-- Adding a weight to the bucket `b` adds it to the sums up to `m >= b`. -/
theorem prefixTotal_update (pw : Nat → ℚ) (b : Nat) (w : ℚ) (m : Nat) :
    prefixTotal (Function.update pw b (pw b + w)) m =
      prefixTotal pw m + (if b ≤ m then w else 0) := by
  induction m with
  | zero =>
    rw [prefixTotal_zero, prefixTotal_zero]
    by_cases h : b = 0
    · subst h
      rw [Function.update_same, if_pos (le_refl _)]
    · rw [Function.update_noteq (Ne.symm h), if_neg (by omega), add_zero]
  | succ m ih =>
    rw [prefixTotal_succ, prefixTotal_succ, ih]
    by_cases h1 : b ≤ m
    · rw [if_pos h1, if_pos (by omega), Function.update_noteq (by omega)]
      ring
    · rw [if_neg h1]
      by_cases h2 : b = m + 1
      · subst h2
        rw [Function.update_same, if_pos (le_refl _)]
        ring
      · rw [if_neg (by omega), Function.update_noteq (Ne.symm h2)]
        ring

theorem totalWeight_cons (a : Nat) (l : List Nat) :
    totalWeight uniform weights (a :: l) =
      pointWeight uniform weights a + totalWeight uniform weights l := by
  unfold totalWeight
  rw [List.map_cons, List.sum_cons]

/-- The loop over the points: the sums of the histogram up to an entry grow by the weight
of the points that the entry stands for. -/
theorem classify_fold_prefixTotal (heps : 0 < eps) (hn : 1 ≤ noCuts)
    (hgap : ∀ k, k + 1 < noCuts → cuts k + 2 * eps < cuts (k + 1))
    (l : List Nat) (s : ClassifyState) :
    (∀ k, k < noCuts →
      prefixTotal (l.foldl (classifyPoint eps noCuts coords uniform weights cuts) s).myPartWeights
          (2 * k) =
        prefixTotal s.myPartWeights (2 * k) +
          weightBelow eps coords uniform weights l (cuts k) ∧
      prefixTotal (l.foldl (classifyPoint eps noCuts coords uniform weights cuts) s).myPartWeights
          (2 * k + 1) =
        prefixTotal s.myPartWeights (2 * k + 1) +
          weightUpTo eps coords uniform weights l (cuts k)) ∧
    prefixTotal (l.foldl (classifyPoint eps noCuts coords uniform weights cuts) s).myPartWeights
        (2 * noCuts) =
      prefixTotal s.myPartWeights (2 * noCuts) + totalWeight uniform weights l := by
  induction l generalizing s with
  | nil =>
    refine ⟨fun k _ => ?_, ?_⟩
    · simp [weightBelow, weightUpTo]
    · simp [totalWeight]
  | cons a l ih =>
    obtain ⟨h1, h2⟩ := ih (classifyPoint eps noCuts coords uniform weights cuts s a)
    obtain ⟨b, hb, hw, _⟩ := classifyPoint_bucket eps noCuts coords uniform weights cuts heps hn
      hgap s a
    rw [List.foldl_cons]
    refine ⟨fun k hk => ?_, ?_⟩
    · obtain ⟨h3, h4⟩ := h1 k hk
      obtain ⟨b1, b2⟩ := hb.2 k hk
      constructor
      · rw [h3, hw, prefixTotal_update, weightBelow_cons]
        by_cases c : b ≤ 2 * k
        · rw [if_pos c, if_pos (b1.1 c)]
          ring
        · rw [if_neg c, if_neg (fun h => c (b1.2 h))]
          ring
      · rw [h4, hw, prefixTotal_update, weightUpTo_cons]
        by_cases c : b ≤ 2 * k + 1
        · rw [if_pos c, if_pos (b2.1 c)]
          ring
        · rw [if_neg c, if_neg (fun h => c (b2.2 h))]
          ring
    · rw [h2, hw, prefixTotal_update, totalWeight_cons, if_pos hb.1]
      ring

/-- The prefix sum over a histogram whose cuts are more than `2 eps` apart: every entry
below `total_part_count` becomes the sum of the entries up to it. -/
theorem prefixWeight_fold (heps : 0 < eps)
    (hgap : ∀ k, k + 1 < noCuts → cuts k + 2 * eps < cuts (k + 1))
    (pw : Nat → ℚ) (t : Nat) (ht : t ≤ 2 * noCuts) (m : Nat) :
    ((List.range' 1 t).foldl (prefixWeightStep eps (2 * noCuts + 1) cuts) pw) m =
      if m ≤ t then prefixTotal pw m else pw m := by
  induction t generalizing m with
  | zero =>
    by_cases h : m ≤ 0
    · have : m = 0 := by omega
      subst this
      rw [if_pos h, prefixTotal_zero]
      rfl
    · rw [if_neg h]
      rfl
  | succ t ih =>
    rw [List.range'_concat, List.foldl_append, List.foldl_cons, List.foldl_nil, Nat.one_mul]
    have hstep : ∀ q : Nat → ℚ, prefixWeightStep eps (2 * noCuts + 1) cuts q (1 + t) =
        Function.update q (1 + t) (q (1 + t) + q (1 + t - 1)) := by
      intro q
      unfold prefixWeightStep
      rw [if_neg]
      rintro ⟨c1, c2, c3, c4⟩
      have hk : (1 + t) / 2 - 1 + 1 < noCuts := by omega
      have e : (1 + t) / 2 - 1 + 1 = (1 + t) / 2 := by omega
      have := gaps_not_close eps noCuts cuts heps hgap ((1 + t) / 2 - 1) ((1 + t) / 2)
        (by omega) (by omega) (by omega)
      exact this c4
    rw [hstep]
    by_cases h1 : m = 1 + t
    · subst h1
      rw [Function.update_same, ih (by omega), ih (by omega), if_neg (by omega),
        if_pos (by omega), if_pos (by omega)]
      have e : 1 + t = (1 + t - 1) + 1 := by omega
      nth_rewrite 3 [e]
      rw [prefixTotal_succ, ← e]
      ring
    · rw [Function.update_noteq h1, ih (by omega)]
      by_cases h2 : m ≤ t
      · rw [if_pos h2, if_pos (by omega)]
      · rw [if_neg h2, if_neg (by omega)]

end Histogram

/-- C17: for a call of the classifier with binary search for `noCuts >= 1` cuts that are
more than `2 eps` apart in increasing order (`eps > 0`), whatever the cached bucket ids
are, the histogram of length `2 noCuts + 1` is cumulative: entry `2 k` is the weight of
the points of the range with `coord <= cut_k - eps`, entry `2 k + 1` the weight of the
points with `coord < cut_k + eps`, and entry `2 noCuts` the weight of the range. -/
theorem getPartWeights_cumulative (eps : ℚ) (noCuts : Nat) (coords : Nat → ℚ) (uniform : Bool)
    (weights cuts : Nat → ℚ) (heps : 0 < eps) (hn : 1 ≤ noCuts)
    (hgap : ∀ k, k + 1 < noCuts → cuts k + 2 * eps < cuts (k + 1))
    (maxScalar : ℚ) (b e : Nat) (perm : Nat → Nat) (s : ClassifyState) :
    (∀ k, k < noCuts →
      (pqJagged_1DPart_getPartWeights (2 * noCuts + 1) noCuts maxScalar eps b e perm coords
        uniform weights cuts s).myPartWeights (2 * k) =
        weightBelow eps coords uniform weights (rangeIds perm b e) (cuts k) ∧
      (pqJagged_1DPart_getPartWeights (2 * noCuts + 1) noCuts maxScalar eps b e perm coords
        uniform weights cuts s).myPartWeights (2 * k + 1) =
        weightUpTo eps coords uniform weights (rangeIds perm b e) (cuts k)) ∧
    (pqJagged_1DPart_getPartWeights (2 * noCuts + 1) noCuts maxScalar eps b e perm coords
      uniform weights cuts s).myPartWeights (2 * noCuts) =
      totalWeight uniform weights (rangeIds perm b e) := by
  unfold pqJagged_1DPart_getPartWeights
  dsimp only
  obtain ⟨h1, h2⟩ := classify_fold_prefixTotal eps noCuts coords uniform weights cuts heps hn
    hgap (rangeIds perm b e)
    { s with
      myPartWeights := fun i => if i < 2 * noCuts + 1 then 0 else s.myPartWeights i
      myLeftClosest := fun i => if i < noCuts then maxScalar else s.myLeftClosest i
      myRightClosest := fun i => if i < noCuts then maxScalar else s.myRightClosest i }
  have hz : ∀ m, m ≤ 2 * noCuts →
      prefixTotal (fun i => if i < 2 * noCuts + 1 then 0 else s.myPartWeights i) m = 0 := by
    intro m hm
    induction m with
    | zero =>
      rw [prefixTotal_zero, if_pos (by omega)]
    | succ m ih =>
      rw [prefixTotal_succ, ih (by omega), if_pos (by omega), add_zero]
  have e : 2 * noCuts + 1 - 1 = 2 * noCuts := by omega
  rw [e]
  refine ⟨fun k hk => ?_, ?_⟩
  · obtain ⟨h3, h4⟩ := h1 k hk
    rw [prefixWeight_fold eps noCuts cuts heps hgap _ _ (le_refl _),
      prefixWeight_fold eps noCuts cuts heps hgap _ _ (le_refl _), if_pos (by omega),
      if_pos (by omega), h3, h4]
    dsimp only
    rw [hz _ (by omega), hz _ (by omega), zero_add, zero_add]
    exact ⟨rfl, rfl⟩
  · rw [prefixWeight_fold eps noCuts cuts heps hgap _ _ (le_refl _), if_pos (le_refl _), h2]
    dsimp only
    rw [hz _ (le_refl _), zero_add]

/-- C17 for five points with unit weights at 0, 1, 3/2, 2, 5/2 and the cuts 1 and 2. -/
theorem getPartWeights_cumulative_witness :
    (0 : ℚ) < epsDouble ∧ 1 ≤ 2 ∧
    (∀ k, k + 1 < 2 → arrQ [1, 2] k + 2 * epsDouble < arrQ [1, 2] (k + 1)) ∧
    (∀ k, k < 2 →
      (pqJagged_1DPart_getPartWeights (2 * 2 + 1) 2 maxDouble epsDouble 0 5 (fun i => i)
        fivePoints true (fun _ => 0) (arrQ [1, 2]) (zeroClassifyState 4)).myPartWeights (2 * k) =
        weightBelow epsDouble fivePoints true (fun _ => 0) (rangeIds (fun i => i) 0 5)
          (arrQ [1, 2] k) ∧
      (pqJagged_1DPart_getPartWeights (2 * 2 + 1) 2 maxDouble epsDouble 0 5 (fun i => i)
        fivePoints true (fun _ => 0) (arrQ [1, 2]) (zeroClassifyState 4)).myPartWeights
          (2 * k + 1) =
        weightUpTo epsDouble fivePoints true (fun _ => 0) (rangeIds (fun i => i) 0 5)
          (arrQ [1, 2] k)) ∧
    (pqJagged_1DPart_getPartWeights (2 * 2 + 1) 2 maxDouble epsDouble 0 5 (fun i => i)
      fivePoints true (fun _ => 0) (arrQ [1, 2]) (zeroClassifyState 4)).myPartWeights (2 * 2) =
      totalWeight true (fun _ => 0) (rangeIds (fun i => i) 0 5) :=
  ⟨by decide!, by decide,
   fun k hk => by
     have h0 : k = 0 := by omega
     subst h0
     decide!,
   getPartWeights_cumulative epsDouble 2 fivePoints true (fun _ => 0) (arrQ [1, 2])
     (by decide!) (by decide)
     (fun k hk => by
       have h0 : k = 0 := by omega
       subst h0
       decide!)
     maxDouble 0 5 (fun i => i) (zeroClassifyState 4)⟩

/-! ## The linear scan of the classifier -/

section LinearScan

variable (eps : ℚ) (noCuts : Nat) (coords : Nat → ℚ) (uniform : Bool) (weights cuts : Nat → ℚ)

/-- The block for a point on cut `j`, for cuts more than `2 eps` apart: the weight goes to
bucket `2 j + 1` only. -/
theorem onCutBlock_bucket (heps : 0 < eps)
    (hgap : ∀ k, k + 1 < noCuts → cuts k + 2 * eps < cuts (k + 1))
    (w : ℚ) (s : ClassifyState) (i j : Nat) (hj : j < noCuts) :
    (onCutBlock eps noCuts w cuts s i j).myPartWeights =
      Function.update s.myPartWeights (j * 2 + 1) (s.myPartWeights (j * 2 + 1) + w) ∧
    (onCutBlock eps noCuts w cuts s i j).partIds = Function.update s.partIds i (j * 2 + 1) := by
  unfold onCutBlock
  dsimp only
  rw [spreads_weights eps noCuts cuts heps hgap _ j hj, spreadLeft_partIds, spreadRight_partIds]
  exact ⟨rfl, rfl⟩

/-- The walk to the left ends below cut 0 with the point left of every cut, or at a cut
where the loop condition fails, the cut after it being to the right of the point. -/
theorem walkLeft_spec (coord : ℚ) (fuel : Nat) (j : Int) (lc : Nat → ℚ)
    (hj0 : 0 ≤ j) (hjn : j < noCuts) (hfuel : j + 1 ≤ fuel)
    (hup : ¬ (ABS (coord - cuts j.toNat) > eps ∧ coord - cuts j.toNat < 0) →
      j.toNat + 1 < noCuts → coord ≤ cuts (j.toNat + 1) - eps) :
    ∃ j' d' a' lc',
      walkLeft eps cuts coord fuel j (coord - cuts j.toNat) (ABS (coord - cuts j.toNat)) lc =
        (j', d', a', lc') ∧
      ((j' = -1 ∧ coord ≤ cuts 0 - eps ∧ ¬ a' < eps) ∨
       (0 ≤ j' ∧ j' < noCuts ∧ d' = coord - cuts j'.toNat ∧
        a' = ABS (coord - cuts j'.toNat) ∧ ¬ (a' > eps ∧ d' < 0) ∧
        (j'.toNat + 1 < noCuts → coord ≤ cuts (j'.toNat + 1) - eps))) := by
  induction fuel generalizing j lc with
  | zero => omega
  | succ fuel ih =>
    unfold walkLeft
    by_cases hc : ABS (coord - cuts j.toNat) > eps ∧ coord - cuts j.toNat < 0
    · rw [if_pos hc]
      dsimp only
      have hlt : coord ≤ cuts j.toNat - eps := by
        have h1 := hc.1
        unfold ABS at h1
        rw [if_neg (by linarith [hc.2])] at h1
        linarith
      by_cases hb : j - 1 < 0
      · rw [if_pos hb]
        refine ⟨_, _, _, _, rfl, Or.inl ⟨by omega, ?_, by linarith [hc.1]⟩⟩
        have e : j.toNat = 0 := by omega
        rw [← e]
        exact hlt
      · rw [if_neg hb]
        apply ih
        · omega
        · omega
        · omega
        · intro _ _
          have e : (j - 1).toNat + 1 = j.toNat := by omega
          rw [e]
          exact hlt
    · rw [if_neg hc]
      exact ⟨_, _, _, _, rfl, Or.inr ⟨hj0, hjn, rfl, rfl, hc, hup hc⟩⟩

/-- The walk to the right ends at `noCuts` with the point right of every cut, or at a cut
where the loop condition fails, the cut before it being to the left of the point. -/
theorem walkRight_spec (coord : ℚ) (fuel : Nat) (j : Int) (rc : Nat → ℚ)
    (hj0 : 0 ≤ j) (hjn : j < noCuts) (hfuel : (noCuts : Int) - j ≤ fuel)
    (hdown : ¬ (ABS (coord - cuts j.toNat) > eps ∧ coord - cuts j.toNat > 0) →
      1 ≤ j.toNat → cuts (j.toNat - 1) + eps ≤ coord) :
    ∃ j' d' a' rc',
      walkRight eps noCuts cuts coord fuel j (coord - cuts j.toNat)
          (ABS (coord - cuts j.toNat)) rc =
        (j', d', a', rc') ∧
      ((j' = noCuts ∧ cuts (noCuts - 1) + eps ≤ coord ∧ ¬ a' < eps) ∨
       (0 ≤ j' ∧ j' < noCuts ∧ d' = coord - cuts j'.toNat ∧
        a' = ABS (coord - cuts j'.toNat) ∧ ¬ (a' > eps ∧ d' > 0) ∧
        (1 ≤ j'.toNat → cuts (j'.toNat - 1) + eps ≤ coord))) := by
  induction fuel generalizing j rc with
  | zero => omega
  | succ fuel ih =>
    unfold walkRight
    by_cases hc : ABS (coord - cuts j.toNat) > eps ∧ coord - cuts j.toNat > 0
    · rw [if_pos hc]
      dsimp only
      have hgt : cuts j.toNat + eps ≤ coord := by
        have h1 := hc.1
        unfold ABS at h1
        rw [if_pos (by linarith [hc.2])] at h1
        linarith
      by_cases hb : j + 1 ≥ (noCuts : Int)
      · rw [if_pos hb]
        refine ⟨_, _, _, _, rfl, Or.inl ⟨by omega, ?_, by linarith [hc.1]⟩⟩
        have e : j.toNat = noCuts - 1 := by omega
        rw [← e]
        exact hgt
      · rw [if_neg hb]
        apply ih
        · omega
        · omega
        · omega
        · intro _ _
          have e : (j + 1).toNat - 1 = j.toNat := by omega
          rw [e]
          exact hgt
    · rw [if_neg hc]
      exact ⟨_, _, _, _, rfl, Or.inr ⟨hj0, hjn, rfl, rfl, hc, hdown hc⟩⟩

/-- The linear scan adds the weight of a point that is not exactly epsilon away from a cut
to the bucket of its coordinate and caches that bucket. -/
theorem classifyPointLinear_bucket (heps : 0 < eps) (hn : 1 ≤ noCuts)
    (hgap : ∀ k, k + 1 < noCuts → cuts k + 2 * eps < cuts (k + 1))
    (s : ClassifyState) (i : Nat)
    (hne : ∀ k, k < noCuts → ABS (coords i - cuts k) ≠ eps) :
    ∃ b, IsBucket eps noCuts cuts (coords i) b ∧
      (classifyPointLinear eps noCuts coords uniform weights cuts s i).myPartWeights =
        Function.update s.myPartWeights b (s.myPartWeights b + pointWeight uniform weights i) ∧
      (classifyPointLinear eps noCuts coords uniform weights cuts s i).partIds =
        Function.update s.partIds i b := by
  have hbucket := correct_isBucket eps noCuts cuts (coords i) heps hgap
  unfold classifyPointLinear
  dsimp only
  generalize hjdef : (if ((s.partIds i / 2 : Nat) : Int) ≥ (noCuts : Int) then (noCuts : Int) - 1
      else ((s.partIds i / 2 : Nat) : Int)) = j
  have hj0 : 0 ≤ j := by
    rw [← hjdef]
    split_ifs <;> omega
  have hjn : j < noCuts := by
    rw [← hjdef]
    split_ifs <;> omega
  unfold pointWeight
  by_cases h1 : ABS (coords i - cuts j.toNat) < eps
  · rw [if_pos h1]
    have hb := hbucket (Located.onCut j.toNat) ⟨by omega, h1⟩
    exact ⟨_, hb, onCutBlock_bucket eps noCuts cuts heps hgap _ s i j.toNat (by omega)⟩
  · rw [if_neg h1]
    have habs : ABS (coords i - cuts j.toNat) > eps :=
      lt_of_le_of_ne (not_lt.1 h1) (Ne.symm (hne j.toNat (by omega)))
    by_cases h2 : coords i - cuts j.toNat < 0
    · rw [if_pos h2]
      obtain ⟨j', d', a', lc', hr, hpost⟩ := walkLeft_spec eps noCuts cuts (coords i) noCuts j
        s.myLeftClosest hj0 hjn (by omega) (fun h => absurd ⟨habs, h2⟩ h)
      rw [hr]
      dsimp only
      rcases hpost with ⟨hj', hle, hna⟩ | ⟨hj0', hjn', hd', ha', hcond, hup⟩
      · rw [if_neg hna]
        subst hj'
        have hb := hbucket (Located.onLeft 0) ⟨by omega, hle, fun h => absurd h (by omega)⟩
        exact ⟨_, hb, rfl, rfl⟩
      · by_cases h3 : a' < eps
        · rw [if_pos h3]
          have hb := hbucket (Located.onCut j'.toNat) ⟨by omega, by rw [← ha']; exact h3⟩
          exact ⟨_, hb, onCutBlock_bucket eps noCuts cuts heps hgap _ _ i j'.toNat (by omega)⟩
        · rw [if_neg h3]
          have ha3 : a' > eps := by
            rw [ha'] at h3 ⊢
            exact lt_of_le_of_ne (not_lt.1 h3) (Ne.symm (hne j'.toNat (by omega)))
          have hd3 : ¬ d' < 0 := fun h => hcond ⟨ha3, h⟩
          have hge : cuts j'.toNat + eps ≤ coords i := by
            have := ABS_not_lt_of_nonneg eps (coords i - cuts j'.toNat)
              (by rw [← ha']; exact h3) (by rw [← hd']; exact hd3)
            linarith
          have hb := hbucket (Located.onRight j'.toNat) ⟨by omega, hge, hup⟩
          have e : (j' * 2 + 2).toNat = 2 * j'.toNat + 2 := by omega
          rw [e]
          exact ⟨_, hb, rfl, rfl⟩
    · rw [if_neg h2]
      have h2' : coords i - cuts j.toNat > 0 := by
        have := ABS_not_lt_of_nonneg eps _ h1 h2
        linarith
      obtain ⟨j', d', a', rc', hr, hpost⟩ := walkRight_spec eps noCuts cuts (coords i) noCuts j
        s.myRightClosest hj0 hjn (by omega) (fun h => absurd ⟨habs, h2'⟩ h)
      rw [hr]
      dsimp only
      rcases hpost with ⟨hj', hge, hna⟩ | ⟨hj0', hjn', hd', ha', hcond, hdown⟩
      · rw [if_neg hna]
        subst hj'
        have hb := hbucket (Located.onRight (noCuts - 1))
          ⟨by omega, hge, fun h => absurd h (by omega)⟩
        have e : ((noCuts : Int) * 2).toNat = 2 * (noCuts - 1) + 2 := by omega
        rw [e]
        exact ⟨_, hb, rfl, rfl⟩
      · by_cases h3 : a' < eps
        · rw [if_pos h3]
          have hb := hbucket (Located.onCut j'.toNat) ⟨by omega, by rw [← ha']; exact h3⟩
          exact ⟨_, hb, onCutBlock_bucket eps noCuts cuts heps hgap _ _ i j'.toNat (by omega)⟩
        · rw [if_neg h3]
          have ha3 : a' > eps := by
            rw [ha'] at h3 ⊢
            exact lt_of_le_of_ne (not_lt.1 h3) (Ne.symm (hne j'.toNat (by omega)))
          have hd3 : ¬ d' > 0 := fun h => hcond ⟨ha3, h⟩
          have hle : coords i ≤ cuts j'.toNat - eps := by
            have hz : coords i - cuts j'.toNat ≠ 0 := by
              intro h0
              rw [ha', h0] at ha3
              unfold ABS at ha3
              rw [if_pos (le_refl _)] at ha3
              linarith
            have hneg : coords i - cuts j'.toNat < 0 := by
              rw [← hd'] at hz ⊢
              exact lt_of_le_of_ne (not_lt.1 hd3) hz
            have := ABS_not_lt_of_neg eps (coords i - cuts j'.toNat)
              (by rw [← ha']; exact h3) hneg
            linarith
          have hb := hbucket (Located.onLeft j'.toNat) ⟨by omega, hle, hdown⟩
          have e : (j' * 2).toNat = 2 * j'.toNat := by omega
          rw [e]
          exact ⟨_, hb, rfl, rfl⟩

/-- The two loops over the points give the same raw histogram and the same bucket ids when
no point is exactly epsilon away from a cut. -/
theorem classify_folds_agree (heps : 0 < eps) (hn : 1 ≤ noCuts)
    (hgap : ∀ k, k + 1 < noCuts → cuts k + 2 * eps < cuts (k + 1))
    (l : List Nat) (hne : ∀ i, i ∈ l → ∀ k, k < noCuts → ABS (coords i - cuts k) ≠ eps)
    (s t : ClassifyState) (hw : s.myPartWeights = t.myPartWeights)
    (hp : s.partIds = t.partIds) :
    (l.foldl (classifyPointLinear eps noCuts coords uniform weights cuts) s).myPartWeights =
      (l.foldl (classifyPoint eps noCuts coords uniform weights cuts) t).myPartWeights ∧
    (l.foldl (classifyPointLinear eps noCuts coords uniform weights cuts) s).partIds =
      (l.foldl (classifyPoint eps noCuts coords uniform weights cuts) t).partIds := by
  induction l generalizing s t with
  | nil => exact ⟨hw, hp⟩
  | cons a l ih =>
    rw [List.foldl_cons, List.foldl_cons]
    obtain ⟨b, hb, hw1, hp1⟩ := classifyPointLinear_bucket eps noCuts coords uniform weights
      cuts heps hn hgap s a (hne a (List.mem_cons_self _ _))
    obtain ⟨b', hb', hw2, hp2⟩ := classifyPoint_bucket eps noCuts coords uniform weights cuts
      heps hn hgap t a
    have hbb := isBucket_unique eps noCuts cuts (coords a) b b' hb hb'
    subst hbb
    apply ih (fun i hi => hne i (List.mem_cons_of_mem _ hi))
    · rw [hw1, hw2, hw]
    · rw [hp1, hp2, hp]

end LinearScan

/-- C18, as claimed, fails.  A point exactly epsilon above the only cut, with the cached
bucket id 0: the binary search puts it right of the cut (histogram 0, 0, 1 and bucket id 2),
the linear scan left of it (histogram 1, 1, 1 and bucket id 0).  And for the non-decreasing
cuts 0, 1, 1, 2 a point at 1 gets the bucket id 5 from the binary search and 3 from the
linear scan. -/
theorem linear_scan_differs :
    classifierReport 3 1
      (pqJagged_1DPart_getPartWeights 3 1 maxDouble epsDouble 0 1 (fun i => i)
        (arrQ [1 + epsDouble]) true (fun _ => 0) (arrQ [1]) (zeroClassifyState 0)) =
      ([0, 0, 1], [2]) ∧
    (pqJagged_1DPart_getPartWeights_linear 3 1 maxDouble epsDouble 0 1 (fun i => i)
        (arrQ [1 + epsDouble]) true (fun _ => 0) (arrQ [1]) (zeroClassifyState 0)).map
        (classifierReport 3 1) =
      some ([1, 1, 1], [0]) ∧
    classifierReport 9 1
      (pqJagged_1DPart_getPartWeights 9 4 maxDouble epsDouble 0 1 (fun i => i)
        (arrQ [1]) true (fun _ => 0) (arrQ [0, 1, 1, 2]) (zeroClassifyState 0)) =
      ([0, 0, 0, 1, 0, 1, 1, 1, 1], [5]) ∧
    (pqJagged_1DPart_getPartWeights_linear 9 4 maxDouble epsDouble 0 1 (fun i => i)
        (arrQ [1]) true (fun _ => 0) (arrQ [0, 1, 1, 2]) (zeroClassifyState 0)).map
        (classifierReport 9 1) =
      some ([0, 0, 0, 1, 0, 1, 1, 1, 1], [3]) := by
  refine ⟨?_, ?_, ?_, ?_⟩
  · decide!
  · decide!
  · decide!
  · decide!

/-- C18, amended: for `noCuts >= 1` cuts that are more than `2 eps` apart in increasing
order (`eps > 0`) and a range none of whose points is exactly epsilon away from a cut, the
classifier with `useBinarySearch = false` returns, and it returns the same histogram
`myPartWeights` and the same array of bucket ids `partIds` as with
`useBinarySearch = true`, whatever the cached bucket ids are. -/
theorem getPartWeights_linear_eq_binary (eps : ℚ) (noCuts : Nat) (coords : Nat → ℚ)
    (uniform : Bool) (weights cuts : Nat → ℚ) (heps : 0 < eps) (hn : 1 ≤ noCuts)
    (hgap : ∀ k, k + 1 < noCuts → cuts k + 2 * eps < cuts (k + 1))
    (total_part_count : Nat) (maxScalar : ℚ) (b e : Nat) (perm : Nat → Nat)
    (hne : ∀ i, i ∈ rangeIds perm b e → ∀ k, k < noCuts → ABS (coords i - cuts k) ≠ eps)
    (s : ClassifyState) :
    ∃ r, pqJagged_1DPart_getPartWeights_linear total_part_count noCuts maxScalar eps b e perm
        coords uniform weights cuts s = some r ∧
      r.myPartWeights = (pqJagged_1DPart_getPartWeights total_part_count noCuts maxScalar eps
        b e perm coords uniform weights cuts s).myPartWeights ∧
      r.partIds = (pqJagged_1DPart_getPartWeights total_part_count noCuts maxScalar eps
        b e perm coords uniform weights cuts s).partIds := by
  obtain ⟨hw, hp⟩ := classify_folds_agree eps noCuts coords uniform weights cuts heps hn hgap
    (rangeIds perm b e) hne
    { s with
      myPartWeights := fun i => if i < total_part_count then 0 else s.myPartWeights i
      myLeftClosest := fun i => if i < noCuts then maxScalar else s.myLeftClosest i
      myRightClosest := fun i => if i < noCuts then maxScalar else s.myRightClosest i }
    { s with
      myPartWeights := fun i => if i < total_part_count then 0 else s.myPartWeights i
      myLeftClosest := fun i => if i < noCuts then maxScalar else s.myLeftClosest i
      myRightClosest := fun i => if i < noCuts then maxScalar else s.myRightClosest i }
    rfl rfl
  unfold pqJagged_1DPart_getPartWeights_linear pqJagged_1DPart_getPartWeights
  dsimp only
  rw [if_neg (by omega)]
  refine ⟨_, rfl, ?_, ?_⟩
  · dsimp only
    rw [hw]
  · exact hp

/-- C18, amended, for five points at 0, 1, 3/2, 2, 5/2 and the cuts 1 and 2. -/
theorem getPartWeights_linear_eq_binary_witness :
    ∃ r, pqJagged_1DPart_getPartWeights_linear 5 2 maxDouble epsDouble 0 5 (fun i => i)
        fivePoints true (fun _ => 0) (arrQ [1, 2]) (zeroClassifyState 4) = some r ∧
      r.myPartWeights = (pqJagged_1DPart_getPartWeights 5 2 maxDouble epsDouble 0 5
        (fun i => i) fivePoints true (fun _ => 0) (arrQ [1, 2])
        (zeroClassifyState 4)).myPartWeights ∧
      r.partIds = (pqJagged_1DPart_getPartWeights 5 2 maxDouble epsDouble 0 5
        (fun i => i) fivePoints true (fun _ => 0) (arrQ [1, 2])
        (zeroClassifyState 4)).partIds :=
  getPartWeights_linear_eq_binary epsDouble 2 fivePoints true (fun _ => 0) (arrQ [1, 2])
    (by decide!) (by decide)
    (fun k hk => by
      have h0 : k = 0 := by omega
      subst h0
      decide!)
    5 maxDouble 0 5 (fun i => i)
    (by decide!)
    (zeroClassifyState 4)

/-! ## The cached bucket ids -/

section Cache

variable (eps : ℚ) (noCuts : Nat) (coords : Nat → ℚ) (uniform : Bool) (weights cuts : Nat → ℚ)

/-- The loops over the cuts that share a position neither read nor write the bucket ids. -/
theorem spreadRight_frame (w cut : ℚ) (l : List Nat) (pw lc rc : Nat → ℚ) (p p' : Nat → Nat) :
    spreadRight eps w cut cuts l ⟨pw, lc, rc, p'⟩ =
      { spreadRight eps w cut cuts l ⟨pw, lc, rc, p⟩ with partIds := p' } := by
  induction l generalizing pw lc rc with
  | nil => rfl
  | cons a l ih =>
    unfold spreadRight
    dsimp only
    split_ifs
    · exact ih _ _ _
    · rfl
    · rfl

theorem spreadLeft_frame (w cut : ℚ) (l : List Nat) (pw lc rc : Nat → ℚ) (p p' : Nat → Nat) :
    spreadLeft eps w cut cuts l ⟨pw, lc, rc, p'⟩ =
      { spreadLeft eps w cut cuts l ⟨pw, lc, rc, p⟩ with partIds := p' } := by
  induction l generalizing pw lc rc with
  | nil => rfl
  | cons a l ih =>
    unfold spreadLeft
    dsimp only
    split_ifs
    · exact ih _ _ _
    · rfl
    · rfl

/-- Classifying a point from another cached bucket id gives the same histogram, the same
closest distances and the same bucket id. -/
theorem classifyPoint_cache (heps : 0 < eps) (hn : 1 ≤ noCuts)
    (hgap : ∀ k, k + 1 < noCuts → cuts k + 2 * eps < cuts (k + 1))
    (s : ClassifyState) (q : Nat → Nat) (i : Nat) :
    ∃ b, classifyPoint eps noCuts coords uniform weights cuts { s with partIds := q } i =
        { classifyPoint eps noCuts coords uniform weights cuts s i with
          partIds := Function.update q i b } ∧
      (classifyPoint eps noCuts coords uniform weights cuts s i).partIds =
        Function.update s.partIds i b := by
  have hc := locate_correct eps noCuts cuts (coords i) heps hn hgap (s.partIds i)
  have hc' := locate_correct eps noCuts cuts (coords i) heps hn hgap (q i)
  unfold classifyPoint
  dsimp only
  generalize locate eps noCuts cuts (coords i) noCuts
    (if ((s.partIds i / 2 : Nat) : Int) ≥ (noCuts : Int) then (noCuts : Int) - 1
      else ((s.partIds i / 2 : Nat) : Int)) 0 ((noCuts : Int) - 1) Located.nowhere = o at hc ⊢
  generalize locate eps noCuts cuts (coords i) noCuts
    (if ((q i / 2 : Nat) : Int) ≥ (noCuts : Int) then (noCuts : Int) - 1
      else ((q i / 2 : Nat) : Int)) 0 ((noCuts : Int) - 1) Located.nowhere = o' at hc' ⊢
  have hbb : o'.bucket = o.bucket :=
    isBucket_unique eps noCuts cuts (coords i) _ _
      (correct_isBucket eps noCuts cuts (coords i) heps hgap o' hc')
      (correct_isBucket eps noCuts cuts (coords i) heps hgap o hc)
  refine ⟨o.bucket, ?_⟩
  cases o with
  | onCut j =>
    cases o' with
    | onCut j' =>
      have e : j' = j := by
        simp only [Located.bucket] at hbb
        omega
      subst e
      dsimp only
      refine ⟨?_, ?_⟩
      · rw [spreadRight_frame eps cuts _ (cuts j') _ _ _ _
          (Function.update s.partIds i (j' * 2 + 1)) (Function.update q i (j' * 2 + 1))]
        exact spreadLeft_frame eps cuts _ (cuts j') _ _ _ _ _ _
      · rw [spreadLeft_partIds, spreadRight_partIds]
        rfl
    | onRight j' =>
      simp only [Located.bucket] at hbb
      omega
    | onLeft j' =>
      simp only [Located.bucket] at hbb
      omega
    | nowhere => exact absurd hc' (by simp [Located.Correct])
  | onRight j =>
    cases o' with
    | onCut j' =>
      simp only [Located.bucket] at hbb
      omega
    | onRight j' =>
      have e : j' = j := by
        simp only [Located.bucket] at hbb
        omega
      subst e
      exact ⟨rfl, rfl⟩
    | onLeft j' =>
      have e : j' = j + 1 := by
        simp only [Located.bucket] at hbb
        omega
      subst e
      have hj : j + 1 < noCuts := hc'.1
      dsimp only
      refine ⟨?_, rfl⟩
      simp only [hj, true_and, Nat.add_sub_cancel, Nat.le_add_left, Located.bucket]
      rfl
    | nowhere => exact absurd hc' (by simp [Located.Correct])
  | onLeft j =>
    cases o' with
    | onCut j' =>
      simp only [Located.bucket] at hbb
      omega
    | onRight j' =>
      have e : j = j' + 1 := by
        simp only [Located.bucket] at hbb
        omega
      subst e
      have hj : j' + 1 < noCuts := hc.1
      dsimp only
      refine ⟨?_, rfl⟩
      simp only [hj, true_and, Nat.add_sub_cancel, Nat.le_add_left, Located.bucket]
      rfl
    | onLeft j' =>
      have e : j' = j := by
        simp only [Located.bucket] at hbb
        omega
      subst e
      exact ⟨rfl, rfl⟩
    | nowhere => exact absurd hc' (by simp [Located.Correct])
  | nowhere => exact absurd hc (by simp [Located.Correct])

/-- The loop over the points from other cached bucket ids: the same histogram, the same
closest distances, and the same bucket id for every point of the loop. -/
theorem classify_fold_cache (heps : 0 < eps) (hn : 1 ≤ noCuts)
    (hgap : ∀ k, k + 1 < noCuts → cuts k + 2 * eps < cuts (k + 1))
    (l : List Nat) (s : ClassifyState) (q : Nat → Nat) :
    l.foldl (classifyPoint eps noCuts coords uniform weights cuts) { s with partIds := q } =
      { l.foldl (classifyPoint eps noCuts coords uniform weights cuts) s with
        partIds := (l.foldl (classifyPoint eps noCuts coords uniform weights cuts)
          { s with partIds := q }).partIds } ∧
    ∀ i, i ∈ l →
      (l.foldl (classifyPoint eps noCuts coords uniform weights cuts)
        { s with partIds := q }).partIds i =
      (l.foldl (classifyPoint eps noCuts coords uniform weights cuts) s).partIds i := by
  induction l generalizing s q with
  | nil => exact ⟨rfl, fun i hi => absurd hi (List.not_mem_nil _)⟩
  | cons a l ih =>
    obtain ⟨b, hb1, hb2⟩ := classifyPoint_cache eps noCuts coords uniform weights cuts heps hn
      hgap s q a
    rw [List.foldl_cons, List.foldl_cons, hb1]
    obtain ⟨h1, h2⟩ := ih (classifyPoint eps noCuts coords uniform weights cuts s a)
      (Function.update q a b)
    refine ⟨h1, fun i hi => ?_⟩
    by_cases hil : i ∈ l
    · exact h2 i hil
    · have hia : i = a := by
        rcases List.mem_cons.1 hi with h | h
        · exact h
        · exact absurd h hil
      subst hia
      rw [(classify_fold_partIds eps noCuts cuts coords uniform weights l _ hn).2 i hil,
        (classify_fold_partIds eps noCuts cuts coords uniform weights l _ hn).2 i hil, hb2,
        Function.update_same]
      exact Function.update_same _ _ _

end Cache

/-- C19: for `noCuts >= 1` cuts that are more than `2 eps` apart in increasing order
(`eps > 0`), the classifier with binary search run from any other array `partIds'` of
cached bucket ids returns the same histogram, the same left and right closest distances,
and the same bucket id for every point of the range. -/
theorem getPartWeights_cache_independent (eps : ℚ) (noCuts : Nat) (coords : Nat → ℚ)
    (uniform : Bool) (weights cuts : Nat → ℚ) (heps : 0 < eps) (hn : 1 ≤ noCuts)
    (hgap : ∀ k, k + 1 < noCuts → cuts k + 2 * eps < cuts (k + 1))
    (total_part_count : Nat) (maxScalar : ℚ) (b e : Nat) (perm : Nat → Nat)
    (s : ClassifyState) (partIds' : Nat → Nat) :
    (pqJagged_1DPart_getPartWeights total_part_count noCuts maxScalar eps b e perm coords
        uniform weights cuts { s with partIds := partIds' }).myPartWeights =
      (pqJagged_1DPart_getPartWeights total_part_count noCuts maxScalar eps b e perm coords
        uniform weights cuts s).myPartWeights ∧
    (pqJagged_1DPart_getPartWeights total_part_count noCuts maxScalar eps b e perm coords
        uniform weights cuts { s with partIds := partIds' }).myLeftClosest =
      (pqJagged_1DPart_getPartWeights total_part_count noCuts maxScalar eps b e perm coords
        uniform weights cuts s).myLeftClosest ∧
    (pqJagged_1DPart_getPartWeights total_part_count noCuts maxScalar eps b e perm coords
        uniform weights cuts { s with partIds := partIds' }).myRightClosest =
      (pqJagged_1DPart_getPartWeights total_part_count noCuts maxScalar eps b e perm coords
        uniform weights cuts s).myRightClosest ∧
    ∀ i, i ∈ rangeIds perm b e →
      (pqJagged_1DPart_getPartWeights total_part_count noCuts maxScalar eps b e perm coords
        uniform weights cuts { s with partIds := partIds' }).partIds i =
      (pqJagged_1DPart_getPartWeights total_part_count noCuts maxScalar eps b e perm coords
        uniform weights cuts s).partIds i := by
  obtain ⟨h1, h2⟩ := classify_fold_cache eps noCuts coords uniform weights cuts heps hn hgap
    (rangeIds perm b e)
    { s with
      myPartWeights := fun i => if i < total_part_count then 0 else s.myPartWeights i
      myLeftClosest := fun i => if i < noCuts then maxScalar else s.myLeftClosest i
      myRightClosest := fun i => if i < noCuts then maxScalar else s.myRightClosest i }
    partIds'
  unfold pqJagged_1DPart_getPartWeights
  dsimp only
  refine ⟨?_, ?_, ?_, h2⟩
  · have := congrArg ClassifyState.myPartWeights h1
    dsimp only at this
    rw [this]
  · have := congrArg ClassifyState.myLeftClosest h1
    exact this
  · have := congrArg ClassifyState.myRightClosest h1
    exact this

/-- C19 for five points at 0, 1, 3/2, 2, 5/2 and the cuts 1 and 2: every cached bucket id 4,
or the cached bucket ids 0, 1, 2, 3, 4. -/
theorem getPartWeights_cache_independent_witness :
    classifierReport 5 5
      (pqJagged_1DPart_getPartWeights 5 2 maxDouble epsDouble 0 5 (fun i => i) fivePoints true
        (fun _ => 0) (arrQ [1, 2]) (zeroClassifyState 4)) = ([1, 2, 3, 4, 5], [0, 1, 2, 3, 4]) ∧
    (pqJagged_1DPart_getPartWeights 5 2 maxDouble epsDouble 0 5 (fun i => i) fivePoints true
        (fun _ => 0) (arrQ [1, 2])
        { zeroClassifyState 4 with partIds := fun i => i }).myPartWeights =
      (pqJagged_1DPart_getPartWeights 5 2 maxDouble epsDouble 0 5 (fun i => i) fivePoints true
        (fun _ => 0) (arrQ [1, 2]) (zeroClassifyState 4)).myPartWeights ∧
    (pqJagged_1DPart_getPartWeights 5 2 maxDouble epsDouble 0 5 (fun i => i) fivePoints true
        (fun _ => 0) (arrQ [1, 2])
        { zeroClassifyState 4 with partIds := fun i => i }).myLeftClosest =
      (pqJagged_1DPart_getPartWeights 5 2 maxDouble epsDouble 0 5 (fun i => i) fivePoints true
        (fun _ => 0) (arrQ [1, 2]) (zeroClassifyState 4)).myLeftClosest ∧
    (pqJagged_1DPart_getPartWeights 5 2 maxDouble epsDouble 0 5 (fun i => i) fivePoints true
        (fun _ => 0) (arrQ [1, 2])
        { zeroClassifyState 4 with partIds := fun i => i }).myRightClosest =
      (pqJagged_1DPart_getPartWeights 5 2 maxDouble epsDouble 0 5 (fun i => i) fivePoints true
        (fun _ => 0) (arrQ [1, 2]) (zeroClassifyState 4)).myRightClosest ∧
    ∀ i, i ∈ rangeIds (fun i => i) 0 5 →
      (pqJagged_1DPart_getPartWeights 5 2 maxDouble epsDouble 0 5 (fun i => i) fivePoints true
        (fun _ => 0) (arrQ [1, 2])
        { zeroClassifyState 4 with partIds := fun i => i }).partIds i =
      (pqJagged_1DPart_getPartWeights 5 2 maxDouble epsDouble 0 5 (fun i => i) fivePoints true
        (fun _ => 0) (arrQ [1, 2]) (zeroClassifyState 4)).partIds i :=
  ⟨by decide!,
   getPartWeights_cache_independent epsDouble 2 fivePoints true (fun _ => 0) (arrQ [1, 2])
    (by decide!) (by decide)
    (fun k hk => by
      have h0 : k = 0 := by omega
      subst h0
      decide!)
    5 maxDouble 0 5 (fun i => i) (zeroClassifyState 4) (fun i => i)⟩

/-! ## The bracket after `getNewCoordinates` -/

section BracketUpdate

variable (eps : ℚ) (cuts : Nat → ℚ)

/-- The end of the branches that move a cut stores the bracket it is given. -/
theorem moveTo_bracket (s : CutState) (i : Nat) (br : Bracket) (ew : ℚ) :
    (s.moveTo eps cuts i br ew).bracket i = br := by
  unfold CutState.moveTo
  dsimp only
  split_ifs <;> simp [CutState.bracket, CutState.markDone, CutState.setBracket]

end BracketUpdate

/-- C20, as claimed, fails: the direction is the other one.  For `oneCutState` with five of
the seven unit weights left of the cut at 5 (target 7/2, tolerance 0), the cut is Active and
not within tolerance, too much weight is on the left, and `getNewCoordinates` leaves
`lowerBound = 0` and `lowerWeight = 0` and changes `upperBound` from 10 to `5 - 1/2` and
`upperWeight` from 7 to 5. -/
theorem getNewCoordinates_heavy_left :
    oneCutState.isDone 0 = false ∧
    withinTolerance epsDouble 7 0 (arrQ [5, 5, 7]) (arrQ [1 / 2, 1]) 0 = false ∧
    arrQ [5, 5, 7] (0 * 2) > arrQ [1 / 2, 1] 0 * 7 ∧
    oneCutState.bracket 0 =
      { upperBound := 10, lowerBound := 0, upperWeight := 7, lowerWeight := 0 } ∧
    (getNewCoordinates epsDouble 1 7 0 maxDouble (arrQ [5, 5, 7]) (arrQ [5, 5, 7])
        (arrQ [1 / 2, 1]) (arrQ [5]) false [] oneCutState).bracket 0 =
      { upperBound := 9 / 2, lowerBound := 0, upperWeight := 5, lowerWeight := 0 } := by
  refine ⟨?_, ?_, ?_, ?_, ?_⟩
  · decide!
  · decide!
  · decide!
  · decide!
  · decide!

/-- C20, amended: for a part with a single cut that is Active and not within tolerance, with
`e` the target ratio of the cut converted to `float` as the code holds it (target weight
`globalTotalWeight * e > 0`): when too little weight is on the left (achieved left weight
below `globalTotalWeight * e`) and tie splitting does not finish the cut,
`getNewCoordinates` sets the cut's `lowerBound` to its coordinate plus the right-closest
distance (0 when none was found) and its `lowerWeight` to the achieved left weight, and
leaves `upperBound` and `upperWeight`; when the achieved left weight is at least
`globalTotalWeight * e`, it sets `upperBound` to the coordinate minus the left-closest
distance and `upperWeight` to the achieved left weight, and leaves `lowerBound` and
`lowerWeight`. -/
theorem getNewCoordinates_bracket_one (eps total tol maxScalar : ℚ)
    (gpw lpw ratios cuts : Nat → ℚ) (allow : Bool) (lowerRanks : List (Nat → ℚ))
    (s : CutState) (hd : s.isDone 0 = false) (hpos : 0 < total * toFloat (ratios 0))
    (hw : withinTolerance eps total tol gpw ratios 0 = false) :
    (gpw (0 * 2) < total * toFloat (ratios 0) →
      ¬ (allow = true ∧ gpw (0 * 2 + 1) ≥ total * toFloat (ratios 0)) →
      (getNewCoordinates eps 1 total tol maxScalar gpw lpw ratios cuts allow lowerRanks
          s).bracket 0 =
        { s.bracket 0 with
          lowerBound := cuts 0 + resetClosest 1 maxScalar s.rightClosestDistance 0
          lowerWeight := gpw (0 * 2) }) ∧
    (gpw (0 * 2) ≥ total * toFloat (ratios 0) →
      (getNewCoordinates eps 1 total tol maxScalar gpw lpw ratios cuts allow lowerRanks
          s).bracket 0 =
        { s.bracket 0 with
          upperBound := cuts 0 - resetClosest 1 maxScalar s.leftClosestDistance 0
          upperWeight := gpw (0 * 2) }) := by
  obtain ⟨_, a2, _, _⟩ := getNewCoordinates_agree_loop eps 1 total tol maxScalar gpw lpw
    ratios cuts allow lowerRanks s 0
  rw [a2]
  have hloop : getNewCoordinatesLoop eps 1 total tol maxScalar gpw lpw ratios cuts allow s =
      processCut eps 1 total tol gpw lpw ratios cuts allow (s.resetClosest 1 maxScalar) 0 :=
    rfl
  rw [hloop]
  have hd' : (s.resetClosest 1 maxScalar).isDone 0 = false := hd
  have himb : imbalanceOf (gpw (0 * 2)) total (toFloat (ratios 0)) < 0 ↔
      gpw (0 * 2) < total * toFloat (ratios 0) := by
    unfold imbalanceOf
    constructor
    · intro h
      have : gpw (0 * 2) / (total * toFloat (ratios 0)) < 1 := by linarith
      exact (div_lt_one hpos).1 this
    · intro h
      have := (div_lt_one hpos).2 h
      linarith
  constructor
  · intro hlt hnt
    unfold processCut
    dsimp only
    rw [hd', if_neg (by simp), if_neg (by rw [hw]; simp), if_pos (himb.2 hlt),
      if_neg (fun h => hnt ⟨h.1, le_of_eq h.2.symm⟩),
      if_neg (fun h => hnt ⟨h.1, le_of_lt h.2⟩), moveTo_bracket]
    rfl
  · intro hge
    unfold processCut
    dsimp only
    rw [hd', if_neg (by simp), if_neg (by rw [hw]; simp),
      if_neg (fun h => absurd (himb.1 h) (not_lt.2 hge)), moveTo_bracket]
    rfl

/-- C20, amended, for `oneCutState`: with two of the seven unit weights left of the cut the
lower bound moves to `5 + 1` with the weight 2; with five of them the upper bound moves to
`5 - 1/2` with the weight 5; and with the total weight 3, the target ratio 1/3 and the
weight `1 + 10^-8` on the left, which is above a third of the total and below the total
times the `float` nearest to 1/3, the lower bound moves. -/
theorem getNewCoordinates_bracket_one_witness :
    (getNewCoordinates epsDouble 1 7 0 maxDouble (arrQ [2, 2, 7]) (arrQ [2, 2, 7])
        (arrQ [1 / 2, 1]) (arrQ [5]) true [] oneCutState).bracket 0 =
      { oneCutState.bracket 0 with
        lowerBound := arrQ [5] 0 + resetClosest 1 maxDouble oneCutState.rightClosestDistance 0
        lowerWeight := arrQ [2, 2, 7] (0 * 2) } ∧
    (getNewCoordinates epsDouble 1 7 0 maxDouble (arrQ [5, 5, 7]) (arrQ [5, 5, 7])
        (arrQ [1 / 2, 1]) (arrQ [5]) true [] oneCutState).bracket 0 =
      { oneCutState.bracket 0 with
        upperBound := arrQ [5] 0 - resetClosest 1 maxDouble oneCutState.leftClosestDistance 0
        upperWeight := arrQ [5, 5, 7] (0 * 2) } ∧
    (3 : ℚ) * (1 / 3) < arrQ [1 + 1 / 100000000, 1 + 1 / 100000000, 3] (0 * 2) ∧
    (getNewCoordinates epsDouble 1 3 0 maxDouble
        (arrQ [1 + 1 / 100000000, 1 + 1 / 100000000, 3])
        (arrQ [1 + 1 / 100000000, 1 + 1 / 100000000, 3])
        (arrQ [1 / 3, 1]) (arrQ [5]) false [] oneCutState).bracket 0 =
      { oneCutState.bracket 0 with
        lowerBound := arrQ [5] 0 + resetClosest 1 maxDouble oneCutState.rightClosestDistance 0
        lowerWeight := arrQ [1 + 1 / 100000000, 1 + 1 / 100000000, 3] (0 * 2) } :=
  ⟨(getNewCoordinates_bracket_one epsDouble 7 0 maxDouble (arrQ [2, 2, 7]) (arrQ [2, 2, 7])
      (arrQ [1 / 2, 1]) (arrQ [5]) true [] oneCutState (by decide!) (by decide!)
      (by decide!)).1 (by decide!) (by decide!),
   (getNewCoordinates_bracket_one epsDouble 7 0 maxDouble (arrQ [5, 5, 7]) (arrQ [5, 5, 7])
      (arrQ [1 / 2, 1]) (arrQ [5]) true [] oneCutState (by decide!) (by decide!)
      (by decide!)).2 (by decide!),
   by decide!,
   (getNewCoordinates_bracket_one epsDouble 3 0 maxDouble
      (arrQ [1 + 1 / 100000000, 1 + 1 / 100000000, 3])
      (arrQ [1 + 1 / 100000000, 1 + 1 / 100000000, 3])
      (arrQ [1 / 3, 1]) (arrQ [5]) false [] oneCutState (by decide!) (by decide!)
      (by decide!)).1 (by decide!) (by decide!)⟩

/-! ## The pivot -/

/-- C21: `pivotPos` is the linear interpolation between `(lowerBound, lowerWeight)` and
`(upperBound, upperWeight)` at the expected weight `ew`: `lowerBound` when the two weights
are equal, `lowerBound + (upperBound - lowerBound) * (ew - lowerWeight) /
(upperWeight - lowerWeight)` when they differ; and for `lowerBound <= upperBound` and
`lowerWeight <= ew <= upperWeight` it lies in `[lowerBound, upperBound]`. -/
theorem pivotPos_interpolates (br : Bracket) (ew : ℚ) :
    (br.upperWeight = br.lowerWeight → pivotPos br ew = br.lowerBound) ∧
    (br.upperWeight ≠ br.lowerWeight →
      pivotPos br ew = br.lowerBound +
        (br.upperBound - br.lowerBound) * (ew - br.lowerWeight) /
          (br.upperWeight - br.lowerWeight)) ∧
    (br.lowerBound ≤ br.upperBound → br.lowerWeight ≤ ew → ew ≤ br.upperWeight →
      br.lowerBound ≤ pivotPos br ew ∧ pivotPos br ew ≤ br.upperBound) := by
  have h2 : br.upperWeight ≠ br.lowerWeight →
      pivotPos br ew = br.lowerBound +
        (br.upperBound - br.lowerBound) * (ew - br.lowerWeight) /
          (br.upperWeight - br.lowerWeight) := by
    intro h
    unfold pivotPos
    rw [if_neg h]
    ring
  refine ⟨fun h => by unfold pivotPos; rw [if_pos h], h2, ?_⟩
  intro hb hl hu
  by_cases h : br.upperWeight = br.lowerWeight
  · unfold pivotPos
    rw [if_pos h]
    exact ⟨le_refl _, hb⟩
  · rw [h2 h]
    have hpos : 0 < br.upperWeight - br.lowerWeight := by
      have : br.lowerWeight ≤ br.upperWeight := le_trans hl hu
      have hne : br.lowerWeight ≠ br.upperWeight := fun e => h e.symm
      have := lt_of_le_of_ne this hne
      linarith
    have hnum : 0 ≤ (br.upperBound - br.lowerBound) * (ew - br.lowerWeight) :=
      mul_nonneg (by linarith) (by linarith)
    have hle : (br.upperBound - br.lowerBound) * (ew - br.lowerWeight) ≤
        (br.upperBound - br.lowerBound) * (br.upperWeight - br.lowerWeight) :=
      mul_le_mul_of_nonneg_left (by linarith) (by linarith)
    constructor
    · have := div_nonneg hnum (le_of_lt hpos)
      linarith
    · have := (div_le_iff₀ hpos).2 hle
      linarith

/-- C21 for the bracket `[0, 10]` with the weights 0 and 7 and the expected weight 7/2. -/
theorem pivotPos_interpolates_witness :
    (0 : ℚ) ≤ pivotPos ⟨10, 0, 7, 0⟩ (7 / 2) ∧ pivotPos ⟨10, 0, 7, 0⟩ (7 / 2) ≤ 10 :=
  (pivotPos_interpolates ⟨10, 0, 7, 0⟩ (7 / 2)).2.2 (by decide!) (by decide!) (by decide!)

/-! ## The guard of `getNewCoordinates` -/

section Guard

variable (eps : ℚ) (noCuts : Nat) (total tol maxScalar : ℚ)
  (gpw lpw ratios cuts : Nat → ℚ) (allow : Bool)

/-- The end of the branches that move a cut: under the guard the cut is marked Done at its
coordinate, otherwise its flag stays and the new coordinate is the pivot. -/
theorem moveTo_guard (s : CutState) (i : Nat) (br : Bracket) (ew : ℚ) :
    ((ABS (cuts i - pivotPos br ew) < eps ∨ br.upperBound < br.lowerBound) →
      (s.moveTo eps cuts i br ew).isDone i = true ∧
      (s.moveTo eps cuts i br ew).newCutCoordinates i = cuts i) ∧
    (¬ (ABS (cuts i - pivotPos br ew) < eps ∨ br.upperBound < br.lowerBound) →
      (s.moveTo eps cuts i br ew).isDone i = s.isDone i ∧
      (s.moveTo eps cuts i br ew).newCutCoordinates i = pivotPos br ew) := by
  have he : eps * EPS_SCALE = eps := by
    unfold EPS_SCALE
    ring
  unfold CutState.moveTo
  dsimp only
  rw [he]
  constructor
  · intro hg
    rw [if_pos hg]
    simp [CutState.markDone]
  · intro hg
    rw [if_neg hg]
    simp [CutState.setBracket]

/-- The loop body on an Active cut that is neither within tolerance nor finished by tie
splitting ends in the branch that moves the cut, with some bracket. -/
theorem processCut_moves (s : CutState) (i : Nat) (hd : s.isDone i = false)
    (hw : withinTolerance eps total tol gpw ratios i = false)
    (htie : ¬ (imbalanceOf (gpw (i * 2)) total (toFloat (ratios i)) < 0 ∧ allow = true ∧
      gpw (i * 2 + 1) ≥ total * toFloat (ratios i))) :
    ∃ br, processCut eps noCuts total tol gpw lpw ratios cuts allow s i =
      CutState.moveTo
        { s with
          globalCutWeights := Function.update s.globalCutWeights i 0
          localCutWeights := Function.update s.localCutWeights i 0 }
        eps cuts i br (total * toFloat (ratios i)) := by
  unfold processCut
  dsimp only
  rw [hd, if_neg (by simp), if_neg (by rw [hw]; simp)]
  by_cases hl : imbalanceOf (gpw (i * 2)) total (toFloat (ratios i)) < 0
  · rw [if_pos hl, if_neg (fun h => htie ⟨hl, h.1, le_of_eq h.2.symm⟩),
      if_neg (fun h => htie ⟨hl, h.1, le_of_lt h.2⟩)]
    exact ⟨_, rfl⟩
  · rw [if_neg hl]
    exact ⟨_, rfl⟩

end Guard

/-- C22: for every cut `i` that is Active on entry to `getNewCoordinates`, not within
tolerance and not finished by tie splitting, with `br` the bracket of the cut on exit (the
tightened bounds) and `pivotPos br ew` the trial coordinate, `ew` being the total weight
times the target ratio as the code holds it in a `float`: if the trial coordinate differs
from `cutCoordinates[i]` by less than epsilon or `upperBound < lowerBound`, the cut is Done
on exit and `newCutCoordinates[i] = cutCoordinates[i]`; otherwise the cut is Active on exit
and `newCutCoordinates[i]` is the trial coordinate. -/
theorem getNewCoordinates_guard (eps : ℚ) (noCuts : Nat) (total tol maxScalar : ℚ)
    (gpw lpw ratios cuts : Nat → ℚ) (allow : Bool) (lowerRanks : List (Nat → ℚ))
    (s : CutState) (i : Nat) (hi : i < noCuts) (hd : s.isDone i = false)
    (hw : withinTolerance eps total tol gpw ratios i = false)
    (htie : ¬ (imbalanceOf (gpw (i * 2)) total (toFloat (ratios i)) < 0 ∧ allow = true ∧
      gpw (i * 2 + 1) ≥ total * toFloat (ratios i))) :
    ((ABS (cuts i - pivotPos
          ((getNewCoordinates eps noCuts total tol maxScalar gpw lpw ratios cuts allow
            lowerRanks s).bracket i) (total * toFloat (ratios i))) < eps ∨
        ((getNewCoordinates eps noCuts total tol maxScalar gpw lpw ratios cuts allow
          lowerRanks s).bracket i).upperBound <
        ((getNewCoordinates eps noCuts total tol maxScalar gpw lpw ratios cuts allow
          lowerRanks s).bracket i).lowerBound) →
      (getNewCoordinates eps noCuts total tol maxScalar gpw lpw ratios cuts allow lowerRanks
        s).isDone i = true ∧
      (getNewCoordinates eps noCuts total tol maxScalar gpw lpw ratios cuts allow lowerRanks
        s).newCutCoordinates i = cuts i) ∧
    (¬ (ABS (cuts i - pivotPos
          ((getNewCoordinates eps noCuts total tol maxScalar gpw lpw ratios cuts allow
            lowerRanks s).bracket i) (total * toFloat (ratios i))) < eps ∨
        ((getNewCoordinates eps noCuts total tol maxScalar gpw lpw ratios cuts allow
          lowerRanks s).bracket i).upperBound <
        ((getNewCoordinates eps noCuts total tol maxScalar gpw lpw ratios cuts allow
          lowerRanks s).bracket i).lowerBound) →
      (getNewCoordinates eps noCuts total tol maxScalar gpw lpw ratios cuts allow lowerRanks
        s).isDone i = false ∧
      (getNewCoordinates eps noCuts total tol maxScalar gpw lpw ratios cuts allow lowerRanks
        s).newCutCoordinates i =
        pivotPos
          ((getNewCoordinates eps noCuts total tol maxScalar gpw lpw ratios cuts allow
            lowerRanks s).bracket i) (total * toFloat (ratios i))) := by
  obtain ⟨a1, a2, a3, _⟩ := getNewCoordinates_agree_loop eps noCuts total tol maxScalar gpw lpw
    ratios cuts allow lowerRanks s i
  obtain ⟨b1, b2, b3, _⟩ := getNewCoordinatesLoop_at eps noCuts total tol maxScalar gpw lpw
    ratios cuts allow s i hi
  rw [a1, a2, a3, b1, b2, b3]
  obtain ⟨br, hbr⟩ := processCut_moves eps noCuts total tol gpw lpw ratios cuts allow
    (s.resetClosest noCuts maxScalar) i hd hw htie
  rw [hbr, moveTo_bracket]
  have h := moveTo_guard eps cuts
    ({ s.resetClosest noCuts maxScalar with
      globalCutWeights :=
        Function.update (s.resetClosest noCuts maxScalar).globalCutWeights i 0
      localCutWeights :=
        Function.update (s.resetClosest noCuts maxScalar).localCutWeights i 0 } : CutState)
    i br (total * toFloat (ratios i))
  refine ⟨h.1, fun hg => ?_⟩
  obtain ⟨h1, h2⟩ := h.2 hg
  exact ⟨h1.trans hd, h2⟩

/-- C22 for `oneCutState` with five of the seven unit weights left of the cut at 5: the
bracket on exit is `[0, 9/2]` with the weights 0 and 5, the trial coordinate 63/20 is not
within epsilon of 5, and the cut stays Active and moves there. -/
theorem getNewCoordinates_guard_witness :
    (getNewCoordinates epsDouble 1 7 0 maxDouble (arrQ [5, 5, 7]) (arrQ [5, 5, 7])
      (arrQ [1 / 2, 1]) (arrQ [5]) false [] oneCutState).isDone 0 = false ∧
    (getNewCoordinates epsDouble 1 7 0 maxDouble (arrQ [5, 5, 7]) (arrQ [5, 5, 7])
      (arrQ [1 / 2, 1]) (arrQ [5]) false [] oneCutState).newCutCoordinates 0 =
      pivotPos
        ((getNewCoordinates epsDouble 1 7 0 maxDouble (arrQ [5, 5, 7]) (arrQ [5, 5, 7])
          (arrQ [1 / 2, 1]) (arrQ [5]) false [] oneCutState).bracket 0)
        (7 * toFloat (arrQ [1 / 2, 1] 0)) :=
  (getNewCoordinates_guard epsDouble 1 7 0 maxDouble (arrQ [5, 5, 7]) (arrQ [5, 5, 7])
    (arrQ [1 / 2, 1]) (arrQ [5]) false [] oneCutState 0 (by decide) (by decide!) (by decide!)
    (by decide!)).2 (by decide!)

/-! ## Cuts that are Done -/

section DoneCuts

variable (eps : ℚ) (noCuts : Nat) (total tol maxScalar : ℚ)
  (gpw lpw ratios cuts : Nat → ℚ) (allow : Bool)

/-- The loop body on a cut that is Done: its coordinate is copied, nothing else of the cut
changes. -/
theorem processCut_done (s : CutState) (i : Nat) (hd : s.isDone i = true) :
    processCut eps noCuts total tol gpw lpw ratios cuts allow s i =
      { s with
        globalCutWeights := Function.update s.globalCutWeights i 0
        localCutWeights := Function.update s.localCutWeights i 0
        newCutCoordinates := Function.update s.newCutCoordinates i (cuts i) } := by
  unfold processCut
  dsimp only
  rw [hd, if_pos rfl]

/-- A cut that is Done after the loop body has its coordinate copied. -/
theorem processCut_isDone_newCut (s : CutState) (i : Nat)
    (h : (processCut eps noCuts total tol gpw lpw ratios cuts allow s i).isDone i = true) :
    (processCut eps noCuts total tol gpw lpw ratios cuts allow s i).newCutCoordinates i =
      cuts i := by
  revert h
  unfold processCut CutState.moveTo CutState.markDone CutState.setBracket
  dsimp only
  split_ifs <;> simp_all

/-- The loop body lowers `myNoneDoneCount` by one exactly when it switches the cut from
Active to Done, and never switches a cut back. -/
theorem processCut_count (s : CutState) (i : Nat) :
    (processCut eps noCuts total tol gpw lpw ratios cuts allow s i).myNoneDoneCount =
      s.myNoneDoneCount -
        (if s.isDone i = false ∧
            (processCut eps noCuts total tol gpw lpw ratios cuts allow s i).isDone i = true
          then 1 else 0) ∧
    (s.isDone i = true →
      (processCut eps noCuts total tol gpw lpw ratios cuts allow s i).isDone i = true) := by
  constructor
  · by_cases hd : s.isDone i = true
    · rw [processCut_done eps noCuts total tol gpw lpw ratios cuts allow s i hd,
        if_neg (by rw [hd]; simp)]
      simp
    · have hf : s.isDone i = false := by simpa using hd
      unfold processCut CutState.moveTo CutState.markDone CutState.setBracket
      dsimp only
      split_ifs <;> simp_all
  · intro hd
    rw [processCut_done eps noCuts total tol gpw lpw ratios cuts allow s i hd]
    exact hd

theorem activeCuts_succ (f : Nat → Bool) (n : Nat) :
    activeCuts f (n + 1) = activeCuts f n + (if f n = false then 1 else 0) := by
  unfold activeCuts
  rw [List.range_succ, List.filter_append, List.length_append]
  cases hf : f n <;> simp [hf]

theorem activeCuts_congr (f g : Nat → Bool) (n : Nat) (h : ∀ j, j < n → f j = g j) :
    activeCuts f n = activeCuts g n := by
  induction n with
  | zero => rfl
  | succ n ih =>
    rw [activeCuts_succ, activeCuts_succ, ih (fun j hj => h j (by omega)), h n (by omega)]

theorem activeCuts_le (f : Nat → Bool) (n : Nat) : activeCuts f n ≤ n := by
  induction n with
  | zero => exact le_refl _
  | succ n ih =>
    rw [activeCuts_succ]
    split_ifs <;> omega

/-- No cut is Active exactly when every cut is Done. -/
theorem activeCuts_eq_zero (f : Nat → Bool) (n : Nat) :
    activeCuts f n = 0 ↔ ∀ j, j < n → f j = true := by
  induction n with
  | zero => exact ⟨fun _ j hj => absurd hj (Nat.not_lt_zero _), fun _ => rfl⟩
  | succ n ih =>
    rw [activeCuts_succ]
    constructor
    · intro h j hj
      have h1 : activeCuts f n = 0 := by omega
      by_cases hjn : j = n
      · subst hjn
        by_contra hc
        rw [if_pos (by simpa using hc)] at h
        omega
      · exact ih.1 h1 j (by omega)
    · intro h
      rw [ih.2 (fun j hj => h j (by omega)), if_neg (by rw [h n (by omega)]; simp)]

/-- Every cut is Active exactly when the count is the number of cuts. -/
theorem activeCuts_all (f : Nat → Bool) (n : Nat) (h : ∀ j, j < n → f j = false) :
    activeCuts f n = n := by
  induction n with
  | zero => rfl
  | succ n ih =>
    rw [activeCuts_succ, ih (fun j hj => h j (by omega)), if_pos (h n (by omega))]

/-- The main loop over the first `k` cuts lowers `myNoneDoneCount` by the number of cuts it
switches from Active to Done. -/
theorem processCut_fold_count (k : Nat) (s : CutState) :
    ((List.range k).foldl (processCut eps noCuts total tol gpw lpw ratios cuts allow)
        s).myNoneDoneCount =
      s.myNoneDoneCount - ((activeCuts s.isDone k : Int) -
        (activeCuts ((List.range k).foldl
          (processCut eps noCuts total tol gpw lpw ratios cuts allow) s).isDone k : Int)) ∧
    activeCuts ((List.range k).foldl
        (processCut eps noCuts total tol gpw lpw ratios cuts allow) s).isDone k ≤
      activeCuts s.isDone k := by
  induction k with
  | zero =>
    constructor
    · simp [activeCuts]
    · exact le_refl _
  | succ k ih =>
    obtain ⟨ih1, ih2⟩ := ih
    rw [List.range_succ, List.foldl_append, List.foldl_cons, List.foldl_nil]
    have hfr := processCut_fold_frame eps noCuts total tol gpw lpw ratios cuts allow
      (List.range k) s k (by simp)
    generalize ht : (List.range k).foldl
      (processCut eps noCuts total tol gpw lpw ratios cuts allow) s = t at ih1 ih2 hfr
    obtain ⟨c1, c2⟩ := processCut_count eps noCuts total tol gpw lpw ratios cuts allow t k
    have hk : t.isDone k = s.isDone k := hfr.1
    have hcong : activeCuts
        (processCut eps noCuts total tol gpw lpw ratios cuts allow t k).isDone k =
        activeCuts t.isDone k :=
      activeCuts_congr _ _ k (fun j hj =>
        (processCut_frame eps noCuts total tol gpw lpw ratios cuts allow t k j
          (by omega)).1)
    rw [activeCuts_succ, activeCuts_succ, hcong, c1, ih1, hk]
    by_cases hs : s.isDone k = true
    · have hp := c2 (hk.trans hs)
      rw [if_neg (by rw [hs]; simp), if_neg (by rw [hs]; simp), if_neg (by rw [hp]; simp)]
      push_cast
      constructor
      · omega
      · omega
    · have hs' : s.isDone k = false := by simpa using hs
      by_cases hp : (processCut eps noCuts total tol gpw lpw ratios cuts allow t k).isDone k
          = true
      · rw [if_pos ⟨hs', hp⟩, if_pos hs', if_neg (by rw [hp]; simp)]
        push_cast
        constructor
        · omega
        · omega
      · have hp' : (processCut eps noCuts total tol gpw lpw ratios cuts allow t k).isDone k
            = false := by simpa using hp
        rw [if_neg (fun h => hp h.2), if_pos hs', if_pos hp']
        push_cast
        constructor
        · omega
        · omega

variable (lowerRanks : List (Nat → ℚ))

/-- A call of `getNewCoordinates` lowers `myNoneDoneCount` by the number of cuts it switches
from Active to Done. -/
theorem getNewCoordinates_count (s : CutState) :
    (getNewCoordinates eps noCuts total tol maxScalar gpw lpw ratios cuts allow lowerRanks
        s).myNoneDoneCount =
      s.myNoneDoneCount - ((activeCuts s.isDone noCuts : Int) -
        (activeCuts (getNewCoordinates eps noCuts total tol maxScalar gpw lpw ratios cuts
          allow lowerRanks s).isDone noCuts : Int)) ∧
    activeCuts (getNewCoordinates eps noCuts total tol maxScalar gpw lpw ratios cuts
        allow lowerRanks s).isDone noCuts ≤ activeCuts s.isDone noCuts := by
  obtain ⟨a1, _, _, a4⟩ := getNewCoordinates_agree_loop eps noCuts total tol maxScalar gpw lpw
    ratios cuts allow lowerRanks s 0
  rw [a1, a4]
  exact processCut_fold_count eps noCuts total tol gpw lpw ratios cuts allow noCuts
    (s.resetClosest noCuts maxScalar)

/-- A call of `getNewCoordinates` leaves the entries past its cuts. -/
theorem getNewCoordinates_past (s : CutState) (j : Nat) (hj : noCuts ≤ j) :
    (getNewCoordinates eps noCuts total tol maxScalar gpw lpw ratios cuts allow lowerRanks
        s).isDone j = s.isDone j ∧
    (getNewCoordinates eps noCuts total tol maxScalar gpw lpw ratios cuts allow lowerRanks
        s).newCutCoordinates j = s.newCutCoordinates j := by
  obtain ⟨a1, _, a3, _⟩ := getNewCoordinates_agree_loop eps noCuts total tol maxScalar gpw lpw
    ratios cuts allow lowerRanks s 0
  rw [a1, a3]
  have h := processCut_fold_frame eps noCuts total tol gpw lpw ratios cuts allow
    (List.range noCuts) (s.resetClosest noCuts maxScalar) j
    (by rw [List.mem_range]; omega)
  exact ⟨h.1, h.2.2.1⟩

/-- A cut that is Done on return from `getNewCoordinates` has its coordinate copied to
`newCutCoordinates`. -/
theorem getNewCoordinates_isDone_newCut (s : CutState) (j : Nat) (hj : j < noCuts)
    (h : (getNewCoordinates eps noCuts total tol maxScalar gpw lpw ratios cuts allow
      lowerRanks s).isDone j = true) :
    (getNewCoordinates eps noCuts total tol maxScalar gpw lpw ratios cuts allow lowerRanks
        s).newCutCoordinates j = cuts j := by
  obtain ⟨a1, _, a3, _⟩ := getNewCoordinates_agree_loop eps noCuts total tol maxScalar gpw lpw
    ratios cuts allow lowerRanks s 0
  obtain ⟨b1, _, b3, _⟩ := getNewCoordinatesLoop_at eps noCuts total tol maxScalar gpw lpw
    ratios cuts allow s j hj
  rw [a1, b1] at h
  rw [a3, b3]
  exact processCut_isDone_newCut eps noCuts total tol gpw lpw ratios cuts allow _ j h

/-- A cut that is Done on entry to `getNewCoordinates` is Done on return. -/
theorem getNewCoordinates_isDone_mono (s : CutState) (j : Nat) (h : s.isDone j = true) :
    (getNewCoordinates eps noCuts total tol maxScalar gpw lpw ratios cuts allow lowerRanks
        s).isDone j = true := by
  by_cases hj : j < noCuts
  · obtain ⟨a1, _, _, _⟩ := getNewCoordinates_agree_loop eps noCuts total tol maxScalar gpw
      lpw ratios cuts allow lowerRanks s 0
    obtain ⟨b1, _⟩ := getNewCoordinatesLoop_at eps noCuts total tol maxScalar gpw lpw
      ratios cuts allow s j hj
    rw [a1, b1]
    exact (processCut_count eps noCuts total tol gpw lpw ratios cuts allow _ j).2 h
  · rw [(getNewCoordinates_past eps noCuts total tol maxScalar gpw lpw ratios cuts allow
      lowerRanks s j (by omega)).1]
    exact h

/-- The main loop on a cut that is Done: the bracket and the tie ratio stay and no weight
on the cut is recorded, whatever the local histogram is. -/
theorem getNewCoordinatesLoop_done (s : CutState) (i : Nat) (hi : i < noCuts)
    (hd : s.isDone i = true) :
    (getNewCoordinatesLoop eps noCuts total tol maxScalar gpw lpw ratios cuts allow
      s).bracket i = s.bracket i ∧
    (getNewCoordinatesLoop eps noCuts total tol maxScalar gpw lpw ratios cuts allow
      s).nonRectelinearPartRatios i = s.nonRectelinearPartRatios i ∧
    (getNewCoordinatesLoop eps noCuts total tol maxScalar gpw lpw ratios cuts allow
      s).localCutWeights i = 0 := by
  obtain ⟨_, h2, _, h4, h5, _⟩ :=
    getNewCoordinatesLoop_at eps noCuts total tol maxScalar gpw lpw ratios cuts allow s i hi
  rw [processCut_done eps noCuts total tol gpw lpw ratios cuts allow
    (s.resetClosest noCuts maxScalar) i hd] at h2 h4 h5
  refine ⟨h2.trans ?_, h4.trans ?_, h5.trans ?_⟩ <;>
    simp [CutState.bracket, CutState.resetClosest]

end DoneCuts

/-! ## The counts and the buffers of the cut solver -/

section SolverControl

variable (inp : SolverInput)

theorem cutShiftOf_succ (kk : Nat) :
    cutShiftOf inp (kk + 1) = cutShiftOf inp kk + noCutsOf inp kk := by
  unfold cutShiftOf noCutsOf windowShifts
  rw [List.range_succ, List.foldl_append]
  rfl

theorem cutShiftOf_mono (a b : Nat) (h : a ≤ b) : cutShiftOf inp a ≤ cutShiftOf inp b := by
  induction b with
  | zero =>
    have : a = 0 := by omega
    subst this
    exact le_refl _
  | succ b ih =>
    by_cases hab : a = b + 1
    · subst hab
      exact le_refl _
    · have := ih (by omega)
      rw [cutShiftOf_succ]
      omega

/-- The cuts of two different parts of the window do not overlap. -/
theorem cutShiftOf_end_le (a b : Nat) (h : a < b) :
    cutShiftOf inp a + noCutsOf inp a ≤ cutShiftOf inp b := by
  rw [← cutShiftOf_succ]
  exact cutShiftOf_mono inp (a + 1) b h

/-- The classifier, `accumulateThreadResults` and the reduction leave the flags, the counts,
`allDone` and the buffers of cut coordinates. -/
theorem preSolve_control (it : Nat) (s : SolverState) :
    (reduceAllRanks inp it (accumulateThreadResults inp
      ((List.range inp.concurrentPartCount).foldl (classifyPart inp) s))).control =
      s.control := by
  have h1 : ∀ (t : SolverState) (kk : Nat), (classifyPart inp t kk).control = t.control := by
    intro t kk
    unfold classifyPart
    dsimp only
    split_ifs <;> rfl
  have h2 := foldl_keep (classifyPart inp) SolverState.control h1
    (List.range inp.concurrentPartCount) s
  have h3 := congrArg SolverState.control (accumulateThreadResults_frame inp
    ((List.range inp.concurrentPartCount).foldl (classifyPart inp) s))
  have h4 : (accumulateThreadResults inp
      ((List.range inp.concurrentPartCount).foldl (classifyPart inp) s)).control =
      ((List.range inp.concurrentPartCount).foldl (classifyPart inp) s).control := h3
  exact (show (reduceAllRanks inp it _).control = _ from rfl).trans (h4.trans h2)

theorem control_tmp (s t : SolverState) (h : s.control = t.control) :
    s.cutCoordinates_tmp = t.cutCoordinates_tmp ∧ s.workBuffer = t.workBuffer ∧
    s.isDone = t.isDone ∧ s.myNonDoneCounts = t.myNonDoneCounts ∧ s.allDone = t.allDone ∧
    s.swapped = t.swapped := by
  unfold SolverState.control at h
  simp only [Prod.mk.injEq] at h
  obtain ⟨h1, h2, h3, h4, h5, h6⟩ := h
  unfold SolverState.cutCoordinates_tmp SolverState.workBuffer
  rw [h4, h5, h6]
  exact ⟨rfl, rfl, h1, h2, h3, rfl⟩

/-- What `solvePart` does to the flags, the counts and the two buffers, by the index `x` of
a cut in the arrays of the window. -/
theorem solvePart_spec (it : Nat) (s : SolverState) (kk : Nat) :
    (solvePart inp it s kk).swapped = s.swapped ∧
    (solvePart inp it s kk).cutCoordinates_tmp = s.cutCoordinates_tmp ∧
    (∀ k, k ≠ kk → (solvePart inp it s kk).myNonDoneCounts k = s.myNonDoneCounts k) ∧
    (solvePart inp it s kk).allDone =
      s.allDone - (s.myNonDoneCounts kk - (solvePart inp it s kk).myNonDoneCounts kk) ∧
    (solvePart inp it s kk).myNonDoneCounts kk = s.myNonDoneCounts kk -
      ((activeCuts (view s.isDone (cutShiftOf inp kk)) (noCutsOf inp kk) : Int) -
        (activeCuts (view (solvePart inp it s kk).isDone (cutShiftOf inp kk))
          (noCutsOf inp kk) : Int)) ∧
    (∀ x, s.isDone x = true → (solvePart inp it s kk).isDone x = true) ∧
    (∀ x, (s.myNonDoneCounts kk = 0 ∨ x < cutShiftOf inp kk ∨
        cutShiftOf inp kk + noCutsOf inp kk ≤ x) →
      (solvePart inp it s kk).isDone x = s.isDone x ∧
      (solvePart inp it s kk).workBuffer x = s.workBuffer x) ∧
    (∀ x, s.myNonDoneCounts kk ≠ 0 → cutShiftOf inp kk ≤ x →
      x < cutShiftOf inp kk + noCutsOf inp kk → (solvePart inp it s kk).isDone x = true →
      (solvePart inp it s kk).workBuffer x = s.cutCoordinates_tmp x) := by
  by_cases h0 : s.myNonDoneCounts kk = 0
  · have e : solvePart inp it s kk = s := by
      unfold solvePart
      dsimp only
      rw [if_pos h0]
    rw [e]
    refine ⟨rfl, rfl, fun _ _ => rfl, by omega, by omega, fun _ h => h, fun _ _ => ⟨rfl, rfl⟩,
      fun x h => absurd h0 h⟩
  · generalize hc : getNewCoordinates inp.eps (noCutsOf inp kk)
      (inp.globalMinMaxTotal (kk + inp.concurrentPartCount * 2)) inp.imbalanceTolerance
      inp.maxScalar
      (view s.global_totalPartWeights_leftClosest_rightCloset (windowShifts inp kk).2.1)
      (view s.local_totalPartWeights_leftClosest_rightCloset (windowShifts inp kk).2.1)
      (view inp.targetPartWeightRatios (cutShiftOf inp kk + kk))
      (view s.cutCoordinates_tmp (cutShiftOf inp kk))
      inp.allowNonRectelinearPart
      ((inp.lowerRanks it).map (fun other => view other (windowShifts inp kk).2.1))
      { isDone := view s.isDone (cutShiftOf inp kk)
        cutUpperBounds := view s.cutUpperBounds (cutShiftOf inp kk)
        cutLowerBounds := view s.cutLowerBounds (cutShiftOf inp kk)
        cutUpperWeight := view s.cutUpperWeight (cutShiftOf inp kk)
        cutLowerWeight := view s.cutLowerWeight (cutShiftOf inp kk)
        newCutCoordinates := view s.workBuffer (cutShiftOf inp kk)
        leftClosestDistance :=
          view (view s.global_totalPartWeights_leftClosest_rightCloset
            (windowShifts inp kk).2.1)
            (inp.pVector (inp.currentPartBeginIndex + kk) + noCutsOf inp kk)
        rightClosestDistance :=
          view (view s.global_totalPartWeights_leftClosest_rightCloset
            (windowShifts inp kk).2.1)
            (inp.pVector (inp.currentPartBeginIndex + kk) + noCutsOf inp kk +
              noCutsOf inp kk)
        nonRectelinearPartRatios := view s.nonRectelinearPartRatios (cutShiftOf inp kk)
        rectilinearCutCount := s.recteLinearCutCount
        localCutWeights := s.localCutWeights
        globalCutWeights := s.globalCutWeights
        myNoneDoneCount := s.myNonDoneCounts kk } = c
    have e : (solvePart inp it s kk).swapped = s.swapped ∧
        (solvePart inp it s kk).cutCoordinates_tmp = s.cutCoordinates_tmp ∧
        (solvePart inp it s kk).myNonDoneCounts =
          Function.update s.myNonDoneCounts kk c.myNoneDoneCount ∧
        (solvePart inp it s kk).allDone =
          s.allDone - (s.myNonDoneCounts kk - c.myNoneDoneCount) ∧
        (solvePart inp it s kk).isDone = unview s.isDone (cutShiftOf inp kk) c.isDone ∧
        (solvePart inp it s kk).workBuffer =
          unview s.workBuffer (cutShiftOf inp kk) c.newCutCoordinates := by
      rw [← hc]
      unfold solvePart SolverState.cutCoordinates_tmp SolverState.workBuffer
      dsimp only
      rw [if_neg h0]
      dsimp only
      refine ⟨rfl, ?_, rfl, rfl, rfl, ?_⟩
      · cases s.swapped <;> rfl
      · cases s.swapped <;> rfl
    obtain ⟨e1, e2, e3, e4, e5, e6⟩ := e
    obtain ⟨cs0, hcs0⟩ : ∃ cs0 : CutState, cs0 =
      { isDone := view s.isDone (cutShiftOf inp kk)
        cutUpperBounds := view s.cutUpperBounds (cutShiftOf inp kk)
        cutLowerBounds := view s.cutLowerBounds (cutShiftOf inp kk)
        cutUpperWeight := view s.cutUpperWeight (cutShiftOf inp kk)
        cutLowerWeight := view s.cutLowerWeight (cutShiftOf inp kk)
        newCutCoordinates := view s.workBuffer (cutShiftOf inp kk)
        leftClosestDistance :=
          view (view s.global_totalPartWeights_leftClosest_rightCloset
            (windowShifts inp kk).2.1)
            (inp.pVector (inp.currentPartBeginIndex + kk) + noCutsOf inp kk)
        rightClosestDistance :=
          view (view s.global_totalPartWeights_leftClosest_rightCloset
            (windowShifts inp kk).2.1)
            (inp.pVector (inp.currentPartBeginIndex + kk) + noCutsOf inp kk +
              noCutsOf inp kk)
        nonRectelinearPartRatios := view s.nonRectelinearPartRatios (cutShiftOf inp kk)
        rectilinearCutCount := s.recteLinearCutCount
        localCutWeights := s.localCutWeights
        globalCutWeights := s.globalCutWeights
        myNoneDoneCount := s.myNonDoneCounts kk } := ⟨_, rfl⟩
    rw [← hcs0] at hc
    have d1 : cs0.isDone = view s.isDone (cutShiftOf inp kk) := by rw [hcs0]
    have d2 : cs0.newCutCoordinates = view s.workBuffer (cutShiftOf inp kk) := by rw [hcs0]
    have d3 : cs0.myNoneDoneCount = s.myNonDoneCounts kk := by rw [hcs0]
    have g1 := getNewCoordinates_count inp.eps (noCutsOf inp kk)
      (inp.globalMinMaxTotal (kk + inp.concurrentPartCount * 2)) inp.imbalanceTolerance
      inp.maxScalar
      (view s.global_totalPartWeights_leftClosest_rightCloset (windowShifts inp kk).2.1)
      (view s.local_totalPartWeights_leftClosest_rightCloset (windowShifts inp kk).2.1)
      (view inp.targetPartWeightRatios (cutShiftOf inp kk + kk))
      (view s.cutCoordinates_tmp (cutShiftOf inp kk))
      inp.allowNonRectelinearPart
      ((inp.lowerRanks it).map (fun other => view other (windowShifts inp kk).2.1)) cs0
    have g2 := getNewCoordinates_past inp.eps (noCutsOf inp kk)
      (inp.globalMinMaxTotal (kk + inp.concurrentPartCount * 2)) inp.imbalanceTolerance
      inp.maxScalar
      (view s.global_totalPartWeights_leftClosest_rightCloset (windowShifts inp kk).2.1)
      (view s.local_totalPartWeights_leftClosest_rightCloset (windowShifts inp kk).2.1)
      (view inp.targetPartWeightRatios (cutShiftOf inp kk + kk))
      (view s.cutCoordinates_tmp (cutShiftOf inp kk))
      inp.allowNonRectelinearPart
      ((inp.lowerRanks it).map (fun other => view other (windowShifts inp kk).2.1)) cs0
    have g3 := getNewCoordinates_isDone_newCut inp.eps (noCutsOf inp kk)
      (inp.globalMinMaxTotal (kk + inp.concurrentPartCount * 2)) inp.imbalanceTolerance
      inp.maxScalar
      (view s.global_totalPartWeights_leftClosest_rightCloset (windowShifts inp kk).2.1)
      (view s.local_totalPartWeights_leftClosest_rightCloset (windowShifts inp kk).2.1)
      (view inp.targetPartWeightRatios (cutShiftOf inp kk + kk))
      (view s.cutCoordinates_tmp (cutShiftOf inp kk))
      inp.allowNonRectelinearPart
      ((inp.lowerRanks it).map (fun other => view other (windowShifts inp kk).2.1)) cs0
    have g4 := getNewCoordinates_isDone_mono inp.eps (noCutsOf inp kk)
      (inp.globalMinMaxTotal (kk + inp.concurrentPartCount * 2)) inp.imbalanceTolerance
      inp.maxScalar
      (view s.global_totalPartWeights_leftClosest_rightCloset (windowShifts inp kk).2.1)
      (view s.local_totalPartWeights_leftClosest_rightCloset (windowShifts inp kk).2.1)
      (view inp.targetPartWeightRatios (cutShiftOf inp kk + kk))
      (view s.cutCoordinates_tmp (cutShiftOf inp kk))
      inp.allowNonRectelinearPart
      ((inp.lowerRanks it).map (fun other => view other (windowShifts inp kk).2.1)) cs0
    rw [hc] at g1 g2 g3 g4
    rw [d1, d3] at g1
    rw [d1] at g4
    have hview : view (unview s.isDone (cutShiftOf inp kk) c.isDone) (cutShiftOf inp kk) =
        c.isDone := by
      funext j
      unfold view unview
      rw [if_pos (by omega)]
      congr 1
      omega
    refine ⟨e1, e2, ?_, ?_, ?_, ?_, ?_, ?_⟩
    · intro k hk
      rw [e3, Function.update_noteq hk]
    · rw [e4, e3, Function.update_same]
    · rw [e3, Function.update_same, e5, hview]
      exact g1.1
    · intro x hx
      rw [e5]
      unfold unview
      by_cases hle : cutShiftOf inp kk ≤ x
      · rw [if_pos hle]
        apply g4
        show s.isDone (cutShiftOf inp kk + (x - cutShiftOf inp kk)) = true
        rw [Nat.add_sub_cancel' hle]
        exact hx
      · rw [if_neg hle]
        exact hx
    · intro x hx
      rw [e5, e6]
      unfold unview
      rcases hx with hx | hx | hx
      · exact absurd hx h0
      · rw [if_neg (by omega), if_neg (by omega)]
        exact ⟨rfl, rfl⟩
      · rw [if_pos (by omega), if_pos (by omega)]
        obtain ⟨p1, p2⟩ := g2 (x - cutShiftOf inp kk) (by omega)
        rw [p1, p2, d1, d2]
        unfold view
        rw [Nat.add_sub_cancel' (by omega)]
        exact ⟨rfl, rfl⟩
    · intro x _ hle hlt hd
      rw [e5] at hd
      rw [e6]
      unfold unview at hd ⊢
      rw [if_pos hle] at hd ⊢
      rw [g3 (x - cutShiftOf inp kk) (by omega) hd]
      unfold view
      rw [Nat.add_sub_cancel' hle]

end SolverControl

section SolverIteration

variable (inp : SolverInput)

/-- The flags of the cuts of part `kk` count the same when they agree on the part. -/
theorem active_congr (f g : Nat → Bool) (kk : Nat)
    (h : ∀ x, cutShiftOf inp kk ≤ x → x < cutShiftOf inp kk + noCutsOf inp kk → f x = g x) :
    activeCuts (view f (cutShiftOf inp kk)) (noCutsOf inp kk) =
      activeCuts (view g (cutShiftOf inp kk)) (noCutsOf inp kk) := by
  apply activeCuts_congr
  intro j hj
  exact h _ (by omega) (by omega)

/-- The second loop over the parts of an iteration, after the first `k` parts: a part with
the count 0 is left alone; for a part with cuts to find, the count goes down by the number
of cuts switched to Done, and every cut that is Done has its coordinate in the work
buffer. -/
theorem solve_fold_spec (it : Nat) (s : SolverState) (k : Nat) :
    ((List.range k).foldl (solvePart inp it) s).swapped = s.swapped ∧
    ((List.range k).foldl (solvePart inp it) s).cutCoordinates_tmp = s.cutCoordinates_tmp ∧
    (∀ x, s.isDone x = true → ((List.range k).foldl (solvePart inp it) s).isDone x = true) ∧
    (∀ x, cutShiftOf inp k ≤ x →
      ((List.range k).foldl (solvePart inp it) s).isDone x = s.isDone x ∧
      ((List.range k).foldl (solvePart inp it) s).workBuffer x = s.workBuffer x) ∧
    (∀ kk, k ≤ kk →
      ((List.range k).foldl (solvePart inp it) s).myNonDoneCounts kk = s.myNonDoneCounts kk) ∧
    (∀ kk, kk < k →
      ((List.range k).foldl (solvePart inp it) s).myNonDoneCounts kk =
        s.myNonDoneCounts kk -
          ((activeCuts (view s.isDone (cutShiftOf inp kk)) (noCutsOf inp kk) : Int) -
            (activeCuts (view ((List.range k).foldl (solvePart inp it) s).isDone
              (cutShiftOf inp kk)) (noCutsOf inp kk) : Int)) ∧
      (s.myNonDoneCounts kk = 0 → ∀ x, cutShiftOf inp kk ≤ x →
        x < cutShiftOf inp kk + noCutsOf inp kk →
        ((List.range k).foldl (solvePart inp it) s).isDone x = s.isDone x ∧
        ((List.range k).foldl (solvePart inp it) s).workBuffer x = s.workBuffer x) ∧
      (s.myNonDoneCounts kk ≠ 0 → ∀ x, cutShiftOf inp kk ≤ x →
        x < cutShiftOf inp kk + noCutsOf inp kk →
        ((List.range k).foldl (solvePart inp it) s).isDone x = true →
        ((List.range k).foldl (solvePart inp it) s).workBuffer x = s.cutCoordinates_tmp x)) ∧
    ((List.range k).foldl (solvePart inp it) s).allDone =
      s.allDone - ((List.range k).map (fun kk =>
        s.myNonDoneCounts kk -
          ((List.range k).foldl (solvePart inp it) s).myNonDoneCounts kk)).sum := by
  induction k with
  | zero =>
    refine ⟨rfl, rfl, fun _ h => h, fun _ _ => ⟨rfl, rfl⟩, fun _ _ => rfl,
      fun kk h => absurd h (Nat.not_lt_zero _), ?_⟩
    simp
  | succ k ih =>
    obtain ⟨i1, i2, i3, i4, i5, i6, i7⟩ := ih
    rw [List.range_succ, List.foldl_append, List.foldl_cons, List.foldl_nil]
    generalize (List.range k).foldl (solvePart inp it) s = t at i1 i2 i3 i4 i5 i6 i7 ⊢
    obtain ⟨p1, p2, p3, p4, p5, p6, p7, p8⟩ := solvePart_spec inp it t k
    have hsucc := cutShiftOf_succ inp k
    have hact : activeCuts (view t.isDone (cutShiftOf inp k)) (noCutsOf inp k) =
        activeCuts (view s.isDone (cutShiftOf inp k)) (noCutsOf inp k) :=
      active_congr inp _ _ k (fun x hx _ => (i4 x hx).1)
    refine ⟨p1.trans i1, p2.trans i2, fun x hx => p6 x (i3 x hx), ?_, ?_, ?_, ?_⟩
    · intro x hx
      obtain ⟨q1, q2⟩ := p7 x (Or.inr (Or.inr (by omega)))
      obtain ⟨r1, r2⟩ := i4 x (by omega)
      exact ⟨q1.trans r1, q2.trans r2⟩
    · intro kk hkk
      rw [p3 kk (by omega)]
      exact i5 kk (by omega)
    · intro kk hkk
      by_cases hk : kk = k
      · subst hk
        refine ⟨?_, ?_, ?_⟩
        · rw [p5, i5 kk (le_refl _), hact]
        · intro h0 x hx1 hx2
          obtain ⟨q1, q2⟩ := p7 x (Or.inl (by rw [i5 kk (le_refl _)]; exact h0))
          obtain ⟨r1, r2⟩ := i4 x hx1
          exact ⟨q1.trans r1, q2.trans r2⟩
        · intro h0 x hx1 hx2 hd
          rw [p8 x (by rw [i5 kk (le_refl _)]; exact h0) hx1 hx2 hd, i2]
      · have hlt : kk < k := by omega
        obtain ⟨j1, j2, j3⟩ := i6 kk hlt
        have hend := cutShiftOf_end_le inp kk k hlt
        have hsame : ∀ x, x < cutShiftOf inp kk + noCutsOf inp kk →
            (solvePart inp it t k).isDone x = t.isDone x ∧
            (solvePart inp it t k).workBuffer x = t.workBuffer x :=
          fun x hx => p7 x (Or.inr (Or.inl (by omega)))
        have hact2 : activeCuts (view (solvePart inp it t k).isDone (cutShiftOf inp kk))
            (noCutsOf inp kk) =
            activeCuts (view t.isDone (cutShiftOf inp kk)) (noCutsOf inp kk) :=
          active_congr inp _ _ kk (fun x _ hx => (hsame x hx).1)
        refine ⟨?_, ?_, ?_⟩
        · rw [p3 kk hk, hact2]
          exact j1
        · intro h0 x hx1 hx2
          obtain ⟨q1, q2⟩ := hsame x hx2
          obtain ⟨r1, r2⟩ := j2 h0 x hx1 hx2
          exact ⟨q1.trans r1, q2.trans r2⟩
        · intro h0 x hx1 hx2 hd
          obtain ⟨q1, q2⟩ := hsame x hx2
          rw [q2]
          exact j3 h0 x hx1 hx2 (by rw [← q1]; exact hd)
    · rw [p4, i7, List.map_append, List.sum_append, i5 k (le_refl _)]
      have hmap : (List.range k).map (fun kk =>
            s.myNonDoneCounts kk - (solvePart inp it t k).myNonDoneCounts kk) =
          (List.range k).map (fun kk => s.myNonDoneCounts kk - t.myNonDoneCounts kk) := by
        apply List.map_congr_left
        intro kk hkk
        rw [p3 kk (by rw [List.mem_range] at hkk; omega)]
      rw [hmap]
      simp only [List.map_cons, List.map_nil, List.sum_cons, List.sum_nil]
      ring

/-- One iteration of the loop of the solver, by the index of a cut in the arrays of the
window: flags only go from false to true; the count of a part goes down by the number of its
cuts switched to Done and `allDone` by the same amounts; a part with the count 0 keeps its
flags; the buffers are exchanged, and a cut that is Done after the iteration has in
`cutCoordinates_tmp` the coordinate it had there before, provided the two buffers agreed
on it if it was Done before. -/
theorem solverIteration_spec (it : Nat) (s : SolverState) :
    (solverIteration inp it s).swapped = (!s.swapped) ∧
    (solverIteration inp it s).workBuffer = s.cutCoordinates_tmp ∧
    (∀ x, s.isDone x = true → (solverIteration inp it s).isDone x = true) ∧
    (∀ kk, kk < inp.concurrentPartCount →
      (solverIteration inp it s).myNonDoneCounts kk =
        s.myNonDoneCounts kk -
          ((activeCuts (view s.isDone (cutShiftOf inp kk)) (noCutsOf inp kk) : Int) -
            (activeCuts (view (solverIteration inp it s).isDone (cutShiftOf inp kk))
              (noCutsOf inp kk) : Int)) ∧
      (s.myNonDoneCounts kk = 0 → ∀ x, cutShiftOf inp kk ≤ x →
        x < cutShiftOf inp kk + noCutsOf inp kk →
        (solverIteration inp it s).isDone x = s.isDone x) ∧
      (∀ x, cutShiftOf inp kk ≤ x → x < cutShiftOf inp kk + noCutsOf inp kk →
        (solverIteration inp it s).isDone x = true →
        (s.isDone x = true → s.cutCoordinates_tmp x = s.workBuffer x) →
        (solverIteration inp it s).cutCoordinates_tmp x = s.cutCoordinates_tmp x)) ∧
    (solverIteration inp it s).allDone =
      s.allDone - ((List.range inp.concurrentPartCount).map (fun kk =>
        s.myNonDoneCounts kk - (solverIteration inp it s).myNonDoneCounts kk)).sum := by
  obtain ⟨c1, c2, c3, c4, c5, c6⟩ := control_tmp _ _ (preSolve_control inp it s)
  obtain ⟨f1, f2, f3, _, _, f6, f7⟩ := solve_fold_spec inp it
    (reduceAllRanks inp it (accumulateThreadResults inp
      ((List.range inp.concurrentPartCount).foldl (classifyPart inp) s)))
    inp.concurrentPartCount
  generalize hs3 : reduceAllRanks inp it (accumulateThreadResults inp
      ((List.range inp.concurrentPartCount).foldl (classifyPart inp) s)) = s3
    at c1 c2 c3 c4 c5 c6 f1 f2 f3 f6 f7
  have hS : solverIteration inp it s =
      { (List.range inp.concurrentPartCount).foldl (solvePart inp it) s3 with
        swapped := !((List.range inp.concurrentPartCount).foldl (solvePart inp it) s3).swapped }
      := by
    rw [← hs3]
    rfl
  generalize (List.range inp.concurrentPartCount).foldl (solvePart inp it) s3 = s4
    at f1 f2 f3 f6 f7 hS
  have htmp : (solverIteration inp it s).cutCoordinates_tmp = s4.workBuffer := by
    rw [hS]
    unfold SolverState.cutCoordinates_tmp SolverState.workBuffer
    cases s4.swapped <;> rfl
  have hwork : (solverIteration inp it s).workBuffer = s4.cutCoordinates_tmp := by
    rw [hS]
    unfold SolverState.cutCoordinates_tmp SolverState.workBuffer
    cases s4.swapped <;> rfl
  have hdone : (solverIteration inp it s).isDone = s4.isDone := by rw [hS]
  have hcnt : (solverIteration inp it s).myNonDoneCounts = s4.myNonDoneCounts := by rw [hS]
  have hall : (solverIteration inp it s).allDone = s4.allDone := by rw [hS]
  have hsw : (solverIteration inp it s).swapped = !s4.swapped := by rw [hS]
  refine ⟨?_, ?_, ?_, ?_, ?_⟩
  · rw [hsw, f1, c6]
  · rw [hwork, f2, c1]
  · intro x hx
    rw [hdone]
    exact f3 x (by rw [c3]; exact hx)
  · intro kk hkk
    obtain ⟨g1, g2, g3⟩ := f6 kk hkk
    refine ⟨?_, ?_, ?_⟩
    · rw [hcnt, hdone, g1, c3, c4]
    · intro h0 x hx1 hx2
      rw [hdone, (g2 (by rw [c4]; exact h0) x hx1 hx2).1, c3]
    · intro x hx1 hx2 hd hagree
      rw [htmp]
      rw [hdone] at hd
      by_cases h0 : s.myNonDoneCounts kk = 0
      · obtain ⟨q1, q2⟩ := g2 (by rw [c4]; exact h0) x hx1 hx2
        rw [q2, c2]
        rw [q1, c3] at hd
        exact (hagree hd).symm
      · rw [g3 (by rw [c4]; exact h0) x hx1 hx2 hd, c1]
  · rw [hall, f7, c5, c4, hcnt]

end SolverIteration

/-! ## Done is final -/

section DoneFinal

variable (eps : ℚ) (noCuts : Nat) (total tol maxScalar : ℚ)
  (gpw lpw ratios cuts : Nat → ℚ) (allow : Bool) (lowerRanks : List (Nat → ℚ))

/-- No weight on a cut that is Done goes into the scan of the tie splitting. -/
theorem scannedCutWeights_done (s : CutState) (i : Nat) (hi : i < noCuts)
    (hd : s.isDone i = true) :
    scannedCutWeights eps noCuts total tol maxScalar gpw lpw ratios cuts allow lowerRanks s i
      = 0 := by
  unfold scannedCutWeights
  rw [if_pos hi,
    (getNewCoordinatesLoop_done eps noCuts total tol maxScalar gpw lpw ratios cuts allow s i hi
      hd).2.2, add_zero]
  apply List.sum_eq_zero
  intro x hx
  rw [List.mem_map] at hx
  obtain ⟨lpw', _, rfl⟩ := hx
  exact (getNewCoordinatesLoop_done eps noCuts total tol maxScalar gpw lpw' ratios cuts allow
    s i hi hd).2.2

/-- A call of `getNewCoordinates` leaves the bracket and the tie ratio of a cut that is Done
on entry. -/
theorem getNewCoordinates_done_keeps (s : CutState) (i : Nat) (hd : s.isDone i = true) :
    (getNewCoordinates eps noCuts total tol maxScalar gpw lpw ratios cuts allow lowerRanks
      s).bracket i = s.bracket i ∧
    (getNewCoordinates eps noCuts total tol maxScalar gpw lpw ratios cuts allow lowerRanks
      s).nonRectelinearPartRatios i = s.nonRectelinearPartRatios i := by
  obtain ⟨_, a2, _, _⟩ := getNewCoordinates_agree_loop eps noCuts total tol maxScalar gpw lpw
    ratios cuts allow lowerRanks s i
  rw [a2, getNewCoordinates_ratio]
  by_cases hi : i < noCuts
  · obtain ⟨h1, h2, _⟩ := getNewCoordinatesLoop_done eps noCuts total tol maxScalar gpw lpw
      ratios cuts allow s i hi hd
    refine ⟨h1, ?_⟩
    split_ifs
    · unfold tieRatioStep
      dsimp only
      rw [scannedCutWeights_done eps noCuts total tol maxScalar gpw lpw ratios cuts allow
        lowerRanks s i hi hd, if_neg (lt_irrefl _)]
      exact h2
    · exact h2
  · rw [if_neg (fun h => hi h.2)]
    have h := processCut_fold_frame eps noCuts total tol gpw lpw ratios cuts allow
      (List.range noCuts) (s.resetClosest noCuts maxScalar) i
      (by rw [List.mem_range]; exact hi)
    exact ⟨h.2.1, h.2.2.2.1⟩

end DoneFinal

/-- C23: a cut that is Done stays Done.  For every call of `getNewCoordinates` and every cut
`i` with `isDone[i]` true on entry, `isDone[i]` is true on exit,
`newCutCoordinates[i] = cutCoordinates[i]`, and the bounds, the bound weights and the tie
ratio of the cut are unchanged; and an iteration of the loop of `pqJagged_1D_Partition`
leaves every flag `isDone[x]` that is true. -/
theorem isDone_is_final (eps : ℚ) (noCuts : Nat) (total tol maxScalar : ℚ)
    (gpw lpw ratios cuts : Nat → ℚ) (allow : Bool) (lowerRanks : List (Nat → ℚ))
    (s : CutState) (i : Nat) (hi : i < noCuts) (hd : s.isDone i = true) :
    ((getNewCoordinates eps noCuts total tol maxScalar gpw lpw ratios cuts allow lowerRanks
      s).isDone i = true ∧
    (getNewCoordinates eps noCuts total tol maxScalar gpw lpw ratios cuts allow lowerRanks
      s).newCutCoordinates i = cuts i ∧
    (getNewCoordinates eps noCuts total tol maxScalar gpw lpw ratios cuts allow lowerRanks
      s).bracket i = s.bracket i ∧
    (getNewCoordinates eps noCuts total tol maxScalar gpw lpw ratios cuts allow lowerRanks
      s).nonRectelinearPartRatios i = s.nonRectelinearPartRatios i) ∧
    ∀ (inp : SolverInput) (it : Nat) (st : SolverState) (x : Nat),
      st.isDone x = true → (solverIteration inp it st).isDone x = true := by
  have h1 := getNewCoordinates_isDone_mono eps noCuts total tol maxScalar gpw lpw ratios cuts
    allow lowerRanks s i hd
  obtain ⟨h3, h4⟩ := getNewCoordinates_done_keeps eps noCuts total tol maxScalar gpw lpw ratios
    cuts allow lowerRanks s i hd
  exact ⟨⟨h1, getNewCoordinates_isDone_newCut eps noCuts total tol maxScalar gpw lpw ratios cuts
    allow lowerRanks s i hi h1, h3, h4⟩,
    fun inp it st x hx => (solverIteration_spec inp it st).2.2.1 x hx⟩

/-- C23 for `doneCutState`, whose cut is Done with five of the seven unit weights on its
left. -/
theorem isDone_is_final_witness :
    ((getNewCoordinates epsDouble 1 7 0 maxDouble (arrQ [5, 5, 7]) (arrQ [5, 5, 7])
      (arrQ [1 / 2, 1]) (arrQ [5]) true [] doneCutState).isDone 0 = true ∧
    (getNewCoordinates epsDouble 1 7 0 maxDouble (arrQ [5, 5, 7]) (arrQ [5, 5, 7])
      (arrQ [1 / 2, 1]) (arrQ [5]) true [] doneCutState).newCutCoordinates 0 = arrQ [5] 0 ∧
    (getNewCoordinates epsDouble 1 7 0 maxDouble (arrQ [5, 5, 7]) (arrQ [5, 5, 7])
      (arrQ [1 / 2, 1]) (arrQ [5]) true [] doneCutState).bracket 0 = doneCutState.bracket 0 ∧
    (getNewCoordinates epsDouble 1 7 0 maxDouble (arrQ [5, 5, 7]) (arrQ [5, 5, 7])
      (arrQ [1 / 2, 1]) (arrQ [5]) true [] doneCutState).nonRectelinearPartRatios 0 =
      doneCutState.nonRectelinearPartRatios 0) ∧
    ∀ (inp : SolverInput) (it : Nat) (st : SolverState) (x : Nat),
      st.isDone x = true → (solverIteration inp it st).isDone x = true :=
  isDone_is_final epsDouble 1 7 0 maxDouble (arrQ [5, 5, 7]) (arrQ [5, 5, 7])
    (arrQ [1 / 2, 1]) (arrQ [5]) true [] doneCutState 0 (by decide) rfl

/-! ## The counts of cuts still to find -/

section Counts

variable (inp : SolverInput)

/-- The loop of lines 2176-2199 for part `i` sets the flags of the cuts of the part to
false and leaves the other flags. -/
theorem initBoundsPart_isDone (t : SolverState) (i x : Nat) :
    (initBoundsPart inp t i).isDone x =
      if cutShiftOf inp i ≤ x ∧ x < cutShiftOf inp i + noCutsOf inp i then false
      else t.isDone x := by
  have key : ∀ (l : List Nat) (u : SolverState),
      (l.foldl
        (fun (t : SolverState) n =>
          ({ t with
            isDone := Function.update t.isDone n false
            cutLowerBounds := Function.update t.cutLowerBounds n (inp.globalMinMaxTotal i)
            cutUpperBounds := Function.update t.cutUpperBounds n
              (inp.globalMinMaxTotal (i + inp.concurrentPartCount))
            cutUpperWeight := Function.update t.cutUpperWeight n
              (inp.globalMinMaxTotal (i + 2 * inp.concurrentPartCount))
            cutLowerWeight := Function.update t.cutLowerWeight n 0
            nonRectelinearPartRatios :=
              if inp.allowNonRectelinearPart then
                Function.update t.nonRectelinearPartRatios n 0
              else t.nonRectelinearPartRatios } : SolverState)) u).isDone x =
        if x ∈ l then false else u.isDone x := by
    intro l
    induction l with
    | nil => intro u; simp
    | cons a l ih =>
      intro u
      rw [List.foldl_cons, ih]
      show (if x ∈ l then false else Function.update u.isDone a false x) = _
      by_cases hl : x ∈ l
      · rw [if_pos hl, if_pos (List.mem_cons_of_mem _ hl)]
      · rw [if_neg hl]
        by_cases ha : x = a
        · subst ha
          rw [if_pos (List.mem_cons_self _ _)]
          exact Function.update_same _ _ _
        · have hn : x ∉ a :: l := by
            intro h
            rcases List.mem_cons.1 h with h | h
            · exact ha h
            · exact hl h
          rw [if_neg hn]
          exact Function.update_noteq ha _ _
  unfold initBoundsPart
  dsimp only
  rw [key]
  by_cases h : cutShiftOf inp i ≤ x ∧ x < cutShiftOf inp i + noCutsOf inp i
  · rw [if_pos h, if_pos]
    rw [List.mem_range'_1]
    exact h
  · rw [if_neg h, if_neg]
    rw [List.mem_range'_1]
    exact h

/-- On entry to the loop of the solver every cut of the window is Active. -/
theorem solverInit_isDone_false (s : SolverState) (kk x : Nat)
    (hkk : kk < inp.concurrentPartCount) (hx1 : cutShiftOf inp kk ≤ x)
    (hx2 : x < cutShiftOf inp kk + noCutsOf inp kk) :
    (solverInit inp s).isDone x = false := by
  have key : ∀ (k : Nat) (u : SolverState), kk < k →
      ((List.range k).foldl (initBoundsPart inp) u).isDone x = false := by
    intro k
    induction k with
    | zero => intro u h; omega
    | succ k ih =>
      intro u h
      rw [List.range_succ, List.foldl_append, List.foldl_cons, List.foldl_nil,
        initBoundsPart_isDone]
      by_cases hk : kk = k
      · subst hk
        rw [if_pos ⟨hx1, hx2⟩]
      · rw [ih u (by omega)]
        split_ifs <;> rfl
  unfold solverInit
  exact key _ _ hkk

theorem solverInit_swapped (s : SolverState) : (solverInit inp s).swapped = false := by
  have h1 : ∀ (t : SolverState) (i : Nat), (initBoundsPart inp t i).swapped = t.swapped := by
    intro t i
    unfold initBoundsPart
    dsimp only
    apply foldl_keep _ (fun u : SolverState => u.swapped)
    intro u ii
    rfl
  unfold solverInit
  rw [foldl_keep (initBoundsPart inp) (fun u : SolverState => u.swapped) h1]

/-- The loop of the solver returns the state after some number of iterations, the first one
at which `allDone` is 0. -/
theorem solverLoop_stateAt (s : SolverState) (fuel it : Nat) (r : SolverState)
    (hrun : solverLoop inp fuel it (solverStateAt inp s it) = some r) :
    ∃ n, it ≤ n ∧ n ≤ it + fuel ∧ r = solverStateAt inp s n ∧
      (solverStateAt inp s n).allDone = 0 ∧
      ∀ m, it ≤ m → m < n → (solverStateAt inp s m).allDone ≠ 0 := by
  induction fuel generalizing it with
  | zero =>
    unfold solverLoop at hrun
    by_cases h0 : (solverStateAt inp s it).allDone ≠ 0
    · rw [if_pos h0] at hrun
      exact absurd hrun (by simp)
    · rw [if_neg h0] at hrun
      injection hrun with hrun
      exact ⟨it, le_refl _, le_refl _, hrun.symm, by simpa using h0, fun m h1 h2 => by omega⟩
  | succ fuel ih =>
    unfold solverLoop at hrun
    by_cases h0 : (solverStateAt inp s it).allDone ≠ 0
    · rw [if_pos h0] at hrun
      obtain ⟨n, h1, h2, h3, h4, h5⟩ := ih (it + 1) hrun
      refine ⟨n, by omega, by omega, h3, h4, fun m hm1 hm2 => ?_⟩
      by_cases hm : m = it
      · subst hm
        exact h0
      · exact h5 m (by omega) hm2
    · rw [if_neg h0] at hrun
      injection hrun with hrun
      exact ⟨it, le_refl _, by omega, hrun.symm, by simpa using h0, fun m h1 h2 => by omega⟩

theorem sum_map_sub (l : List Nat) (f g : Nat → Int) :
    (l.map (fun k => f k - g k)).sum = (l.map f).sum - (l.map g).sum := by
  induction l with
  | nil => simp
  | cons a l ih =>
    simp only [List.map_cons, List.sum_cons, ih]
    ring

/-- A sum of counts is 0 exactly when every count is 0. -/
theorem sum_counts_eq_zero (f : Nat → Int) (n : Nat) (h : ∀ k, k < n → 0 ≤ f k) :
    ((List.range n).map f).sum = 0 ↔ ∀ k, k < n → f k = 0 := by
  induction n with
  | zero => exact ⟨fun _ k hk => absurd hk (Nat.not_lt_zero _), fun _ => rfl⟩
  | succ n ih =>
    have hnn : 0 ≤ ((List.range n).map f).sum := by
      apply List.sum_nonneg
      intro x hx
      rw [List.mem_map] at hx
      obtain ⟨k, hk, rfl⟩ := hx
      exact h k (by rw [List.mem_range] at hk; omega)
    rw [List.range_succ, List.map_append, List.sum_append]
    simp only [List.map_cons, List.map_nil, List.sum_cons, List.sum_nil, add_zero]
    have hn := h n (by omega)
    constructor
    · intro hs k hk
      by_cases hkn : k = n
      · subst hkn
        omega
      · exact (ih (fun k hk => h k (by omega))).1 (by omega) k (by omega)
    · intro hz
      rw [(ih (fun k hk => h k (by omega))).2 (fun k hk => hz k (by omega)), hz n (by omega)]
      rfl

/-- The counts follow the flags: when the caller gives every part of the window the count
of its cuts or 0 and `allDone` their sum, then after any number of iterations the count of
a part that is solved is the number of its cuts that are Active, the count of the other
parts is 0, and `allDone` is the sum of the counts. -/
theorem counts_invariant (s : SolverState)
    (hcount : ∀ kk, kk < inp.concurrentPartCount →
      s.myNonDoneCounts kk = (noCutsOf inp kk : Int) ∨ s.myNonDoneCounts kk = 0)
    (hall : s.allDone = ((List.range inp.concurrentPartCount).map s.myNonDoneCounts).sum)
    (n : Nat) :
    (∀ kk, kk < inp.concurrentPartCount → s.myNonDoneCounts kk ≠ 0 →
      (solverStateAt inp s n).myNonDoneCounts kk =
        (activeCuts (view (solverStateAt inp s n).isDone (cutShiftOf inp kk))
          (noCutsOf inp kk) : Int)) ∧
    (∀ kk, kk < inp.concurrentPartCount → s.myNonDoneCounts kk = 0 →
      (solverStateAt inp s n).myNonDoneCounts kk = 0) ∧
    (solverStateAt inp s n).allDone =
      ((List.range inp.concurrentPartCount).map (solverStateAt inp s n).myNonDoneCounts).sum
    := by
  induction n with
  | zero =>
    obtain ⟨_, k2, k3⟩ := solverInit_keep inp s
    show (∀ kk, kk < inp.concurrentPartCount → s.myNonDoneCounts kk ≠ 0 →
      (solverInit inp s).myNonDoneCounts kk =
        (activeCuts (view (solverInit inp s).isDone (cutShiftOf inp kk))
          (noCutsOf inp kk) : Int)) ∧
      (∀ kk, kk < inp.concurrentPartCount → s.myNonDoneCounts kk = 0 →
        (solverInit inp s).myNonDoneCounts kk = 0) ∧
      (solverInit inp s).allDone =
        ((List.range inp.concurrentPartCount).map (solverInit inp s).myNonDoneCounts).sum
    rw [k2, k3]
    refine ⟨fun kk hkk h0 => ?_, fun kk _ h0 => h0, hall⟩
    rw [activeCuts_all (view (solverInit inp s).isDone (cutShiftOf inp kk)) (noCutsOf inp kk)
      (fun j hj =>
        solverInit_isDone_false inp s kk (cutShiftOf inp kk + j) hkk (by omega) (by omega))]
    rcases hcount kk hkk with h | h
    · exact h
    · exact absurd h h0
  | succ n ih =>
    obtain ⟨i1, i2, i3⟩ := ih
    obtain ⟨_, _, _, j4, j5⟩ := solverIteration_spec inp (n + 1) (solverStateAt inp s n)
    show (∀ kk, kk < inp.concurrentPartCount → s.myNonDoneCounts kk ≠ 0 →
      (solverIteration inp (n + 1) (solverStateAt inp s n)).myNonDoneCounts kk =
        (activeCuts (view (solverIteration inp (n + 1) (solverStateAt inp s n)).isDone
          (cutShiftOf inp kk)) (noCutsOf inp kk) : Int)) ∧
      (∀ kk, kk < inp.concurrentPartCount → s.myNonDoneCounts kk = 0 →
        (solverIteration inp (n + 1) (solverStateAt inp s n)).myNonDoneCounts kk = 0) ∧
      (solverIteration inp (n + 1) (solverStateAt inp s n)).allDone =
        ((List.range inp.concurrentPartCount).map
          (solverIteration inp (n + 1) (solverStateAt inp s n)).myNonDoneCounts).sum
    refine ⟨fun kk hkk h0 => ?_, fun kk hkk h0 => ?_, ?_⟩
    · rw [(j4 kk hkk).1, i1 kk hkk h0]
      ring
    · obtain ⟨q1, q2, _⟩ := j4 kk hkk
      have hz := i2 kk hkk h0
      rw [q1, hz, active_congr inp _ _ kk (fun x hx1 hx2 => q2 hz x hx1 hx2)]
      ring
    · rw [j5, sum_map_sub, i3]
      ring

/-- With the counts of the caller, `allDone` is 0 after `n` iterations exactly when every
cut of every solved part is Done. -/
theorem allDone_eq_zero_iff (s : SolverState)
    (hcount : ∀ kk, kk < inp.concurrentPartCount →
      s.myNonDoneCounts kk = (noCutsOf inp kk : Int) ∨ s.myNonDoneCounts kk = 0)
    (hall : s.allDone = ((List.range inp.concurrentPartCount).map s.myNonDoneCounts).sum)
    (n : Nat) :
    ((solverStateAt inp s n).allDone = 0 ↔
      ∀ kk, kk < inp.concurrentPartCount → s.myNonDoneCounts kk ≠ 0 →
        ∀ j, j < noCutsOf inp kk →
          (solverStateAt inp s n).isDone (cutShiftOf inp kk + j) = true) := by
  obtain ⟨h1, h2, h3⟩ := counts_invariant inp s hcount hall n
  have hnn : ∀ k, k < inp.concurrentPartCount →
      0 ≤ (solverStateAt inp s n).myNonDoneCounts k := by
    intro k hk
    by_cases h0 : s.myNonDoneCounts k = 0
    · rw [h2 k hk h0]
    · rw [h1 k hk h0]
      exact Int.natCast_nonneg _
  rw [h3, sum_counts_eq_zero _ _ hnn]
  constructor
  · intro hz kk hkk h0 j hj
    have := hz kk hkk
    rw [h1 kk hkk h0] at this
    exact (activeCuts_eq_zero _ _).1 (by exact_mod_cast this) j hj
  · intro hd kk hkk
    by_cases h0 : s.myNonDoneCounts kk = 0
    · exact h2 kk hkk h0
    · rw [h1 kk hkk h0,
        (activeCuts_eq_zero (view (solverStateAt inp s n).isDone (cutShiftOf inp kk))
          (noCutsOf inp kk)).2 (fun j hj => hd kk hkk h0 j hj)]
      rfl

end Counts

/-- C24: when the caller gives every part of the window the count of its cuts (a part to
be solved) or 0 (a skipped part) in `myNonDoneCounts` and their sum in `allDone`, then after
every iteration of the loop of `pqJagged_1D_Partition` the count of a solved part is the
number of its cuts whose flag `isDone` is false, the count of a skipped part is 0 and
`allDone` is the sum of the counts; so `allDone` is 0 exactly when every cut of every solved
part is Done, and when the call returns this holds after the last iteration and did not
hold after any iteration before it. -/
theorem allDone_counts_active_cuts (inp : SolverInput) (s : SolverState)
    (hcount : ∀ kk, kk < inp.concurrentPartCount →
      s.myNonDoneCounts kk = (noCutsOf inp kk : Int) ∨ s.myNonDoneCounts kk = 0)
    (hall : s.allDone = ((List.range inp.concurrentPartCount).map s.myNonDoneCounts).sum) :
    (∀ n,
      (∀ kk, kk < inp.concurrentPartCount → s.myNonDoneCounts kk ≠ 0 →
        (solverStateAt inp s n).myNonDoneCounts kk =
          (activeCuts (view (solverStateAt inp s n).isDone (cutShiftOf inp kk))
            (noCutsOf inp kk) : Int)) ∧
      (∀ kk, kk < inp.concurrentPartCount → s.myNonDoneCounts kk = 0 →
        (solverStateAt inp s n).myNonDoneCounts kk = 0) ∧
      (solverStateAt inp s n).allDone =
        ((List.range inp.concurrentPartCount).map
          (solverStateAt inp s n).myNonDoneCounts).sum ∧
      ((solverStateAt inp s n).allDone = 0 ↔
        ∀ kk, kk < inp.concurrentPartCount → s.myNonDoneCounts kk ≠ 0 →
          ∀ j, j < noCutsOf inp kk →
            (solverStateAt inp s n).isDone (cutShiftOf inp kk + j) = true)) ∧
    ∀ fuel r, pqJagged_1D_Partition inp fuel s = some r →
      ∃ n, n ≤ fuel ∧ r = copyBack inp (solverStateAt inp s n) ∧
        (∀ kk, kk < inp.concurrentPartCount → s.myNonDoneCounts kk ≠ 0 →
          ∀ j, j < noCutsOf inp kk → r.isDone (cutShiftOf inp kk + j) = true) ∧
        ∀ m, m < n → (solverStateAt inp s m).allDone ≠ 0 := by
  have hiff := allDone_eq_zero_iff inp s hcount hall
  refine ⟨fun n => ?_, fun fuel r hrun => ?_⟩
  · obtain ⟨h1, h2, h3⟩ := counts_invariant inp s hcount hall n
    exact ⟨h1, h2, h3, hiff n⟩
  · unfold pqJagged_1D_Partition at hrun
    cases hl : solverLoop inp fuel 0 (solverInit inp s) with
    | none => rw [hl] at hrun; simp at hrun
    | some t =>
      rw [hl] at hrun
      simp only [Option.map_some', Option.some.injEq] at hrun
      obtain ⟨n, _, hn2, hn3, hn4, hn5⟩ := solverLoop_stateAt inp s fuel 0 t hl
      refine ⟨n, by omega, by rw [← hrun, hn3], ?_, fun m hm => hn5 m (Nat.zero_le _) hm⟩
      intro kk hkk h0 j hj
      have hd : r.isDone = (solverStateAt inp s n).isDone := by
        rw [← hrun, hn3]
        unfold copyBack
        split_ifs <;> rfl
      rw [hd]
      exact (hiff n).1 hn4 kk hkk h0 j hj

/-- C24 for the window of `emptyParentLevel`: the part of four points has one cut to find,
the empty part none, and `allDone` is 1 on entry. -/
theorem allDone_counts_active_cuts_witness :
    (∀ n,
      (∀ kk, kk < emptyParentInput.concurrentPartCount →
        emptyParentEntry.myNonDoneCounts kk ≠ 0 →
        (solverStateAt emptyParentInput emptyParentEntry n).myNonDoneCounts kk =
          (activeCuts (view (solverStateAt emptyParentInput emptyParentEntry n).isDone
            (cutShiftOf emptyParentInput kk)) (noCutsOf emptyParentInput kk) : Int)) ∧
      (∀ kk, kk < emptyParentInput.concurrentPartCount →
        emptyParentEntry.myNonDoneCounts kk = 0 →
        (solverStateAt emptyParentInput emptyParentEntry n).myNonDoneCounts kk = 0) ∧
      (solverStateAt emptyParentInput emptyParentEntry n).allDone =
        ((List.range emptyParentInput.concurrentPartCount).map
          (solverStateAt emptyParentInput emptyParentEntry n).myNonDoneCounts).sum ∧
      ((solverStateAt emptyParentInput emptyParentEntry n).allDone = 0 ↔
        ∀ kk, kk < emptyParentInput.concurrentPartCount →
          emptyParentEntry.myNonDoneCounts kk ≠ 0 →
          ∀ j, j < noCutsOf emptyParentInput kk →
            (solverStateAt emptyParentInput emptyParentEntry n).isDone
              (cutShiftOf emptyParentInput kk + j) = true)) ∧
    ∀ fuel r, pqJagged_1D_Partition emptyParentInput fuel emptyParentEntry = some r →
      ∃ n, n ≤ fuel ∧ r = copyBack emptyParentInput
          (solverStateAt emptyParentInput emptyParentEntry n) ∧
        (∀ kk, kk < emptyParentInput.concurrentPartCount →
          emptyParentEntry.myNonDoneCounts kk ≠ 0 →
          ∀ j, j < noCutsOf emptyParentInput kk →
            r.isDone (cutShiftOf emptyParentInput kk + j) = true) ∧
        ∀ m, m < n → (solverStateAt emptyParentInput emptyParentEntry m).allDone ≠ 0 :=
  allDone_counts_active_cuts emptyParentInput emptyParentEntry (by decide!) (by decide!)

/-! ## The two buffers of cut coordinates -/

section DoubleBuffer

variable (inp : SolverInput)

/-- At every iteration boundary the two buffers hold the same coordinate for every cut of
the window that is Done. -/
theorem buffers_agree (s : SolverState) (n kk x : Nat) (hkk : kk < inp.concurrentPartCount)
    (hx1 : cutShiftOf inp kk ≤ x) (hx2 : x < cutShiftOf inp kk + noCutsOf inp kk)
    (hd : (solverStateAt inp s n).isDone x = true) :
    (solverStateAt inp s n).cutCoordinates_tmp x = (solverStateAt inp s n).workBuffer x := by
  induction n with
  | zero =>
    have h := solverInit_isDone_false inp s kk x hkk hx1 hx2
    have hd0 : (solverInit inp s).isDone x = true := hd
    rw [h] at hd0
    exact absurd hd0 (by simp)
  | succ n ih =>
    obtain ⟨_, j2, _, j4, _⟩ := solverIteration_spec inp (n + 1) (solverStateAt inp s n)
    have hd1 : (solverIteration inp (n + 1) (solverStateAt inp s n)).isDone x = true := hd
    have h3 := (j4 kk hkk).2.2 x hx1 hx2 hd1 ih
    show (solverIteration inp (n + 1) (solverStateAt inp s n)).cutCoordinates_tmp x =
      (solverIteration inp (n + 1) (solverStateAt inp s n)).workBuffer x
    rw [h3, j2]

/-- A cut that is Done after an iteration has the coordinate it had before the iteration. -/
theorem done_coordinate_step (s : SolverState) (n kk x : Nat)
    (hkk : kk < inp.concurrentPartCount)
    (hx1 : cutShiftOf inp kk ≤ x) (hx2 : x < cutShiftOf inp kk + noCutsOf inp kk)
    (hd : (solverStateAt inp s (n + 1)).isDone x = true) :
    (solverStateAt inp s (n + 1)).cutCoordinates_tmp x =
      (solverStateAt inp s n).cutCoordinates_tmp x := by
  obtain ⟨_, _, _, j4, _⟩ := solverIteration_spec inp (n + 1) (solverStateAt inp s n)
  exact (j4 kk hkk).2.2 x hx1 hx2 hd (buffers_agree inp s n kk x hkk hx1 hx2)

/-- A cut that is Done stays Done and keeps its coordinate in both buffers. -/
theorem done_coordinate_later (s : SolverState) (n kk x : Nat)
    (hkk : kk < inp.concurrentPartCount)
    (hx1 : cutShiftOf inp kk ≤ x) (hx2 : x < cutShiftOf inp kk + noCutsOf inp kk)
    (hd : (solverStateAt inp s n).isDone x = true) (m : Nat) (hm : n ≤ m) :
    (solverStateAt inp s m).isDone x = true ∧
    (solverStateAt inp s m).cutCoordinates_tmp x =
      (solverStateAt inp s n).cutCoordinates_tmp x ∧
    (solverStateAt inp s m).workBuffer x = (solverStateAt inp s n).cutCoordinates_tmp x := by
  induction m with
  | zero =>
    have h0 : n = 0 := by omega
    subst h0
    exact ⟨hd, rfl, (buffers_agree inp s 0 kk x hkk hx1 hx2 hd).symm⟩
  | succ m ih =>
    by_cases hnm : n = m + 1
    · subst hnm
      exact ⟨hd, rfl, (buffers_agree inp s (m + 1) kk x hkk hx1 hx2 hd).symm⟩
    · obtain ⟨i1, i2, _⟩ := ih (by omega)
      obtain ⟨_, _, j3, _, _⟩ := solverIteration_spec inp (m + 1) (solverStateAt inp s m)
      have hd1 : (solverStateAt inp s (m + 1)).isDone x = true := j3 x i1
      have h2 := done_coordinate_step inp s m kk x hkk hx1 hx2 hd1
      refine ⟨hd1, h2.trans i2, ?_⟩
      rw [← buffers_agree inp s (m + 1) kk x hkk hx1 hx2 hd1, h2, i2]

/-- After the copy at the end of the solver the caller's array holds the buffer
`cutCoordinates_tmp` for the cuts of the window. -/
theorem copyBack_cutCoordinates (t : SolverState) (x : Nat) (hx : x < windowCuts inp) :
    (copyBack inp t).cutCoordinates x = t.cutCoordinates_tmp x := by
  unfold copyBack SolverState.cutCoordinates_tmp
  by_cases h : t.swapped = true
  · rw [if_pos h, if_pos h]
    show (if x < windowCuts inp then t.cutCoordinatesWork x else t.cutCoordinates x) = _
    rw [if_pos hx]
  · rw [if_neg h, if_neg h]

/-- A flag that is false at first and true after `n` steps turns true in some step. -/
theorem first_true (f : Nat → Bool) (n : Nat) (h0 : f 0 = false) (hn : f n = true) :
    ∃ m, m < n ∧ f m = false ∧ f (m + 1) = true := by
  induction n with
  | zero => rw [h0] at hn; exact absurd hn (by simp)
  | succ n ih =>
    by_cases h : f n = true
    · obtain ⟨m, hm, h1, h2⟩ := ih h
      exact ⟨m, by omega, h1, h2⟩
    · exact ⟨n, by omega, by simpa using h, hn⟩

/-- When the solver returns, it returns the state after the first iteration at which
`allDone` is 0, after the copy to the caller's array. -/
theorem partition_returns (s : SolverState) (fuel : Nat) (r : SolverState)
    (hrun : pqJagged_1D_Partition inp fuel s = some r) :
    ∃ n, n ≤ fuel ∧ r = copyBack inp (solverStateAt inp s n) ∧
      (solverStateAt inp s n).allDone = 0 := by
  unfold pqJagged_1D_Partition at hrun
  cases hl : solverLoop inp fuel 0 (solverInit inp s) with
  | none => rw [hl] at hrun; simp at hrun
  | some t =>
    rw [hl] at hrun
    simp only [Option.map_some', Option.some.injEq] at hrun
    obtain ⟨n, _, hn2, hn3, hn4, _⟩ := solverLoop_stateAt inp s fuel 0 t hl
    exact ⟨n, by omega, by rw [← hrun, hn3], hn4⟩

end DoubleBuffer

/-- C25: the two buffers of cut coordinates stay consistent.  After every iteration of the
loop of `pqJagged_1D_Partition`, for every cut of the window that is Done the buffer
`cutCoordinates_tmp` and the work buffer hold the same coordinate, and the cut is Done with
this coordinate in both buffers after every later iteration.  When the caller gives every
part its cut count or 0 in `myNonDoneCounts` and the sum in `allDone`, and the call returns
after `n` iterations, every cut of every solved part was marked Done in some iteration
`m + 1 <= n`, and the caller's array `cutCoordinates` holds the coordinate the cut had in
that iteration. -/
theorem cutCoordinates_double_buffer (inp : SolverInput) (s : SolverState) :
    (∀ n kk x, kk < inp.concurrentPartCount →
      cutShiftOf inp kk ≤ x → x < cutShiftOf inp kk + noCutsOf inp kk →
      (solverStateAt inp s n).isDone x = true →
      (solverStateAt inp s n).cutCoordinates_tmp x = (solverStateAt inp s n).workBuffer x ∧
      ∀ m, n ≤ m →
        (solverStateAt inp s m).isDone x = true ∧
        (solverStateAt inp s m).cutCoordinates_tmp x =
          (solverStateAt inp s n).cutCoordinates_tmp x ∧
        (solverStateAt inp s m).workBuffer x =
          (solverStateAt inp s n).cutCoordinates_tmp x) ∧
    ((∀ kk, kk < inp.concurrentPartCount →
        s.myNonDoneCounts kk = (noCutsOf inp kk : Int) ∨ s.myNonDoneCounts kk = 0) →
      s.allDone = ((List.range inp.concurrentPartCount).map s.myNonDoneCounts).sum →
      ∀ fuel r, pqJagged_1D_Partition inp fuel s = some r →
        ∃ n, n ≤ fuel ∧ r = copyBack inp (solverStateAt inp s n) ∧
          ∀ kk, kk < inp.concurrentPartCount → s.myNonDoneCounts kk ≠ 0 →
            ∀ j, j < noCutsOf inp kk →
              ∃ m, m < n ∧
                (solverStateAt inp s m).isDone (cutShiftOf inp kk + j) = false ∧
                (solverStateAt inp s (m + 1)).isDone (cutShiftOf inp kk + j) = true ∧
                r.cutCoordinates (cutShiftOf inp kk + j) =
                  (solverStateAt inp s m).cutCoordinates_tmp (cutShiftOf inp kk + j)) := by
  refine ⟨fun n kk x hkk hx1 hx2 hd =>
    ⟨buffers_agree inp s n kk x hkk hx1 hx2 hd,
      fun m hm => done_coordinate_later inp s n kk x hkk hx1 hx2 hd m hm⟩,
    fun hcount hall fuel r hrun => ?_⟩
  obtain ⟨n, hn1, hn2, hn3⟩ := partition_returns inp s fuel r hrun
  refine ⟨n, hn1, hn2, fun kk hkk h0 j hj => ?_⟩
  have hx1 : cutShiftOf inp kk ≤ cutShiftOf inp kk + j := by omega
  have hx2 : cutShiftOf inp kk + j < cutShiftOf inp kk + noCutsOf inp kk := by omega
  have hdn := (allDone_eq_zero_iff inp s hcount hall n).1 hn3 kk hkk h0 j hj
  have hd0 : (solverStateAt inp s 0).isDone (cutShiftOf inp kk + j) = false :=
    solverInit_isDone_false inp s kk _ hkk hx1 hx2
  obtain ⟨m, hm, f1, f2⟩ := first_true
    (fun t => (solverStateAt inp s t).isDone (cutShiftOf inp kk + j)) n hd0 hdn
  refine ⟨m, hm, f1, f2, ?_⟩
  have hw : cutShiftOf inp kk + j < windowCuts inp := by
    have := cutShiftOf_end_le inp kk inp.concurrentPartCount hkk
    have e : windowCuts inp = cutShiftOf inp inp.concurrentPartCount := rfl
    omega
  rw [hn2, copyBack_cutCoordinates inp _ _ hw]
  obtain ⟨_, l2, _⟩ := done_coordinate_later inp s (m + 1) kk _ hkk hx1 hx2 f2 n (by omega)
  rw [l2]
  exact done_coordinate_step inp s m kk _ hkk hx1 hx2 f2

/-- C25 for the window of `emptyParentLevel` with a budget of 8 iterations: the call returns
and the caller's array holds the coordinate the one cut had when it was marked Done. -/
theorem cutCoordinates_double_buffer_witness :
    ∃ r, pqJagged_1D_Partition emptyParentInput 8 emptyParentEntry = some r ∧
      ∃ n, n ≤ 8 ∧ r = copyBack emptyParentInput
          (solverStateAt emptyParentInput emptyParentEntry n) ∧
        ∀ kk, kk < emptyParentInput.concurrentPartCount →
          emptyParentEntry.myNonDoneCounts kk ≠ 0 →
          ∀ j, j < noCutsOf emptyParentInput kk →
            ∃ m, m < n ∧
              (solverStateAt emptyParentInput emptyParentEntry m).isDone
                (cutShiftOf emptyParentInput kk + j) = false ∧
              (solverStateAt emptyParentInput emptyParentEntry (m + 1)).isDone
                (cutShiftOf emptyParentInput kk + j) = true ∧
              r.cutCoordinates (cutShiftOf emptyParentInput kk + j) =
                (solverStateAt emptyParentInput emptyParentEntry m).cutCoordinates_tmp
                  (cutShiftOf emptyParentInput kk + j) := by
  obtain ⟨r, hr⟩ := Option.isSome_iff_exists.1
    (by decide! : (pqJagged_1D_Partition emptyParentInput 8 emptyParentEntry).isSome = true)
  exact ⟨r, hr, (cutCoordinates_double_buffer emptyParentInput emptyParentEntry).2
    (by decide!) (by decide!) 8 r hr⟩

/-! ## The bound weights bracket the target -/

section BracketWeights

variable (eps : ℚ) (noCuts : Nat) (total tol maxScalar : ℚ)
  (gpw lpw ratios cuts : Nat → ℚ) (allow : Bool) (lowerRanks : List (Nat → ℚ))

/-- For a positive target weight the left imbalance is negative exactly when the achieved
weight is below the target. -/
theorem imbalanceOf_neg_iff (w r : ℚ) (hpos : 0 < total * r) :
    imbalanceOf w total r < 0 ↔ w < total * r := by
  unfold imbalanceOf
  constructor
  · intro h
    have : w / (total * r) < 1 := by linarith
    exact (div_lt_one hpos).1 this
  · intro h
    have : w / (total * r) < 1 := (div_lt_one hpos).2 h
    linarith

/-- The scan to the right keeps the bound weights around the target. -/
theorem scanRight_weights (ew : ℚ) (lcd rcd : Nat → ℚ) (l : List Nat) (br : Bracket)
    (h1 : br.lowerWeight ≤ ew) (h2 : ew ≤ br.upperWeight) :
    (scanRight ew gpw cuts lcd rcd l br).lowerWeight ≤ ew ∧
    ew ≤ (scanRight ew gpw cuts lcd rcd l br).upperWeight := by
  induction l generalizing br with
  | nil => exact ⟨h1, h2⟩
  | cons ii rest ih =>
    rw [scanRight]
    by_cases c1 : gpw (ii * 2) ≥ ew
    · rw [if_pos c1]
      by_cases c2 : gpw (ii * 2) = ew
      · rw [if_pos c2]
        exact ⟨le_of_eq c2, le_of_eq c2.symm⟩
      · rw [if_neg c2]
        by_cases c3 : gpw (ii * 2) < br.upperWeight
        · rw [if_pos c3]
          exact ⟨h1, c1⟩
        · rw [if_neg c3]
          exact ⟨h1, h2⟩
    · rw [if_neg c1]
      by_cases c4 : gpw (ii * 2 + 1) ≥ ew
      · rw [if_pos c4]
        exact ⟨le_of_lt (not_le.1 c1), c4⟩
      · rw [if_neg c4]
        apply ih
        · split_ifs with c5
          · exact c5.1
          · exact h1
        · split_ifs
          · exact h2
          · exact h2

/-- The scan to the left keeps the bound weights around the target. -/
theorem scanLeft_weights (ew : ℚ) (lcd rcd : Nat → ℚ) (l : List Nat) (br : Bracket)
    (h1 : br.lowerWeight ≤ ew) (h2 : ew ≤ br.upperWeight) :
    (scanLeft ew gpw cuts lcd rcd l br).lowerWeight ≤ ew ∧
    ew ≤ (scanLeft ew gpw cuts lcd rcd l br).upperWeight := by
  induction l generalizing br with
  | nil => exact ⟨h1, h2⟩
  | cons ii rest ih =>
    rw [scanLeft]
    by_cases c1 : gpw (ii * 2) ≤ ew
    · rw [if_pos c1]
      by_cases c2 : gpw (ii * 2) = ew
      · rw [if_pos c2]
        exact ⟨le_of_eq c2, le_of_eq c2.symm⟩
      · rw [if_neg c2]
        by_cases c3 : gpw (ii * 2) > br.lowerWeight
        · rw [if_pos c3]
          by_cases c4 : gpw (ii * 2 + 1) > ew
          · rw [if_pos c4]
            exact ⟨c1, le_of_lt c4⟩
          · rw [if_neg c4]
            exact ⟨c1, h2⟩
        · rw [if_neg c3]
          exact ⟨h1, h2⟩
    · rw [if_neg c1]
      apply ih
      · split_ifs
        · exact h1
        · exact h1
      · split_ifs with c5
        · exact c5.1
        · exact h2

/-- The loop body for cut `i` keeps the bound weights of the cut around a positive
target. -/
theorem processCut_weights (s : CutState) (i : Nat) (hpos : 0 < total * toFloat (ratios i))
    (h1 : s.cutLowerWeight i ≤ total * toFloat (ratios i))
    (h2 : total * toFloat (ratios i) ≤ s.cutUpperWeight i) :
    ((processCut eps noCuts total tol gpw lpw ratios cuts allow s i).bracket i).lowerWeight ≤
      total * toFloat (ratios i) ∧
    total * toFloat (ratios i) ≤
      ((processCut eps noCuts total tol gpw lpw ratios cuts allow s i).bracket i).upperWeight
    := by
  unfold processCut
  dsimp only
  by_cases hd : s.isDone i = true
  · rw [if_pos hd]
    exact ⟨h1, h2⟩
  · rw [if_neg hd]
    by_cases hw : withinTolerance eps total tol gpw ratios i = true
    · rw [if_pos hw]
      exact ⟨h1, h2⟩
    · rw [if_neg hw]
      by_cases hl : imbalanceOf (gpw (i * 2)) total (toFloat (ratios i)) < 0
      · rw [if_pos hl]
        have hlt := (imbalanceOf_neg_iff total (gpw (i * 2)) (toFloat (ratios i)) hpos).1 hl
        by_cases t1 : allow = true ∧ gpw (i * 2 + 1) = total * toFloat (ratios i)
        · rw [if_pos t1]
          exact ⟨h1, h2⟩
        · rw [if_neg t1]
          by_cases t2 : allow = true ∧ gpw (i * 2 + 1) > total * toFloat (ratios i)
          · rw [if_pos t2]
            exact ⟨h1, h2⟩
          · rw [if_neg t2, moveTo_bracket]
            exact scanRight_weights gpw cuts _ _ _ _ _ (le_of_lt hlt) h2
      · rw [if_neg hl, moveTo_bracket]
        have hge : total * toFloat (ratios i) ≤ gpw (i * 2) := by
          by_contra hc
          exact hl ((imbalanceOf_neg_iff total (gpw (i * 2)) (toFloat (ratios i)) hpos).2 (not_le.1 hc))
        exact scanLeft_weights gpw cuts _ _ _ _ _ h1 hge

/-- A call of `getNewCoordinates` keeps the bound weights of every cut of the part around
a positive target. -/
theorem getNewCoordinates_weights (s : CutState) (i : Nat) (hi : i < noCuts)
    (hpos : 0 < total * toFloat (ratios i))
    (h1 : s.cutLowerWeight i ≤ total * toFloat (ratios i))
    (h2 : total * toFloat (ratios i) ≤ s.cutUpperWeight i) :
    (getNewCoordinates eps noCuts total tol maxScalar gpw lpw ratios cuts allow lowerRanks
      s).cutLowerWeight i ≤ total * toFloat (ratios i) ∧
    total * toFloat (ratios i) ≤
      (getNewCoordinates eps noCuts total tol maxScalar gpw lpw ratios cuts allow lowerRanks
        s).cutUpperWeight i := by
  obtain ⟨_, a2, _⟩ := getNewCoordinates_agree_loop eps noCuts total tol maxScalar gpw lpw
    ratios cuts allow lowerRanks s i
  obtain ⟨_, b2, _⟩ := getNewCoordinatesLoop_at eps noCuts total tol maxScalar gpw lpw
    ratios cuts allow s i hi
  have h := processCut_weights eps noCuts total tol gpw lpw ratios cuts allow
    (s.resetClosest noCuts maxScalar) i hpos h1 h2
  rw [← b2, ← a2] at h
  exact h

/-- A call of `getNewCoordinates` leaves the brackets past its cuts. -/
theorem getNewCoordinates_bracket_past (s : CutState) (j : Nat) (hj : noCuts ≤ j) :
    (getNewCoordinates eps noCuts total tol maxScalar gpw lpw ratios cuts allow lowerRanks
        s).bracket j = s.bracket j := by
  obtain ⟨_, a2, _⟩ := getNewCoordinates_agree_loop eps noCuts total tol maxScalar gpw lpw
    ratios cuts allow lowerRanks s j
  rw [a2]
  have h := processCut_fold_frame eps noCuts total tol gpw lpw ratios cuts allow
    (List.range noCuts) (s.resetClosest noCuts maxScalar) j
    (by rw [List.mem_range]; omega)
  exact h.2.1

end BracketWeights

section SolverWeights

variable (inp : SolverInput)

/-- The classifier, `accumulateThreadResults` and the reduction leave the bound weights. -/
theorem preSolve_boundWeights (it : Nat) (s : SolverState) :
    (reduceAllRanks inp it (accumulateThreadResults inp
      ((List.range inp.concurrentPartCount).foldl (classifyPart inp) s))).boundWeights =
      s.boundWeights := by
  have h1 : ∀ (t : SolverState) (kk : Nat),
      (classifyPart inp t kk).boundWeights = t.boundWeights := by
    intro t kk
    unfold classifyPart
    dsimp only
    split_ifs <;> rfl
  have h2 := foldl_keep (classifyPart inp) SolverState.boundWeights h1
    (List.range inp.concurrentPartCount) s
  have h3 := congrArg SolverState.boundWeights (accumulateThreadResults_frame inp
    ((List.range inp.concurrentPartCount).foldl (classifyPart inp) s))
  have h4 : (accumulateThreadResults inp
      ((List.range inp.concurrentPartCount).foldl (classifyPart inp) s)).boundWeights =
      ((List.range inp.concurrentPartCount).foldl (classifyPart inp) s).boundWeights := h3
  exact (show (reduceAllRanks inp it _).boundWeights = _ from rfl).trans (h4.trans h2)

/-- The call of `getNewCoordinates` for part `kk` keeps the bound weights of the cut with
index `x` in the arrays of the window around `e`, when `e` is the positive target weight of
the cut in case the cut belongs to the part. -/
theorem solvePart_weights (it : Nat) (s : SolverState) (kk x : Nat) (e : ℚ)
    (ht : cutShiftOf inp kk ≤ x → x < cutShiftOf inp kk + noCutsOf inp kk →
      e = targetWeightOf inp kk (x - cutShiftOf inp kk) ∧ 0 < e)
    (h1 : s.cutLowerWeight x ≤ e) (h2 : e ≤ s.cutUpperWeight x) :
    (solvePart inp it s kk).cutLowerWeight x ≤ e ∧
    e ≤ (solvePart inp it s kk).cutUpperWeight x := by
  by_cases h0 : s.myNonDoneCounts kk = 0
  · have e0 : solvePart inp it s kk = s := by
      unfold solvePart
      dsimp only
      rw [if_pos h0]
    rw [e0]
    exact ⟨h1, h2⟩
  · generalize hc : getNewCoordinates inp.eps (noCutsOf inp kk)
      (inp.globalMinMaxTotal (kk + inp.concurrentPartCount * 2)) inp.imbalanceTolerance
      inp.maxScalar
      (view s.global_totalPartWeights_leftClosest_rightCloset (windowShifts inp kk).2.1)
      (view s.local_totalPartWeights_leftClosest_rightCloset (windowShifts inp kk).2.1)
      (view inp.targetPartWeightRatios (cutShiftOf inp kk + kk))
      (view s.cutCoordinates_tmp (cutShiftOf inp kk))
      inp.allowNonRectelinearPart
      ((inp.lowerRanks it).map (fun other => view other (windowShifts inp kk).2.1))
      { isDone := view s.isDone (cutShiftOf inp kk)
        cutUpperBounds := view s.cutUpperBounds (cutShiftOf inp kk)
        cutLowerBounds := view s.cutLowerBounds (cutShiftOf inp kk)
        cutUpperWeight := view s.cutUpperWeight (cutShiftOf inp kk)
        cutLowerWeight := view s.cutLowerWeight (cutShiftOf inp kk)
        newCutCoordinates := view s.workBuffer (cutShiftOf inp kk)
        leftClosestDistance :=
          view (view s.global_totalPartWeights_leftClosest_rightCloset
            (windowShifts inp kk).2.1)
            (inp.pVector (inp.currentPartBeginIndex + kk) + noCutsOf inp kk)
        rightClosestDistance :=
          view (view s.global_totalPartWeights_leftClosest_rightCloset
            (windowShifts inp kk).2.1)
            (inp.pVector (inp.currentPartBeginIndex + kk) + noCutsOf inp kk +
              noCutsOf inp kk)
        nonRectelinearPartRatios := view s.nonRectelinearPartRatios (cutShiftOf inp kk)
        rectilinearCutCount := s.recteLinearCutCount
        localCutWeights := s.localCutWeights
        globalCutWeights := s.globalCutWeights
        myNoneDoneCount := s.myNonDoneCounts kk } = c
    have e : (solvePart inp it s kk).cutLowerWeight =
          unview s.cutLowerWeight (cutShiftOf inp kk) c.cutLowerWeight ∧
        (solvePart inp it s kk).cutUpperWeight =
          unview s.cutUpperWeight (cutShiftOf inp kk) c.cutUpperWeight := by
      rw [← hc]
      unfold solvePart SolverState.workBuffer
      dsimp only
      rw [if_neg h0]
      exact ⟨rfl, rfl⟩
    obtain ⟨e1, e2⟩ := e
    obtain ⟨cs0, hcs0⟩ : ∃ cs0 : CutState, cs0 =
      { isDone := view s.isDone (cutShiftOf inp kk)
        cutUpperBounds := view s.cutUpperBounds (cutShiftOf inp kk)
        cutLowerBounds := view s.cutLowerBounds (cutShiftOf inp kk)
        cutUpperWeight := view s.cutUpperWeight (cutShiftOf inp kk)
        cutLowerWeight := view s.cutLowerWeight (cutShiftOf inp kk)
        newCutCoordinates := view s.workBuffer (cutShiftOf inp kk)
        leftClosestDistance :=
          view (view s.global_totalPartWeights_leftClosest_rightCloset
            (windowShifts inp kk).2.1)
            (inp.pVector (inp.currentPartBeginIndex + kk) + noCutsOf inp kk)
        rightClosestDistance :=
          view (view s.global_totalPartWeights_leftClosest_rightCloset
            (windowShifts inp kk).2.1)
            (inp.pVector (inp.currentPartBeginIndex + kk) + noCutsOf inp kk +
              noCutsOf inp kk)
        nonRectelinearPartRatios := view s.nonRectelinearPartRatios (cutShiftOf inp kk)
        rectilinearCutCount := s.recteLinearCutCount
        localCutWeights := s.localCutWeights
        globalCutWeights := s.globalCutWeights
        myNoneDoneCount := s.myNonDoneCounts kk } := ⟨_, rfl⟩
    rw [← hcs0] at hc
    have d1 : cs0.cutLowerWeight = view s.cutLowerWeight (cutShiftOf inp kk) := by rw [hcs0]
    have d2 : cs0.cutUpperWeight = view s.cutUpperWeight (cutShiftOf inp kk) := by rw [hcs0]
    rw [e1, e2]
    unfold unview
    by_cases hx : cutShiftOf inp kk ≤ x
    · rw [if_pos hx, if_pos hx]
      have hv1 : cs0.cutLowerWeight (x - cutShiftOf inp kk) = s.cutLowerWeight x := by
        rw [d1]
        show s.cutLowerWeight (cutShiftOf inp kk + (x - cutShiftOf inp kk)) = _
        rw [Nat.add_sub_of_le hx]
      have hv2 : cs0.cutUpperWeight (x - cutShiftOf inp kk) = s.cutUpperWeight x := by
        rw [d2]
        show s.cutUpperWeight (cutShiftOf inp kk + (x - cutShiftOf inp kk)) = _
        rw [Nat.add_sub_of_le hx]
      by_cases hx2 : x < cutShiftOf inp kk + noCutsOf inp kk
      · obtain ⟨he, hpos⟩ := ht hx hx2
        have g := getNewCoordinates_weights inp.eps (noCutsOf inp kk)
          (inp.globalMinMaxTotal (kk + inp.concurrentPartCount * 2)) inp.imbalanceTolerance
          inp.maxScalar
          (view s.global_totalPartWeights_leftClosest_rightCloset (windowShifts inp kk).2.1)
          (view s.local_totalPartWeights_leftClosest_rightCloset (windowShifts inp kk).2.1)
          (view inp.targetPartWeightRatios (cutShiftOf inp kk + kk))
          (view s.cutCoordinates_tmp (cutShiftOf inp kk))
          inp.allowNonRectelinearPart
          ((inp.lowerRanks it).map (fun other => view other (windowShifts inp kk).2.1)) cs0
          (x - cutShiftOf inp kk) (by omega)
          (by
            have : 0 < targetWeightOf inp kk (x - cutShiftOf inp kk) := he ▸ hpos
            exact this)
          (by
            rw [hv1]
            have : s.cutLowerWeight x ≤ targetWeightOf inp kk (x - cutShiftOf inp kk) :=
              he ▸ h1
            exact this)
          (by
            rw [hv2]
            have : targetWeightOf inp kk (x - cutShiftOf inp kk) ≤ s.cutUpperWeight x :=
              he ▸ h2
            exact this)
        rw [hc] at g
        have g1 : c.cutLowerWeight (x - cutShiftOf inp kk) ≤
            targetWeightOf inp kk (x - cutShiftOf inp kk) := g.1
        have g2 : targetWeightOf inp kk (x - cutShiftOf inp kk) ≤
            c.cutUpperWeight (x - cutShiftOf inp kk) := g.2
        rw [he]
        exact ⟨g1, g2⟩
      · have g := getNewCoordinates_bracket_past inp.eps (noCutsOf inp kk)
          (inp.globalMinMaxTotal (kk + inp.concurrentPartCount * 2)) inp.imbalanceTolerance
          inp.maxScalar
          (view s.global_totalPartWeights_leftClosest_rightCloset (windowShifts inp kk).2.1)
          (view s.local_totalPartWeights_leftClosest_rightCloset (windowShifts inp kk).2.1)
          (view inp.targetPartWeightRatios (cutShiftOf inp kk + kk))
          (view s.cutCoordinates_tmp (cutShiftOf inp kk))
          inp.allowNonRectelinearPart
          ((inp.lowerRanks it).map (fun other => view other (windowShifts inp kk).2.1)) cs0
          (x - cutShiftOf inp kk) (by omega)
        rw [hc] at g
        have g1 : c.cutLowerWeight (x - cutShiftOf inp kk) =
            cs0.cutLowerWeight (x - cutShiftOf inp kk) := congrArg Bracket.lowerWeight g
        have g2 : c.cutUpperWeight (x - cutShiftOf inp kk) =
            cs0.cutUpperWeight (x - cutShiftOf inp kk) := congrArg Bracket.upperWeight g
        rw [g1, g2, hv1, hv2]
        exact ⟨h1, h2⟩
    · rw [if_neg hx, if_neg hx]
      exact ⟨h1, h2⟩

/-- The calls of `getNewCoordinates` for the first `k` parts of the window keep the bound
weights of cut `j` of part `kk` around its positive target weight. -/
theorem solve_fold_weights (it : Nat) (s : SolverState) (k kk j : Nat)
    (hj : j < noCutsOf inp kk) (hpos : 0 < targetWeightOf inp kk j)
    (h1 : s.cutLowerWeight (cutShiftOf inp kk + j) ≤ targetWeightOf inp kk j)
    (h2 : targetWeightOf inp kk j ≤ s.cutUpperWeight (cutShiftOf inp kk + j)) :
    ((List.range k).foldl (solvePart inp it) s).cutLowerWeight (cutShiftOf inp kk + j) ≤
      targetWeightOf inp kk j ∧
    targetWeightOf inp kk j ≤
      ((List.range k).foldl (solvePart inp it) s).cutUpperWeight (cutShiftOf inp kk + j) := by
  induction k with
  | zero => exact ⟨h1, h2⟩
  | succ k ih =>
    rw [List.range_succ, List.foldl_append, List.foldl_cons, List.foldl_nil]
    refine solvePart_weights inp it _ k _ _ (fun hx1 hx2 => ?_) ih.1 ih.2
    have hk : k = kk := by
      by_contra hne
      rcases Nat.lt_or_gt_of_ne hne with h | h
      · have := cutShiftOf_end_le inp k kk h
        omega
      · have := cutShiftOf_end_le inp kk k h
        omega
    subst hk
    rw [Nat.add_sub_cancel_left]
    exact ⟨rfl, hpos⟩

/-- An iteration of the loop of the solver keeps the bound weights of every cut of the
window around its positive target weight. -/
theorem solverIteration_weights (it : Nat) (s : SolverState) (kk j : Nat)
    (hj : j < noCutsOf inp kk) (hpos : 0 < targetWeightOf inp kk j)
    (h1 : s.cutLowerWeight (cutShiftOf inp kk + j) ≤ targetWeightOf inp kk j)
    (h2 : targetWeightOf inp kk j ≤ s.cutUpperWeight (cutShiftOf inp kk + j)) :
    (solverIteration inp it s).cutLowerWeight (cutShiftOf inp kk + j) ≤
      targetWeightOf inp kk j ∧
    targetWeightOf inp kk j ≤
      (solverIteration inp it s).cutUpperWeight (cutShiftOf inp kk + j) := by
  have hp := preSolve_boundWeights inp it s
  unfold SolverState.boundWeights at hp
  simp only [Prod.mk.injEq] at hp
  obtain ⟨p1, p2⟩ := hp
  have h := solve_fold_weights inp it
    (reduceAllRanks inp it (accumulateThreadResults inp
      ((List.range inp.concurrentPartCount).foldl (classifyPart inp) s)))
    inp.concurrentPartCount kk j hj hpos (by rw [p1]; exact h1) (by rw [p2]; exact h2)
  exact h

/-- The loop of lines 2176-2199 for part `i` sets the bound weights of the cuts of the part
to 0 and to the total weight of the part and leaves the other bound weights. -/
theorem initBoundsPart_weights (t : SolverState) (i x : Nat) :
    (initBoundsPart inp t i).cutLowerWeight x =
      (if cutShiftOf inp i ≤ x ∧ x < cutShiftOf inp i + noCutsOf inp i then 0
      else t.cutLowerWeight x) ∧
    (initBoundsPart inp t i).cutUpperWeight x =
      (if cutShiftOf inp i ≤ x ∧ x < cutShiftOf inp i + noCutsOf inp i then
        inp.globalMinMaxTotal (i + 2 * inp.concurrentPartCount)
      else t.cutUpperWeight x) := by
  have key : ∀ (l : List Nat) (u : SolverState),
      (l.foldl
        (fun (t : SolverState) n =>
          ({ t with
            isDone := Function.update t.isDone n false
            cutLowerBounds := Function.update t.cutLowerBounds n (inp.globalMinMaxTotal i)
            cutUpperBounds := Function.update t.cutUpperBounds n
              (inp.globalMinMaxTotal (i + inp.concurrentPartCount))
            cutUpperWeight := Function.update t.cutUpperWeight n
              (inp.globalMinMaxTotal (i + 2 * inp.concurrentPartCount))
            cutLowerWeight := Function.update t.cutLowerWeight n 0
            nonRectelinearPartRatios :=
              if inp.allowNonRectelinearPart then
                Function.update t.nonRectelinearPartRatios n 0
              else t.nonRectelinearPartRatios } : SolverState)) u).cutLowerWeight x =
        (if x ∈ l then 0 else u.cutLowerWeight x) ∧
      (l.foldl
        (fun (t : SolverState) n =>
          ({ t with
            isDone := Function.update t.isDone n false
            cutLowerBounds := Function.update t.cutLowerBounds n (inp.globalMinMaxTotal i)
            cutUpperBounds := Function.update t.cutUpperBounds n
              (inp.globalMinMaxTotal (i + inp.concurrentPartCount))
            cutUpperWeight := Function.update t.cutUpperWeight n
              (inp.globalMinMaxTotal (i + 2 * inp.concurrentPartCount))
            cutLowerWeight := Function.update t.cutLowerWeight n 0
            nonRectelinearPartRatios :=
              if inp.allowNonRectelinearPart then
                Function.update t.nonRectelinearPartRatios n 0
              else t.nonRectelinearPartRatios } : SolverState)) u).cutUpperWeight x =
        (if x ∈ l then inp.globalMinMaxTotal (i + 2 * inp.concurrentPartCount)
        else u.cutUpperWeight x) := by
    intro l
    induction l with
    | nil => intro u; simp
    | cons a l ih =>
      intro u
      rw [List.foldl_cons, (ih _).1, (ih _).2]
      show (if x ∈ l then 0 else Function.update u.cutLowerWeight a 0 x) = _ ∧
        (if x ∈ l then inp.globalMinMaxTotal (i + 2 * inp.concurrentPartCount)
          else Function.update u.cutUpperWeight a
            (inp.globalMinMaxTotal (i + 2 * inp.concurrentPartCount)) x) = _
      by_cases hl : x ∈ l
      · rw [if_pos hl, if_pos hl, if_pos (List.mem_cons_of_mem _ hl),
          if_pos (List.mem_cons_of_mem _ hl)]
        exact ⟨rfl, rfl⟩
      · rw [if_neg hl, if_neg hl]
        by_cases ha : x = a
        · subst ha
          rw [if_pos (List.mem_cons_self _ _), if_pos (List.mem_cons_self _ _)]
          exact ⟨Function.update_same _ _ _, Function.update_same _ _ _⟩
        · have hn : x ∉ a :: l := by
            intro h
            rcases List.mem_cons.1 h with h | h
            · exact ha h
            · exact hl h
          rw [if_neg hn, if_neg hn]
          exact ⟨Function.update_noteq ha _ _, Function.update_noteq ha _ _⟩
  unfold initBoundsPart
  dsimp only
  rw [(key _ _).1, (key _ _).2]
  by_cases h : cutShiftOf inp i ≤ x ∧ x < cutShiftOf inp i + noCutsOf inp i
  · have hm : x ∈ List.range' (windowShifts inp i).1
        (inp.pVector (inp.currentPartBeginIndex + i) - 1) := by
      rw [List.mem_range'_1]
      exact h
    rw [if_pos h, if_pos h, if_pos hm, if_pos hm]
    exact ⟨rfl, rfl⟩
  · have hm : x ∉ List.range' (windowShifts inp i).1
        (inp.pVector (inp.currentPartBeginIndex + i) - 1) := by
      rw [List.mem_range'_1]
      exact h
    rw [if_neg h, if_neg h, if_neg hm, if_neg hm]
    exact ⟨rfl, rfl⟩

/-- On entry to the loop of the solver the bound weights of every cut of part `kk` are 0
and the total weight of the part. -/
theorem solverInit_weights (s : SolverState) (kk x : Nat)
    (hkk : kk < inp.concurrentPartCount) (hx1 : cutShiftOf inp kk ≤ x)
    (hx2 : x < cutShiftOf inp kk + noCutsOf inp kk) :
    (solverInit inp s).cutLowerWeight x = 0 ∧
    (solverInit inp s).cutUpperWeight x =
      inp.globalMinMaxTotal (kk + 2 * inp.concurrentPartCount) := by
  have key : ∀ (k : Nat) (u : SolverState), kk < k →
      ((List.range k).foldl (initBoundsPart inp) u).cutLowerWeight x = 0 ∧
      ((List.range k).foldl (initBoundsPart inp) u).cutUpperWeight x =
        inp.globalMinMaxTotal (kk + 2 * inp.concurrentPartCount) := by
    intro k
    induction k with
    | zero => intro u h; omega
    | succ k ih =>
      intro u h
      rw [List.range_succ, List.foldl_append, List.foldl_cons, List.foldl_nil,
        (initBoundsPart_weights inp _ k x).1, (initBoundsPart_weights inp _ k x).2]
      by_cases hk : kk = k
      · subst hk
        rw [if_pos ⟨hx1, hx2⟩, if_pos ⟨hx1, hx2⟩]
        exact ⟨rfl, rfl⟩
      · have hlt : kk < k := by omega
        have hno : ¬ (cutShiftOf inp k ≤ x ∧ x < cutShiftOf inp k + noCutsOf inp k) := by
          intro hin
          have := cutShiftOf_end_le inp kk k hlt
          omega
        rw [if_neg hno, if_neg hno]
        exact ih u hlt
  unfold solverInit
  exact key _ _ hkk

/-- After every iteration of the loop of the solver the bound weights of every cut of the
window are around the target weight of the cut, for a positive total weight of the part and
a target ratio that is at most 1 and positive as a `float`. -/
theorem stateAt_weights (s : SolverState) (n kk j : Nat)
    (hkk : kk < inp.concurrentPartCount) (hj : j < noCutsOf inp kk)
    (htotal : 0 < inp.globalMinMaxTotal (kk + inp.concurrentPartCount * 2))
    (hr0 : 0 < toFloat (view inp.targetPartWeightRatios (cutShiftOf inp kk + kk) j))
    (hr1 : view inp.targetPartWeightRatios (cutShiftOf inp kk + kk) j ≤ 1) :
    (solverStateAt inp s n).cutLowerWeight (cutShiftOf inp kk + j) ≤
      targetWeightOf inp kk j ∧
    targetWeightOf inp kk j ≤
      (solverStateAt inp s n).cutUpperWeight (cutShiftOf inp kk + j) := by
  have hpos : 0 < targetWeightOf inp kk j := mul_pos htotal hr0
  induction n with
  | zero =>
    obtain ⟨w1, w2⟩ := solverInit_weights inp s kk (cutShiftOf inp kk + j) hkk
      (by omega) (by omega)
    show (solverInit inp s).cutLowerWeight (cutShiftOf inp kk + j) ≤ _ ∧
      _ ≤ (solverInit inp s).cutUpperWeight (cutShiftOf inp kk + j)
    rw [w1, w2, Nat.mul_comm 2 inp.concurrentPartCount]
    refine ⟨le_of_lt hpos, ?_⟩
    unfold targetWeightOf
    have := mul_le_mul_of_nonneg_left (toFloat_le_one _ hr1) (le_of_lt htotal)
    linarith
  | succ n ih =>
    exact solverIteration_weights inp (n + 1) (solverStateAt inp s n) kk j hj hpos ih.1 ih.2

end SolverWeights

/-- C26, counterexample: for a part of total weight 3 with one cut of target ratio 1/3 and
the initial bound weights 0 and 3, a call of `getNewCoordinates` with the weight
`1 + 10^-8` left of the cut leaves the cut Active with `cutLowerWeight = 1 + 10^-8`, above
`targetRatio * globalTotalWeight = 1`: the code compares the weight with the total times
the `float` nearest to 1/3, which is `1 + 2^-25`. -/
theorem getNewCoordinates_weight_above_target :
    (initialCutState 0 2 3).cutLowerWeight 0 = 0 ∧
    (initialCutState 0 2 3).cutUpperWeight 0 = 3 ∧
    (0 : ℚ) < arrQ [1 / 3, 1] 0 ∧ arrQ [1 / 3, 1] 0 ≤ 1 ∧
    (getNewCoordinates epsDouble 1 3 0 maxDouble
      (arrQ [1 + 1 / 100000000, 1 + 1 / 100000000, 3])
      (arrQ [1 + 1 / 100000000, 1 + 1 / 100000000, 3])
      (arrQ [1 / 3, 1]) (arrQ [1]) false [] (initialCutState 0 2 3)).isDone 0 = false ∧
    (getNewCoordinates epsDouble 1 3 0 maxDouble
      (arrQ [1 + 1 / 100000000, 1 + 1 / 100000000, 3])
      (arrQ [1 + 1 / 100000000, 1 + 1 / 100000000, 3])
      (arrQ [1 / 3, 1]) (arrQ [1]) false [] (initialCutState 0 2 3)).cutLowerWeight 0 =
      1 + 1 / 100000000 ∧
    ¬ ((getNewCoordinates epsDouble 1 3 0 maxDouble
      (arrQ [1 + 1 / 100000000, 1 + 1 / 100000000, 3])
      (arrQ [1 + 1 / 100000000, 1 + 1 / 100000000, 3])
      (arrQ [1 / 3, 1]) (arrQ [1]) false [] (initialCutState 0 2 3)).cutLowerWeight 0 ≤
      arrQ [1 / 3, 1] 0 * 3) ∧
    (3 : ℚ) * toFloat (arrQ [1 / 3, 1] 0) = 1 + 1 / 33554432 := by
  refine ⟨?_, ?_, ?_, ?_, ?_, ?_, ?_, ?_⟩ <;> decide!

/-- C26, amended: the bound weights bracket the target weight the code computes,
`e * globalTotalWeight` with `e` the target ratio of the cut converted to `float`.  In
`pqJagged_1D_Partition`, for a part with a positive total weight and a cut with a target
ratio of at most 1 and `0 < e`, the bound weights of the cut (0 and the total weight on
entry to the loop) satisfy `cutLowerWeight <= e * globalTotalWeight <= cutUpperWeight` on
entry to the loop and after every iteration; and every call of `getNewCoordinates` with a
positive total weight and `0 < e` keeps this for every cut of the part, whatever the
histogram, the cut coordinates and the closest distances are. -/
theorem bound_weights_bracket_target (inp : SolverInput) (s : SolverState) (n kk j : Nat)
    (hkk : kk < inp.concurrentPartCount) (hj : j < noCutsOf inp kk)
    (htotal : 0 < inp.globalMinMaxTotal (kk + inp.concurrentPartCount * 2))
    (hr0 : 0 < toFloat (view inp.targetPartWeightRatios (cutShiftOf inp kk + kk) j))
    (hr1 : view inp.targetPartWeightRatios (cutShiftOf inp kk + kk) j ≤ 1) :
    ((solverStateAt inp s n).cutLowerWeight (cutShiftOf inp kk + j) ≤
        inp.globalMinMaxTotal (kk + inp.concurrentPartCount * 2) *
          toFloat (view inp.targetPartWeightRatios (cutShiftOf inp kk + kk) j) ∧
      inp.globalMinMaxTotal (kk + inp.concurrentPartCount * 2) *
          toFloat (view inp.targetPartWeightRatios (cutShiftOf inp kk + kk) j) ≤
        (solverStateAt inp s n).cutUpperWeight (cutShiftOf inp kk + j)) ∧
    ∀ (eps : ℚ) (noCuts : Nat) (total tol maxScalar : ℚ) (gpw lpw ratios cuts : Nat → ℚ)
      (allow : Bool) (lowerRanks : List (Nat → ℚ)) (c : CutState) (i : Nat),
      i < noCuts → 0 < total → 0 < toFloat (ratios i) →
      c.cutLowerWeight i ≤ total * toFloat (ratios i) →
      total * toFloat (ratios i) ≤ c.cutUpperWeight i →
      (getNewCoordinates eps noCuts total tol maxScalar gpw lpw ratios cuts allow lowerRanks
        c).cutLowerWeight i ≤ total * toFloat (ratios i) ∧
      total * toFloat (ratios i) ≤
        (getNewCoordinates eps noCuts total tol maxScalar gpw lpw ratios cuts allow
          lowerRanks c).cutUpperWeight i :=
  ⟨stateAt_weights inp s n kk j hkk hj htotal hr0 hr1,
    fun eps noCuts total tol maxScalar gpw lpw ratios cuts allow lowerRanks c i hi ht hr h1
        h2 =>
      getNewCoordinates_weights eps noCuts total tol maxScalar gpw lpw ratios cuts allow
        lowerRanks c i hi (mul_pos ht hr) h1 h2⟩

/-- C26, amended, for the one cut of the part of four points in the window of
`emptyParentLevel`, after the first iteration, and for the call of `getNewCoordinates` with
the total weight 3, the target ratio 1/3 and the weight `1 + 10^-8` left of the cut. -/
theorem bound_weights_bracket_target_witness :
    ((solverStateAt emptyParentInput emptyParentEntry 1).cutLowerWeight
        (cutShiftOf emptyParentInput 0 + 0) ≤
      emptyParentInput.globalMinMaxTotal (0 + emptyParentInput.concurrentPartCount * 2) *
        toFloat
          (view emptyParentInput.targetPartWeightRatios (cutShiftOf emptyParentInput 0 + 0)
            0) ∧
    emptyParentInput.globalMinMaxTotal (0 + emptyParentInput.concurrentPartCount * 2) *
        toFloat
          (view emptyParentInput.targetPartWeightRatios (cutShiftOf emptyParentInput 0 + 0)
            0) ≤
      (solverStateAt emptyParentInput emptyParentEntry 1).cutUpperWeight
        (cutShiftOf emptyParentInput 0 + 0)) ∧
    ((getNewCoordinates epsDouble 1 3 0 maxDouble
        (arrQ [1 + 1 / 100000000, 1 + 1 / 100000000, 3])
        (arrQ [1 + 1 / 100000000, 1 + 1 / 100000000, 3])
        (arrQ [1 / 3, 1]) (arrQ [1]) false [] (initialCutState 0 2 3)).cutLowerWeight 0 ≤
      3 * toFloat (arrQ [1 / 3, 1] 0) ∧
    3 * toFloat (arrQ [1 / 3, 1] 0) ≤
      (getNewCoordinates epsDouble 1 3 0 maxDouble
        (arrQ [1 + 1 / 100000000, 1 + 1 / 100000000, 3])
        (arrQ [1 + 1 / 100000000, 1 + 1 / 100000000, 3])
        (arrQ [1 / 3, 1]) (arrQ [1]) false [] (initialCutState 0 2 3)).cutUpperWeight 0) :=
  ⟨(bound_weights_bracket_target emptyParentInput emptyParentEntry 1 0 0 (by decide!)
    (by decide!) (by decide!) (by decide!) (by decide!)).1,
   (bound_weights_bracket_target emptyParentInput emptyParentEntry 1 0 0 (by decide!)
    (by decide!) (by decide!) (by decide!) (by decide!)).2 epsDouble 1 3 0 maxDouble
      (arrQ [1 + 1 / 100000000, 1 + 1 / 100000000, 3])
      (arrQ [1 + 1 / 100000000, 1 + 1 / 100000000, 3])
      (arrQ [1 / 3, 1]) (arrQ [1]) false [] (initialCutState 0 2 3) 0 (by decide)
      (by decide!) (by decide!) (by decide!) (by decide!)⟩

/-! ## A cut with too little weight on its left does not move left -/

section NeverLeft

variable (eps : ℚ) (noCuts : Nat) (total tol maxScalar : ℚ)
  (gpw lpw ratios cuts : Nat → ℚ) (allow : Bool) (lowerRanks : List (Nat → ℚ))

/-- The pivot is not left of the lower bound when the bounds have not crossed and the
bound weights are around the expected weight. -/
theorem pivotPos_ge_lower (br : Bracket) (ew : ℚ) (hb : br.lowerBound ≤ br.upperBound)
    (hl : br.lowerWeight ≤ ew) (hu : ew ≤ br.upperWeight) :
    br.lowerBound ≤ pivotPos br ew := by
  unfold pivotPos
  by_cases h : br.upperWeight = br.lowerWeight
  · rw [if_pos h]
  · rw [if_neg h]
    have hpos : 0 < br.upperWeight - br.lowerWeight := by
      have h1 : br.lowerWeight ≤ br.upperWeight := le_trans hl hu
      have h2 := lt_of_le_of_ne h1 (fun e => h e.symm)
      linarith
    have h3 : 0 ≤ (br.upperBound - br.lowerBound) / (br.upperWeight - br.lowerWeight) :=
      div_nonneg (by linarith) (le_of_lt hpos)
    have h4 := mul_nonneg h3 (by linarith : 0 ≤ ew - br.lowerWeight)
    linarith

/-- The scan to the right keeps the lower bound right of `c` when the cuts it visits are
right of `c` and their right closest distances are not negative. -/
theorem scanRight_lowerBound (ew c : ℚ) (lcd rcd : Nat → ℚ) (l : List Nat) (br : Bracket)
    (hl : ∀ ii, ii ∈ l → c ≤ cuts ii ∧ 0 ≤ rcd ii) (h : c ≤ br.lowerBound) :
    c ≤ (scanRight ew gpw cuts lcd rcd l br).lowerBound := by
  induction l generalizing br with
  | nil => exact h
  | cons ii rest ih =>
    obtain ⟨hc, hr⟩ := hl ii (List.mem_cons_self _ _)
    rw [scanRight]
    by_cases c1 : gpw (ii * 2) ≥ ew
    · rw [if_pos c1]
      by_cases c2 : gpw (ii * 2) = ew
      · rw [if_pos c2]
        exact hc
      · rw [if_neg c2]
        by_cases c3 : gpw (ii * 2) < br.upperWeight
        · rw [if_pos c3]
          exact h
        · rw [if_neg c3]
          exact h
    · rw [if_neg c1]
      by_cases c4 : gpw (ii * 2 + 1) ≥ ew
      · rw [if_pos c4]
        exact hc
      · rw [if_neg c4]
        apply ih _ (fun j hj => (hl j (List.mem_cons_of_mem _ hj)))
        split_ifs
        · show c ≤ cuts ii + rcd ii
          linarith
        · exact h

/-- The end of the branch that moves a cut right does not put the cut left of its
coordinate, when the lower bound is not left of the coordinate and the bound weights are
around the expected weight. -/
theorem moveTo_not_left (s : CutState) (i : Nat) (br : Bracket) (ew : ℚ)
    (h1 : cuts i ≤ br.lowerBound) (h2 : br.lowerWeight ≤ ew) (h3 : ew ≤ br.upperWeight) :
    cuts i ≤ (s.moveTo eps cuts i br ew).newCutCoordinates i := by
  obtain ⟨g1, g2⟩ := moveTo_guard eps cuts s i br ew
  by_cases hg : ABS (cuts i - pivotPos br ew) < eps ∨ br.upperBound < br.lowerBound
  · exact le_of_eq (g1 hg).2.symm
  · rw [(g2 hg).2]
    have hb : br.lowerBound ≤ br.upperBound := not_lt.1 (fun h => hg (Or.inr h))
    exact le_trans h1 (pivotPos_ge_lower br ew hb h2 h3)

/-- The loop body on an Active cut with too little weight on its left does not move the
cut left. -/
theorem processCut_not_left (s : CutState) (i : Nat) (hi : i < noCuts)
    (hd : s.isDone i = false)
    (hpos : 0 < total * toFloat (ratios i)) (hlt : gpw (i * 2) < total * toFloat (ratios i))
    (hcuts : ∀ a b, a ≤ b → b < noCuts → cuts a ≤ cuts b)
    (hrcd : ∀ j, j < noCuts → 0 ≤ s.rightClosestDistance j)
    (hw : total * toFloat (ratios i) ≤ s.cutUpperWeight i) :
    cuts i ≤ (processCut eps noCuts total tol gpw lpw ratios cuts allow s i).newCutCoordinates
      i := by
  have hl := (imbalanceOf_neg_iff total (gpw (i * 2)) (toFloat (ratios i)) hpos).2 hlt
  unfold processCut
  dsimp only
  rw [hd, if_neg (by simp)]
  by_cases hwt : withinTolerance eps total tol gpw ratios i = true
  · rw [if_pos hwt]
    simp [CutState.markDone]
  · rw [if_neg hwt, if_pos hl]
    by_cases t1 : allow = true ∧ gpw (i * 2 + 1) = total * toFloat (ratios i)
    · rw [if_pos t1]
      simp [CutState.markDone]
    · rw [if_neg t1]
      by_cases t2 : allow = true ∧ gpw (i * 2 + 1) > total * toFloat (ratios i)
      · rw [if_pos t2]
        simp [CutState.markDone]
      · rw [if_neg t2]
        have hr := hrcd i hi
        refine moveTo_not_left eps cuts _ i _ _ ?_ ?_ ?_
        · apply scanRight_lowerBound
          · intro ii hii
            rw [List.mem_range'_1] at hii
            exact ⟨hcuts i ii (by omega) (by omega), hrcd ii (by omega)⟩
          · show cuts i ≤ cuts i + s.rightClosestDistance i
            linarith
        · exact (scanRight_weights gpw cuts _ _ _ _ _ (le_of_lt hlt) hw).1
        · exact (scanRight_weights gpw cuts _ _ _ _ _ (le_of_lt hlt) hw).2

/-- Resetting the closest distances that are still `maxScalar` keeps them non-negative. -/
theorem resetClosest_nonneg (d : Nat → ℚ) (j : Nat) (h : 0 ≤ d j) :
    0 ≤ resetClosest noCuts maxScalar d j := by
  unfold resetClosest
  split_ifs
  · exact le_refl _
  · exact h

end NeverLeft

/-- C27, counterexample: for one cut at 5 with the target ratio 7/10 of the total weight
`10^9`, the bracket as initialised (bounds 0 and 10, bound weights 0 and `10^9`) and the
closest points at the distances 1/2 and 1, the weight 699999990 left of the cut is below
`targetRatio * globalTotalWeight = 7 * 10^8`, and `getNewCoordinates` moves the cut left:
the `float` nearest to 7/10 is below 7/10, and the weight is above the total times it. -/
theorem getNewCoordinates_moves_left :
    ({ initialCutState 0 10 1000000000 with
        leftClosestDistance := fun _ => 1 / 2
        rightClosestDistance := fun _ => 1 } : CutState).isDone 0 = false ∧
    arrQ [699999990, 699999990, 1000000000] (0 * 2) < 1000000000 * arrQ [7 / 10, 1] 0 ∧
    ({ initialCutState 0 10 1000000000 with
        leftClosestDistance := fun _ => 1 / 2
        rightClosestDistance := fun _ => 1 } : CutState).cutLowerWeight 0 ≤
      1000000000 * arrQ [7 / 10, 1] 0 ∧
    1000000000 * arrQ [7 / 10, 1] 0 ≤
      ({ initialCutState 0 10 1000000000 with
        leftClosestDistance := fun _ => 1 / 2
        rightClosestDistance := fun _ => 1 } : CutState).cutUpperWeight 0 ∧
    (getNewCoordinates epsDouble 1 1000000000 0 maxDouble
      (arrQ [699999990, 699999990, 1000000000]) (arrQ [699999990, 699999990, 1000000000])
      (arrQ [7 / 10, 1]) (arrQ [5]) false []
      { initialCutState 0 10 1000000000 with
        leftClosestDistance := fun _ => 1 / 2
        rightClosestDistance := fun _ => 1 }).newCutCoordinates 0 < arrQ [5] 0 ∧
    1000000000 * toFloat (arrQ [7 / 10, 1] 0) <
      arrQ [699999990, 699999990, 1000000000] (0 * 2) := by
  refine ⟨?_, ?_, ?_, ?_, ?_, ?_⟩ <;> decide!

/-- C27, amended: a cut with too little weight on its left does not move left, the target
weight being `e * globalTotalWeight` with `e` the target ratio of the cut converted to
`float`, as the code computes it.  For every cut `i` of the part that is Active on entry to
`getNewCoordinates` and whose achieved left weight is below its positive target weight
`e * globalTotalWeight`, with non-decreasing cut coordinates, non-negative right closest
distances and the upper bound weight of the cut not below the target weight, the coordinate
written to `newCutCoordinates[i]` is at least `cutCoordinates[i]`, and it is
`cutCoordinates[i]` when the cut is Done on exit. -/
theorem getNewCoordinates_never_left (eps : ℚ) (noCuts : Nat) (total tol maxScalar : ℚ)
    (gpw lpw ratios cuts : Nat → ℚ) (allow : Bool) (lowerRanks : List (Nat → ℚ))
    (s : CutState) (i : Nat) (hi : i < noCuts) (hd : s.isDone i = false)
    (hpos : 0 < total * toFloat (ratios i)) (hlt : gpw (i * 2) < total * toFloat (ratios i))
    (hcuts : ∀ a b, a ≤ b → b < noCuts → cuts a ≤ cuts b)
    (hrcd : ∀ j, j < noCuts → 0 ≤ s.rightClosestDistance j)
    (hw : total * toFloat (ratios i) ≤ s.cutUpperWeight i) :
    cuts i ≤ (getNewCoordinates eps noCuts total tol maxScalar gpw lpw ratios cuts allow
      lowerRanks s).newCutCoordinates i ∧
    ((getNewCoordinates eps noCuts total tol maxScalar gpw lpw ratios cuts allow
        lowerRanks s).isDone i = true →
      (getNewCoordinates eps noCuts total tol maxScalar gpw lpw ratios cuts allow
        lowerRanks s).newCutCoordinates i = cuts i) := by
  refine ⟨?_, getNewCoordinates_isDone_newCut eps noCuts total tol maxScalar gpw lpw ratios
    cuts allow lowerRanks s i hi⟩
  obtain ⟨_, _, a3, _⟩ := getNewCoordinates_agree_loop eps noCuts total tol maxScalar gpw lpw
    ratios cuts allow lowerRanks s i
  obtain ⟨_, _, b3, _⟩ := getNewCoordinatesLoop_at eps noCuts total tol maxScalar gpw lpw
    ratios cuts allow s i hi
  rw [a3, b3]
  exact processCut_not_left eps noCuts total tol gpw lpw ratios cuts allow
    (s.resetClosest noCuts maxScalar) i hi hd hpos hlt hcuts
    (fun j hj => resetClosest_nonneg noCuts maxScalar s.rightClosestDistance j (hrcd j hj)) hw

/-- C27, amended, for `oneCutState` with two of the seven unit weights left of the cut at 5 (target
7/2): the new coordinate is not left of 5. -/
theorem getNewCoordinates_never_left_witness :
    arrQ [5] 0 ≤ (getNewCoordinates epsDouble 1 7 0 maxDouble (arrQ [2, 2, 7])
      (arrQ [2, 2, 7]) (arrQ [1 / 2, 1]) (arrQ [5]) false [] oneCutState).newCutCoordinates 0 :=
  (getNewCoordinates_never_left epsDouble 1 7 0 maxDouble (arrQ [2, 2, 7]) (arrQ [2, 2, 7])
    (arrQ [1 / 2, 1]) (arrQ [5]) false [] oneCutState 0 (by decide) (by decide!) (by decide!)
    (by decide!)
    (fun a b hab hb => by
      have hb0 : b = 0 := by omega
      have ha0 : a = 0 := by omega
      subst hb0
      subst ha0
      exact le_refl _)
    (fun j hj => by
      have hj0 : j = 0 := by omega
      subst hj0
      decide!)
    (by decide!)).1

/-! ## The initial cuts and the coordinate range -/

/-- For uniform parts every initial cut coordinate lies in
`[minCoordinate, maxCoordinate]`, when the leaf counts of the first `noCuts` children add
up to at most the positive leaf count of the part. -/
theorem getCutCoord_Weights_uniform_in_range (minC maxC : ℚ) (sizes cuts ratios : Nat → ℚ)
    (cur fut : Nat → Nat) (pi fai noCuts : Nat) (hmm : minC ≤ maxC) (hcur : 0 < cur pi)
    (hsum : cumul (fun k => fut (k + fai)) noCuts ≤ cur pi) (i : Nat) (hi : i < noCuts) :
    minC ≤ (pqJagged_getCutCoord_Weights minC maxC true sizes noCuts cuts ratios cur fut pi
      fai).1 i ∧
    (pqJagged_getCutCoord_Weights minC maxC true sizes noCuts cuts ratios cur fut pi
      fai).1 i ≤ maxC := by
  rw [getCutCoord_Weights_uniform minC maxC sizes cuts ratios cur fut pi fai noCuts i hi]
  have hpos : (0 : ℚ) < (cur pi : ℚ) := by exact_mod_cast hcur
  have hle : (cumul (fun k => fut (k + fai)) (i + 1) : ℚ) ≤ (cur pi : ℚ) := by
    exact_mod_cast le_trans (cumul_mono _ (by omega : i + 1 ≤ noCuts)) hsum
  have h0 : (0 : ℚ) ≤ (cumul (fun k => fut (k + fai)) (i + 1) : ℚ) / (cur pi : ℚ) :=
    div_nonneg (by exact_mod_cast Nat.zero_le _) (le_of_lt hpos)
  have h1 : (cumul (fun k => fut (k + fai)) (i + 1) : ℚ) / (cur pi : ℚ) ≤ 1 :=
    (div_le_one hpos).2 hle
  have hr : 0 ≤ maxC - minC := by linarith
  constructor
  · have := mul_nonneg hr h0
    linarith
  · have := mul_le_mul_of_nonneg_left h1 hr
    linarith

/-- C28 fails in the branch of user part sizes: for the coordinate range `[5, 10]` and the
two part sizes 1/2 and 1/2 (one cut), `pqJagged_getCutCoord_Weights` writes the initial cut
coordinate `(10 - 5) * 1/2 = 5/2`, which is below `minCoordinate = 5`; the branch multiplies
the ratio by the range and does not add `minCoordinate`. -/
theorem getCutCoord_Weights_sizes_below_min :
    (5 : ℚ) ≤ 10 ∧
    (pqJagged_getCutCoord_Weights 5 10 false (arrQ [1 / 2, 1 / 2]) 1 (fun _ => 0)
      (fun _ => 0) (arrN [2]) (fun _ => 1) 0 0).1 0 = 5 / 2 ∧
    ¬ ((5 : ℚ) ≤ (pqJagged_getCutCoord_Weights 5 10 false (arrQ [1 / 2, 1 / 2]) 1
      (fun _ => 0) (fun _ => 0) (arrN [2]) (fun _ => 1) 0 0).1 0) := by
  decide!

/-! ## The combined reduction is commutative and associative -/

section ReduceAlgebra

variable (partVector : Nat → Nat) (vectorBegin k : Nat)

/-- Every entry of the result of `reduce` is the combination of the two entries the layout
prescribes. -/
theorem reduce_apply (inB b : Nat → ℚ) (x : Nat) :
    reduce partVector vectorBegin k inB b x =
      combineEntry (layoutKind (windowParts partVector vectorBegin k) x) (b x) (inB x) := by
  unfold reduce
  rw [reduceParts_apply, if_neg (by omega), Nat.sub_zero]

/-- The combination of an entry inside the layout is commutative. -/
theorem combineEntry_comm (e : EntryKind) (a c : ℚ) :
    combineEntry (some e) a c = combineEntry (some e) c a := by
  cases e
  · exact add_comm a c
  · exact min_comm a c
  · exact min_comm a c

/-- The combination of an entry is associative. -/
theorem combineEntry_assoc (e : Option EntryKind) (a b c : ℚ) :
    combineEntry e c (combineEntry e b a) = combineEntry e (combineEntry e c b) a := by
  cases e with
  | none => rfl
  | some e =>
    cases e
    · exact (add_assoc c b a).symm
    · exact (min_assoc c b a).symm
    · exact (min_assoc c b a).symm

/-- Folding two buffers into a third one gives the same result in both orders. -/
theorem combineEntry_right_comm (e : Option EntryKind) (z a b : ℚ) :
    combineEntry e (combineEntry e z a) b = combineEntry e (combineEntry e z b) a := by
  cases e with
  | none => rfl
  | some e =>
    cases e
    · exact add_right_comm z a b
    · show min (min z a) b = min (min z b) a
      rw [min_assoc, min_comm a b, ← min_assoc]
    · show min (min z a) b = min (min z b) a
      rw [min_assoc, min_comm a b, ← min_assoc]

theorem countsKind_succ (nS n1 n2 k0 x : Nat) :
    countsKind nS n1 n2 (k0 + 1) x =
      if x < nS then some EntryKind.weight
      else if x < nS + n1 then some EntryKind.leftClosest
      else if x < nS + n1 + n2 then some EntryKind.rightClosest
      else countsKind nS n1 n2 k0 (x - (nS + n1 + n2)) := rfl

/-- The loop of `reduceCounts` from the buffer position `next`: the entries before `next`
stay, the others are combined by their kind. -/
theorem reduceCountsLoop_apply (nS n1 n2 : Nat) (inB : Nat → ℚ) (k0 next : Nat)
    (b : Nat → ℚ) (x : Nat) :
    reduceCountsLoop nS n1 n2 inB k0 next b x =
      if x < next then b x
      else combineEntry (countsKind nS n1 n2 k0 (x - next)) (b x) (inB x) := by
  induction k0 generalizing next b with
  | zero =>
    unfold reduceCountsLoop
    by_cases h : x < next
    · rw [if_pos h]
    · rw [if_neg h]
      rfl
  | succ k0 ih =>
    unfold reduceCountsLoop
    dsimp only
    rw [ih]
    rw [pointwise_fold inB (fun a c => min a c) (reduceMin inB) (reduceMin_apply inB),
      pointwise_fold inB (fun a c => min a c) (reduceMin inB) (reduceMin_apply inB),
      pointwise_fold inB (fun a c => a + c) (reduceSum inB) (reduceSum_apply inB)]
    rw [countsKind_succ]
    by_cases h0 : x < next
    · rw [if_pos (by omega), if_neg (by omega), if_neg (by omega), if_neg (by omega),
        if_pos h0]
    · rw [if_neg h0]
      by_cases h1 : x < next + nS
      · rw [if_pos (by omega), if_neg (by omega), if_neg (by omega), if_pos (by omega),
          if_pos (by omega)]
        rfl
      · by_cases h2 : x < next + nS + n1
        · rw [if_pos (by omega), if_neg (by omega), if_pos (by omega), if_neg (by omega),
            if_neg (by omega), if_pos (by omega)]
          rfl
        · by_cases h3 : x < next + nS + n1 + n2
          · rw [if_pos (by omega), if_pos (by omega), if_neg (by omega), if_neg (by omega),
              if_neg (by omega), if_neg (by omega), if_pos (by omega)]
            rfl
          · rw [if_neg (by omega), if_neg (by omega), if_neg (by omega), if_neg (by omega),
              if_neg (by omega), if_neg (by omega), if_neg (by omega)]
            have e : x - (next + nS + n1 + n2) = x - next - (nS + n1 + n2) := by omega
            rw [e]

/-- Every entry of the result of `reduceCounts` is the combination of the two entries by
the kind of the entry. -/
theorem reduceCounts_apply (nS n1 n2 k0 : Nat) (inB b : Nat → ℚ) (x : Nat) :
    reduceCounts nS n1 n2 k0 inB b x =
      combineEntry (countsKind nS n1 n2 k0 x) (b x) (inB x) := by
  unfold reduceCounts
  rw [reduceCountsLoop_apply, if_neg (by omega), Nat.sub_zero]

/-- The entries of `reduceCounts` that have a kind are the first
`k * (numSum_0 + numMin_1 + numMin_2)`. -/
theorem countsKind_isSome (nS n1 n2 k0 x : Nat) :
    (countsKind nS n1 n2 k0 x).isSome = true ↔ x < k0 * (nS + n1 + n2) := by
  induction k0 generalizing x with
  | zero =>
    unfold countsKind
    simp
  | succ k0 ih =>
    rw [countsKind_succ, Nat.succ_mul]
    by_cases h1 : x < nS
    · rw [if_pos h1]
      simp only [Option.isSome_some, true_iff]
      omega
    · rw [if_neg h1]
      by_cases h2 : x < nS + n1
      · rw [if_pos h2]
        simp only [Option.isSome_some, true_iff]
        omega
      · rw [if_neg h2]
        by_cases h3 : x < nS + n1 + n2
        · rw [if_pos h3]
          simp only [Option.isSome_some, true_iff]
          omega
        · rw [if_neg h3, ih]
          omega

/-- An operation on buffers that combines every entry by a kind that depends on the
position only is commutative on the entries that have a kind, associative, and folds a list
of buffers to the same result in every order. -/
theorem combine_algebra (kind : Nat → Option EntryKind)
    (op : (Nat → ℚ) → (Nat → ℚ) → Nat → ℚ)
    (hop : ∀ inB b x, op inB b x = combineEntry (kind x) (b x) (inB x)) (a b c : Nat → ℚ) :
    (∀ x, (kind x).isSome = true → op a b x = op b a x) ∧
    op (op a b) c = op a (op b c) ∧
    ∀ l l' : List (Nat → ℚ), l.Perm l' →
      l.foldl (fun acc other => op other acc) a = l'.foldl (fun acc other => op other acc) a
    := by
  refine ⟨fun x hs => ?_, ?_, fun l l' hp => ?_⟩
  · rw [hop, hop]
    obtain ⟨e, he⟩ := Option.isSome_iff_exists.1 hs
    rw [he]
    exact combineEntry_comm e (b x) (a x)
  · funext x
    rw [hop, hop, hop, hop]
    exact combineEntry_assoc _ (a x) (b x) (c x)
  · apply List.Perm.foldl_eq' hp
    intro o1 _ o2 _ z
    funext x
    rw [hop, hop, hop, hop]
    exact combineEntry_right_comm _ (z x) (o1 x) (o2 x)

end ReduceAlgebra

/-- C29: `PQJaggedCombinedReductionOp::reduce` is commutative and associative over exact
arithmetic, for the operator built from the sub-part counts of the window
(`reductionType = 1`) and for the operator built from three counts (`reductionType = 0`).
For all buffers `a`, `b`, `c`: folding `a` into `b` and folding `b` into `a` give the same
entry at every position of the layout; folding (`a` into `b`) into `c` gives the same
buffer as folding `a` into (`b` into `c`); and folding the buffers of a list into `a` one
after the other gives the same buffer for every order of the list. -/
theorem reduce_commutative_associative (partVector : Nat → Nat) (vectorBegin k : Nat)
    (numSum_0 numMin_1 numMin_2 : Nat) (a b c : Nat → ℚ) :
    ((∀ x, x < ((windowParts partVector vectorBegin k).map
          (fun p => (2 * p - 1) + (p - 1) + (p - 1))).sum →
        reduce partVector vectorBegin k a b x = reduce partVector vectorBegin k b a x) ∧
      reduce partVector vectorBegin k (reduce partVector vectorBegin k a b) c =
        reduce partVector vectorBegin k a (reduce partVector vectorBegin k b c) ∧
      ∀ l l' : List (Nat → ℚ), l.Perm l' →
        l.foldl (fun acc other => reduce partVector vectorBegin k other acc) a =
          l'.foldl (fun acc other => reduce partVector vectorBegin k other acc) a) ∧
    ((∀ x, x < k * (numSum_0 + numMin_1 + numMin_2) →
        reduceCounts numSum_0 numMin_1 numMin_2 k a b x =
          reduceCounts numSum_0 numMin_1 numMin_2 k b a x) ∧
      reduceCounts numSum_0 numMin_1 numMin_2 k (reduceCounts numSum_0 numMin_1 numMin_2 k a b)
          c =
        reduceCounts numSum_0 numMin_1 numMin_2 k a
          (reduceCounts numSum_0 numMin_1 numMin_2 k b c) ∧
      ∀ l l' : List (Nat → ℚ), l.Perm l' →
        l.foldl (fun acc other => reduceCounts numSum_0 numMin_1 numMin_2 k other acc) a =
          l'.foldl (fun acc other => reduceCounts numSum_0 numMin_1 numMin_2 k other acc) a)
    := by
  obtain ⟨p1, p2, p3⟩ := combine_algebra
    (layoutKind (windowParts partVector vectorBegin k))
    (reduce partVector vectorBegin k) (reduce_apply partVector vectorBegin k) a b c
  obtain ⟨q1, q2, q3⟩ := combine_algebra
    (countsKind numSum_0 numMin_1 numMin_2 k)
    (reduceCounts numSum_0 numMin_1 numMin_2 k)
    (reduceCounts_apply numSum_0 numMin_1 numMin_2 k) a b c
  exact ⟨⟨fun x hx => p1 x ((layoutKind_isSome _ x).2 hx), p2, p3⟩,
    ⟨fun x hx => q1 x ((countsKind_isSome _ _ _ _ x).2 hx), q2, q3⟩⟩

/-- C29 for a window of two parts with two sub-parts each, at the left-closest entry 3 of the
first part: the minimum of 4 and 9 in both orders. -/
theorem reduce_commutative_associative_witness :
    reduce (arrN [2, 2]) 0 2 (fun _ => 4) (fun _ => 9) 3 =
      reduce (arrN [2, 2]) 0 2 (fun _ => 9) (fun _ => 4) 3 :=
  (reduce_commutative_associative (arrN [2, 2]) 0 2 3 1 1 (fun _ => 4) (fun _ => 9)
    (fun _ => 0)).1.1 3 (by decide)

/-! ## No part is left with zero leaf parts -/

section LeafCounts

/-- Every leaf count pushed for a child is the quotient or the quotient plus one. -/
theorem childLeafCounts_mem (numFuture numParts c : Nat)
    (hc : c ∈ childLeafCounts numFuture numParts) :
    c = numFuture / numParts ∨ c = numFuture / numParts + 1 := by
  unfold childLeafCounts at hc
  rw [List.mem_map] at hc
  obtain ⟨iii, _, h⟩ := hc
  dsimp only at h
  by_cases hlt : iii < numFuture % numParts
  · rw [if_pos hlt] at h
    exact Or.inr h.symm
  · rw [if_neg hlt] at h
    exact Or.inl h.symm

/-- The leaf counts pushed for the children of a part split into between 1 and `numFuture`
parts are at least 1 and differ by at most 1. -/
theorem childLeafCounts_pos (numFuture numParts : Nat) (h1 : 1 ≤ numParts)
    (h2 : numParts ≤ numFuture) (c : Nat) (hc : c ∈ childLeafCounts numFuture numParts) :
    1 ≤ c ∧ ∀ d, d ∈ childLeafCounts numFuture numParts → c ≤ d + 1 := by
  have hq : 1 ≤ numFuture / numParts := Nat.div_pos h2 (by omega)
  have hcq := childLeafCounts_mem numFuture numParts c hc
  refine ⟨by omega, fun d hd => ?_⟩
  have hdq := childLeafCounts_mem numFuture numParts d hd
  omega

/-- The value of `getPartCount` is at least 1 when the power is at least 1. -/
theorem getPartCount_pos (fp fEpsilon : ℚ) (h : 1 ≤ fp) : 1 ≤ getPartCount fp fEpsilon := by
  have ht : truncInt fp = ⌊fp⌋ := by
    unfold truncInt
    rw [if_pos (by linarith)]
  have h1 : (1 : Int) ≤ ⌊fp⌋ := Int.le_floor.2 (by simpa using h)
  have h2 : 1 ≤ (⌊fp⌋).toNat := by omega
  unfold getPartCount
  dsimp only
  rw [ht]
  split_ifs <;> omega

/-- Every entry of a list of positive numbers, read as an array, is positive. -/
theorem arrN_pos (l : List Nat) (hl : ∀ c, c ∈ l → 1 ≤ c) (j : Nat) (hj : j < l.length) :
    1 ≤ arrN l j := by
  unfold arrN
  rw [List.getD_eq_getElem l 0 hj]
  exact hl _ (List.getElem_mem hj)

end LeafCounts

/-- C30: with no plan given, when the split count `numParts` chosen for every current part
is between 1 and the part's leaf count `numFuture` (so every entry of `currentPartitions` is
at least 1), every leaf count pushed for a child is at least 1 and any two children of the
same part differ by at most 1; when moreover no split count exceeds `maxPartNo`,
`getPartitionArrays` returns (it neither exits nor divides by zero), every entry of
`newFuturePartitions` is at least 1, and at the next level, for a library `pow` that is at
least 1 on counts that are at least 1 with a positive exponent, the split count of every
part is at least 1, so that the division and the modulo by `numParts` are not by zero. -/
theorem getPartitionArrays_children_positive (pow : Nat → ℚ → ℚ) (fEpsilon : ℚ)
    (cur : Nat → Nat) (f count partArraySize i maxPartNo : Nat)
    (hparts : ∀ ii, ii < count → 1 ≤ derivedNumParts pow fEpsilon cur partArraySize i ii ∧
      derivedNumParts pow fEpsilon cur partArraySize i ii ≤ cur ii) :
    (∀ ii, ii < count → 1 ≤ cur ii ∧
      ∀ c, c ∈ childLeafCounts (cur ii) (derivedNumParts pow fEpsilon cur partArraySize i ii) →
        1 ≤ c ∧
        ∀ d, d ∈ childLeafCounts (cur ii)
            (derivedNumParts pow fEpsilon cur partArraySize i ii) → c ≤ d + 1) ∧
    ((∀ ii, ii < count → derivedNumParts pow fEpsilon cur partArraySize i ii ≤ maxPartNo) →
      ∃ r, getPartitionArrays pow fEpsilon none cur f count partArraySize i maxPartNo =
          some r ∧
        (∀ c, c ∈ r.newFuturePartitions → 1 ≤ c) ∧
        r.newFuturePartitions.length = r.outPartCount ∧
        ((∀ n q, 1 ≤ n → 0 < q → 1 ≤ pow n q) → i + 1 < partArraySize →
          ∀ jj, jj < r.outPartCount →
            1 ≤ derivedNumParts pow fEpsilon (arrN r.newFuturePartitions) partArraySize
              (i + 1) jj)) := by
  have hchild : ∀ ii, ii < count →
      ∀ c, c ∈ childLeafCounts (cur ii) (derivedNumParts pow fEpsilon cur partArraySize i ii) →
        1 ≤ c ∧
        ∀ d, d ∈ childLeafCounts (cur ii)
            (derivedNumParts pow fEpsilon cur partArraySize i ii) → c ≤ d + 1 :=
    fun ii hii c hc => childLeafCounts_pos _ _ (hparts ii hii).1 (hparts ii hii).2 c hc
  refine ⟨fun ii hii => ⟨le_trans (hparts ii hii).1 (hparts ii hii).2, hchild ii hii⟩,
    fun hmax => ?_⟩
  obtain ⟨f', hf⟩ := derivedPlan_fold pow fEpsilon cur partArraySize i maxPartNo
    (List.range count)
    (fun ii hii => ⟨(hparts ii (List.mem_range.1 hii)).1, hmax ii (List.mem_range.1 hii)⟩)
    { outPartCount := 0, pAlongI := [], newFuturePartitions := [], futurePartNumbers := 1 }
  have hpos : ∀ c, c ∈ (List.range count).flatMap (fun ii =>
      childLeafCounts (cur ii) (derivedNumParts pow fEpsilon cur partArraySize i ii)) →
      1 ≤ c := by
    intro c hc
    rw [List.mem_flatMap] at hc
    obtain ⟨ii, hii, hc⟩ := hc
    exact (hchild ii (List.mem_range.1 hii) c hc).1
  have hlen : ((List.range count).flatMap (fun ii =>
      childLeafCounts (cur ii) (derivedNumParts pow fEpsilon cur partArraySize i ii))).length =
      ((List.range count).map (derivedNumParts pow fEpsilon cur partArraySize i)).sum := by
    rw [length_flatMap_nat]
    congr 1
    apply List.map_congr_left
    intro ii _
    exact childLeafCounts_length _ _
  refine ⟨_, hf, ?_, ?_, ?_⟩
  · intro c hc
    exact hpos c hc
  · show ([] ++ _ : List Nat).length = 0 + _
    rw [List.nil_append, Nat.zero_add]
    exact hlen
  · intro hpow hi jj hjj
    unfold derivedNumParts
    apply getPartCount_pos
    apply hpow
    · apply arrN_pos
      · intro c hc
        exact hpos c hc
      · have e : ([] ++ (List.range count).flatMap (fun ii =>
            childLeafCounts (cur ii)
              (derivedNumParts pow fEpsilon cur partArraySize i ii)) : List Nat).length =
            0 + ((List.range count).map
              (derivedNumParts pow fEpsilon cur partArraySize i)).sum := by
          rw [List.nil_append, Nat.zero_add]
          exact hlen
        exact lt_of_lt_of_eq hjj e.symm
    · have hd : (0 : ℚ) < (((partArraySize : Int) - ((i + 1 : Nat) : Int) : Int) : ℚ) := by
        have : (0 : Int) < (partArraySize : Int) - ((i + 1 : Nat) : Int) := by omega
        exact_mod_cast this
      exact one_div_pos.2 hd

/-- C30 for two parts with the leaf counts 6 and 5 on the first of two levels, three
children each: the leaf counts pushed for the second part are 2, 2, 1. -/
theorem getPartitionArrays_children_positive_witness :
    1 ≤ arrN [6, 5] 1 ∧
      ∀ c, c ∈ childLeafCounts (arrN [6, 5] 1)
          (derivedNumParts powSample epsFloat (arrN [6, 5]) 2 0 1) →
        1 ≤ c ∧
        ∀ d, d ∈ childLeafCounts (arrN [6, 5] 1)
            (derivedNumParts powSample epsFloat (arrN [6, 5]) 2 0 1) → c ≤ d + 1 :=
  (getPartitionArrays_children_positive powSample epsFloat (arrN [6, 5]) 11 2 2 0 3
    (by decide!)).1 1 (by decide)
/-! ## The cut solver as a weighted-median search -/

section FilteredWeights

variable (eps : ℚ) (coords : Nat → ℚ) (uniform : Bool) (weights : Nat → ℚ)

theorem weightBelow_eq_where (ids : List Nat) (c : ℚ) :
    weightBelow eps coords uniform weights ids c =
      weightWhere uniform weights ids (fun i => decide (coords i ≤ c - eps)) := rfl

theorem weightUpTo_eq_where (ids : List Nat) (c : ℚ) :
    weightUpTo eps coords uniform weights ids c =
      weightWhere uniform weights ids (fun i => decide (coords i < c + eps)) := rfl

theorem weightWhere_cons (a : Nat) (l : List Nat) (p : Nat → Bool) :
    weightWhere uniform weights (a :: l) p =
      (if p a = true then pointWeight uniform weights a else 0) +
        weightWhere uniform weights l p := by
  unfold weightWhere
  by_cases h : p a = true
  · rw [List.filter_cons_of_pos h, if_pos h, List.map_cons, List.sum_cons]
  · rw [List.filter_cons_of_neg h, if_neg h, zero_add]

/-- The weight of the points that satisfy `p` is not above the weight of the points that
satisfy `q` when `p` implies `q` on the points and no weight is negative. -/
theorem weightWhere_mono (ids : List Nat) (p q : Nat → Bool)
    (hw : ∀ i ∈ ids, 0 ≤ pointWeight uniform weights i)
    (hpq : ∀ i ∈ ids, p i = true → q i = true) :
    weightWhere uniform weights ids p ≤ weightWhere uniform weights ids q := by
  induction ids with
  | nil => simp [weightWhere]
  | cons a l ih =>
    rw [weightWhere_cons, weightWhere_cons]
    have h1 := ih (fun i hi => hw i (List.mem_cons_of_mem _ hi))
      (fun i hi => hpq i (List.mem_cons_of_mem _ hi))
    have h2 := hw a (List.mem_cons_self _ _)
    by_cases hp : p a = true
    · rw [if_pos hp, if_pos (hpq a (List.mem_cons_self _ _) hp)]
      linarith
    · rw [if_neg hp]
      split_ifs <;> linarith

/-- When the points that satisfy `q` weigh more than the points that satisfy `p`, some point
satisfies `q` and not `p`. -/
theorem weightWhere_lt_exists (ids : List Nat) (p q : Nat → Bool)
    (hw : ∀ i ∈ ids, 0 ≤ pointWeight uniform weights i)
    (h : weightWhere uniform weights ids p < weightWhere uniform weights ids q) :
    ∃ i ∈ ids, q i = true ∧ p i = false := by
  by_contra hc
  have hqp : ∀ i ∈ ids, q i = true → p i = true := by
    intro i hi hq
    by_contra hp
    exact hc ⟨i, hi, hq, by simpa using hp⟩
  have := weightWhere_mono uniform weights ids q p hw hqp
  linarith

theorem weightWhere_nonneg (ids : List Nat) (p : Nat → Bool)
    (hw : ∀ i ∈ ids, 0 ≤ pointWeight uniform weights i) :
    0 ≤ weightWhere uniform weights ids p := by
  have h := weightWhere_mono uniform weights ids (fun _ => false) p hw (by simp)
  have h0 : weightWhere uniform weights ids (fun _ => false) = 0 := by
    simp [weightWhere]
  linarith

theorem weightWhere_le_total (ids : List Nat) (p : Nat → Bool)
    (hw : ∀ i ∈ ids, 0 ≤ pointWeight uniform weights i) :
    weightWhere uniform weights ids p ≤ totalWeight uniform weights ids := by
  have h := weightWhere_mono uniform weights ids p (fun _ => true) hw (by simp)
  have h0 : weightWhere uniform weights ids (fun _ => true) =
      totalWeight uniform weights ids := by
    simp [weightWhere, totalWeight]
  linarith

/-- The weight of all the points is the total weight. -/
theorem weightWhere_all (ids : List Nat) (p : Nat → Bool) (hp : ∀ i ∈ ids, p i = true) :
    weightWhere uniform weights ids p = totalWeight uniform weights ids := by
  unfold weightWhere totalWeight
  rw [List.filter_eq_self.2 hp]

/-- The weight of no point is 0. -/
theorem weightWhere_none (ids : List Nat) (p : Nat → Bool) (hp : ∀ i ∈ ids, p i = false) :
    weightWhere uniform weights ids p = 0 := by
  unfold weightWhere
  rw [List.filter_eq_nil_iff.2 (fun i hi => by simp [hp i hi])]
  rfl

/-- The total weight of a part with a point and positive weights is positive. -/
theorem totalWeight_pos (ids : List Nat) (hne : ids ≠ [])
    (hw : ∀ i ∈ ids, 0 < pointWeight uniform weights i) :
    0 < totalWeight uniform weights ids := by
  unfold totalWeight
  apply List.sum_pos
  · intro x hx
    obtain ⟨i, hi, hxi⟩ := List.mem_map.1 hx
    rw [← hxi]
    exact hw i hi
  · intro h
    exact hne (List.map_eq_nil_iff.1 h)

end FilteredWeights
section OneCutClosest

variable (eps : ℚ) (coords : Nat → ℚ) (uniform : Bool) (weights cuts : Nat → ℚ)

/-- With one cut, the classifier sets both closest distances of the cut to 0 for a point on
the cut, lowers the left closest distance to the distance of a point left of the cut, and
lowers the right closest distance to the distance of a point right of the cut. -/
theorem classifyPoint_one_closest (s : ClassifyState) (i : Nat) :
    (classifyPoint eps 1 coords uniform weights cuts s i).myLeftClosest 0 =
      (if ABS (coords i - cuts 0) < eps then 0
      else if coords i - cuts 0 < 0 then
        (if s.myLeftClosest 0 > cuts 0 - coords i then cuts 0 - coords i
          else s.myLeftClosest 0)
      else s.myLeftClosest 0) ∧
    (classifyPoint eps 1 coords uniform weights cuts s i).myRightClosest 0 =
      (if ABS (coords i - cuts 0) < eps then 0
      else if coords i - cuts 0 < 0 then s.myRightClosest 0
      else
        (if s.myRightClosest 0 > coords i - cuts 0 then coords i - cuts 0
          else s.myRightClosest 0)) := by
  have hj : (if ((s.partIds i / 2 : Nat) : Int) ≥ ((1 : Nat) : Int) then ((1 : Nat) : Int) - 1
      else ((s.partIds i / 2 : Nat) : Int)) = 0 := by
    split_ifs <;> omega
  unfold classifyPoint
  dsimp only
  rw [hj, locate_one]
  by_cases h1 : ABS (coords i - cuts 0) < eps
  · rw [if_pos h1, if_pos h1, if_pos h1]
    simp [spreadRight, spreadLeft]
  · rw [if_neg h1, if_neg h1, if_neg h1]
    by_cases h2 : coords i - cuts 0 < 0
    · rw [if_pos h2, if_pos h2, if_pos h2]
      dsimp only
      constructor
      · split_ifs <;> simp
      · rw [if_neg (by omega)]
    · rw [if_neg h2, if_neg h2, if_neg h2]
      dsimp only
      constructor
      · rw [if_neg (by omega)]
      · split_ifs <;> simp

/-- The loop over the points with one cut leaves closest distances as `ClosestOf` says,
from non-negative values. -/
theorem classify_fold_closest (heps : 0 < eps) (l : List Nat) (s : ClassifyState)
    (hl : 0 ≤ s.myLeftClosest 0) (hr : 0 ≤ s.myRightClosest 0) :
    ((l.foldl (classifyPoint eps 1 coords uniform weights cuts) s).myLeftClosest 0 ≤
        s.myLeftClosest 0 ∧
      ClosestOf (s.myLeftClosest 0) l (fun a => |coords a - cuts 0| < eps)
        (fun a => coords a ≤ cuts 0 - eps) (fun a => cuts 0 - coords a)
        ((l.foldl (classifyPoint eps 1 coords uniform weights cuts) s).myLeftClosest 0)) ∧
    ((l.foldl (classifyPoint eps 1 coords uniform weights cuts) s).myRightClosest 0 ≤
        s.myRightClosest 0 ∧
      ClosestOf (s.myRightClosest 0) l (fun a => |coords a - cuts 0| < eps)
        (fun a => cuts 0 + eps ≤ coords a) (fun a => coords a - cuts 0)
        ((l.foldl (classifyPoint eps 1 coords uniform weights cuts) s).myRightClosest 0)) := by
  induction l generalizing s with
  | nil =>
    simp only [List.foldl_nil]
    refine ⟨⟨le_refl _, hl, ?_, ?_, fun _ => Or.inl rfl⟩,
      ⟨le_refl _, hr, ?_, ?_, fun _ => Or.inl rfl⟩⟩ <;> simp
  | cons a l ih =>
    rw [List.foldl_cons]
    obtain ⟨e1, e2⟩ := classifyPoint_one_closest eps coords uniform weights cuts s a
    generalize classifyPoint eps 1 coords uniform weights cuts s a = s1 at e1 e2 ⊢
    rw [ABS_eq_abs] at e1 e2
    -- the step keeps the distances non-negative and does not raise them
    have hl1 : 0 ≤ s1.myLeftClosest 0 ∧ s1.myLeftClosest 0 ≤ s.myLeftClosest 0 := by
      rw [e1]
      split_ifs with c1 c2 c3
      · exact ⟨le_refl _, hl⟩
      · rw [abs_lt] at c1
        exact ⟨by linarith, le_of_lt c3⟩
      · exact ⟨hl, le_refl _⟩
      · exact ⟨hl, le_refl _⟩
    have hr1 : 0 ≤ s1.myRightClosest 0 ∧ s1.myRightClosest 0 ≤ s.myRightClosest 0 := by
      rw [e2]
      split_ifs with c1 c2 c3
      · exact ⟨le_refl _, hr⟩
      · exact ⟨hr, le_refl _⟩
      · exact ⟨by linarith, le_of_lt c3⟩
      · exact ⟨hr, le_refl _⟩
    obtain ⟨⟨i1, i2, i3, i4, i5⟩, ⟨j1, j2, j3, j4, j5⟩⟩ := ih s1 hl1.1 hr1.1
    refine ⟨⟨le_trans i1 hl1.2, i2, ?_, ?_, ?_⟩, ⟨le_trans j1 hr1.2, j2, ?_, ?_, ?_⟩⟩
    · intro b hb hside
      rcases List.mem_cons.1 hb with hba | hbl
      · subst hba
        refine le_trans i1 ?_
        rw [e1]
        have hno : ¬ |coords b - cuts 0| < eps := by
          rw [abs_lt]
          intro h
          linarith [h.1]
        rw [if_neg hno, if_pos (by linarith)]
        split_ifs with c3
        · exact le_refl _
        · exact not_lt.1 c3
      · exact i3 b hbl hside
    · rintro ⟨b, hb, hon⟩
      rcases List.mem_cons.1 hb with hba | hbl
      · subst hba
        have h0 : s1.myLeftClosest 0 = 0 := by rw [e1, if_pos hon]
        rw [h0] at i1
        exact le_antisymm i1 i2
      · exact i4 ⟨b, hbl, hon⟩
    · intro hnone
      have hna : ¬ |coords a - cuts 0| < eps := hnone a (List.mem_cons_self _ _)
      rcases i5 (fun b hb => hnone b (List.mem_cons_of_mem _ hb)) with h | ⟨b, hb, hs, hd⟩
      · rw [h, e1, if_neg hna]
        by_cases c2 : coords a - cuts 0 < 0
        · rw [if_pos c2]
          by_cases c3 : s.myLeftClosest 0 > cuts 0 - coords a
          · rw [if_pos c3]
            right
            refine ⟨a, List.mem_cons_self _ _, ?_, rfl⟩
            by_contra hc
            exact hna (abs_lt.2 ⟨by linarith, by linarith⟩)
          · rw [if_neg c3]
            exact Or.inl rfl
        · rw [if_neg c2]
          exact Or.inl rfl
      · exact Or.inr ⟨b, List.mem_cons_of_mem _ hb, hs, hd⟩
    · intro b hb hside
      rcases List.mem_cons.1 hb with hba | hbl
      · subst hba
        refine le_trans j1 ?_
        rw [e2]
        have hno : ¬ |coords b - cuts 0| < eps := by
          rw [abs_lt]
          intro h
          linarith [h.2]
        rw [if_neg hno, if_neg (by linarith)]
        split_ifs with c3
        · exact le_refl _
        · exact not_lt.1 c3
      · exact j3 b hbl hside
    · rintro ⟨b, hb, hon⟩
      rcases List.mem_cons.1 hb with hba | hbl
      · subst hba
        have h0 : s1.myRightClosest 0 = 0 := by rw [e2, if_pos hon]
        rw [h0] at j1
        exact le_antisymm j1 j2
      · exact j4 ⟨b, hbl, hon⟩
    · intro hnone
      have hna : ¬ |coords a - cuts 0| < eps := hnone a (List.mem_cons_self _ _)
      rcases j5 (fun b hb => hnone b (List.mem_cons_of_mem _ hb)) with h | ⟨b, hb, hs, hd⟩
      · rw [h, e2, if_neg hna]
        by_cases c2 : coords a - cuts 0 < 0
        · rw [if_pos c2]
          exact Or.inl rfl
        · rw [if_neg c2]
          by_cases c3 : s.myRightClosest 0 > coords a - cuts 0
          · rw [if_pos c3]
            right
            refine ⟨a, List.mem_cons_self _ _, ?_, rfl⟩
            by_contra hc
            exact hna (abs_lt.2 ⟨by linarith, by linarith⟩)
          · rw [if_neg c3]
            exact Or.inl rfl
      · exact Or.inr ⟨b, List.mem_cons_of_mem _ hb, hs, hd⟩

/-- The closest distances the classifier leaves for one cut, from `maxScalar`. -/
theorem getPartWeights_one_closest (heps : 0 < eps) (maxScalar : ℚ) (hms : 0 ≤ maxScalar)
    (b e : Nat) (perm : Nat → Nat) (s : ClassifyState) :
    ClosestOf maxScalar (rangeIds perm b e) (fun a => |coords a - cuts 0| < eps)
      (fun a => coords a ≤ cuts 0 - eps) (fun a => cuts 0 - coords a)
      ((pqJagged_1DPart_getPartWeights 3 1 maxScalar eps b e perm coords uniform weights cuts
        s).myLeftClosest 0) ∧
    ClosestOf maxScalar (rangeIds perm b e) (fun a => |coords a - cuts 0| < eps)
      (fun a => cuts 0 + eps ≤ coords a) (fun a => coords a - cuts 0)
      ((pqJagged_1DPart_getPartWeights 3 1 maxScalar eps b e perm coords uniform weights cuts
        s).myRightClosest 0) := by
  obtain ⟨h1, h2⟩ := classify_fold_closest eps coords uniform weights cuts heps
    (rangeIds perm b e)
    { s with
      myPartWeights := fun i => if i < 3 then 0 else s.myPartWeights i
      myLeftClosest := fun i => if i < 1 then maxScalar else s.myLeftClosest i
      myRightClosest := fun i => if i < 1 then maxScalar else s.myRightClosest i }
    (by simpa using hms) (by simpa using hms)
  exact ⟨h1.2, h2.2⟩

end OneCutClosest
section PivotBounds

/-- The pivot is not right of the upper bound when the bounds have not crossed and the bound
weights are around the expected weight. -/
theorem pivotPos_le_upper (br : Bracket) (ew : ℚ) (hb : br.lowerBound ≤ br.upperBound)
    (hl : br.lowerWeight ≤ ew) (hu : ew ≤ br.upperWeight) :
    pivotPos br ew ≤ br.upperBound := by
  unfold pivotPos
  by_cases h : br.upperWeight = br.lowerWeight
  · rw [if_pos h]
    exact hb
  · rw [if_neg h]
    have hpos : 0 < br.upperWeight - br.lowerWeight := by
      have h1 : br.lowerWeight ≤ br.upperWeight := le_trans hl hu
      have h2 := lt_of_le_of_ne h1 (fun e => h e.symm)
      linarith
    have h3 : (br.upperBound - br.lowerBound) / (br.upperWeight - br.lowerWeight) *
        (ew - br.lowerWeight) ≤
        (br.upperBound - br.lowerBound) / (br.upperWeight - br.lowerWeight) *
          (br.upperWeight - br.lowerWeight) :=
      mul_le_mul_of_nonneg_left (by linarith) (div_nonneg (by linarith) (le_of_lt hpos))
    rw [div_mul_cancel₀ _ (ne_of_gt hpos)] at h3
    linarith

/-- The pivot is not left of the lower bound when the bounds have not crossed and the bound
weights are around the expected weight. -/
theorem pivotPos_lower_le (br : Bracket) (ew : ℚ) (hb : br.lowerBound ≤ br.upperBound)
    (hl : br.lowerWeight ≤ ew) (hu : ew ≤ br.upperWeight) :
    br.lowerBound ≤ pivotPos br ew := by
  unfold pivotPos
  by_cases h : br.upperWeight = br.lowerWeight
  · rw [if_pos h]
  · rw [if_neg h]
    have hpos : 0 < br.upperWeight - br.lowerWeight := by
      have h1 : br.lowerWeight ≤ br.upperWeight := le_trans hl hu
      have h2 := lt_of_le_of_ne h1 (fun e => h e.symm)
      linarith
    have h3 : 0 ≤ (br.upperBound - br.lowerBound) / (br.upperWeight - br.lowerWeight) :=
      div_nonneg (by linarith) (le_of_lt hpos)
    have h4 := mul_nonneg h3 (by linarith : 0 ≤ ew - br.lowerWeight)
    linarith

/-- The pivot is at least epsilon right of the lower bound when the bracket is wide and the
lower weight is far from the expected weight: `eps * W <= (ub - lb) * (ew - lw)` with
`0 < uw - lw <= W`. -/
theorem pivotPos_far_lower (br : Bracket) (ew eps W : ℚ) (heps : 0 ≤ eps)
    (hpos : 0 < br.upperWeight - br.lowerWeight) (hW : br.upperWeight - br.lowerWeight ≤ W)
    (h : eps * W ≤ (br.upperBound - br.lowerBound) * (ew - br.lowerWeight)) :
    br.lowerBound + eps ≤ pivotPos br ew := by
  unfold pivotPos
  rw [if_neg (by intro e; rw [e] at hpos; linarith)]
  have h1 : eps * (br.upperWeight - br.lowerWeight) ≤
      (br.upperBound - br.lowerBound) * (ew - br.lowerWeight) :=
    le_trans (mul_le_mul_of_nonneg_left hW heps) h
  have h2 : eps ≤ (br.upperBound - br.lowerBound) * (ew - br.lowerWeight) /
      (br.upperWeight - br.lowerWeight) := (le_div_iff₀ hpos).2 h1
  have h3 : (br.upperBound - br.lowerBound) / (br.upperWeight - br.lowerWeight) *
      (ew - br.lowerWeight) =
      (br.upperBound - br.lowerBound) * (ew - br.lowerWeight) /
        (br.upperWeight - br.lowerWeight) := by ring
  rw [h3]
  linarith

/-- The pivot is at least epsilon left of the upper bound when the bracket is wide and the
upper weight is far from the expected weight. -/
theorem pivotPos_far_upper (br : Bracket) (ew eps W : ℚ) (heps : 0 ≤ eps)
    (hpos : 0 < br.upperWeight - br.lowerWeight) (hW : br.upperWeight - br.lowerWeight ≤ W)
    (h : eps * W ≤ (br.upperBound - br.lowerBound) * (br.upperWeight - ew)) :
    pivotPos br ew + eps ≤ br.upperBound := by
  unfold pivotPos
  rw [if_neg (by intro e; rw [e] at hpos; linarith)]
  have h1 : eps * (br.upperWeight - br.lowerWeight) ≤
      (br.upperBound - br.lowerBound) * (br.upperWeight - ew) :=
    le_trans (mul_le_mul_of_nonneg_left hW heps) h
  have h2 : eps ≤ (br.upperBound - br.lowerBound) * (br.upperWeight - ew) /
      (br.upperWeight - br.lowerWeight) := (le_div_iff₀ hpos).2 h1
  have h3 : br.upperBound - ((br.upperBound - br.lowerBound) /
      (br.upperWeight - br.lowerWeight) * (ew - br.lowerWeight) + br.lowerBound) =
      (br.upperBound - br.lowerBound) * (br.upperWeight - ew) /
        (br.upperWeight - br.lowerWeight) := by
    field_simp
    ring
  linarith

end PivotBounds

section ResetClosest

/-- The closest distance of a single cut after the reset of the distances still at
`maxScalar`: it is not negative, it is not above the distance of any point on its side of
the cut, it is 0 when a point is on the cut, and it is at least epsilon when no point is on
the cut and a point on its side is closer than `maxScalar`. -/
theorem resetClosest_facts (eps maxScalar : ℚ) (ids : List Nat) (onCut side : Nat → Prop)
    (dist f : Nat → ℚ) (heps : 0 < eps) (hdist : ∀ a ∈ ids, side a → eps ≤ dist a)
    (hc : ClosestOf maxScalar ids onCut side dist (f 0)) :
    0 ≤ resetClosest 1 maxScalar f 0 ∧
    (∀ a ∈ ids, side a → resetClosest 1 maxScalar f 0 ≤ dist a) ∧
    ((∃ a ∈ ids, onCut a) → resetClosest 1 maxScalar f 0 = 0) ∧
    ((∀ a ∈ ids, ¬ onCut a) → (∃ a ∈ ids, side a ∧ dist a < maxScalar) →
      eps ≤ resetClosest 1 maxScalar f 0) := by
  obtain ⟨c1, c2, c3, c4⟩ := hc
  unfold resetClosest
  by_cases hm : (0 : Nat) < 1 ∧ f 0 = maxScalar
  · rw [if_pos hm]
    refine ⟨le_refl _, fun a ha hs => ?_, fun _ => rfl, ?_⟩
    · exact le_trans (le_of_lt heps) (hdist a ha hs)
    · rintro _ ⟨a, ha, hs, hlt⟩
      have := c2 a ha hs
      rw [hm.2] at this
      linarith
  · rw [if_neg hm]
    refine ⟨c1, c2, c3, ?_⟩
    rintro hnone ⟨a, ha, hs, hlt⟩
    rcases c4 hnone with h | ⟨b, hb, hsb, hd⟩
    · exact absurd ⟨by decide, h⟩ hm
    · rw [hd]
      exact hdist b hb hsb

end ResetClosest
section MedianStep

variable (eps tol maxScalar minC maxC δ γ total : ℚ) (coords : Nat → ℚ) (uniform : Bool)
  (weights : Nat → ℚ) (ids : List Nat) (allow : Bool)

/-- A cut with less than half of the weight on its left and no tie to split, in a bracket
that satisfies the invariant: with the lower bound moved to the cut plus the right closest
distance, the guard fires only when the cut is a weighted median, and otherwise the
invariant holds for the new bracket and the pivot. -/
theorem median_step_right
    (H : WellSeparated eps tol maxScalar minC maxC δ γ total coords uniform weights ids)
    (br : Bracket) (c rcd L M : ℚ)
    (hLe : L = weightBelow eps coords uniform weights ids c)
    (hMe : M = weightUpTo eps coords uniform weights ids c)
    (hI : MedianBracket eps minC maxC γ total allow coords uniform weights ids br c)
    (hL : L < total / 2)
    (hnt : ¬ (allow = true ∧ total / 2 ≤ M))
    (r1 : 0 ≤ rcd) (r2 : ∀ a ∈ ids, c + eps ≤ coords a → rcd ≤ coords a - c)
    (r3 : (∃ a ∈ ids, |coords a - c| < eps) → rcd = 0)
    (r4 : (∀ a ∈ ids, ¬ |coords a - c| < eps) →
      (∃ a ∈ ids, c + eps ≤ coords a ∧ coords a - c < maxScalar) → eps ≤ rcd) :
    ((ABS (c - pivotPos ⟨br.upperBound, c + rcd, br.upperWeight, L⟩ (total / 2)) < eps ∨
        br.upperBound < c + rcd) →
      IsWeightedMedian eps coords uniform weights ids c) ∧
    (¬ (ABS (c - pivotPos ⟨br.upperBound, c + rcd, br.upperWeight, L⟩ (total / 2)) < eps ∨
        br.upperBound < c + rcd) →
      MedianBracket eps minC maxC γ total allow coords uniform weights ids
        ⟨br.upperBound, c + rcd, br.upperWeight, L⟩
        (pivotPos ⟨br.upperBound, c + rcd, br.upperWeight, L⟩ (total / 2))) := by
  subst hLe
  subst hMe
  have hwn : ∀ i ∈ ids, 0 ≤ pointWeight uniform weights i :=
    fun i hi => le_of_lt (H.weight_pos i hi)
  have hL0 : 0 ≤ weightBelow eps coords uniform weights ids c :=
    weightWhere_nonneg uniform weights ids _ hwn
  have hLγ : weightBelow eps coords uniform weights ids c + γ ≤ total / 2 := by
    rcases H.gap c with h | h
    · rw [h] at hL
      exact absurd hL (lt_irrefl _)
    · rw [abs_of_neg (by linarith)] at h
      linarith
  have hγ := H.gap_pos
  have heps := H.eps_pos
  generalize hbr : (⟨br.upperBound, c + rcd, br.upperWeight,
    weightBelow eps coords uniform weights ids c⟩ : Bracket) = br'
  have b1 : br'.upperBound = br.upperBound := by rw [← hbr]
  have b2 : br'.lowerBound = c + rcd := by rw [← hbr]
  have b3 : br'.upperWeight = br.upperWeight := by rw [← hbr]
  have b4 : br'.lowerWeight = weightBelow eps coords uniform weights ids c := by rw [← hbr]
  have hlw : br'.lowerWeight ≤ total / 2 := by rw [b4]; linarith
  have huw : total / 2 ≤ br'.upperWeight := by rw [b3]; linarith [hI.upperWeight_ge]
  -- the invariant of the new bracket, from the light lower bound
  have hinv : br'.lowerBound ≤ br'.upperBound →
      (weightWhere uniform weights ids (fun i => decide (coords i < br'.lowerBound)) <
          total / 2 ∨
        (allow = false ∧
          weightBelow eps coords uniform weights ids br'.lowerBound < total / 2 ∧
          total / 2 ≤ weightUpTo eps coords uniform weights ids br'.lowerBound)) →
      MedianBracket eps minC maxC γ total allow coords uniform weights ids br'
        (pivotPos br' (total / 2)) := by
    intro hb hlight
    refine ⟨?_, pivotPos_lower_le br' _ hb hlw huw, pivotPos_le_upper br' _ hb hlw huw, ?_,
      ?_, ?_, ?_, ?_, ?_, hlight⟩
    · rw [b2]
      linarith [hI.lower_ge, hI.lower_le]
    · rw [b1]
      exact hI.upper_le
    · rw [b4]
      exact hL0
    · rw [b4]
      exact hLγ
    · rw [b3]
      exact hI.upperWeight_ge
    · rw [b3]
      exact hI.upperWeight_le
    · rw [b1]
      exact hI.upper_heavy
  by_cases hM : total / 2 ≤ weightUpTo eps coords uniform weights ids c
  · -- tie splitting is off and a point is on the cut
    have hallow : allow = false := by
      cases allow
      · rfl
      · exact absurd ⟨rfl, hM⟩ hnt
    have hon : ∃ a ∈ ids, |coords a - c| < eps := by
      have hlt : weightBelow eps coords uniform weights ids c <
          weightUpTo eps coords uniform weights ids c := lt_of_lt_of_le hL hM
      rw [weightBelow_eq_where, weightUpTo_eq_where] at hlt
      obtain ⟨a, ha, hq, hp⟩ := weightWhere_lt_exists uniform weights ids _ _ hwn hlt
      simp only [decide_eq_true_eq, decide_eq_false_iff_not, not_le] at hq hp
      exact ⟨a, ha, abs_lt.2 ⟨by linarith, by linarith⟩⟩
    have hr0 : rcd = 0 := r3 hon
    constructor
    · intro _
      unfold IsWeightedMedian
      rw [← H.total_eq]
      exact ⟨le_of_lt hL, hM⟩
    · intro hg
      have hb : br'.lowerBound ≤ br'.upperBound := by
        rw [b1, b2]
        exact not_lt.1 (fun h => hg (Or.inr h))
      refine hinv hb (Or.inr ⟨hallow, ?_, ?_⟩)
      · rw [b2, hr0, add_zero]
        exact hL
      · rw [b2, hr0, add_zero]
        exact hM
  · -- the weight up to the cut is below half: the guard does not fire
    have hM' : weightUpTo eps coords uniform weights ids c < total / 2 := not_le.1 hM
    obtain ⟨y, hy, hyu, hyc⟩ : ∃ y ∈ ids, coords y ≤ br.upperBound ∧ c + eps ≤ coords y := by
      have hlt := lt_trans hM' hI.upper_heavy
      rw [weightUpTo_eq_where] at hlt
      obtain ⟨a, ha, hq, hp⟩ := weightWhere_lt_exists uniform weights ids _ _ hwn hlt
      simp only [decide_eq_true_eq, decide_eq_false_iff_not, not_lt] at hq hp
      exact ⟨a, ha, hq, hp⟩
    have hry := r2 y hy hyc
    have hb : br'.lowerBound ≤ br'.upperBound := by
      rw [b1, b2]
      linarith
    have hfar : c + eps ≤ pivotPos br' (total / 2) := by
      by_cases hon : ∃ a ∈ ids, |coords a - c| < eps
      · obtain ⟨x, hx, hxc⟩ := hon
        have hr0 : rcd = 0 := r3 ⟨x, hx, hxc⟩
        rw [abs_lt] at hxc
        have hsep : δ ≤ coords y - coords x := by
          rcases H.separated y hy x hx with h | h
          · linarith [hxc.2]
          · rwa [abs_of_pos (by linarith [hxc.2])] at h
        have hδ : 0 < δ - eps := by
          have h1 := H.eps_small
          have h2 : 0 < eps * total := by
            have := totalWeight_pos uniform weights ids H.nonempty H.weight_pos
            rw [← H.total_eq] at this
            exact mul_pos heps this
          by_contra hneg
          have : (δ - eps) * γ ≤ 0 :=
            mul_nonpos_of_nonpos_of_nonneg (not_lt.1 hneg) (le_of_lt hγ)
          linarith
        have hp := pivotPos_far_lower br' (total / 2) eps total (le_of_lt heps)
          (by rw [b3, b4]; linarith [hI.upperWeight_ge])
          (by rw [b3, b4]; linarith [hI.upperWeight_le])
          (by
            rw [b1, b2, b4, hr0, add_zero]
            have h1 : δ - eps ≤ br.upperBound - c := by linarith [hxc.1]
            have h2 : γ ≤ total / 2 - weightBelow eps coords uniform weights ids c := by
              linarith
            have h3 : (δ - eps) * γ ≤
                (br.upperBound - c) *
                  (total / 2 - weightBelow eps coords uniform weights ids c) :=
              mul_le_mul h1 h2 (le_of_lt hγ) (by linarith)
            linarith [H.eps_small])
        rw [b2, hr0, add_zero] at hp
        exact hp
      · have hnone : ∀ a ∈ ids, ¬ |coords a - c| < eps :=
          fun a ha h => hon ⟨a, ha, h⟩
        have hre : eps ≤ rcd := r4 hnone ⟨y, hy, hyc, by
          have := (H.in_range y hy).2
          linarith [hI.lower_ge, hI.lower_le, hI.upper_le, H.range_lt]⟩
        have := pivotPos_lower_le br' (total / 2) hb hlw huw
        rw [b2] at this
        linarith
    have hng : ¬ (ABS (c - pivotPos br' (total / 2)) < eps ∨ br.upperBound < c + rcd) := by
      rintro (h | h)
      · rw [ABS_eq_abs, abs_lt] at h
        linarith [h.1]
      · rw [b1, b2] at hb
        linarith
    constructor
    · intro hg
      exact absurd hg hng
    · intro _
      refine hinv hb (Or.inl ?_)
      rw [b2]
      refine lt_of_le_of_lt ?_ hM'
      rw [weightUpTo_eq_where]
      apply weightWhere_mono uniform weights ids _ _ hwn
      intro i hi hlt
      simp only [decide_eq_true_eq] at hlt ⊢
      by_contra hc
      have := r2 i hi (not_lt.1 hc)
      linarith

/-- A cut with more than half of the weight on its left, in a bracket that satisfies the
invariant: with the upper bound moved to the cut minus the left closest distance, the guard
fires only when tie splitting is off and the lower bound is a weighted median, and
otherwise the invariant holds for the new bracket and the pivot. -/
theorem median_step_left
    (H : WellSeparated eps tol maxScalar minC maxC δ γ total coords uniform weights ids)
    (br : Bracket) (c lcd L : ℚ)
    (hLe : L = weightBelow eps coords uniform weights ids c)
    (hI : MedianBracket eps minC maxC γ total allow coords uniform weights ids br c)
    (hL : total / 2 < L)
    (r1 : 0 ≤ lcd) (r2 : ∀ a ∈ ids, coords a ≤ c - eps → lcd ≤ c - coords a)
    (r3 : (∃ a ∈ ids, |coords a - c| < eps) → lcd = 0)
    (r4 : (∀ a ∈ ids, ¬ |coords a - c| < eps) →
      (∃ a ∈ ids, coords a ≤ c - eps ∧ c - coords a < maxScalar) → eps ≤ lcd) :
    ((ABS (c - pivotPos ⟨c - lcd, br.lowerBound, L, br.lowerWeight⟩ (total / 2)) < eps ∨
        c - lcd < br.lowerBound) →
      allow = false ∧ IsWeightedMedian eps coords uniform weights ids br.lowerBound) ∧
    (¬ (ABS (c - pivotPos ⟨c - lcd, br.lowerBound, L, br.lowerWeight⟩ (total / 2)) < eps ∨
        c - lcd < br.lowerBound) →
      MedianBracket eps minC maxC γ total allow coords uniform weights ids
        ⟨c - lcd, br.lowerBound, L, br.lowerWeight⟩
        (pivotPos ⟨c - lcd, br.lowerBound, L, br.lowerWeight⟩ (total / 2))) := by
  subst hLe
  have hwn : ∀ i ∈ ids, 0 ≤ pointWeight uniform weights i :=
    fun i hi => le_of_lt (H.weight_pos i hi)
  have hLW : weightBelow eps coords uniform weights ids c ≤ total := by
    rw [H.total_eq]
    exact weightWhere_le_total uniform weights ids _ hwn
  have hLγ : total / 2 + γ ≤ weightBelow eps coords uniform weights ids c := by
    rcases H.gap c with h | h
    · rw [h] at hL
      exact absurd hL (lt_irrefl _)
    · rw [abs_of_pos (by linarith)] at h
      linarith
  have hγ := H.gap_pos
  have heps := H.eps_pos
  generalize hbr : (⟨c - lcd, br.lowerBound, weightBelow eps coords uniform weights ids c,
    br.lowerWeight⟩ : Bracket) = br'
  have b1 : br'.upperBound = c - lcd := by rw [← hbr]
  have b2 : br'.lowerBound = br.lowerBound := by rw [← hbr]
  have b3 : br'.upperWeight = weightBelow eps coords uniform weights ids c := by rw [← hbr]
  have b4 : br'.lowerWeight = br.lowerWeight := by rw [← hbr]
  have hlw : br'.lowerWeight ≤ total / 2 := by rw [b4]; linarith [hI.lowerWeight_le]
  have huw : total / 2 ≤ br'.upperWeight := by rw [b3]; linarith
  -- the invariant of the new bracket, when the bounds have not crossed
  have hinv : br'.lowerBound ≤ br'.upperBound →
      MedianBracket eps minC maxC γ total allow coords uniform weights ids br'
        (pivotPos br' (total / 2)) := by
    intro hb
    refine ⟨?_, pivotPos_lower_le br' _ hb hlw huw, pivotPos_le_upper br' _ hb hlw huw, ?_,
      ?_, ?_, ?_, ?_, ?_, ?_⟩
    · rw [b2]
      exact hI.lower_ge
    · rw [b1]
      linarith [hI.le_upper, hI.upper_le]
    · rw [b4]
      exact hI.lowerWeight_nonneg
    · rw [b4]
      exact hI.lowerWeight_le
    · rw [b3]
      exact hLγ
    · rw [b3]
      exact hLW
    · rw [b1]
      refine lt_of_lt_of_le hL ?_
      rw [weightBelow_eq_where]
      apply weightWhere_mono uniform weights ids _ _ hwn
      intro i hi hle
      simp only [decide_eq_true_eq] at hle ⊢
      have := r2 i hi hle
      linarith
    · rw [b2]
      exact hI.lower_light
  rcases hI.lower_light with hF | ⟨hallow, h1, h2⟩
  · -- less than half of the weight is below the lower bound: the guard does not fire
    obtain ⟨y, hy, hyc, hyl⟩ : ∃ y ∈ ids, coords y ≤ c - eps ∧ br.lowerBound ≤ coords y := by
      have hlt := lt_trans hF hL
      rw [weightBelow_eq_where] at hlt
      obtain ⟨a, ha, hq, hp⟩ := weightWhere_lt_exists uniform weights ids _ _ hwn hlt
      simp only [decide_eq_true_eq, decide_eq_false_iff_not, not_lt] at hq hp
      exact ⟨a, ha, hq, hp⟩
    have hry := r2 y hy hyc
    have hb : br'.lowerBound ≤ br'.upperBound := by
      rw [b1, b2]
      linarith
    have hfar : pivotPos br' (total / 2) + eps ≤ c := by
      by_cases hon : ∃ a ∈ ids, |coords a - c| < eps
      · obtain ⟨x, hx, hxc⟩ := hon
        have hr0 : lcd = 0 := r3 ⟨x, hx, hxc⟩
        rw [abs_lt] at hxc
        have hsep : δ ≤ coords x - coords y := by
          rcases H.separated x hx y hy with h | h
          · linarith [hxc.1]
          · rwa [abs_of_pos (by linarith [hxc.1])] at h
        have hp := pivotPos_far_upper br' (total / 2) eps total (le_of_lt heps)
          (by rw [b3, b4]; linarith [hI.lowerWeight_le])
          (by rw [b3, b4]; linarith [hI.lowerWeight_nonneg])
          (by
            rw [b1, b2, b3, hr0, sub_zero]
            have h1 : δ - eps ≤ c - br.lowerBound := by linarith [hxc.2]
            have h2 : γ ≤ weightBelow eps coords uniform weights ids c - total / 2 := by
              linarith
            have hδ : 0 ≤ c - br.lowerBound := by linarith [hI.lower_le]
            have h3 : (δ - eps) * γ ≤
                (c - br.lowerBound) *
                  (weightBelow eps coords uniform weights ids c - total / 2) :=
              mul_le_mul h1 h2 (le_of_lt hγ) hδ
            linarith [H.eps_small])
        rw [b1, hr0, sub_zero] at hp
        exact hp
      · have hnone : ∀ a ∈ ids, ¬ |coords a - c| < eps :=
          fun a ha h => hon ⟨a, ha, h⟩
        have hre : eps ≤ lcd := r4 hnone ⟨y, hy, hyc, by
          have := (H.in_range y hy).1
          linarith [hI.le_upper, hI.upper_le, H.range_lt]⟩
        have := pivotPos_le_upper br' (total / 2) hb hlw huw
        rw [b1] at this
        linarith
    have hng : ¬ (ABS (c - pivotPos br' (total / 2)) < eps ∨ c - lcd < br.lowerBound) := by
      rintro (h | h)
      · rw [ABS_eq_abs, abs_lt] at h
        linarith [h.2]
      · rw [b1, b2] at hb
        linarith
    exact ⟨fun hg => absurd hg hng, fun _ => hinv hb⟩
  · -- tie splitting is off and the lower bound is a weighted median
    constructor
    · intro _
      refine ⟨hallow, ?_⟩
      unfold IsWeightedMedian
      rw [← H.total_eq]
      exact ⟨le_of_lt h1, h2⟩
    · intro hg
      apply hinv
      rw [b1, b2]
      exact not_lt.1 (fun h => hg (Or.inr h))

end MedianStep
section MedianCut

variable (eps tol maxScalar minC maxC δ γ total : ℚ) (coords : Nat → ℚ) (uniform : Bool)
  (weights : Nat → ℚ) (ids : List Nat) (allow : Bool) (gpw lpw ratios cuts : Nat → ℚ)

/-- The end of the branches that move a cut, with the counter and the bracket. -/
theorem moveTo_cases (s : CutState) (i : Nat) (br : Bracket) (ew : ℚ) :
    ((ABS (cuts i - pivotPos br ew) < eps ∨ br.upperBound < br.lowerBound) →
      (s.moveTo eps cuts i br ew).isDone i = true ∧
      (s.moveTo eps cuts i br ew).newCutCoordinates i = cuts i ∧
      (s.moveTo eps cuts i br ew).myNoneDoneCount = s.myNoneDoneCount - 1 ∧
      (s.moveTo eps cuts i br ew).bracket i = br) ∧
    (¬ (ABS (cuts i - pivotPos br ew) < eps ∨ br.upperBound < br.lowerBound) →
      (s.moveTo eps cuts i br ew).isDone i = s.isDone i ∧
      (s.moveTo eps cuts i br ew).newCutCoordinates i = pivotPos br ew ∧
      (s.moveTo eps cuts i br ew).myNoneDoneCount = s.myNoneDoneCount ∧
      (s.moveTo eps cuts i br ew).bracket i = br) := by
  obtain ⟨g1, g2⟩ := moveTo_guard eps cuts s i br ew
  have hb := moveTo_bracket eps cuts s i br ew
  have he : eps * EPS_SCALE = eps := by
    unfold EPS_SCALE
    ring
  constructor
  · intro hg
    refine ⟨(g1 hg).1, (g1 hg).2, ?_, hb⟩
    unfold CutState.moveTo
    dsimp only
    rw [he, if_pos hg]
    rfl
  · intro hg
    refine ⟨(g2 hg).1, (g2 hg).2, ?_, hb⟩
    unfold CutState.moveTo
    dsimp only
    rw [he, if_neg hg]
    rfl

/-- The loop body of `getNewCoordinates` for a single cut with the target ratio 1/2 that is
Active, on the brute-force weights of well-separated points and a bracket that satisfies
the invariant: the cut stays Active and the invariant holds for the new bracket and the new
coordinate, or the cut is Done at a weighted median, or tie splitting is off, the cut is
Done and the lower bound of its bracket is a weighted median. -/
theorem processCut_median_step
    (H : WellSeparated eps tol maxScalar minC maxC δ γ total coords uniform weights ids)
    (s : CutState) (hr : ratios 0 = 1 / 2) (hd : s.isDone 0 = false)
    (hg0 : gpw 0 = weightBelow eps coords uniform weights ids (cuts 0))
    (hg1 : gpw 1 = weightUpTo eps coords uniform weights ids (cuts 0))
    (hI : MedianBracket eps minC maxC γ total allow coords uniform weights ids (s.bracket 0)
      (cuts 0))
    (l1 : 0 ≤ s.leftClosestDistance 0)
    (l2 : ∀ a ∈ ids, coords a ≤ cuts 0 - eps → s.leftClosestDistance 0 ≤ cuts 0 - coords a)
    (l3 : (∃ a ∈ ids, |coords a - cuts 0| < eps) → s.leftClosestDistance 0 = 0)
    (l4 : (∀ a ∈ ids, ¬ |coords a - cuts 0| < eps) →
      (∃ a ∈ ids, coords a ≤ cuts 0 - eps ∧ cuts 0 - coords a < maxScalar) →
      eps ≤ s.leftClosestDistance 0)
    (r1 : 0 ≤ s.rightClosestDistance 0)
    (r2 : ∀ a ∈ ids, cuts 0 + eps ≤ coords a → s.rightClosestDistance 0 ≤ coords a - cuts 0)
    (r3 : (∃ a ∈ ids, |coords a - cuts 0| < eps) → s.rightClosestDistance 0 = 0)
    (r4 : (∀ a ∈ ids, ¬ |coords a - cuts 0| < eps) →
      (∃ a ∈ ids, cuts 0 + eps ≤ coords a ∧ coords a - cuts 0 < maxScalar) →
      eps ≤ s.rightClosestDistance 0) :
    ((processCut eps 1 total tol gpw lpw ratios cuts allow s 0).isDone 0 = false ∧
      (processCut eps 1 total tol gpw lpw ratios cuts allow s 0).myNoneDoneCount =
        s.myNoneDoneCount ∧
      MedianBracket eps minC maxC γ total allow coords uniform weights ids
        ((processCut eps 1 total tol gpw lpw ratios cuts allow s 0).bracket 0)
        ((processCut eps 1 total tol gpw lpw ratios cuts allow s 0).newCutCoordinates 0)) ∨
    ((processCut eps 1 total tol gpw lpw ratios cuts allow s 0).isDone 0 = true ∧
      (processCut eps 1 total tol gpw lpw ratios cuts allow s 0).myNoneDoneCount =
        s.myNoneDoneCount - 1 ∧
      (processCut eps 1 total tol gpw lpw ratios cuts allow s 0).newCutCoordinates 0 =
        cuts 0 ∧
      (IsWeightedMedian eps coords uniform weights ids (cuts 0) ∨
        (allow = false ∧ IsWeightedMedian eps coords uniform weights ids
          ((processCut eps 1 total tol gpw lpw ratios cuts allow s 0).bracket
            0).lowerBound))) := by
  have hwn : ∀ i ∈ ids, 0 ≤ pointWeight uniform weights i :=
    fun i hi => le_of_lt (H.weight_pos i hi)
  have hT : 0 < total := by
    rw [H.total_eq]
    exact totalWeight_pos uniform weights ids H.nonempty H.weight_pos
  have hE : total * toFloat (ratios 0) = total / 2 := by
    rw [hr, toFloat_half]
    ring
  have hE1 : total * toFloat (1 - toFloat (ratios 0)) = total / 2 := by
    have hh : toFloat (1 - 1 / 2) = 1 / 2 := by decide!
    rw [hr, toFloat_half, hh]
    ring
  have hLM : weightBelow eps coords uniform weights ids (cuts 0) ≤
      weightUpTo eps coords uniform weights ids (cuts 0) := by
    rw [weightBelow_eq_where, weightUpTo_eq_where]
    apply weightWhere_mono uniform weights ids _ _ hwn
    intro i _ h
    simp only [decide_eq_true_eq] at h ⊢
    linarith [H.eps_pos]
  have z0 : (0 * 2 : Nat) = 0 := rfl
  have z1 : (0 * 2 + 1 : Nat) = 1 := rfl
  have himb : imbalanceOf (gpw 0) total (toFloat (ratios 0)) < 0 ↔ gpw 0 < total / 2 := by
    unfold imbalanceOf
    rw [hE]
    have h2 : (0 : ℚ) < total / 2 := by linarith
    constructor
    · intro h
      have : gpw 0 / (total / 2) < 1 := by linarith
      exact (div_lt_one h2).1 this
    · intro h
      have := (div_lt_one h2).2 h
      linarith
  unfold processCut
  dsimp only
  rw [hd, if_neg (by simp), z0, z1]
  by_cases hw : withinTolerance eps total tol gpw ratios 0 = true
  · rw [if_pos hw]
    right
    refine ⟨by simp [CutState.markDone], rfl, by simp [CutState.markDone], Or.inl ?_⟩
    obtain ⟨h1, _⟩ := (withinTolerance_iff eps total tol gpw ratios 0).1 hw
    rw [z0, hE, hg0] at h1
    have h2 : (0 : ℚ) < total / 2 := by linarith
    have h3 : |weightBelow eps coords uniform weights ids (cuts 0) / (total / 2) - 1| <
        tol + eps := by linarith
    rw [abs_lt] at h3
    have h4 : weightBelow eps coords uniform weights ids (cuts 0) / (total / 2) <
        1 + (tol + eps) := by linarith [h3.2]
    have h5 : 1 - (tol + eps) <
        weightBelow eps coords uniform weights ids (cuts 0) / (total / 2) := by
      linarith [h3.1]
    rw [div_lt_iff₀ h2] at h4
    rw [lt_div_iff₀ h2] at h5
    have h6 : weightBelow eps coords uniform weights ids (cuts 0) = total / 2 := by
      rcases H.gap (cuts 0) with h | h
      · exact h
      · exfalso
        have h7 : |weightBelow eps coords uniform weights ids (cuts 0) - total / 2| < γ := by
          rw [abs_lt]
          constructor <;> nlinarith [H.tol_small]
        linarith
    unfold IsWeightedMedian
    rw [← H.total_eq, ← h6]
    exact ⟨le_refl _, hLM⟩
  · rw [if_neg hw]
    have hne : gpw 0 ≠ total / 2 := by
      intro h
      apply hw
      rw [withinTolerance_iff, z0, hE, hE1, h]
      have h2 : total / 2 ≠ 0 := by linarith
      have e1 : total / 2 / (total / 2) - 1 = 0 := by
        rw [div_self h2]
        ring
      have e2 : (total - total / 2) / (total / 2) - 1 = 0 := by
        have : total - total / 2 = total / 2 := by ring
        rw [this, div_self h2]
        ring
      rw [e1, e2, abs_zero]
      constructor <;> linarith [H.tol_nonneg, H.eps_pos]
    by_cases hl : imbalanceOf (gpw 0) total (toFloat (ratios 0)) < 0
    · rw [if_pos hl, hE]
      have hlt : gpw 0 < total / 2 := himb.1 hl
      have hmed : total / 2 ≤ gpw 1 → IsWeightedMedian eps coords uniform weights ids
          (cuts 0) := by
        intro h
        unfold IsWeightedMedian
        rw [← H.total_eq, ← hg0, ← hg1]
        exact ⟨le_of_lt hlt, h⟩
      by_cases t1 : allow = true ∧ gpw 1 = total / 2
      · rw [if_pos t1]
        right
        exact ⟨by simp [CutState.markDone], rfl, by simp [CutState.markDone],
          Or.inl (hmed (le_of_eq t1.2.symm))⟩
      · rw [if_neg t1]
        by_cases t2 : allow = true ∧ gpw 1 > total / 2
        · rw [if_pos t2]
          right
          exact ⟨by simp [CutState.markDone], rfl, by simp [CutState.markDone],
            Or.inl (hmed (le_of_lt t2.2))⟩
        · rw [if_neg t2]
          have hnt : ¬ (allow = true ∧ total / 2 ≤ gpw 1) := by
            rintro ⟨ha, hm⟩
            rcases eq_or_lt_of_le hm with h | h
            · exact t1 ⟨ha, h.symm⟩
            · exact t2 ⟨ha, h⟩
          obtain ⟨m1, m2⟩ := median_step_right eps tol maxScalar minC maxC δ γ total coords
            uniform weights ids allow H (s.bracket 0) (cuts 0) (s.rightClosestDistance 0)
            (gpw 0) (gpw 1) hg0 hg1 hI hlt hnt r1 r2 r3 r4
          obtain ⟨c1, c2⟩ := moveTo_cases eps cuts
            ({ s with
              globalCutWeights := Function.update s.globalCutWeights 0 0
              localCutWeights := Function.update s.localCutWeights 0 0 } : CutState) 0
            ⟨(s.bracket 0).upperBound, cuts 0 + s.rightClosestDistance 0,
              (s.bracket 0).upperWeight, gpw 0⟩ (total / 2)
          by_cases hg : ABS (cuts 0 - pivotPos ⟨(s.bracket 0).upperBound,
              cuts 0 + s.rightClosestDistance 0, (s.bracket 0).upperWeight, gpw 0⟩
              (total / 2)) < eps ∨ (s.bracket 0).upperBound < cuts 0 + s.rightClosestDistance 0
          · right
            obtain ⟨d1, d2, d3, _⟩ := c1 hg
            exact ⟨d1, d3, d2, Or.inl (m1 hg)⟩
          · left
            obtain ⟨d1, d2, d3, d4⟩ := c2 hg
            refine ⟨d1.trans hd, d3, ?_⟩
            have := m2 hg
            exact (by rw [d4, d2]; exact this :
              MedianBracket eps minC maxC γ total allow coords uniform weights ids
                ((CutState.moveTo _ eps cuts 0
                  ⟨(s.bracket 0).upperBound, cuts 0 + s.rightClosestDistance 0,
                    (s.bracket 0).upperWeight, gpw 0⟩ (total / 2)).bracket 0)
                ((CutState.moveTo _ eps cuts 0
                  ⟨(s.bracket 0).upperBound, cuts 0 + s.rightClosestDistance 0,
                    (s.bracket 0).upperWeight, gpw 0⟩ (total / 2)).newCutCoordinates 0))
    · rw [if_neg hl, hE]
      have hgt : total / 2 < gpw 0 := by
        rcases lt_trichotomy (gpw 0) (total / 2) with h | h | h
        · exact absurd (himb.2 h) hl
        · exact absurd h hne
        · exact h
      obtain ⟨m1, m2⟩ := median_step_left eps tol maxScalar minC maxC δ γ total coords
        uniform weights ids allow H (s.bracket 0) (cuts 0) (s.leftClosestDistance 0)
        (gpw 0) hg0 hI hgt l1 l2 l3 l4
      obtain ⟨c1, c2⟩ := moveTo_cases eps cuts
        ({ s with
          globalCutWeights := Function.update s.globalCutWeights 0 0
          localCutWeights := Function.update s.localCutWeights 0 0 } : CutState) 0
        ⟨cuts 0 - s.leftClosestDistance 0, (s.bracket 0).lowerBound, gpw 0,
          (s.bracket 0).lowerWeight⟩ (total / 2)
      by_cases hg : ABS (cuts 0 - pivotPos ⟨cuts 0 - s.leftClosestDistance 0,
          (s.bracket 0).lowerBound, gpw 0, (s.bracket 0).lowerWeight⟩ (total / 2)) < eps ∨
          cuts 0 - s.leftClosestDistance 0 < (s.bracket 0).lowerBound
      · right
        obtain ⟨d1, d2, d3, d4⟩ := c1 hg
        refine ⟨d1, d3, d2, Or.inr ?_⟩
        have := m1 hg
        exact ⟨this.1, (by rw [d4]; exact this.2 :
          IsWeightedMedian eps coords uniform weights ids
            ((CutState.moveTo _ eps cuts 0
              ⟨cuts 0 - s.leftClosestDistance 0, (s.bracket 0).lowerBound, gpw 0,
                (s.bracket 0).lowerWeight⟩ (total / 2)).bracket 0).lowerBound)⟩
      · left
        obtain ⟨d1, d2, d3, d4⟩ := c2 hg
        refine ⟨d1.trans hd, d3, ?_⟩
        have := m2 hg
        exact (by rw [d4, d2]; exact this :
          MedianBracket eps minC maxC γ total allow coords uniform weights ids
            ((CutState.moveTo _ eps cuts 0
              ⟨cuts 0 - s.leftClosestDistance 0, (s.bracket 0).lowerBound, gpw 0,
                (s.bracket 0).lowerWeight⟩ (total / 2)).bracket 0)
            ((CutState.moveTo _ eps cuts 0
              ⟨cuts 0 - s.leftClosestDistance 0, (s.bracket 0).lowerBound, gpw 0,
                (s.bracket 0).lowerWeight⟩ (total / 2)).newCutCoordinates 0))

/-- The function `getNewCoordinates` for a single cut with the target ratio 1/2 that is
Active, on the brute-force weights and the closest distances of well-separated points and a
bracket that satisfies the invariant: the cut stays Active and the invariant holds for the
new bracket and the new coordinate, or the cut is Done at a weighted median, or tie
splitting is off, the cut is Done and the lower bound of its bracket is a weighted
median. -/
theorem getNewCoordinates_median_step
    (H : WellSeparated eps tol maxScalar minC maxC δ γ total coords uniform weights ids)
    (lowerRanks : List (Nat → ℚ)) (s : CutState) (hr : ratios 0 = 1 / 2)
    (hd : s.isDone 0 = false)
    (hg0 : gpw 0 = weightBelow eps coords uniform weights ids (cuts 0))
    (hg1 : gpw 1 = weightUpTo eps coords uniform weights ids (cuts 0))
    (hI : MedianBracket eps minC maxC γ total allow coords uniform weights ids (s.bracket 0)
      (cuts 0))
    (hlc : ClosestOf maxScalar ids (fun a => |coords a - cuts 0| < eps)
      (fun a => coords a ≤ cuts 0 - eps) (fun a => cuts 0 - coords a)
      (s.leftClosestDistance 0))
    (hrc : ClosestOf maxScalar ids (fun a => |coords a - cuts 0| < eps)
      (fun a => cuts 0 + eps ≤ coords a) (fun a => coords a - cuts 0)
      (s.rightClosestDistance 0)) :
    ((getNewCoordinates eps 1 total tol maxScalar gpw lpw ratios cuts allow lowerRanks
        s).isDone 0 = false ∧
      (getNewCoordinates eps 1 total tol maxScalar gpw lpw ratios cuts allow lowerRanks
        s).myNoneDoneCount = s.myNoneDoneCount ∧
      MedianBracket eps minC maxC γ total allow coords uniform weights ids
        ((getNewCoordinates eps 1 total tol maxScalar gpw lpw ratios cuts allow lowerRanks
          s).bracket 0)
        ((getNewCoordinates eps 1 total tol maxScalar gpw lpw ratios cuts allow lowerRanks
          s).newCutCoordinates 0)) ∨
    ((getNewCoordinates eps 1 total tol maxScalar gpw lpw ratios cuts allow lowerRanks
        s).isDone 0 = true ∧
      (getNewCoordinates eps 1 total tol maxScalar gpw lpw ratios cuts allow lowerRanks
        s).myNoneDoneCount = s.myNoneDoneCount - 1 ∧
      (getNewCoordinates eps 1 total tol maxScalar gpw lpw ratios cuts allow lowerRanks
        s).newCutCoordinates 0 = cuts 0 ∧
      (IsWeightedMedian eps coords uniform weights ids (cuts 0) ∨
        (allow = false ∧ IsWeightedMedian eps coords uniform weights ids
          ((getNewCoordinates eps 1 total tol maxScalar gpw lpw ratios cuts allow lowerRanks
            s).bracket 0).lowerBound))) := by
  obtain ⟨a1, a2, a3, a4⟩ := getNewCoordinates_agree_loop eps 1 total tol maxScalar gpw lpw
    ratios cuts allow lowerRanks s 0
  rw [a1, a2, a3, a4]
  have hloop : getNewCoordinatesLoop eps 1 total tol maxScalar gpw lpw ratios cuts allow s =
      processCut eps 1 total tol gpw lpw ratios cuts allow (s.resetClosest 1 maxScalar) 0 :=
    rfl
  rw [hloop]
  obtain ⟨l1, l2, l3, l4⟩ := resetClosest_facts eps maxScalar ids
    (fun a => |coords a - cuts 0| < eps) (fun a => coords a ≤ cuts 0 - eps)
    (fun a => cuts 0 - coords a) s.leftClosestDistance H.eps_pos
    (fun a _ h => by
      have h' : coords a ≤ cuts 0 - eps := h
      show eps ≤ cuts 0 - coords a
      linarith) hlc
  obtain ⟨r1, r2, r3, r4⟩ := resetClosest_facts eps maxScalar ids
    (fun a => |coords a - cuts 0| < eps) (fun a => cuts 0 + eps ≤ coords a)
    (fun a => coords a - cuts 0) s.rightClosestDistance H.eps_pos
    (fun a _ h => by
      have h' : cuts 0 + eps ≤ coords a := h
      show eps ≤ coords a - cuts 0
      linarith) hrc
  exact processCut_median_step eps tol maxScalar minC maxC δ γ total coords uniform weights
    ids allow gpw lpw ratios cuts H (s.resetClosest 1 maxScalar) hr hd hg0 hg1 hI
    l1 l2 l3 l4 r1 r2 r3 r4

end MedianCut
section MedianSolver

variable (inp : SolverInput)

/-- The closest distances the classification of the only part of a window with one cut
leaves for the cut. -/
theorem classifyPart_one_closest (heps : 0 < inp.eps) (hms : 0 ≤ inp.maxScalar)
    (hpv : inp.pVector (inp.currentPartBeginIndex + 0) = 2) (s : SolverState)
    (hc : s.myNonDoneCounts 0 > 0) :
    ClosestOf inp.maxScalar inp.firstPartIds
      (fun a => |inp.pqJagged_coordinates a - s.cutCoordinates_tmp 0| < inp.eps)
      (fun a => inp.pqJagged_coordinates a ≤ s.cutCoordinates_tmp 0 - inp.eps)
      (fun a => s.cutCoordinates_tmp 0 - inp.pqJagged_coordinates a)
      ((classifyPart inp s 0).leftClosestDistance 0) ∧
    ClosestOf inp.maxScalar inp.firstPartIds
      (fun a => |inp.pqJagged_coordinates a - s.cutCoordinates_tmp 0| < inp.eps)
      (fun a => s.cutCoordinates_tmp 0 + inp.eps ≤ inp.pqJagged_coordinates a)
      (fun a => inp.pqJagged_coordinates a - s.cutCoordinates_tmp 0)
      ((classifyPart inp s 0).rightClosestDistance 0) := by
  obtain ⟨g1, g2⟩ := getPartWeights_one_closest inp.eps inp.pqJagged_coordinates
    inp.pqJagged_uniformWeights inp.pqJagged_weights (view s.cutCoordinates_tmp 0) heps
    inp.maxScalar hms (partBegin inp.inTotalCounts inp.currentPartBeginIndex)
    (inp.inTotalCounts inp.currentPartBeginIndex) inp.partitionedPointPermutations
    { myPartWeights := view s.partWeights 0
      myLeftClosest := view s.leftClosestDistance 0
      myRightClosest := view s.rightClosestDistance 0
      partIds := s.partIds }
  unfold classifyPart
  dsimp only
  rw [if_pos hc, hpv, windowShifts_zero]
  exact ⟨g1, g2⟩

/-- The classification leaves the arrays of the cuts. -/
theorem classifyPart_cuts (s : SolverState) (kk : Nat) :
    (classifyPart inp s kk).cutUpperBounds = s.cutUpperBounds ∧
    (classifyPart inp s kk).cutLowerBounds = s.cutLowerBounds ∧
    (classifyPart inp s kk).cutUpperWeight = s.cutUpperWeight ∧
    (classifyPart inp s kk).cutLowerWeight = s.cutLowerWeight := by
  unfold classifyPart
  dsimp only
  split_ifs <;> exact ⟨rfl, rfl, rfl, rfl⟩

/-- For the only part of a window with one cut that is not done, the closest distances of
the cut go to the entries 3 and 4 of the reduction buffer. -/
theorem accumulateThreadResults_one_closest (hcp : inp.concurrentPartCount = 1)
    (hpv : inp.pVector (inp.currentPartBeginIndex + 0) = 2) (s : SolverState)
    (hd : s.isDone 0 = false) :
    (accumulateThreadResults inp s).local_totalPartWeights_leftClosest_rightCloset 3 =
      s.leftClosestDistance 0 ∧
    (accumulateThreadResults inp s).local_totalPartWeights_leftClosest_rightCloset 4 =
      s.rightClosestDistance 0 := by
  have h1 : (accumulateClosest inp s 0).local_totalPartWeights_leftClosest_rightCloset 3 =
        s.leftClosestDistance 0 ∧
      (accumulateClosest inp s 0).local_totalPartWeights_leftClosest_rightCloset 4 =
        s.rightClosestDistance 0 := by
    unfold accumulateClosest
    dsimp only
    rw [hpv, windowShifts_zero]
    have hr : List.range (2 - 1) = [0] := rfl
    rw [hr]
    simp [hd]
  unfold accumulateThreadResults
  rw [hcp]
  have hr1 : List.range 1 = [0] := rfl
  rw [hr1]
  simp only [List.foldl_cons, List.foldl_nil]
  generalize accumulateClosest inp s 0 = u at h1
  rw [← h1.1, ← h1.2]
  unfold accumulateWeights
  dsimp only
  rw [hpv, windowShifts_zero]
  have hr : List.range (2 + (2 - 1)) = [0, 1, 2] := rfl
  rw [hr]
  simp only [List.foldl_cons, List.foldl_nil]
  constructor <;> split_ifs <;> simp

/-- On a single process the reduction copies the five entries of the reduction buffer of a
part with one cut. -/
theorem reduceAllRanks_one_at (hcp : inp.concurrentPartCount = 1)
    (hpv : inp.pVector (inp.currentPartBeginIndex + 0) = 2) (it : Nat)
    (hlow : inp.lowerRanks it = []) (hup : inp.upperRanks it = []) (s : SolverState)
    (x : Nat) (hx : x < 5) :
    (reduceAllRanks inp it s).global_totalPartWeights_leftClosest_rightCloset x =
      s.local_totalPartWeights_leftClosest_rightCloset x := by
  have ht : totalReductionSize inp = 5 := by
    unfold totalReductionSize
    rw [hcp]
    have hr1 : List.range 1 = [0] := rfl
    rw [hr1]
    have hpv1 : inp.pVector inp.currentPartBeginIndex = 2 := hpv
    simp [hpv1]
  unfold reduceAllRanks
  dsimp only
  rw [hlow, hup, ht]
  simp [hx]

end MedianSolver
section MedianSolver2

variable (inp : SolverInput)

/-- The second loop body of an iteration for the only part of a window, with one cut: what
it stores is what `getNewCoordinates` returns for the arrays of the cut. -/
theorem solvePart_one_eq (hcp : inp.concurrentPartCount = 1)
    (hpv : inp.pVector (inp.currentPartBeginIndex + 0) = 2) (it : Nat) (s : SolverState)
    (hcnt : s.myNonDoneCounts 0 ≠ 0) :
    (solvePart inp it s 0).isDone 0 =
      (getNewCoordinates inp.eps 1 (inp.globalMinMaxTotal 2) inp.imbalanceTolerance
        inp.maxScalar s.global_totalPartWeights_leftClosest_rightCloset
        s.local_totalPartWeights_leftClosest_rightCloset inp.targetPartWeightRatios
        s.cutCoordinates_tmp inp.allowNonRectelinearPart
        ((inp.lowerRanks it).map (fun other => other)) s.firstCutState).isDone 0 ∧
    (⟨(solvePart inp it s 0).cutUpperBounds 0, (solvePart inp it s 0).cutLowerBounds 0,
        (solvePart inp it s 0).cutUpperWeight 0, (solvePart inp it s 0).cutLowerWeight 0⟩ :
        Bracket) =
      (getNewCoordinates inp.eps 1 (inp.globalMinMaxTotal 2) inp.imbalanceTolerance
        inp.maxScalar s.global_totalPartWeights_leftClosest_rightCloset
        s.local_totalPartWeights_leftClosest_rightCloset inp.targetPartWeightRatios
        s.cutCoordinates_tmp inp.allowNonRectelinearPart
        ((inp.lowerRanks it).map (fun other => other)) s.firstCutState).bracket 0 ∧
    (if s.swapped then (solvePart inp it s 0).cutCoordinates 0
      else (solvePart inp it s 0).cutCoordinatesWork 0) =
      (getNewCoordinates inp.eps 1 (inp.globalMinMaxTotal 2) inp.imbalanceTolerance
        inp.maxScalar s.global_totalPartWeights_leftClosest_rightCloset
        s.local_totalPartWeights_leftClosest_rightCloset inp.targetPartWeightRatios
        s.cutCoordinates_tmp inp.allowNonRectelinearPart
        ((inp.lowerRanks it).map (fun other => other)) s.firstCutState).newCutCoordinates 0 ∧
    (solvePart inp it s 0).myNonDoneCounts 0 =
      (getNewCoordinates inp.eps 1 (inp.globalMinMaxTotal 2) inp.imbalanceTolerance
        inp.maxScalar s.global_totalPartWeights_leftClosest_rightCloset
        s.local_totalPartWeights_leftClosest_rightCloset inp.targetPartWeightRatios
        s.cutCoordinates_tmp inp.allowNonRectelinearPart
        ((inp.lowerRanks it).map (fun other => other)) s.firstCutState).myNoneDoneCount ∧
    (solvePart inp it s 0).allDone = s.allDone - (s.myNonDoneCounts 0 -
      (getNewCoordinates inp.eps 1 (inp.globalMinMaxTotal 2) inp.imbalanceTolerance
        inp.maxScalar s.global_totalPartWeights_leftClosest_rightCloset
        s.local_totalPartWeights_leftClosest_rightCloset inp.targetPartWeightRatios
        s.cutCoordinates_tmp inp.allowNonRectelinearPart
        ((inp.lowerRanks it).map (fun other => other)) s.firstCutState).myNoneDoneCount) ∧
    (solvePart inp it s 0).swapped = s.swapped := by
  unfold solvePart SolverState.firstCutState
  dsimp only
  rw [if_neg hcnt, hpv, hcp, windowShifts_zero]
  simp only [view_zero, unview_zero, Nat.zero_add, Nat.add_zero, Nat.one_mul,
    show (2 : Nat) - 1 = 1 from rfl, show (2 : Nat) + 1 = 3 from rfl,
    show (3 : Nat) + 1 = 4 from rfl, Function.update_same]
  refine ⟨?_, ?_, ?_, ?_, ?_, ?_⟩ <;> first | trivial | rfl | (split_ifs <;> rfl)

end MedianSolver2
section MedianSolver3

variable (inp : SolverInput)

/-- The state before the second loop of an iteration, for a window of one part with one cut
that is Active, on one process: the arrays of the cut are the ones on entry, and the
reduced buffer holds the brute-force weights at the cut and the closest distances. -/
theorem preSolve_one (heps : 0 < inp.eps) (hms : 0 ≤ inp.maxScalar)
    (hcp : inp.concurrentPartCount = 1)
    (hpv : inp.pVector (inp.currentPartBeginIndex + 0) = 2) (it : Nat)
    (hlow : inp.lowerRanks it = []) (hup : inp.upperRanks it = []) (s : SolverState)
    (hcnt : s.myNonDoneCounts 0 = 1) (hd : s.isDone 0 = false) :
    (reduceAllRanks inp it (accumulateThreadResults inp (classifyPart inp s 0))).isDone =
      s.isDone ∧
    (reduceAllRanks inp it
      (accumulateThreadResults inp (classifyPart inp s 0))).myNonDoneCounts =
      s.myNonDoneCounts ∧
    (reduceAllRanks inp it (accumulateThreadResults inp (classifyPart inp s 0))).allDone =
      s.allDone ∧
    (reduceAllRanks inp it
      (accumulateThreadResults inp (classifyPart inp s 0))).cutCoordinates_tmp =
      s.cutCoordinates_tmp ∧
    (reduceAllRanks inp it (accumulateThreadResults inp (classifyPart inp s 0))).swapped =
      s.swapped ∧
    (reduceAllRanks inp it
      (accumulateThreadResults inp (classifyPart inp s 0))).firstCutState.bracket 0 =
      ⟨s.cutUpperBounds 0, s.cutLowerBounds 0, s.cutUpperWeight 0, s.cutLowerWeight 0⟩ ∧
    (reduceAllRanks inp it (accumulateThreadResults inp
      (classifyPart inp s 0))).global_totalPartWeights_leftClosest_rightCloset 0 =
      weightBelow inp.eps inp.pqJagged_coordinates inp.pqJagged_uniformWeights
        inp.pqJagged_weights inp.firstPartIds (s.cutCoordinates_tmp 0) ∧
    (reduceAllRanks inp it (accumulateThreadResults inp
      (classifyPart inp s 0))).global_totalPartWeights_leftClosest_rightCloset 1 =
      weightUpTo inp.eps inp.pqJagged_coordinates inp.pqJagged_uniformWeights
        inp.pqJagged_weights inp.firstPartIds (s.cutCoordinates_tmp 0) ∧
    ClosestOf inp.maxScalar inp.firstPartIds
      (fun a => |inp.pqJagged_coordinates a - s.cutCoordinates_tmp 0| < inp.eps)
      (fun a => inp.pqJagged_coordinates a ≤ s.cutCoordinates_tmp 0 - inp.eps)
      (fun a => s.cutCoordinates_tmp 0 - inp.pqJagged_coordinates a)
      ((reduceAllRanks inp it (accumulateThreadResults inp
        (classifyPart inp s 0))).global_totalPartWeights_leftClosest_rightCloset 3) ∧
    ClosestOf inp.maxScalar inp.firstPartIds
      (fun a => |inp.pqJagged_coordinates a - s.cutCoordinates_tmp 0| < inp.eps)
      (fun a => s.cutCoordinates_tmp 0 + inp.eps ≤ inp.pqJagged_coordinates a)
      (fun a => inp.pqJagged_coordinates a - s.cutCoordinates_tmp 0)
      ((reduceAllRanks inp it (accumulateThreadResults inp
        (classifyPart inp s 0))).global_totalPartWeights_leftClosest_rightCloset 4) := by
  obtain ⟨c1, c2, c3, c4, c5, c6, c7, c8⟩ := classifyPart_one inp heps hpv s
    (by rw [hcnt]; decide)
  obtain ⟨k1, k2⟩ := classifyPart_one_closest inp heps hms hpv s (by rw [hcnt]; decide)
  obtain ⟨b1, b2, b3, b4⟩ := classifyPart_cuts inp s 0
  have hf := accumulateThreadResults_frame inp (classifyPart inp s 0)
  have a3 : (accumulateThreadResults inp (classifyPart inp s 0)).isDone = s.isDone :=
    (congrArg SolverState.isDone hf).trans c3
  have a4 : (accumulateThreadResults inp (classifyPart inp s 0)).myNonDoneCounts =
      s.myNonDoneCounts := (congrArg SolverState.myNonDoneCounts hf).trans c4
  have a5 : (accumulateThreadResults inp (classifyPart inp s 0)).allDone = s.allDone :=
    (congrArg SolverState.allDone hf).trans c5
  have a6 : (accumulateThreadResults inp (classifyPart inp s 0)).cutCoordinates =
      s.cutCoordinates := (congrArg SolverState.cutCoordinates hf).trans c6
  have a7 : (accumulateThreadResults inp (classifyPart inp s 0)).cutCoordinatesWork =
      s.cutCoordinatesWork := (congrArg SolverState.cutCoordinatesWork hf).trans c7
  have a8 : (accumulateThreadResults inp (classifyPart inp s 0)).swapped = s.swapped :=
    (congrArg SolverState.swapped hf).trans c8
  have d1 : (accumulateThreadResults inp (classifyPart inp s 0)).cutUpperBounds =
      s.cutUpperBounds := (congrArg SolverState.cutUpperBounds hf).trans b1
  have d2 : (accumulateThreadResults inp (classifyPart inp s 0)).cutLowerBounds =
      s.cutLowerBounds := (congrArg SolverState.cutLowerBounds hf).trans b2
  have d3 : (accumulateThreadResults inp (classifyPart inp s 0)).cutUpperWeight =
      s.cutUpperWeight := (congrArg SolverState.cutUpperWeight hf).trans b3
  have d4 : (accumulateThreadResults inp (classifyPart inp s 0)).cutLowerWeight =
      s.cutLowerWeight := (congrArg SolverState.cutLowerWeight hf).trans b4
  obtain ⟨w1, w2⟩ := accumulateThreadResults_one inp hcp hpv (classifyPart inp s 0)
    (by rw [c3]; exact hd)
  obtain ⟨w3, w4⟩ := accumulateThreadResults_one_closest inp hcp hpv (classifyPart inp s 0)
    (by rw [c3]; exact hd)
  have r0 := reduceAllRanks_one_at inp hcp hpv it hlow hup
    (accumulateThreadResults inp (classifyPart inp s 0)) 0 (by decide)
  have r1 := reduceAllRanks_one_at inp hcp hpv it hlow hup
    (accumulateThreadResults inp (classifyPart inp s 0)) 1 (by decide)
  have r3 := reduceAllRanks_one_at inp hcp hpv it hlow hup
    (accumulateThreadResults inp (classifyPart inp s 0)) 3 (by decide)
  have r4 := reduceAllRanks_one_at inp hcp hpv it hlow hup
    (accumulateThreadResults inp (classifyPart inp s 0)) 4 (by decide)
  refine ⟨a3, a4, a5, ?_, a8, ?_, ?_, ?_, ?_, ?_⟩
  · show (if (accumulateThreadResults inp (classifyPart inp s 0)).swapped = true
      then (accumulateThreadResults inp (classifyPart inp s 0)).cutCoordinatesWork
      else (accumulateThreadResults inp (classifyPart inp s 0)).cutCoordinates) = _
    rw [a6, a7, a8]
    rfl
  · show (⟨(accumulateThreadResults inp (classifyPart inp s 0)).cutUpperBounds 0,
      (accumulateThreadResults inp (classifyPart inp s 0)).cutLowerBounds 0,
      (accumulateThreadResults inp (classifyPart inp s 0)).cutUpperWeight 0,
      (accumulateThreadResults inp (classifyPart inp s 0)).cutLowerWeight 0⟩ : Bracket) = _
    rw [d1, d2, d3, d4]
  · rw [r0, w1]
    exact c1
  · rw [r1, w2]
    exact c2
  · rw [r3, w3]
    exact k1
  · rw [r4, w4]
    exact k2

end MedianSolver3
section MedianSolver4

variable (inp : SolverInput) (δ γ : ℚ)

/-- One iteration of the solver on a window of one part with one cut of target ratio 1/2
that is Active, on one process, for well-separated points and a bracket that satisfies the
invariant: the cut stays Active and the invariant holds again, or the loop is over with the
cut at a weighted median, or tie splitting is off, the loop is over and the lower bound of
the cut is a weighted median. -/
theorem solverIteration_median
    (H : WellSeparated inp.eps inp.imbalanceTolerance inp.maxScalar (inp.globalMinMaxTotal 0)
      (inp.globalMinMaxTotal 1) δ γ (inp.globalMinMaxTotal 2) inp.pqJagged_coordinates
      inp.pqJagged_uniformWeights inp.pqJagged_weights inp.firstPartIds)
    (hms : 0 ≤ inp.maxScalar) (hcp : inp.concurrentPartCount = 1)
    (hpv : inp.pVector (inp.currentPartBeginIndex + 0) = 2)
    (hr : inp.targetPartWeightRatios 0 = 1 / 2) (it : Nat)
    (hlow : inp.lowerRanks it = []) (hup : inp.upperRanks it = []) (s : SolverState)
    (hcnt : s.myNonDoneCounts 0 = 1) (hall : s.allDone = 1) (hd : s.isDone 0 = false)
    (hI : MedianBracket inp.eps (inp.globalMinMaxTotal 0) (inp.globalMinMaxTotal 1) γ
      (inp.globalMinMaxTotal 2) inp.allowNonRectelinearPart inp.pqJagged_coordinates
      inp.pqJagged_uniformWeights inp.pqJagged_weights inp.firstPartIds
      ⟨s.cutUpperBounds 0, s.cutLowerBounds 0, s.cutUpperWeight 0, s.cutLowerWeight 0⟩
      (s.cutCoordinates_tmp 0)) :
    ((solverIteration inp it s).isDone 0 = false ∧
      (solverIteration inp it s).myNonDoneCounts 0 = 1 ∧
      (solverIteration inp it s).allDone = 1 ∧
      MedianBracket inp.eps (inp.globalMinMaxTotal 0) (inp.globalMinMaxTotal 1) γ
        (inp.globalMinMaxTotal 2) inp.allowNonRectelinearPart inp.pqJagged_coordinates
        inp.pqJagged_uniformWeights inp.pqJagged_weights inp.firstPartIds
        ⟨(solverIteration inp it s).cutUpperBounds 0,
          (solverIteration inp it s).cutLowerBounds 0,
          (solverIteration inp it s).cutUpperWeight 0,
          (solverIteration inp it s).cutLowerWeight 0⟩
        ((solverIteration inp it s).cutCoordinates_tmp 0)) ∨
    ((solverIteration inp it s).allDone = 0 ∧
      (solverIteration inp it s).cutCoordinates_tmp 0 = s.cutCoordinates_tmp 0 ∧
      (IsWeightedMedian inp.eps inp.pqJagged_coordinates inp.pqJagged_uniformWeights
          inp.pqJagged_weights inp.firstPartIds (s.cutCoordinates_tmp 0) ∨
        (inp.allowNonRectelinearPart = false ∧
          IsWeightedMedian inp.eps inp.pqJagged_coordinates inp.pqJagged_uniformWeights
            inp.pqJagged_weights inp.firstPartIds
            ((solverIteration inp it s).cutLowerBounds 0)))) := by
  obtain ⟨p1, p2, p3, p4, p5, p6, p7, p8, p9, p10⟩ := preSolve_one inp H.eps_pos hms hcp hpv
    it hlow hup s hcnt hd
  have hit : solverIteration inp it s =
      { solvePart inp it
          (reduceAllRanks inp it (accumulateThreadResults inp (classifyPart inp s 0))) 0 with
        swapped := !(solvePart inp it
          (reduceAllRanks inp it
            (accumulateThreadResults inp (classifyPart inp s 0))) 0).swapped } := by
    unfold solverIteration
    dsimp only
    rw [hcp]
    rfl
  rw [hit]
  generalize reduceAllRanks inp it (accumulateThreadResults inp (classifyPart inp s 0)) = s3
    at p1 p2 p3 p4 p5 p6 p7 p8 p9 p10 ⊢
  obtain ⟨e1, e2, e3, e4, e5, e6⟩ := solvePart_one_eq inp hcp hpv it s3
    (by rw [p2, hcnt]; decide)
  have key := getNewCoordinates_median_step inp.eps inp.imbalanceTolerance inp.maxScalar
    (inp.globalMinMaxTotal 0) (inp.globalMinMaxTotal 1) δ γ (inp.globalMinMaxTotal 2)
    inp.pqJagged_coordinates inp.pqJagged_uniformWeights inp.pqJagged_weights
    inp.firstPartIds inp.allowNonRectelinearPart
    s3.global_totalPartWeights_leftClosest_rightCloset
    s3.local_totalPartWeights_leftClosest_rightCloset inp.targetPartWeightRatios
    s3.cutCoordinates_tmp H ((inp.lowerRanks it).map (fun other => other)) s3.firstCutState
    hr (by
      show s3.isDone 0 = false
      rw [p1]
      exact hd)
    (by rw [p4]; exact p7) (by rw [p4]; exact p8)
    (by rw [p4, p6]; exact hI)
    (by rw [p4]; exact p9) (by rw [p4]; exact p10)
  generalize getNewCoordinates inp.eps 1 (inp.globalMinMaxTotal 2) inp.imbalanceTolerance
    inp.maxScalar s3.global_totalPartWeights_leftClosest_rightCloset
    s3.local_totalPartWeights_leftClosest_rightCloset inp.targetPartWeightRatios
    s3.cutCoordinates_tmp inp.allowNonRectelinearPart
    ((inp.lowerRanks it).map (fun other => other)) s3.firstCutState = r
    at e1 e2 e3 e4 e5 key
  generalize solvePart inp it s3 0 = s4 at e1 e2 e3 e4 e5 e6 ⊢
  have hcn : s3.firstCutState.myNoneDoneCount = 1 := by
    show s3.myNonDoneCounts 0 = 1
    rw [p2]
    exact hcnt
  have hct : (if (!s4.swapped) = true then s4.cutCoordinatesWork else s4.cutCoordinates) 0 =
      r.newCutCoordinates 0 := by
    rw [← e3, e6]
    cases s3.swapped <;> rfl
  have hbr : (⟨s4.cutUpperBounds 0, s4.cutLowerBounds 0, s4.cutUpperWeight 0,
      s4.cutLowerWeight 0⟩ : Bracket) = r.bracket 0 := e2
  rcases key with ⟨k1, k2, k3⟩ | ⟨k1, k2, k3, k4⟩
  · left
    refine ⟨?_, ?_, ?_, ?_⟩
    · show s4.isDone 0 = false
      rw [e1]
      exact k1
    · show s4.myNonDoneCounts 0 = 1
      rw [e4, k2]
      exact hcn
    · show s4.allDone = 1
      rw [e5, k2, hcn, p3, hall, p2, hcnt]
      rfl
    · show MedianBracket _ _ _ _ _ _ _ _ _ _
        ⟨s4.cutUpperBounds 0, s4.cutLowerBounds 0, s4.cutUpperWeight 0, s4.cutLowerWeight 0⟩
        ((if (!s4.swapped) = true then s4.cutCoordinatesWork else s4.cutCoordinates) 0)
      rw [hct, hbr]
      exact k3
  · right
    refine ⟨?_, ?_, ?_⟩
    · show s4.allDone = 0
      rw [e5, k2, hcn, p3, hall, p2, hcnt]
      rfl
    · show (if (!s4.swapped) = true then s4.cutCoordinatesWork else s4.cutCoordinates) 0 = _
      rw [hct, k3, p4]
    · rw [p4] at k4
      rcases k4 with h | h
      · exact Or.inl h
      · refine Or.inr ⟨h.1, ?_⟩
        show IsWeightedMedian _ _ _ _ _ (s4.cutLowerBounds 0)
        have : s4.cutLowerBounds 0 = (r.bracket 0).lowerBound := by
          rw [← hbr]
        rw [this]
        exact h.2

end MedianSolver4
section MedianSolver5

variable (inp : SolverInput) (δ γ : ℚ)

/-- The loop of the solver on a window of one part with one cut of target ratio 1/2 that is
Active, on one process, for well-separated points and a bracket that satisfies the
invariant: when the loop ends, the cut is at a weighted median, or tie splitting is off and
the lower bound of the cut is a weighted median. -/
theorem solverLoop_median
    (H : WellSeparated inp.eps inp.imbalanceTolerance inp.maxScalar (inp.globalMinMaxTotal 0)
      (inp.globalMinMaxTotal 1) δ γ (inp.globalMinMaxTotal 2) inp.pqJagged_coordinates
      inp.pqJagged_uniformWeights inp.pqJagged_weights inp.firstPartIds)
    (hms : 0 ≤ inp.maxScalar) (hcp : inp.concurrentPartCount = 1)
    (hpv : inp.pVector (inp.currentPartBeginIndex + 0) = 2)
    (hr : inp.targetPartWeightRatios 0 = 1 / 2)
    (hlow : ∀ it, inp.lowerRanks it = []) (hup : ∀ it, inp.upperRanks it = [])
    (fuel it : Nat) (s t : SolverState)
    (hcnt : s.myNonDoneCounts 0 = 1) (hall : s.allDone = 1) (hd : s.isDone 0 = false)
    (hI : MedianBracket inp.eps (inp.globalMinMaxTotal 0) (inp.globalMinMaxTotal 1) γ
      (inp.globalMinMaxTotal 2) inp.allowNonRectelinearPart inp.pqJagged_coordinates
      inp.pqJagged_uniformWeights inp.pqJagged_weights inp.firstPartIds
      ⟨s.cutUpperBounds 0, s.cutLowerBounds 0, s.cutUpperWeight 0, s.cutLowerWeight 0⟩
      (s.cutCoordinates_tmp 0))
    (hrun : solverLoop inp fuel it s = some t) :
    IsWeightedMedian inp.eps inp.pqJagged_coordinates inp.pqJagged_uniformWeights
        inp.pqJagged_weights inp.firstPartIds (t.cutCoordinates_tmp 0) ∨
      (inp.allowNonRectelinearPart = false ∧
        IsWeightedMedian inp.eps inp.pqJagged_coordinates inp.pqJagged_uniformWeights
          inp.pqJagged_weights inp.firstPartIds (t.cutLowerBounds 0)) := by
  induction fuel generalizing it s with
  | zero =>
    unfold solverLoop at hrun
    rw [if_pos (by rw [hall]; decide)] at hrun
    exact absurd hrun (by simp)
  | succ fuel ih =>
    unfold solverLoop at hrun
    rw [if_pos (by rw [hall]; decide)] at hrun
    rcases solverIteration_median inp δ γ H hms hcp hpv hr (it + 1) (hlow _) (hup _) s hcnt
      hall hd hI with h | h
    · exact ih (it + 1) (solverIteration inp (it + 1) s) h.2.1 h.2.2.1 h.1 h.2.2.2 hrun
    · obtain ⟨h1, h2, h3⟩ := h
      rw [solverLoop_done inp fuel (it + 1) _ h1] at hrun
      injection hrun with hrun
      subst hrun
      rw [h2]
      exact h3

/-- On entry to the loop of the solver, the bracket of the only cut of a window of one part
is the minimum and the maximum coordinate of the part with the bound weights 0 and the
total weight, and the cut is the caller's. -/
theorem solverInit_one (hcp : inp.concurrentPartCount = 1)
    (hpv : inp.pVector (inp.currentPartBeginIndex + 0) = 2) (s : SolverState) :
    (solverInit inp s).cutUpperBounds 0 = inp.globalMinMaxTotal 1 ∧
    (solverInit inp s).cutLowerBounds 0 = inp.globalMinMaxTotal 0 ∧
    (solverInit inp s).cutUpperWeight 0 = inp.globalMinMaxTotal 2 ∧
    (solverInit inp s).cutLowerWeight 0 = 0 ∧
    (solverInit inp s).cutCoordinates_tmp 0 = s.cutCoordinates 0 := by
  unfold solverInit SolverState.cutCoordinates_tmp
  rw [hcp]
  have hr1 : List.range 1 = [0] := rfl
  rw [hr1]
  simp only [List.foldl_cons, List.foldl_nil]
  unfold initBoundsPart
  dsimp only
  rw [hpv, windowShifts_zero, hcp]
  have hr2 : List.range' (0, 0, 0).1 (2 - 1) = [0] := rfl
  rw [hr2]
  simp

/-- The bracket on entry to the loop satisfies the invariant of the weighted-median
search. -/
theorem medianBracket_init (eps tol maxScalar minC maxC total : ℚ) (allow : Bool)
    (coords : Nat → ℚ) (uniform : Bool) (weights : Nat → ℚ) (ids : List Nat)
    (H : WellSeparated eps tol maxScalar minC maxC δ γ total coords uniform weights ids)
    (c : ℚ) (h1 : minC ≤ c) (h2 : c ≤ maxC) :
    MedianBracket eps minC maxC γ total allow coords uniform weights ids
      ⟨maxC, minC, total, 0⟩ c := by
  have hT : 0 < total := by
    rw [H.total_eq]
    exact totalWeight_pos uniform weights ids H.nonempty H.weight_pos
  have h0 : weightBelow eps coords uniform weights ids minC = 0 := by
    rw [weightBelow_eq_where]
    apply weightWhere_none
    intro i hi
    have := (H.in_range i hi).1
    simp only [decide_eq_false_iff_not, not_le]
    linarith [H.eps_pos]
  have hγ : γ ≤ total / 2 := by
    rcases H.gap minC with h | h
    · rw [h0] at h
      linarith
    · rw [h0, abs_of_neg (by linarith)] at h
      linarith
  refine ⟨le_refl _, h1, h2, le_refl _, le_refl _, ?_, ?_, le_refl _, ?_, Or.inl ?_⟩
  · show (0 : ℚ) + γ ≤ total / 2
    linarith
  · show total / 2 + γ ≤ total
    linarith
  · show total / 2 < weightWhere uniform weights ids (fun i => decide (coords i ≤ maxC))
    rw [weightWhere_all uniform weights ids _ (fun i hi => by
      simpa using (H.in_range i hi).2), ← H.total_eq]
    linarith
  · show weightWhere uniform weights ids (fun i => decide (coords i < minC)) < total / 2
    rw [weightWhere_none uniform weights ids _ (fun i hi => by
      have := (H.in_range i hi).1
      simp only [decide_eq_false_iff_not, not_lt]
      exact this)]
    linarith

end MedianSolver5
/-! ## Claims on the median -/

/-- With uniform weights the weight below a threshold is a number of points. -/
theorem weightBelow_uniform (eps : ℚ) (coords weights : Nat → ℚ) (ids : List Nat) (c : ℚ) :
    ∃ n : Nat, weightBelow eps coords true weights ids c = (n : ℚ) := by
  refine ⟨(ids.filter (fun i => decide (coords i ≤ c - eps))).length, ?_⟩
  unfold weightBelow
  generalize ids.filter (fun i => decide (coords i ≤ c - eps)) = l
  induction l with
  | nil => simp
  | cons a l ih =>
    rw [List.map_cons, List.sum_cons, ih, List.length_cons]
    simp [pointWeight]
    ring

/-- C7, counterexample.  On one process, with target ratio 1/2 and tolerance 0:
(1) for the points of weights 1, 1, 3 at the coordinates 0, 3/2 epsilon and 3 epsilon, the
solver returns after one iteration with the cut at 3/2 epsilon, the interpolated pivot being
less than epsilon away; the weight up to the cut is 2, below `W / 2 = 5 / 2`, and the cut is
not a weighted median, even with coordinates compared up to epsilon, with tie splitting or
without; (2) for three points of unit weight at 0, 1 minus half an epsilon and 2, without
tie splitting, the first cut 1 has the second point on it and is a weighted median, the
solver moves on and freezes the cut at 5/4 when the bounds cross, with the weight 2 on its
left, above `W / 2 = 3 / 2`; (3) for the points 0 and 1 of weights 1 and 1 plus half an
epsilon, the tolerance test accepts the cut 1/2 with the weight 1 up to it, below `W / 2`. -/
theorem pqJagged_1D_Partition_misses_median :
    ((firstWindowSolverInput closePointsLevel).imbalanceTolerance = 0 ∧
    (firstWindowSolverInput closePointsLevel).targetPartWeightRatios 0 = 1 / 2 ∧
    (pqJagged_1D_Partition (firstWindowSolverInput closePointsLevel) 1
      (firstWindowSolverEntry closePointsLevel)).map (fun s => s.cutCoordinates 0) =
      some (3 * epsDouble / 2) ∧
    totalWeight false (arrQ [1, 1, 3]) [0, 1, 2] = 5 ∧
    weightUpTo epsDouble (arrQ [0, 3 * epsDouble / 2, 3 * epsDouble]) false (arrQ [1, 1, 3])
      [0, 1, 2] (3 * epsDouble / 2) = 2 ∧
    ¬ IsWeightedMedian epsDouble (arrQ [0, 3 * epsDouble / 2, 3 * epsDouble]) false
      (arrQ [1, 1, 3]) [0, 1, 2] (3 * epsDouble / 2) ∧
    (pqJagged_1D_Partition (firstWindowSolverInput closePointsTieLevel) 1
      (firstWindowSolverEntry closePointsTieLevel)).map (fun s => s.cutCoordinates 0) =
      some (3 * epsDouble / 2)) ∧
    ((firstWindowSolverInput nearPointLevel).targetPartWeightRatios 0 = 1 / 2 ∧
    (firstWindowSolverInput nearPointLevel).allowNonRectelinearPart = false ∧
    (firstWindowSolverEntry nearPointLevel).cutCoordinates 0 = 1 ∧
    IsWeightedMedian epsDouble (arrQ [0, 1 - epsDouble / 2, 2]) true (arrQ []) [0, 1, 2] 1 ∧
    (pqJagged_1D_Partition (firstWindowSolverInput nearPointLevel) 8
      (firstWindowSolverEntry nearPointLevel)).map
        (fun s => (s.cutCoordinates 0, s.cutLowerBounds 0, s.cutUpperBounds 0)) =
      some (5 / 4, 1, 1 - epsDouble / 2) ∧
    totalWeight true (arrQ []) [0, 1, 2] = 3 ∧
    weightBelow epsDouble (arrQ [0, 1 - epsDouble / 2, 2]) true (arrQ []) [0, 1, 2] (5 / 4) =
      2 ∧
    ¬ IsWeightedMedian epsDouble (arrQ [0, 1 - epsDouble / 2, 2]) true (arrQ []) [0, 1, 2]
      (5 / 4)) ∧
    ((firstWindowSolverInput nearWeightsLevel).targetPartWeightRatios 0 = 1 / 2 ∧
    (firstWindowSolverInput nearWeightsLevel).allowNonRectelinearPart = true ∧
    (pqJagged_1D_Partition (firstWindowSolverInput nearWeightsLevel) 8
      (firstWindowSolverEntry nearWeightsLevel)).map (fun s => s.cutCoordinates 0) =
      some (1 / 2) ∧
    weightUpTo epsDouble (arrQ [0, 1]) false (arrQ [1, 1 + epsDouble / 2]) [0, 1] (1 / 2) =
      1 ∧
    ¬ IsWeightedMedian epsDouble (arrQ [0, 1]) false (arrQ [1, 1 + epsDouble / 2]) [0, 1]
      (1 / 2)) := by
  refine ⟨⟨rfl, ?_, ?_, ?_, ?_, ?_, ?_⟩, ⟨?_, ?_, ?_, ?_, ?_, ?_, ?_, ?_⟩,
    ⟨?_, ?_, ?_, ?_, ?_⟩⟩ <;> decide!

/-- C7 (amended): on a single process with a single thread, for a window of one non-empty
part with positive weights split into two sub-parts with target ratio 1/2, the total weight
passed being the weight `W` of the part, the minimum and maximum passed bounding the
coordinates of the part and the cut passed, and being less than `maxScalar` apart; when any
two coordinates of the part are equal or at least `δ` apart, the weight below any threshold
is `W / 2` or at least `γ > 0` away from it, `eps * W <= (δ - eps) * γ`, and the tolerance
is non-negative with `(tolerance + eps) * W / 2 <= γ`: if `pqJagged_1D_Partition` returns,
the cut `c` it leaves is a weighted median of the part as computed by brute force,
`weight(coord < c) <= W / 2 <= weight(coord <= c)` with coordinates compared up to epsilon;
or tie splitting is off and the lower bound it leaves for the cut is such a weighted
median.  With tie splitting the cut itself is always a weighted median. -/
theorem pqJagged_1D_Partition_weighted_median (inp : SolverInput) (fuel : Nat)
    (s s' : SolverState) (δ γ : ℚ)
    (heps : 0 < inp.eps)
    (hcp : inp.concurrentPartCount = 1)
    (hpv : inp.pVector inp.currentPartBeginIndex = 2)
    (hlow : ∀ it, inp.lowerRanks it = []) (hup : ∀ it, inp.upperRanks it = [])
    (hr : inp.targetPartWeightRatios 0 = 1 / 2)
    (hne : inp.firstPartIds ≠ [])
    (hw : ∀ i ∈ inp.firstPartIds,
      0 < pointWeight inp.pqJagged_uniformWeights inp.pqJagged_weights i)
    (hW : inp.globalMinMaxTotal 2 =
      totalWeight inp.pqJagged_uniformWeights inp.pqJagged_weights inp.firstPartIds)
    (hrange : ∀ i ∈ inp.firstPartIds,
      inp.globalMinMaxTotal 0 ≤ inp.pqJagged_coordinates i ∧
      inp.pqJagged_coordinates i ≤ inp.globalMinMaxTotal 1)
    (hms : inp.globalMinMaxTotal 1 - inp.globalMinMaxTotal 0 < inp.maxScalar)
    (hc0 : inp.globalMinMaxTotal 0 ≤ s.cutCoordinates 0 ∧
      s.cutCoordinates 0 ≤ inp.globalMinMaxTotal 1)
    (hsep : ∀ i ∈ inp.firstPartIds, ∀ j ∈ inp.firstPartIds,
      inp.pqJagged_coordinates i = inp.pqJagged_coordinates j ∨
      δ ≤ |inp.pqJagged_coordinates i - inp.pqJagged_coordinates j|)
    (hγ : 0 < γ)
    (hgap : ∀ c : ℚ,
      weightBelow inp.eps inp.pqJagged_coordinates inp.pqJagged_uniformWeights
          inp.pqJagged_weights inp.firstPartIds c =
        totalWeight inp.pqJagged_uniformWeights inp.pqJagged_weights inp.firstPartIds / 2 ∨
      γ ≤ |weightBelow inp.eps inp.pqJagged_coordinates inp.pqJagged_uniformWeights
          inp.pqJagged_weights inp.firstPartIds c -
        totalWeight inp.pqJagged_uniformWeights inp.pqJagged_weights inp.firstPartIds / 2|)
    (hsmall : inp.eps *
        totalWeight inp.pqJagged_uniformWeights inp.pqJagged_weights inp.firstPartIds ≤
      (δ - inp.eps) * γ)
    (htol : 0 ≤ inp.imbalanceTolerance)
    (htolγ : (inp.imbalanceTolerance + inp.eps) *
        (totalWeight inp.pqJagged_uniformWeights inp.pqJagged_weights inp.firstPartIds / 2) ≤
      γ)
    (hcnt : s.myNonDoneCounts 0 = 1) (hall : s.allDone = 1)
    (hrun : pqJagged_1D_Partition inp fuel s = some s') :
    IsWeightedMedian inp.eps inp.pqJagged_coordinates inp.pqJagged_uniformWeights
        inp.pqJagged_weights inp.firstPartIds (s'.cutCoordinates 0) ∨
      (inp.allowNonRectelinearPart = false ∧
        IsWeightedMedian inp.eps inp.pqJagged_coordinates inp.pqJagged_uniformWeights
          inp.pqJagged_weights inp.firstPartIds (s'.cutLowerBounds 0)) := by
  have H : WellSeparated inp.eps inp.imbalanceTolerance inp.maxScalar
      (inp.globalMinMaxTotal 0) (inp.globalMinMaxTotal 1) δ γ (inp.globalMinMaxTotal 2)
      inp.pqJagged_coordinates inp.pqJagged_uniformWeights inp.pqJagged_weights
      inp.firstPartIds :=
    ⟨heps, htol, hγ, hW, hw, hne, hrange, hms, hsep, by rw [hW]; exact hgap,
      by rw [hW]; exact hsmall, by rw [hW]; exact htolγ⟩
  have hms0 : 0 ≤ inp.maxScalar := by
    obtain ⟨i, hi⟩ := List.exists_mem_of_ne_nil _ hne
    have := hrange i hi
    linarith
  unfold pqJagged_1D_Partition at hrun
  obtain ⟨_, k2, k3⟩ := solverInit_keep inp s
  obtain ⟨i1, i2, i3, i4, i5⟩ := solverInit_one inp hcp hpv s
  cases hl : solverLoop inp fuel 0 (solverInit inp s) with
  | none => rw [hl] at hrun; simp at hrun
  | some t =>
    rw [hl] at hrun
    simp only [Option.map_some', Option.some.injEq] at hrun
    have key := solverLoop_median inp δ γ H hms0 hcp hpv hr hlow hup fuel 0
      (solverInit inp s) t (by rw [k2]; exact hcnt) (by rw [k3]; exact hall)
      (solverInit_isDone inp hcp hpv s)
      (by
        rw [i1, i2, i3, i4, i5]
        exact medianBracket_init δ γ inp.eps inp.imbalanceTolerance inp.maxScalar
          (inp.globalMinMaxTotal 0) (inp.globalMinMaxTotal 1) (inp.globalMinMaxTotal 2)
          inp.allowNonRectelinearPart inp.pqJagged_coordinates inp.pqJagged_uniformWeights
          inp.pqJagged_weights inp.firstPartIds H (s.cutCoordinates 0) hc0.1 hc0.2) hl
    have hc : s'.cutCoordinates 0 = t.cutCoordinates_tmp 0 := by
      rw [← hrun]
      unfold copyBack SolverState.cutCoordinates_tmp
      by_cases hs : t.swapped = true
      · rw [if_pos hs, if_pos hs]
        dsimp only
        rw [windowCuts_one inp hcp hpv, if_pos (by decide)]
      · rw [if_neg hs, if_neg hs]
    have hb : s'.cutLowerBounds = t.cutLowerBounds := by
      rw [← hrun]
      unfold copyBack
      split_ifs <;> rfl
    rw [hc, hb]
    exact key

/-- C7 (amended) for five points of unit weight at 0, 1, 2, 3 and 10 with tie splitting
(`δ = 1`, `γ = 1/2`): the solver moves the cut from 5 to 15/8, to 9/4 and to 2, where the
third point is on the cut, and returns the cut 2, a weighted median; and for three points
of unit weight at 0, 1 and 2 without tie splitting: the solver moves the cut from 1 to 5/4
and back to 1, where the guard freezes it, and returns the cut 1. -/
theorem pqJagged_1D_Partition_weighted_median_witness :
    (∃ s', pqJagged_1D_Partition fivePointsInput 8 fivePointsEntry = some s' ∧
      s'.cutCoordinates 0 = 2 ∧
      (IsWeightedMedian fivePointsInput.eps fivePointsInput.pqJagged_coordinates
          fivePointsInput.pqJagged_uniformWeights fivePointsInput.pqJagged_weights
          fivePointsInput.firstPartIds (s'.cutCoordinates 0) ∨
        (fivePointsInput.allowNonRectelinearPart = false ∧
          IsWeightedMedian fivePointsInput.eps fivePointsInput.pqJagged_coordinates
            fivePointsInput.pqJagged_uniformWeights fivePointsInput.pqJagged_weights
            fivePointsInput.firstPartIds (s'.cutLowerBounds 0)))) ∧
    (∃ s', pqJagged_1D_Partition threePointsInput 8 threePointsEntry = some s' ∧
      s'.cutCoordinates 0 = 1 ∧
      (IsWeightedMedian threePointsInput.eps threePointsInput.pqJagged_coordinates
          threePointsInput.pqJagged_uniformWeights threePointsInput.pqJagged_weights
          threePointsInput.firstPartIds (s'.cutCoordinates 0) ∨
        (threePointsInput.allowNonRectelinearPart = false ∧
          IsWeightedMedian threePointsInput.eps threePointsInput.pqJagged_coordinates
            threePointsInput.pqJagged_uniformWeights threePointsInput.pqJagged_weights
            threePointsInput.firstPartIds (s'.cutLowerBounds 0)))) := by
  constructor
  · have hsome : (pqJagged_1D_Partition fivePointsInput 8 fivePointsEntry).isSome = true ∧
        (pqJagged_1D_Partition fivePointsInput 8 fivePointsEntry).map
          (fun s => s.cutCoordinates 0) = some 2 := by
      constructor <;> decide!
    obtain ⟨s', hst⟩ := Option.isSome_iff_exists.1 hsome.1
    have hc := hsome.2
    rw [hst] at hc
    simp only [Option.map_some', Option.some.injEq] at hc
    have hu : fivePointsInput.pqJagged_uniformWeights = true := by decide!
    have hT : totalWeight fivePointsInput.pqJagged_uniformWeights
        fivePointsInput.pqJagged_weights fivePointsInput.firstPartIds = 5 := by decide!
    exact ⟨s', hst, hc,
      pqJagged_1D_Partition_weighted_median fivePointsInput 8 fivePointsEntry s' 1 (1 / 2)
        (by decide!) (by decide!) (by decide!) (fun _ => rfl) (fun _ => rfl) (by decide!)
        (by decide!) (by decide!) (by decide!) (by decide!) (by decide!) (by decide!)
        (by decide!) (by decide!)
        (fun c => by
          rw [hT, hu]
          obtain ⟨n, hn⟩ := weightBelow_uniform fivePointsInput.eps
            fivePointsInput.pqJagged_coordinates fivePointsInput.pqJagged_weights
            fivePointsInput.firstPartIds c
          rw [hn]
          right
          rcases Nat.lt_or_ge n 3 with h | h
          · have h' : (n : ℚ) ≤ 2 := by exact_mod_cast Nat.lt_succ_iff.1 h
            rw [abs_of_neg (by linarith)]
            linarith
          · have h' : (3 : ℚ) ≤ n := by exact_mod_cast h
            rw [abs_of_pos (by linarith)]
            linarith)
        (by decide!) (by decide!) (by decide!) (by decide!) (by decide!) hst⟩
  · have hsome : (pqJagged_1D_Partition threePointsInput 8 threePointsEntry).isSome = true ∧
        (pqJagged_1D_Partition threePointsInput 8 threePointsEntry).map
          (fun s => s.cutCoordinates 0) = some 1 := by
      constructor <;> decide!
    obtain ⟨s', hst⟩ := Option.isSome_iff_exists.1 hsome.1
    have hc := hsome.2
    rw [hst] at hc
    simp only [Option.map_some', Option.some.injEq] at hc
    have hu : threePointsInput.pqJagged_uniformWeights = true := by decide!
    have hT : totalWeight threePointsInput.pqJagged_uniformWeights
        threePointsInput.pqJagged_weights threePointsInput.firstPartIds = 3 := by decide!
    exact ⟨s', hst, hc,
      pqJagged_1D_Partition_weighted_median threePointsInput 8 threePointsEntry s' 1 (1 / 2)
        (by decide!) (by decide!) (by decide!) (fun _ => rfl) (fun _ => rfl) (by decide!)
        (by decide!) (by decide!) (by decide!) (by decide!) (by decide!) (by decide!)
        (by decide!) (by decide!)
        (fun c => by
          rw [hT, hu]
          obtain ⟨n, hn⟩ := weightBelow_uniform threePointsInput.eps
            threePointsInput.pqJagged_coordinates threePointsInput.pqJagged_weights
            threePointsInput.firstPartIds c
          rw [hn]
          right
          rcases Nat.lt_or_ge n 2 with h | h
          · have h' : (n : ℚ) ≤ 1 := by exact_mod_cast Nat.lt_succ_iff.1 h
            rw [abs_of_neg (by linarith)]
            linarith
          · have h' : (2 : ℚ) ≤ n := by exact_mod_cast h
            rw [abs_of_pos (by linarith)]
            linarith)
        (by decide!) (by decide!) (by decide!) (by decide!) (by decide!) hst⟩

end PQJagged
